import Mathlib

/-! # Huffman archiver: bit stream, code construction, archive encoder and decoder

A shallow embedding of `bitstream.c`, `huffman.c`, `encoder.c`, `decoder.c` and of
the `switch` of `main.c`.

Conventions of the embedding.
* A file is a `List Nat` of bytes (every element below 256).
* Machine integers are `Nat`; a reduction `% 2 ^ w` is written wherever the C
  type can truncate (`unsigned int` parameters, `uint16_t` counters, ...).
* A shift `value >> i` of a 32-bit `unsigned int` by `i ≥ 32`, or of a `uint64_t` by
  `i ≥ 64`, has no defined value in C; the embedding takes the mathematical value of
  the shift on the truncated operand (zero).  Results that depend on this choice say
  so.
* `malloc`, `fwrite`, `fseek` and `fopen` of an existing input never fail, except in
  `EncodeFilesFs`, the embedding of `EncodeFiles` over an explicit file system, where
  the environment decides the result of every call the source tests.
-/

namespace Huff

/-! ## bitstream.c -/

/-- The `BitWriter` struct; `file` holds the bytes already passed to `fwrite`. -/
structure BitWriter where
  file : List Nat
  buffer : Nat
  bitPos : Nat
deriving DecidableEq, Repr

/-- The `BitReader` struct; `file` holds the bytes not yet fetched by `fread`. -/
structure BitReader where
  file : List Nat
  buffer : Nat
  bitPos : Nat
deriving DecidableEq, Repr

/-- `BitWriterOpen`: empty file, cleared accumulator. -/
def BitWriterOpen : BitWriter := ⟨[], 0, 0⟩

/-- `BitWriterWriteBit`. -/
def BitWriterWriteBit (writer : BitWriter) (bit : Nat) : BitWriter :=
  let buffer := if bit ≠ 0 then (writer.buffer ||| (1 <<< (7 - writer.bitPos))) % 256
    else writer.buffer
  let bitPos := writer.bitPos + 1
  if bitPos = 8 then ⟨writer.file ++ [buffer], 0, 0⟩ else ⟨writer.file, buffer, bitPos⟩

/-- The loop of `BitWriterWriteBits`: `n` is `i + 1` for the loop variable `i`. -/
def writeBitsLoop (value : Nat) : Nat → BitWriter → BitWriter
  | 0, writer => writer
  | i + 1, writer => writeBitsLoop value i (BitWriterWriteBit writer ((value >>> i) &&& 1))

/-- `BitWriterWriteBits`; the parameter `value` is an `unsigned int`. -/
def BitWriterWriteBits (writer : BitWriter) (value count : Nat) : BitWriter :=
  writeBitsLoop (value % 2 ^ 32) count writer

/-- `BitWriterFlush`. -/
def BitWriterFlush (writer : BitWriter) : BitWriter :=
  if writer.bitPos > 0 then ⟨writer.file ++ [writer.buffer], 0, 0⟩ else ⟨writer.file, 0, 0⟩

/-- `BitWriterClose`: flush, then the content of the closed file. -/
def BitWriterClose (writer : BitWriter) : List Nat :=
  (BitWriterFlush writer).file

/-- `BitReaderOpen`; the accumulator is not initialised by the C code and is
never read before the first fetch. -/
def BitReaderOpen (archive : List Nat) : BitReader := ⟨archive, 0, 8⟩

/-- `BitReaderReadBit`; `none` stands for the return value `-1` (end of file). -/
def BitReaderReadBit (reader : BitReader) : Option Nat × BitReader :=
  if reader.bitPos = 8 then
    match reader.file with
    | [] => (none, reader)
    | b :: rest => (some ((b >>> (7 - 0)) &&& 1), ⟨rest, b, 0 + 1⟩)
  else
    (some ((reader.buffer >>> (7 - reader.bitPos)) &&& 1),
      ⟨reader.file, reader.buffer, reader.bitPos + 1⟩)

/-- The loop of `BitReaderReadBits`; `result` is an `unsigned int`. -/
def readBitsLoop : Nat → Nat → BitReader → Nat × BitReader
  | 0, result, reader => (result, reader)
  | n + 1, result, reader =>
    match BitReaderReadBit reader with
    | (none, reader') => (result, reader')
    | (some bit, reader') => readBitsLoop n (((result <<< 1) ||| bit) % 2 ^ 32) reader'

/-- `BitReaderReadBits`. -/
def BitReaderReadBits (reader : BitReader) (count : Nat) : Nat × BitReader :=
  readBitsLoop count 0 reader

/-! ## huffman.c -/

/-- The `HuffCode` struct (`uint64_t code`, `uint32_t code_len`). -/
structure HuffCode where
  code : Nat
  code_len : Nat
deriving DecidableEq, Repr

/-- A dense code table (`calloc`ed array indexed by symbol). -/
abbrev CodeTable := Nat → HuffCode

/-- The table returned by `calloc`: all entries zero. -/
def emptyTable : CodeTable := fun _ => ⟨0, 0⟩

/-- The assignment `table[symbol] = hc`. -/
def setCode (table : CodeTable) (symbol : Nat) (hc : HuffCode) : CodeTable :=
  fun s => if s = symbol then hc else table s

/-- A `HuffNode` as the builder allocates it: a leaf (both children `NULL`) or
an internal node with two children (its `symbol` field is 0). -/
inductive HuffNode where
  | leaf (freq symbol : Nat)
  | node (freq : Nat) (left right : HuffNode)
deriving DecidableEq, Repr

/-- The field `freq`. -/
def HuffNode.freq : HuffNode → Nat
  | .leaf f _ => f
  | .node f _ _ => f

instance : Inhabited HuffNode := ⟨.leaf 0 0⟩

/-- The `MinHeap` struct: `data[0 .. size-1]` and the capacity. -/
structure MinHeap where
  data : List HuffNode
  capacity : Nat
deriving Repr

/-- The field `size`. -/
def MinHeap.size (heap : MinHeap) : Nat := heap.data.length

/-- `CreateMinHeap`. -/
def CreateMinHeap (capacity : Nat) : MinHeap := ⟨[], capacity⟩

/-- `SwapNodes` on two slots of the array. -/
def SwapNodes (data : List HuffNode) (i j : Nat) : List HuffNode :=
  (data.set i (data.getD j default)).set j (data.getD i default)

/-- `HeapifyDown` on the array; the recursion is bounded by `fuel`
(each call moves `i` to a child, so `size` calls suffice). -/
def heapifyDownLoop : Nat → List HuffNode → Nat → List HuffNode
  | 0, data, _ => data
  | fuel + 1, data, i =>
    let left := 2 * i + 1
    let right := 2 * i + 2
    let smallest := if left < data.length ∧ (data.getD left default).freq < (data.getD i default).freq
      then left else i
    let smallest := if right < data.length ∧
        (data.getD right default).freq < (data.getD smallest default).freq
      then right else smallest
    if smallest ≠ i then heapifyDownLoop fuel (SwapNodes data i smallest) smallest else data

/-- `HeapifyDown`. -/
def HeapifyDown (heap : MinHeap) (i : Nat) : MinHeap :=
  ⟨heapifyDownLoop heap.size heap.data i, heap.capacity⟩

/-- The loop of `HeapifyUp`, bounded by `fuel` (`i` strictly decreases). -/
def heapifyUpLoop : Nat → List HuffNode → Nat → List HuffNode
  | 0, data, _ => data
  | fuel + 1, data, i =>
    if i ≠ 0 ∧ (data.getD i default).freq < (data.getD ((i - 1) / 2) default).freq then
      heapifyUpLoop fuel (SwapNodes data i ((i - 1) / 2)) ((i - 1) / 2)
    else data

/-- `HeapifyUp`. -/
def HeapifyUp (heap : MinHeap) (i : Nat) : MinHeap :=
  ⟨heapifyUpLoop (i + 1) heap.data i, heap.capacity⟩

/-- `PushHeap`: a full heap silently drops the node. -/
def PushHeap (heap : MinHeap) (node : HuffNode) : MinHeap :=
  if heap.size = heap.capacity then heap
  else HeapifyUp ⟨heap.data ++ [node], heap.capacity⟩ heap.size

/-- `PopHeap`: `none` for the `NULL` returned on an empty heap. -/
def PopHeap (heap : MinHeap) : Option HuffNode × MinHeap :=
  match heap.data with
  | [] => (none, heap)
  | min :: _ =>
    let data := (heap.data.set 0 (heap.data.getD (heap.size - 1) default)).take (heap.size - 1)
    if heap.size - 1 > 0 then (some min, HeapifyDown ⟨data, heap.capacity⟩ 0)
    else (some min, ⟨data, heap.capacity⟩)

/-- `BuildCodes`; `code` is a `uint64_t`, so the shifts are reduced modulo `2 ^ 64`. -/
def BuildCodes : HuffNode → CodeTable → Nat → Nat → CodeTable
  | .leaf _ symbol, table, code, length =>
    if length > 64 then setCode table symbol ⟨0, 0⟩
    else if length = 0 then setCode table symbol ⟨0, 0⟩
    else setCode table symbol ⟨code, length⟩
  | .node _ left right, table, code, length =>
    BuildCodes right (BuildCodes left table ((code <<< 1) % 2 ^ 64) (length + 1))
      (((code <<< 1) % 2 ^ 64) ||| 1) (length + 1)

/-- `MAX_SYMBOLS_1B`. -/
def MAX_SYMBOLS_1B : Nat := 256

/-- `MAX_SYMBOLS_2B`. -/
def MAX_SYMBOLS_2B : Nat := 65536

/-- `PADDING_BYTE`. -/
def PADDING_BYTE : Nat := 0

/-- The statement `freq_table[symbol]++` on a `uint64_t` array. -/
def incFreq (freq_table : Nat → Nat) (symbol : Nat) : Nat → Nat :=
  fun s => if s = symbol then (freq_table s + 1) % 2 ^ 64 else freq_table s

/-- The frequency loop of `GenerateCodes` (`while (bytes_counted_from_file < file_size)`),
reading the stream `data` with `fgetc`; an exhausted stream is `EOF`. -/
def countLoop (file_size symbol_size : Nat) : List Nat → Nat → (Nat → Nat) → (Nat → Nat)
  | [], _, freq_table => freq_table
  | [c1], counted, freq_table =>
    if counted < file_size then
      if symbol_size = 1 then incFreq freq_table (c1 % 256)
      else incFreq freq_table ((((c1 <<< 8) % 2 ^ 16) ||| PADDING_BYTE) % 2 ^ 16)
    else freq_table
  | c1 :: c2 :: rest, counted, freq_table =>
    if counted < file_size then
      if symbol_size = 1 then
        countLoop file_size symbol_size (c2 :: rest) (counted + 1) (incFreq freq_table (c1 % 256))
      else if counted + 1 < file_size then
        countLoop file_size symbol_size rest (counted + 1 + 1)
          (incFreq freq_table ((((c1 <<< 8) % 2 ^ 16) ||| (c2 % 256)) % 2 ^ 16))
      else
        incFreq freq_table ((((c1 <<< 8) % 2 ^ 16) ||| PADDING_BYTE) % 2 ^ 16)
    else freq_table

/-- The frequency table `GenerateCodes` computes for the stream `data`. -/
def frequencies (data : List Nat) (file_size symbol_size : Nat) : Nat → Nat :=
  if file_size > 0 then countLoop file_size symbol_size data 0 (fun _ => 0) else fun _ => 0

/-- One round of the loop filling the heap: a leaf for symbol `i` if its count is not
zero; the second component is the counter `actual_symbol_count_in_heap`. -/
def fillHeapStep (freq_table : Nat → Nat) (acc : MinHeap × Nat) (i : Nat) : MinHeap × Nat :=
  if freq_table i ≠ 0 then (PushHeap acc.1 (.leaf (freq_table i) (i % 2 ^ 16)), acc.2 + 1)
  else acc

/-- The loop `for (i = 0; i < symbol_count; ++i)` filling the heap. -/
def fillHeap (freq_table : Nat → Nat) (symbol_count : Nat) : MinHeap × Nat :=
  (List.range symbol_count).foldl (fillHeapStep freq_table) (CreateMinHeap symbol_count, 0)

/-- The merge loop `while (heap->size > 1)`; `none` is the `return NULL` taken when
a pop yields `NULL`.  Each round shrinks the heap by one node, so `fuel = size`
rounds suffice. -/
def mergeLoop : Nat → MinHeap → Option MinHeap
  | 0, heap => some heap
  | fuel + 1, heap =>
    if heap.size > 1 then
      match PopHeap heap with
      | (a, heap1) =>
        match PopHeap heap1 with
        | (b, heap2) =>
          match a, b with
          | some a, some b =>
            mergeLoop fuel (PushHeap heap2 (.node ((a.freq + b.freq) % 2 ^ 64) a b))
          | _, _ => none
    else some heap

/-- The tree `GenerateCodes` builds from a frequency table: `none` for `return NULL`,
`some none` when the heap ends empty (`root == NULL`), `some (some root)` otherwise. -/
def huffmanTree (freq_table : Nat → Nat) (symbol_count : Nat) : Option (Option HuffNode) :=
  match mergeLoop (fillHeap freq_table symbol_count).1.size (fillHeap freq_table symbol_count).1 with
  | none => none
  | some heap => some (PopHeap heap).1

/-- The part of `GenerateCodes` after the frequency pass: heap, tree, code table. -/
def codesFromFrequencies (freq_table : Nat → Nat) (file_size symbol_count : Nat) :
    Option CodeTable :=
  match huffmanTree freq_table symbol_count with
  | none => none
  | some none => some emptyTable
  | some (some root) =>
    match root with
    | .leaf _ symbol =>
      if (fillHeap freq_table symbol_count).2 = 1 ∧ file_size > 0 then
        some (setCode emptyTable symbol ⟨0, 1⟩)
      else if file_size > 0 ∨ (fillHeap freq_table symbol_count).2 > 0 then
        some (BuildCodes root emptyTable 0 0)
      else some emptyTable
    | .node _ _ _ =>
      if file_size > 0 ∨ (fillHeap freq_table symbol_count).2 > 0 then
        some (BuildCodes root emptyTable 0 0)
      else some emptyTable

/-- `GenerateCodes`; `none` is the `NULL` result. -/
def GenerateCodes (data : List Nat) (file_size symbol_size : Nat) : Option CodeTable :=
  if symbol_size ≠ 1 ∧ symbol_size ≠ 2 then none
  else
    codesFromFrequencies (frequencies data file_size symbol_size) file_size
      (if symbol_size = 1 then MAX_SYMBOLS_1B else MAX_SYMBOLS_2B)

/-! ## encoder.c -/

/-- `MAGIC_BYTES`, the characters of "HUFF". -/
def MAGIC_BYTES : List Nat := [0x48, 0x55, 0x46, 0x46]

/-- `ARCHIVE_VERSION`. -/
def ARCHIVE_VERSION : Nat := 1

/-- `PATH_MAX` of `linux/limits.h`. -/
def PATH_MAX : Nat := 4096

/-- `BitWriterWriteUint64`. -/
def BitWriterWriteUint64 (writer : BitWriter) (value : Nat) : BitWriter :=
  BitWriterWriteBits (BitWriterWriteBits writer ((value % 2 ^ 64) >>> 32) 32)
    ((value % 2 ^ 64) &&& 0xFFFFFFFF) 32

/-- A loop `for k: BitWriterWriteBits(writer, bytes[k], 8)` (magic bytes, file name). -/
def writeBytes : List Nat → BitWriter → BitWriter
  | [], writer => writer
  | c :: rest, writer => writeBytes rest (BitWriterWriteBits writer c 8)

/-- The archive header: magic, version, symbol size, number of files. -/
def writeHeader (numInputPaths symbol_size : Nat) : BitWriter :=
  BitWriterWriteBits
    (BitWriterWriteBits
      (BitWriterWriteBits (writeBytes MAGIC_BYTES BitWriterOpen) ARCHIVE_VERSION 8)
      (symbol_size % 2 ^ 8) 8)
    (numInputPaths % 2 ^ 32) 32

/-- The counting loop for `active_codes_count`, a `uint16_t`. -/
def countActiveCodes (huff_codes : CodeTable) (alphabet_cardinality : Nat) : Nat :=
  (List.range alphabet_cardinality).foldl
    (fun active sym_val_idx =>
      if (huff_codes sym_val_idx).code_len > 0 then (active + 1) % 2 ^ 16 else active) 0

/-- One round of the loop writing the table: the record of `sym_val_idx`, if coded. -/
def writeTableRecord (symbol_size : Nat) (huff_codes : CodeTable) (writer : BitWriter)
    (sym_val_idx : Nat) : BitWriter :=
  if (huff_codes sym_val_idx).code_len > 0 then
    let writer := if symbol_size = 1 then BitWriterWriteBits writer (sym_val_idx % 2 ^ 8) 8
      else if symbol_size = 2 then BitWriterWriteBits writer (sym_val_idx % 2 ^ 16) 16
      else writer
    let writer := BitWriterWriteBits writer (huff_codes sym_val_idx).code_len 8
    BitWriterWriteBits writer (huff_codes sym_val_idx).code (huff_codes sym_val_idx).code_len
  else writer

/-- The loop writing the code table in ascending symbol order. -/
def writeTable (symbol_size : Nat) (huff_codes : CodeTable) (alphabet_cardinality : Nat)
    (writer : BitWriter) : BitWriter :=
  (List.range alphabet_cardinality).foldl (writeTableRecord symbol_size huff_codes) writer

/-- The body of the encoding loop after the symbol is assembled. -/
def writeSymbol (huff_codes : CodeTable) (writer : BitWriter) (current_symbol_val : Nat) :
    BitWriter :=
  if (huff_codes current_symbol_val).code_len > 0 then
    BitWriterWriteBits writer (huff_codes current_symbol_val).code
      (huff_codes current_symbol_val).code_len
  else writer

/-- The encoding loop `while (bytes_processed < fileSize)` over the content of the
input file (which holds exactly `fileSize` bytes). -/
def encodePayload (symbol_size : Nat) (huff_codes : CodeTable) : List Nat → BitWriter → BitWriter
  | [], writer => writer
  | [c1], writer =>
    if symbol_size = 1 then writeSymbol huff_codes writer c1
    else if symbol_size = 2 then
      writeSymbol huff_codes writer ((((c1 <<< 8) % 2 ^ 16) ||| PADDING_BYTE) % 2 ^ 16)
    else writer
  | c1 :: c2 :: rest, writer =>
    if symbol_size = 1 then
      encodePayload symbol_size huff_codes (c2 :: rest) (writeSymbol huff_codes writer c1)
    else if symbol_size = 2 then
      encodePayload symbol_size huff_codes rest
        (writeSymbol huff_codes writer ((((c1 <<< 8) % 2 ^ 16) ||| c2) % 2 ^ 16))
    else writer

/-- One round of the loop over the input files: metadata, code table, payload.
The input is the name stored in the archive and the content of the file; `none`
is an error return. -/
def encodeEntry (symbol_size : Nat) (writer : BitWriter) (input : List Nat × List Nat) :
    Option BitWriter :=
  let fileNameInArchive := input.1
  let fileSize := input.2.length
  if fileSize ≥ 2 ^ 64 - 1 then none
  else
    let writer := BitWriterWriteBits writer (fileNameInArchive.length % 2 ^ 16) 16
    let writer := writeBytes fileNameInArchive writer
    let writer := BitWriterWriteUint64 writer fileSize
    let alphabet_cardinality := (1 <<< (symbol_size * 8)) % 2 ^ 32
    if fileSize > 0 then
      match GenerateCodes input.2 fileSize symbol_size with
      | none => none
      | some huff_codes =>
        let writer := BitWriterWriteBits writer (countActiveCodes huff_codes alphabet_cardinality) 16
        let writer := writeTable symbol_size huff_codes alphabet_cardinality writer
        some (encodePayload symbol_size huff_codes input.2 writer)
    else some (BitWriterWriteBits writer 0 16)

/-- The loop over the input files. -/
def encodeEntries (symbol_size : Nat) : List (List Nat × List Nat) → BitWriter → Option BitWriter
  | [], writer => some writer
  | input :: rest, writer =>
    match encodeEntry symbol_size writer input with
    | none => none
    | some writer' => encodeEntries symbol_size rest writer'

/-- `EncodeFiles` on the list of (archive name, content) of the input files; the
result is the content of the archive, `none` for the return value 1 (no archive is
left on disk). -/
def EncodeFiles (inputs : List (List Nat × List Nat)) (symbol_size : Nat) : Option (List Nat) :=
  if inputs.length = 0 then none
  else if symbol_size ≠ 1 ∧ symbol_size ≠ 2 then none
  else
    match encodeEntries symbol_size inputs (writeHeader inputs.length symbol_size) with
    | none => none
    | some writer => some (BitWriterClose writer)

/-! ## decoder.c -/

/-- `ARCHIVE_VERSION_EXPECTED`. -/
def ARCHIVE_VERSION_EXPECTED : Nat := 1

/-- A pointer to a `DecodingTreeNode`: `null`, or a node with its four fields. -/
inductive DecodingTreeNode where
  | null
  | node (child0 child1 : DecodingTreeNode) (is_leaf : Bool) (symbol : Nat)
deriving DecidableEq, Repr

/-- `CreateDecodingNode`. -/
def CreateDecodingNode : DecodingTreeNode := .node .null .null false 0

/-- The field `is_leaf` (of a non-null node). -/
def DecodingTreeNode.isLeaf : DecodingTreeNode → Bool
  | .null => false
  | .node _ _ is_leaf _ => is_leaf

/-- The `for` loop of `InsertIntoDecodingTree` followed by the final marking; the
first argument is `i + 1` for the loop variable `i`, the node is `current`.
`none` is the return value 0. -/
def insertPath (symbol_val code : Nat) : Nat → DecodingTreeNode → Option DecodingTreeNode
  | _, .null => none
  | 0, .node child0 child1 is_leaf _ =>
    if is_leaf then none else some (.node child0 child1 true symbol_val)
  | i + 1, .node child0 child1 is_leaf symbol =>
    if (code >>> i) &&& 1 = 0 then
      let next := if child0 = .null then CreateDecodingNode else child0
      if next.isLeaf ∧ i > 0 then none
      else
        match insertPath symbol_val code i next with
        | none => none
        | some next' => some (.node next' child1 is_leaf symbol)
    else
      let next := if child1 = .null then CreateDecodingNode else child1
      if next.isLeaf ∧ i > 0 then none
      else
        match insertPath symbol_val code i next with
        | none => none
        | some next' => some (.node child0 next' is_leaf symbol)

/-- `InsertIntoDecodingTree`; `none` is the return value 0, `some` the updated tree
on return value 1. -/
def InsertIntoDecodingTree (root : DecodingTreeNode) (symbol_val code code_len : Nat) :
    Option DecodingTreeNode :=
  match root with
  | .null => none
  | .node child0 child1 is_leaf symbol =>
    if code_len = 0 then
      if is_leaf ∧ symbol ≠ symbol_val then none
      else if ¬ is_leaf ∧ (child0 ≠ .null ∨ child1 ≠ .null) then none
      else some (.node child0 child1 true symbol_val)
    else insertPath symbol_val code code_len root

/-- `BitReaderReadUint64`. -/
def BitReaderReadUint64 (reader : BitReader) : Nat × BitReader :=
  let high := BitReaderReadBits reader 32
  let low := BitReaderReadBits high.2 32
  (((high.1 <<< 32) % 2 ^ 64) ||| low.1, low.2)

/-- The loop reading the bytes of the file name. -/
def readName : Nat → BitReader → List Nat × BitReader
  | 0, reader => ([], reader)
  | k + 1, reader =>
    let c := BitReaderReadBits reader 8
    let rest := readName k c.2
    ((c.1 % 2 ^ 8) :: rest.1, rest.2)

/-- The C string held by a `NUL`-terminated buffer. -/
def cString (buffer : List Nat) : List Nat := buffer.takeWhile (fun c => c ≠ 0)

/-- The loop reading the code table and building the decoding tree; the first
argument counts the remaining rounds.  `none` is `huff_table_valid = 0`. -/
def readTable (symbol_size_val huff_table_entry_count : Nat) :
    Nat → DecodingTreeNode → BitReader → Option DecodingTreeNode × BitReader
  | 0, decoding_root, reader => (some decoding_root, reader)
  | k + 1, decoding_root, reader =>
    let symbol := if symbol_size_val = 1 then BitReaderReadBits reader 8
      else BitReaderReadBits reader 16
    let code_len := BitReaderReadBits symbol.2 8
    if code_len.1 % 2 ^ 8 > 64 ∧ huff_table_entry_count > 1 then (none, code_len.2)
    else
      let code := if code_len.1 % 2 ^ 8 > 0 then BitReaderReadBits code_len.2 (code_len.1 % 2 ^ 8)
        else (0, code_len.2)
      match InsertIntoDecodingTree decoding_root (symbol.1 % 2 ^ 16) code.1 (code_len.1 % 2 ^ 8) with
      | none => (none, code.2)
      | some root' => readTable symbol_size_val huff_table_entry_count k root' code.2

/-- The selection of lines 244-256: `should_extract` before the output file is opened. -/
def shouldExtract (wantedFiles : List (List Nat)) (extractAll : Bool) (filename : List Nat) :
    Bool :=
  if ¬ extractAll ∧ wantedFiles.length > 0 then wantedFiles.any (fun w => w = filename)
  else extractAll

/-- The inner loop `while (!current_node->is_leaf)`: the symbol of the leaf reached,
or `none` when the stream ends or a child is missing. -/
def walkToLeaf : DecodingTreeNode → BitReader → Option Nat × BitReader
  | .null, reader => (none, reader)
  | .node child0 child1 is_leaf symbol, reader =>
    if is_leaf then (some symbol, reader)
    else
      match BitReaderReadBit reader with
      | (none, reader') => (none, reader')
      | (some bit, reader') =>
        if bit = 0 then walkToLeaf child0 reader' else walkToLeaf child1 reader'

/-- What one decoded symbol does to `bytes_written_or_skipped` and to the output
file (lines 329-381).  `writing` is `should_extract && outFile`. -/
def emitSymbol (symbol_size_val : Nat) (writing : Bool) (original_file_size_bytes : Nat)
    (decoded_symbol_value bytes : Nat) : Nat × List Nat :=
  if writing then
    if symbol_size_val = 1 then (bytes + 1, [decoded_symbol_value % 2 ^ 8])
    else if symbol_size_val = 2 then
      let first := if bytes < original_file_size_bytes
        then (bytes + 1, [(decoded_symbol_value >>> 8) % 2 ^ 8]) else (bytes, [])
      let second := if first.1 < original_file_size_bytes
        then (first.1 + 1, first.2 ++ [(decoded_symbol_value &&& 0xFF) % 2 ^ 8]) else first
      second
    else (bytes, [])
  else
    if symbol_size_val = 1 then
      if bytes < original_file_size_bytes then (bytes + 1, [])
      else if symbol_size_val = 2 then
        let first := if bytes < original_file_size_bytes then bytes + 1 else bytes
        let second := if first < original_file_size_bytes then first + 1 else first
        (second, [])
      else (bytes, [])
    else (bytes, [])

/-- The loop `while (bytes_written_or_skipped < original_file_size_bytes)`, bounded by
`fuel` rounds.  The result is `error_occurred_for_this_file`, the reader and the bytes
written to the output file; `none` when the rounds do not suffice. -/
def payloadLoop (symbol_size_val : Nat) (writing : Bool) (decoding_root : DecodingTreeNode)
    (original_file_size_bytes : Nat) : Nat → Nat → BitReader → Option (Bool × BitReader × List Nat)
  | 0, _, _ => none
  | fuel + 1, bytes, reader =>
    if bytes < original_file_size_bytes then
      match walkToLeaf decoding_root reader with
      | (none, reader') => some (true, reader', [])
      | (some decoded_symbol_value, reader') =>
        let step := emitSymbol symbol_size_val writing original_file_size_bytes
          decoded_symbol_value bytes
        match payloadLoop symbol_size_val writing decoding_root original_file_size_bytes
            fuel step.1 reader' with
        | none => none
        | some (error, reader'', written) => some (error, reader'', step.2 ++ written)
    else some (false, reader, [])

/-- What the file system answers to the decoder: the result of
`CreateDirectoryRecursive(outputDir)` and, per entry name, whether `fopen` of the
output file succeeds. -/
structure FsEnv where
  mkdirOk : Bool
  openOk : List Nat → Bool

/-- A file system on which every directory creation and every `fopen` succeed. -/
def FsEnv.allOk : FsEnv := ⟨true, fun _ => true⟩

/-- How the processing of one archive entry ends. -/
inductive EntryResult where
  | failed (reader : BitReader)
  | finished (error_occurred_for_this_file : Bool) (reader : BitReader)
      (file : Option (List Nat × List Nat))
  | noReturn
deriving DecidableEq, Repr

/-- A number of rounds that the payload loop cannot exceed unless it runs forever:
every round that ends raises the byte counter or takes a bit from the stream. -/
def payloadFuel (original_file_size_bytes : Nat) (reader : BitReader) : Nat :=
  original_file_size_bytes + 8 * reader.file.length + 8 + 1

/-- The body of the loop over the entries (lines 169-407): name, original size, code
table, selection, output file, payload.  A written file is reported as the pair of its
name and the bytes written to it. -/
def decodeEntry (fs : FsEnv) (symbol_size_val : Nat) (wantedFiles : List (List Nat))
    (extractAll : Bool) (reader : BitReader) : EntryResult :=
  let filename_len := BitReaderReadBits reader 16
  if filename_len.1 % 2 ^ 16 = 0 ∨ filename_len.1 % 2 ^ 16 ≥ PATH_MAX then .failed filename_len.2
  else
    let filename_from_archive := readName (filename_len.1 % 2 ^ 16) filename_len.2
    let original_file_size_bytes := BitReaderReadUint64 filename_from_archive.2
    let huff_table_entry_count := BitReaderReadBits original_file_size_bytes.2 16
    match readTable symbol_size_val (huff_table_entry_count.1 % 2 ^ 16)
        (huff_table_entry_count.1 % 2 ^ 16) CreateDecodingNode huff_table_entry_count.2 with
    | (none, reader') => .failed reader'
    | (some decoding_root, reader') =>
      let should_extract := shouldExtract wantedFiles extractAll (cString filename_from_archive.1)
      let writing := should_extract && fs.openOk (cString filename_from_archive.1)
      match payloadLoop symbol_size_val writing decoding_root original_file_size_bytes.1
          (payloadFuel original_file_size_bytes.1 reader') 0 reader' with
      | none => .noReturn
      | some (error, reader'', written) =>
        .finished error reader''
          (if writing then some (cString filename_from_archive.1, written) else none)

/-- How a call of `DecodeArchive` ends: it returns a code, or it goes on reading
from the reader it has just closed (line 411, no defined behaviour from there on), or
a payload loop never ends. -/
inductive DecodeStatus where
  | returned (code : Nat)
  | readerUsedAfterClose
  | noReturn
deriving DecidableEq, Repr

/-- The observable result of `DecodeArchive`: how it ends, whether the output
directory was created, the files written (in order) and the final reader. -/
structure DecodeResult where
  status : DecodeStatus
  dirCreated : Bool
  files : List (List Nat × List Nat)
  reader : BitReader
deriving DecidableEq, Repr

/-- The files written so far, extended by the file of one entry. -/
def addFile (file : Option (List Nat × List Nat)) (result : DecodeResult) : DecodeResult :=
  match file with
  | none => result
  | some f => { result with files := f :: result.files }

/-- The loop `for (file_idx = 0; file_idx < num_total_files; ++file_idx)`; the first
argument is the number of entries still to process, `num_total_files - file_idx`, so
the test `file_idx < num_total_files - 1` of line 409 reads `n > 0`. -/
def decodeEntries (fs : FsEnv) (symbol_size_val : Nat) (wantedFiles : List (List Nat))
    (extractAll : Bool) : Nat → BitReader → DecodeResult
  | 0, reader => ⟨.returned 0, true, [], reader⟩
  | n + 1, reader =>
    match decodeEntry fs symbol_size_val wantedFiles extractAll reader with
    | .failed reader' => ⟨.returned 1, true, [], reader'⟩
    | .noReturn => ⟨.noReturn, true, [], reader⟩
    | .finished error reader' file =>
      if error ∧ n > 0 then addFile file ⟨.readerUsedAfterClose, true, [], reader'⟩
      else addFile file (decodeEntries fs symbol_size_val wantedFiles extractAll n reader')

/-- `DecodeArchive` on the content of the archive file. -/
def DecodeArchive (fs : FsEnv) (archive : List Nat) (wantedFiles : List (List Nat))
    (extractAll : Bool) : DecodeResult :=
  let reader := BitReaderOpen archive
  let magic_read := readName 4 reader
  if magic_read.1 ≠ MAGIC_BYTES then ⟨.returned 1, false, [], magic_read.2⟩
  else
    let version := BitReaderReadBits magic_read.2 8
    if version.1 % 2 ^ 8 ≠ ARCHIVE_VERSION_EXPECTED then ⟨.returned 1, false, [], version.2⟩
    else
      let symbol_size_val := BitReaderReadBits version.2 8
      if symbol_size_val.1 % 2 ^ 8 ≠ 1 ∧ symbol_size_val.1 % 2 ^ 8 ≠ 2 then
        ⟨.returned 1, false, [], symbol_size_val.2⟩
      else
        let num_total_files := BitReaderReadBits symbol_size_val.2 32
        if ¬ fs.mkdirOk then ⟨.returned 1, false, [], num_total_files.2⟩
        else
          decodeEntries fs (symbol_size_val.1 % 2 ^ 8) wantedFiles extractAll
            num_total_files.1 num_total_files.2

/-! ## encoder.c over an explicit file system -/

/-- The state of the file system: the content of every existing file, by path. -/
def FileSystem := List Nat → Option (List Nat)

/-- The file system in which `path` holds `content`: the effect of `fopen(path, "wb")`
(with the empty content) and of the writes up to `fclose`. -/
def FileSystem.store (fs : FileSystem) (path content : List Nat) : FileSystem :=
  fun p => if p = path then some content else fs p

/-- The library call `remove(path)`, taken to succeed (the source does not test its
result): afterwards `path` does not exist. -/
def remove (fs : FileSystem) (path : List Nat) : FileSystem :=
  fun p => if p = path then none else fs p

/-- What the environment answers to the calls `EncodeFiles` makes for one input path:
the name computed for the archive, whether `fopen(currentFilePath, "rb")` succeeds,
the value of `GetFileSize` (`2 ^ 64 - 1` is `(uint64_t)-1`), the bytes `fgetc`
delivers inside `GenerateCodes`, whether `GenerateCodes` is spared every `ferror`,
`fseek` and allocation failure, whether `fseek(inFile, 0, SEEK_SET)` succeeds, and the
bytes `fread` delivers in the encoding pass before it returns 0. -/
structure InputFile where
  fileNameInArchive : List Nat
  fopenOk : Bool
  fileSize : Nat
  data : List Nat
  generateOk : Bool
  fseekOk : Bool
  stream : List Nat

/-- The encoding loop `while (bytes_processed < fileSize)` reading the stream with
`fread`; the second argument is `bytes_processed`.  The flag is `false` on the path
`bytes_actually_read_from_file == 0` that ends in `return 1`. -/
def encodeLoop (symbol_size : Nat) (huff_codes : CodeTable) (fileSize : Nat) :
    List Nat → Nat → BitWriter → Bool × BitWriter
  | [], bytes_processed, writer =>
    if bytes_processed < fileSize then (false, writer) else (true, writer)
  | [c1], bytes_processed, writer =>
    if bytes_processed < fileSize then
      if symbol_size = 1 then
        encodeLoop symbol_size huff_codes fileSize [] (bytes_processed + 1)
          (writeSymbol huff_codes writer c1)
      else
        encodeLoop symbol_size huff_codes fileSize [] (bytes_processed + 1)
          (writeSymbol huff_codes writer ((((c1 <<< 8) % 2 ^ 16) ||| PADDING_BYTE) % 2 ^ 16))
    else (true, writer)
  | c1 :: c2 :: rest, bytes_processed, writer =>
    if bytes_processed < fileSize then
      if symbol_size = 1 then
        encodeLoop symbol_size huff_codes fileSize (c2 :: rest) (bytes_processed + 1)
          (writeSymbol huff_codes writer c1)
      else if fileSize - bytes_processed < symbol_size then
        encodeLoop symbol_size huff_codes fileSize (c2 :: rest) (bytes_processed + 1)
          (writeSymbol huff_codes writer ((((c1 <<< 8) % 2 ^ 16) ||| PADDING_BYTE) % 2 ^ 16))
      else
        encodeLoop symbol_size huff_codes fileSize rest (bytes_processed + 2)
          (writeSymbol huff_codes writer ((((c1 <<< 8) % 2 ^ 16) ||| c2) % 2 ^ 16))
    else (true, writer)

/-- One round of the loop over the input files with its failure paths; the flag is
`false` when the round ends in `BitWriterClose(writer); remove(outputPath); return 1`,
and the writer is the one passed to `BitWriterClose` or to the next round. -/
def encodeEntryFs (symbol_size : Nat) (writer : BitWriter) (input : InputFile) :
    Bool × BitWriter :=
  if ¬ input.fopenOk then (false, writer)
  else if input.fileSize = 2 ^ 64 - 1 then (false, writer)
  else
    let writer := BitWriterWriteBits writer (input.fileNameInArchive.length % 2 ^ 16) 16
    let writer := writeBytes input.fileNameInArchive writer
    let writer := BitWriterWriteUint64 writer input.fileSize
    let alphabet_cardinality := (1 <<< (symbol_size * 8)) % 2 ^ 32
    if input.fileSize > 0 then
      match (if input.generateOk then GenerateCodes input.data input.fileSize symbol_size
          else none) with
      | none => (false, writer)
      | some huff_codes =>
        if ¬ input.fseekOk then (false, writer)
        else
          let writer :=
            BitWriterWriteBits writer (countActiveCodes huff_codes alphabet_cardinality) 16
          let writer := writeTable symbol_size huff_codes alphabet_cardinality writer
          encodeLoop symbol_size huff_codes input.fileSize input.stream 0 writer
    else (true, BitWriterWriteBits writer 0 16)

/-- The loop over the input files, up to the first round that fails. -/
def encodeEntriesFs (symbol_size : Nat) : List InputFile → BitWriter → Bool × BitWriter
  | [], writer => (true, writer)
  | input :: rest, writer =>
    match encodeEntryFs symbol_size writer input with
    | (false, writer') => (false, writer')
    | (true, writer') => encodeEntriesFs symbol_size rest writer'

/-- `EncodeFiles` over a file system: the return value and the file system left
behind.  `outputOk` tells whether `BitWriterOpen(outputPath)` succeeds. -/
def EncodeFilesFs (fs : FileSystem) (outputPath : List Nat) (outputOk : Bool)
    (inputs : List InputFile) (symbol_size : Nat) : Nat × FileSystem :=
  if inputs.length = 0 then (1, fs)
  else if symbol_size ≠ 1 ∧ symbol_size ≠ 2 then (1, fs)
  else if ¬ outputOk then (1, fs)
  else
    match encodeEntriesFs symbol_size inputs (writeHeader inputs.length symbol_size) with
    | (false, writer) =>
      (1, remove ((fs.store outputPath []).store outputPath (BitWriterClose writer)) outputPath)
    | (true, writer) => (0, (fs.store outputPath []).store outputPath (BitWriterClose writer))

/-- An input whose file is read without any failure: its content is `content`. -/
def regularInput (name content : List Nat) : InputFile :=
  ⟨name, true, content.length, content, true, true, content⟩

/-- The failure paths of one round of the loop over the inputs, in terms of what the
environment answers: the input cannot be opened, or cannot be sized, or (for a
non-empty file) code generation fails, the rewind fails, or `fread` delivers fewer
than `fileSize` bytes. -/
def inputFails (input : InputFile) : Prop :=
  input.fopenOk = false ∨ input.fileSize = 2 ^ 64 - 1 ∨
    (input.fileSize > 0 ∧
      (input.generateOk = false ∨ input.fseekOk = false ∨
        input.stream.length < input.fileSize))

/-! ## args.h, args.c, main.c -/

/-- `OperationMode`. -/
inductive OperationMode where
  | MODE_NONE
  | MODE_COMPRESS
  | MODE_DECOMPRESS
  | MODE_HELP
deriving DecidableEq, Repr

/-- `ParsedArgs`; `output_path` is `none` for `NULL`, `num_input_paths` is the length
of `input_paths`. -/
structure ParsedArgs where
  mode : OperationMode
  output_path : Option (List Nat)
  input_paths : List (List Nat)
  symbol_size : Nat

/-- `EXIT_FAILURE` of `stdlib.h`. -/
def EXIT_FAILURE : Nat := 1

/-- How a run of the program ends: the exit status of the process, and whether the
line "Compression failed." or "Decompression failed." was printed to `stderr`. -/
structure ProgramEnd where
  status : Nat
  failureReported : Bool
deriving DecidableEq, Repr

/-- `print_error_and_exit`: the message is printed and the process ends with
`exit(EXIT_FAILURE)`. -/
def print_error_and_exit : ProgramEnd := ⟨EXIT_FAILURE, false⟩

/-- `main` from the `switch` on the parsed arguments on; `result` and `res` are the
values that the calls of `EncodeFiles` and of `DecodeArchive` return. -/
def main (args : ParsedArgs) (result res : Nat) : ProgramEnd :=
  match args.mode with
  | .MODE_HELP => ⟨0, false⟩
  | .MODE_COMPRESS =>
    if args.input_paths.length = 0 ∨ args.output_path = none then print_error_and_exit
    else if result = 0 then ⟨0, false⟩
    else ⟨0, true⟩
  | .MODE_DECOMPRESS =>
    if args.input_paths.length = 0 ∨ args.output_path = none then print_error_and_exit
    else if res ≠ 0 then ⟨0, true⟩
    else ⟨0, false⟩
  | .MODE_NONE => print_error_and_exit

/-- `OUTPUT_ARG`, the string "-o". -/
def OUTPUT_ARG : List Nat := [0x2D, 0x6F]

/-- `SYMBOL_SIZE_ARG`, the string "-s". -/
def SYMBOL_SIZE_ARG : List Nat := [0x2D, 0x73]

/-- `COMPRESS_ARG`, the string "-c". -/
def COMPRESS_ARG : List Nat := [0x2D, 0x63]

/-- `DECOMPRESS_ARG`, the string "-d". -/
def DECOMPRESS_ARG : List Nat := [0x2D, 0x64]

/-- `HELP_ARG`, the string "--help". -/
def HELP_ARG : List Nat := [0x2D, 0x2D, 0x68, 0x65, 0x6C, 0x70]

/-- How `parse_args` ends: `exit(EXIT_SUCCESS)`, `exit(EXIT_FAILURE)` inside
`print_error_and_exit`, or the return of the parsed arguments. -/
inductive ParseResult where
  | exitSuccess
  | exitFailure
  | parsed (args : ParsedArgs)

/-- The parsing loop `for (i = 1; i < argc; ++i)` of `parse_args` over the
arguments not yet read; `none` is a call of `print_error_and_exit`.  The value of
`atoi` (converted to `uint32_t`) is an answer of the C library. -/
def parseLoop (atoi : List Nat → Nat) : List (List Nat) → ParsedArgs → Option ParsedArgs
  | [], args => some args
  | [arg], args =>
    if arg = COMPRESS_ARG then
      if args.mode ≠ .MODE_NONE then none else some { args with mode := .MODE_COMPRESS }
    else if arg = DECOMPRESS_ARG then
      if args.mode ≠ .MODE_NONE then none else some { args with mode := .MODE_DECOMPRESS }
    else if arg = OUTPUT_ARG then none
    else if arg = SYMBOL_SIZE_ARG then none
    else some { args with input_paths := args.input_paths ++ [arg] }
  | arg :: next :: rest, args =>
    if arg = COMPRESS_ARG then
      if args.mode ≠ .MODE_NONE then none
      else parseLoop atoi (next :: rest) { args with mode := .MODE_COMPRESS }
    else if arg = DECOMPRESS_ARG then
      if args.mode ≠ .MODE_NONE then none
      else parseLoop atoi (next :: rest) { args with mode := .MODE_DECOMPRESS }
    else if arg = OUTPUT_ARG then
      if args.output_path ≠ none then none
      else parseLoop atoi rest { args with output_path := some next }
    else if arg = SYMBOL_SIZE_ARG then
      if args.symbol_size ≠ 0 then none
      else if atoi next % 2 ^ 32 ≠ 1 ∧ atoi next % 2 ^ 32 ≠ 2 then none
      else parseLoop atoi rest { args with symbol_size := atoi next % 2 ^ 32 }
    else parseLoop atoi (next :: rest) { args with input_paths := args.input_paths ++ [arg] }

/-- `validate_args`: `false` when it calls `print_error_and_exit`. -/
def validate_args (args : ParsedArgs) : Bool :=
  if args.mode = .MODE_NONE then false
  else if args.mode = .MODE_COMPRESS then
    if args.output_path = none then false
    else if args.input_paths.length = 0 then false
    else true
  else if args.mode = .MODE_DECOMPRESS then
    if args.input_paths.length ≠ 1 then false
    else if args.symbol_size ≠ 0 then false
    else true
  else true

/-- `parse_args` on the vector `argv` (program name first). -/
def parse_args (atoi : List Nat → Nat) (argv : List (List Nat)) : ParseResult :=
  if argv.length = 1 then .exitSuccess
  else if HELP_ARG ∈ argv.tail then .exitSuccess
  else
    match parseLoop atoi argv.tail ⟨.MODE_NONE, none, [], 0⟩ with
    | none => .exitFailure
    | some args =>
      let args := if args.mode = .MODE_COMPRESS ∧ args.symbol_size = 0
        then { args with symbol_size := 1 } else args
      if validate_args args then .parsed args else .exitFailure

/-- The arguments of a call of `DecodeArchive`. -/
structure DecodeCall where
  archivePath : List Nat
  outputDir : List Nat
  wantedFiles : List (List Nat)
  extractAll : Bool
deriving DecidableEq, Repr

/-- The call `DecodeArchive(archive, args->output_path, wanted, wantedCount,
wantedCount == 0)` of `main` (lines 91-104); `none` when `main` does not reach it. -/
def mainDecodeCall (args : ParsedArgs) : Option DecodeCall :=
  match args.mode with
  | .MODE_DECOMPRESS =>
    if args.input_paths.length = 0 ∨ args.output_path = none then none
    else
      some ⟨args.input_paths.headD [], args.output_path.getD [],
        if args.input_paths.length > 1 then args.input_paths.tail else [],
        (if args.input_paths.length > 1 then args.input_paths.length - 1 else 0) == 0⟩
  | _ => none

/-- The whole program: `parse_args`, then `main`. -/
def program (atoi : List Nat → Nat) (argv : List (List Nat)) (result res : Nat) : ProgramEnd :=
  match parse_args atoi argv with
  | .exitSuccess => ⟨0, false⟩
  | .exitFailure => ⟨EXIT_FAILURE, false⟩
  | .parsed args => main args result res

/-- An argument that `parse_args` takes as an input path: none of the option strings. -/
def IsPath (arg : List Nat) : Prop :=
  arg ≠ COMPRESS_ARG ∧ arg ≠ DECOMPRESS_ARG ∧ arg ≠ OUTPUT_ARG ∧ arg ≠ SYMBOL_SIZE_ARG ∧
    arg ≠ HELP_ARG

/-! ## Specification-level views of the bit stream -/

/-- Bits `n - 1` down to `0` of `v`, most significant first. -/
def natBits : Nat → Nat → List Bool
  | 0, _ => []
  | n + 1, v => v.testBit n :: natBits n v

/-- The bits of a byte sequence, each byte most significant bit first. -/
def bytesToBits : List Nat → List Bool
  | [] => []
  | b :: rest => natBits 8 b ++ bytesToBits rest

/-- The bits a writer has accepted so far. -/
def BitWriter.written (w : BitWriter) : List Bool :=
  bytesToBits w.file ++ (natBits 8 w.buffer).take w.bitPos

/-- The invariant of a writer: cursor below 8, unused accumulator bits zero. -/
def BitWriter.Ok (w : BitWriter) : Prop :=
  w.bitPos < 8 ∧ w.buffer < 256 ∧ w.buffer % 2 ^ (8 - w.bitPos) = 0 ∧ ∀ b ∈ w.file, b < 256

/-- The bits a reader has still to deliver. -/
def BitReader.remaining (r : BitReader) : List Bool :=
  (natBits 8 r.buffer).drop r.bitPos ++ bytesToBits r.file

/-- The reader `r` is in a regular state and has exactly `bits` left to deliver. -/
def Reads (r : BitReader) (bits : List Bool) : Prop :=
  (1 ≤ r.bitPos ∧ r.bitPos ≤ 8) ∧ r.remaining = bits

/-- The accumulation `result = (result << 1) | bit` of `BitReaderReadBits` over a
run of bits (`result` is an `unsigned int`). -/
def accBits (result : Nat) (bits : List Bool) : Nat :=
  bits.foldl (fun acc b => ((acc <<< 1) ||| b.toNat) % 2 ^ 32) result

/-- The bytes `readName` delivers on a byte-aligned stream holding `a`: the next
`k` bytes, 0 for each byte missing at the end of the stream. -/
def padBytes : Nat → List Nat → List Nat
  | 0, _ => []
  | k + 1, a => (a.headD 0 % 2 ^ 8) :: padBytes k a.tail

/-- The name (as a C string) that `decodeEntry` reads for the entry at `reader`. -/
def entryName (reader : BitReader) : List Nat :=
  cString (readName ((BitReaderReadBits reader 16).1 % 2 ^ 16) (BitReaderReadBits reader 16).2).1

/-- The bits `BitWriterWriteBits` emits for a code: bits `code_len - 1` down to 0 of
the code passed as an `unsigned int`. -/
def codeBits (hc : HuffCode) : List Bool := natBits hc.code_len (hc.code % 2 ^ 32)

/-- The symbol sequence of a file content under the framing of the encoding loop. -/
def symbolsOf (symbol_size : Nat) : List Nat → List Nat
  | [] => []
  | [c1] =>
    if symbol_size = 1 then [c1]
    else if symbol_size = 2 then [(((c1 <<< 8) % 2 ^ 16) ||| PADDING_BYTE) % 2 ^ 16]
    else []
  | c1 :: c2 :: rest =>
    if symbol_size = 1 then c1 :: symbolsOf symbol_size (c2 :: rest)
    else if symbol_size = 2 then
      ((((c1 <<< 8) % 2 ^ 16) ||| c2) % 2 ^ 16) :: symbolsOf symbol_size rest
    else []

/-- The bits of the payload of a symbol sequence under a code table. -/
def payloadBits (huff_codes : CodeTable) (syms : List Nat) : List Bool :=
  syms.flatMap (fun s => if (huff_codes s).code_len > 0 then codeBits (huff_codes s) else [])

/-- The bits of the table record of symbol `s` (empty when `s` is not coded). -/
def recordBits (symbol_size : Nat) (huff_codes : CodeTable) (s : Nat) : List Bool :=
  if (huff_codes s).code_len > 0 then
    (if symbol_size = 1 then natBits 8 (s % 2 ^ 8 % 2 ^ 32)
      else if symbol_size = 2 then natBits 16 (s % 2 ^ 16 % 2 ^ 32) else []) ++
    natBits 8 ((huff_codes s).code_len % 2 ^ 32) ++ codeBits (huff_codes s)
  else []

/-- The bits of the serialized code table. -/
def tableBits (symbol_size : Nat) (huff_codes : CodeTable) (alphabet_cardinality : Nat) :
    List Bool :=
  (List.range alphabet_cardinality).flatMap (recordBits symbol_size huff_codes)

/-- The bits of a byte string written with 8 bits per byte. -/
def bytesBits (bytes : List Nat) : List Bool :=
  bytes.flatMap (fun c => natBits 8 (c % 2 ^ 32))

/-- The bits of the archive header. -/
def headerBits (numInputPaths symbol_size : Nat) : List Bool :=
  bytesBits MAGIC_BYTES ++ natBits 8 (ARCHIVE_VERSION % 2 ^ 32) ++
    natBits 8 (symbol_size % 2 ^ 8 % 2 ^ 32) ++ natBits 32 (numInputPaths % 2 ^ 32 % 2 ^ 32)

/-- The bits of the metadata of an entry: name length, name, original length. -/
def metaBits (name : List Nat) (fileSize : Nat) : List Bool :=
  natBits 16 (name.length % 2 ^ 16 % 2 ^ 32) ++ bytesBits name ++
    natBits 32 ((fileSize % 2 ^ 64) >>> 32 % 2 ^ 32) ++
    natBits 32 (((fileSize % 2 ^ 64) &&& 0xFFFFFFFF) % 2 ^ 32)

/-- The bits of one entry as `encodeEntry` emits them: metadata, number of table
records, table records, payload (no padding). -/
def entryBits (symbol_size : Nat) (input : List Nat × List Nat) : List Bool :=
  metaBits input.1 input.2.length ++
    (if input.2.length > 0 then
      match GenerateCodes input.2 input.2.length symbol_size with
      | none => []
      | some huff_codes =>
        natBits 16
            (countActiveCodes huff_codes ((1 <<< (symbol_size * 8)) % 2 ^ 32) % 2 ^ 32) ++
          tableBits symbol_size huff_codes ((1 <<< (symbol_size * 8)) % 2 ^ 32) ++
          payloadBits huff_codes (symbolsOf symbol_size input.2)
    else natBits 16 (0 % 2 ^ 32))

/-! ## Specification-level views of the Huffman tree -/

/-- The symbols at the leaves of a tree, left to right. -/
def HuffNode.leaves : HuffNode → List Nat
  | .leaf _ symbol => [symbol]
  | .node _ left right => left.leaves ++ right.leaves

/-- The symbols at the leaves of all trees of a heap array. -/
def forestLeaves (data : List HuffNode) : List Nat := data.flatMap HuffNode.leaves

/-- The symbols of non-zero count below `symbol_count`, in ascending order. -/
def activeSymbols (freq_table : Nat → Nat) (symbol_count : Nat) : List Nat :=
  (List.range symbol_count).filter (fun i => freq_table i ≠ 0)

/-- The leaves of a tree with their root-to-leaf paths (`false` = left, `true` = right). -/
def HuffNode.paths : HuffNode → List (Nat × List Bool)
  | .leaf _ symbol => [(symbol, [])]
  | .node _ left right =>
    left.paths.map (fun sp => (sp.1, false :: sp.2)) ++
      right.paths.map (fun sp => (sp.1, true :: sp.2))

/-- The depth of the deepest leaf. -/
def HuffNode.height : HuffNode → Nat
  | .leaf _ _ => 0
  | .node _ left right => max left.height right.height + 1

/-- The `uint64_t` value `BuildCodes` accumulates along a path, starting from `code`. -/
def pathCode (code : Nat) : List Bool → Nat
  | [] => code
  | b :: p => pathCode (((code <<< 1) % 2 ^ 64) ||| b.toNat) p

/-- The table entry `BuildCodes` stores at a leaf reached with `code` and `length`. -/
def leafCode (code length : Nat) : HuffCode :=
  if length > 64 then ⟨0, 0⟩ else if length = 0 then ⟨0, 0⟩ else ⟨code, length⟩

/-- The number denoted by a bit string, most significant bit first. -/
def bitsVal : List Bool → Nat
  | [] => 0
  | b :: p => b.toNat * 2 ^ p.length + bitsVal p

/-- The code words of the table built from a tree: the root-to-leaf paths, and the
one-bit word 0 for a tree that is a single leaf. -/
def codePaths : HuffNode → List (Nat × List Bool)
  | .leaf _ symbol => [(symbol, [false])]
  | .node f left right => (HuffNode.node f left right).paths

/-! ## Specification-level views of the decoding tree -/

/-- The symbol of the leaf at the end of a path in a decoding tree, if the path ends
at a node marked as a leaf. -/
def leafSym : DecodingTreeNode → List Bool → Option Nat
  | .null, _ => none
  | .node _ _ is_leaf symbol, [] => if is_leaf then some symbol else none
  | .node child0 child1 _ _, b :: p => leafSym (if b then child1 else child0) p

/-- The code value the decoder reads back from the code bits of a table record. -/
def readCode (hc : HuffCode) : Nat := ((hc.code % 2 ^ 32) % 2 ^ hc.code_len) % 2 ^ 32

/-- The insertions `readTable` performs for the records of the symbols `cs`. -/
def insertAll (huff_codes : CodeTable) : List Nat → DecodingTreeNode → Option DecodingTreeNode
  | [], t => some t
  | s :: cs, t =>
    match InsertIntoDecodingTree t s (readCode (huff_codes s)) (huff_codes s).code_len with
    | none => none
    | some t' => insertAll huff_codes cs t'

/-- The decoding tree `t` holds exactly the code words of the symbols satisfying `P`
(a code word being the bits the encoder writes for the symbol). -/
def TrieFor (huff_codes : CodeTable) (t : DecodingTreeNode) (P : Nat → Prop) : Prop :=
  t ≠ .null ∧ (∀ s, P s → leafSym t (codeBits (huff_codes s)) = some s) ∧
    (∀ q x, leafSym t q = some x → P x ∧ codeBits (huff_codes x) = q)

/-! ## Well-formed inputs of the encoder -/

/-- A name as the encoder receives it: a non-empty C string (no `NUL` byte) shorter
than `PATH_MAX`. -/
def ValidName (name : List Nat) : Prop :=
  0 < name.length ∧ name.length < PATH_MAX ∧ ∀ c ∈ name, 0 < c ∧ c < 256

/-- The symbols of non-zero code length below `alphabet_cardinality`, ascending. -/
def codedSymbols (huff_codes : CodeTable) (alphabet_cardinality : Nat) : List Nat :=
  (List.range alphabet_cardinality).filter (fun s => decide ((huff_codes s).code_len > 0))

/-- The code table of a file fits the archive format: all code lengths are at most 32
and there are fewer than 65536 coded symbols. -/
def TableFits (symbol_size : Nat) (content : List Nat) : Prop :=
  match GenerateCodes content content.length symbol_size with
  | none => True
  | some huff_codes =>
    (∀ s, s < 2 ^ (8 * symbol_size) → (huff_codes s).code_len ≤ 32) ∧
      (codedSymbols huff_codes (2 ^ (8 * symbol_size))).length < 65536

instance (symbol_size : Nat) (content : List Nat) : Decidable (TableFits symbol_size content) := by
  unfold TableFits
  split <;> infer_instance

/-- What the round trip asks of one input of the encoder: a valid name, bytes below
256, a size the `uint64_t` length field can hold, a code table that fits. -/
def ValidInput (symbol_size : Nat) (input : List Nat × List Nat) : Prop :=
  ValidName input.1 ∧ (∀ b ∈ input.2, b < 256) ∧ input.2.length < 2 ^ 64 - 1 ∧
    TableFits symbol_size input.2

/-- Whether the decoder writes the entry of this name: it is selected and its output
file can be opened. -/
def isWritten (fs : FsEnv) (wantedFiles : List (List Nat)) (extractAll : Bool)
    (input : List Nat × List Nat) : Bool :=
  shouldExtract wantedFiles extractAll input.1 && fs.openOk input.1

/-- The symbols at the leaves (the nodes with `is_leaf` set) of a decoding tree. -/
def DecodingTreeNode.leafSymbols : DecodingTreeNode → List Nat
  | .null => []
  | .node child0 child1 is_leaf symbol =>
    (if is_leaf then [symbol] else []) ++ (child0.leafSymbols ++ child1.leafSymbols)

/-- The two bytes the decoder writes for a 16-bit symbol (lines 337-352). -/
def symbolPair (s : Nat) : List Nat := [(s >>> 8) % 2 ^ 8, (s &&& 0xFF) % 2 ^ 8]

/-- The file of 131072 bytes in which every 16-bit symbol occurs exactly once: the
symbols `0x0000`, `0x0001`, ..., `0xFFFF`, high byte first. -/
def allSymbolsFile : List Nat := (List.range 65536).flatMap (fun s => [s / 256, s % 256])

/-- The file in which symbol `k`, `k + 1`, ... occur `counts[0]`, `counts[1]`, ...
times, in runs. -/
def fileOfCounts : Nat → List Nat → List Nat
  | _, [] => []
  | k, c :: counts => List.replicate c k ++ fileOfCounts (k + 1) counts

/-- Byte counts that fall like the Fibonacci numbers: byte `k` occurs `F (34 - k)`
times, for `k = 0, ..., 33`. -/
def skewCounts : List Nat :=
  [5702887, 3524578, 2178309, 1346269, 832040, 514229, 317811, 196418, 121393, 75025, 46368,
    28657, 17711, 10946, 6765, 4181, 2584, 1597, 987, 610, 377, 233, 144, 89, 55, 34, 21, 13,
    8, 5, 3, 2, 1, 1]

/-- The frequency table of `skewedFile`. -/
def skewFreq (s : Nat) : Nat := skewCounts.getD s 0

/-- A file of 14930351 bytes with the byte counts `skewCounts`. -/
def skewedFile : List Nat := fileOfCounts 0 skewCounts

/-- The tree `GenerateCodes` builds for `skewedFile`: a comb, every left child a leaf,
with the two rarest bytes at depth 33. -/
def skewTree : Nat → HuffNode
  | 0 => .node 2 (.leaf 1 32) (.leaf 1 33)
  | k + 1 => .node (skewFreq (31 - k) + (skewTree k).freq) (.leaf (skewFreq (31 - k)) (31 - k))
      (skewTree k)

/-- Byte counts that fall like the Fibonacci numbers: byte `k` occurs `F (66 - k)`
times, for `k = 0, ..., 65`. -/
def deepCounts : List Nat :=
  [27777890035288, 17167680177565, 10610209857723, 6557470319842, 4052739537881, 2504730781961,
    1548008755920, 956722026041, 591286729879, 365435296162, 225851433717, 139583862445,
    86267571272, 53316291173, 32951280099, 20365011074, 12586269025, 7778742049, 4807526976,
    2971215073, 1836311903, 1134903170, 701408733, 433494437, 267914296, 165580141, 102334155,
    63245986, 39088169, 24157817, 14930352, 9227465, 5702887, 3524578, 2178309, 1346269,
    832040, 514229, 317811, 196418, 121393, 75025, 46368, 28657, 17711, 10946, 6765, 4181,
    2584, 1597, 987, 610, 377, 233, 144, 89, 55, 34, 21, 13, 8, 5, 3, 2, 1, 1]

/-- The frequency table of `deepFile`. -/
def deepFreq (s : Nat) : Nat := deepCounts.getD s 0

/-- A file of 72723460248140 bytes with the byte counts `deepCounts`. -/
def deepFile : List Nat := fileOfCounts 0 deepCounts

/-- The tree `GenerateCodes` builds for `deepFile`: a comb, every left child a leaf,
with the two rarest bytes at depth 65. -/
def deepTree : Nat → HuffNode
  | 0 => .node 2 (.leaf 1 64) (.leaf 1 65)
  | k + 1 => .node (deepFreq (63 - k) + (deepTree k).freq) (.leaf (deepFreq (63 - k)) (63 - k))
      (deepTree k)

/-- The symbols the payload loop decodes in `m` rounds (each round is the inner loop
`while (!current_node->is_leaf)` from the root), and the reader after them; `none`
when a round fails. -/
def decodeSymbols (decoding_root : DecodingTreeNode) :
    Nat → BitReader → Option (List Nat × BitReader)
  | 0, reader => some ([], reader)
  | m + 1, reader =>
    match walkToLeaf decoding_root reader with
    | (none, _) => none
    | (some decoded_symbol_value, reader') =>
      match decodeSymbols decoding_root m reader' with
      | none => none
      | some (syms, reader'') => some (decoded_symbol_value :: syms, reader'')

/-- The calls of `InsertIntoDecodingTree` that the table loop of `DecodeArchive` makes
for a sequence of records `(symbol, code, code_len)`, in their order; `none` when a
call returns 0. -/
def insertRecords : List (Nat × Nat × Nat) → DecodingTreeNode → Option DecodingTreeNode
  | [], decoding_root => some decoding_root
  | record :: rest, decoding_root =>
    match InsertIntoDecodingTree decoding_root record.1 record.2.1 record.2.2 with
    | none => none
    | some decoding_root' => insertRecords rest decoding_root'

/-- The code word of a table record: bits `code_len - 1` down to 0 of its code, the
path `InsertIntoDecodingTree` walks. -/
def recordWord (record : Nat × Nat × Nat) : List Bool := natBits record.2.2 record.2.1

/-- The table count `huff_table_entry_count` that `decodeEntry` reads for the entry at
`reader`. -/
def tableCount (reader : BitReader) : Nat :=
  (BitReaderReadBits (BitReaderReadUint64 (readName ((BitReaderReadBits reader 16).1 % 2 ^ 16)
    (BitReaderReadBits reader 16).2).2).2 16).1 % 2 ^ 16

/-- The reader at the first table record of the entry at `reader`. -/
def tableReader (reader : BitReader) : BitReader :=
  (BitReaderReadBits (BitReaderReadUint64 (readName ((BitReaderReadBits reader 16).1 % 2 ^ 16)
    (BitReaderReadBits reader 16).2).2).2 16).2

/-- The field `code_len` of the table record at `reader`, with the reader after it. -/
def recordLen (symbol_size_val : Nat) (reader : BitReader) : Nat × BitReader :=
  BitReaderReadBits (if symbol_size_val = 1 then BitReaderReadBits reader 8
    else BitReaderReadBits reader 16).2 8

/-- The symbol of the table record at `reader`. -/
def recordSymbol (symbol_size_val : Nat) (reader : BitReader) : Nat :=
  (if symbol_size_val = 1 then BitReaderReadBits reader 8
    else BitReaderReadBits reader 16).1 % 2 ^ 16

/-- The code of the table record at `reader` (`code_len` bits read into an
`unsigned int`), with the reader after the record. -/
def recordCode (symbol_size_val : Nat) (reader : BitReader) : Nat × BitReader :=
  if (recordLen symbol_size_val reader).1 % 2 ^ 8 > 0 then
    BitReaderReadBits (recordLen symbol_size_val reader).2
      ((recordLen symbol_size_val reader).1 % 2 ^ 8)
  else (0, (recordLen symbol_size_val reader).2)

/-- The symbol framing in the words of the specification (a second definition, to be
compared with the two loops of the source): for `W = 1` every byte is a symbol; for
`W = 2` the symbol of a byte pair is `(hi << 8) | lo`, and the trailing byte of an
odd-length input gives `(hi << 8) | 0x00`. -/
def specSymbols (W : Nat) : List Nat → List Nat
  | [] => []
  | [hi] => if W = 1 then [hi] else [(hi <<< 8) ||| 0x00]
  | hi :: lo :: rest =>
    if W = 1 then hi :: specSymbols W (lo :: rest)
    else ((hi <<< 8) ||| lo) :: specSymbols W rest

/-! ## Heap order and the merge loop -/

/-- The frequency in slot `i` of the heap array. -/
def keyAt (data : List HuffNode) (i : Nat) : Nat := (data.getD i default).freq

/-- The array is a min-heap on the frequencies: no slot holds a smaller frequency
than its parent slot `(i - 1) / 2`. -/
def IsMinHeap (data : List HuffNode) : Prop :=
  ∀ i, 0 < i → i < data.length → keyAt data ((i - 1) / 2) ≤ keyAt data i

/-- The heap order holds except for the slot `i` against its parent (the state of
`HeapifyUp` at `i`): the children of `i` are not below the parent of `i`. -/
def UpInv (data : List HuffNode) (i : Nat) : Prop :=
  (∀ j, 0 < j → j < data.length → j ≠ i → keyAt data ((j - 1) / 2) ≤ keyAt data j) ∧
    (0 < i → ∀ j, j < data.length → (j - 1) / 2 = i → 0 < j →
      keyAt data ((i - 1) / 2) ≤ keyAt data j)

/-- The heap order holds except for the slot `i` against its children (the state of
`HeapifyDown` at `i`): the children of `i` are not below the parent of `i`. -/
def DownInv (data : List HuffNode) (i : Nat) : Prop :=
  (∀ j, 0 < j → j < data.length → (j - 1) / 2 ≠ i →
      keyAt data ((j - 1) / 2) ≤ keyAt data j) ∧
    (0 < i → ∀ j, j < data.length → (j - 1) / 2 = i → 0 < j →
      keyAt data ((i - 1) / 2) ≤ keyAt data j)

/-- The sum of the leaf frequencies of a tree. -/
def HuffNode.weight : HuffNode → Nat
  | .leaf freq _ => freq
  | .node _ left right => left.weight + right.weight

/-- The invariant of the merge loop of `GenerateCodes`: the array is a min-heap within
its capacity, every node's `freq` is the sum of the counts at its leaves, and the
counts of all trees add up to `total`. -/
def MergeInv (total : Nat) (heap : MinHeap) : Prop :=
  IsMinHeap heap.data ∧ heap.size ≤ heap.capacity ∧
    (∀ x ∈ heap.data, x.freq = x.weight) ∧ (heap.data.map HuffNode.weight).sum = total

/-- The weighted path length of a tree, the sum over its leaves of count times
depth, computed as the sum of the weights of all subtrees below the root. -/
def HuffNode.cost : HuffNode → Nat
  | .leaf _ _ => 0
  | .node _ left right => left.cost + right.cost + left.weight + right.weight

/-- Every leaf of the tree carries the count of its symbol. -/
def LeafFreq (freq_table : Nat → Nat) : HuffNode → Prop
  | .leaf freq symbol => freq = freq_table symbol
  | .node _ left right => LeafFreq freq_table left ∧ LeafFreq freq_table right

/-- The merge costs of the greedy procedure: `Greedy W c` when repeatedly replacing two
least weights `a ≤ b` of the multiset by `a + b`, down to a single weight, adds up the
sums `a + b` to `c` (for some choice among equal weights). -/
inductive Greedy : Multiset Nat → Nat → Prop
  | single (w : Nat) : Greedy {w} 0
  | merge (a b : Nat) (W : Multiset Nat) (c : Nat) (hab : a ≤ b) (hb : ∀ w ∈ W, b ≤ w)
      (h : Greedy ((a + b) ::ₘ W) c) : Greedy (a ::ₘ b ::ₘ W) (c + a + b)

/-! ## Code lengths: Kraft sums and weighted length -/

/-- The Kraft sum of a multiset of code lengths, scaled by `2 ^ D`. -/
def ksum (D : Nat) (ls : Multiset Nat) : Nat := (ls.map (fun l => 2 ^ (D - l))).sum

/-- The weighted length sum of a multiset of (count, code length) pairs. -/
def mcost (M : Multiset (Nat × Nat)) : Nat := (M.map (fun x => x.1 * x.2)).sum

/-- The words of a list that start with the bit `b`, without that bit. -/
def tailsOf (b : Bool) (ws : List (List Bool)) : List (List Bool) :=
  ws.filterMap (fun w => match w with
    | c :: t => if c = b then some t else none
    | [] => none)

/-! ## The bit writer and the bit reader -/

set_option maxRecDepth 100000 in
theorem accumulator_cases : ∀ pos < 8, ∀ k < 2 ^ pos,
    ((natBits 8 ((k * 2 ^ (8 - pos) ||| (1 <<< (7 - pos))) % 256)).take (pos + 1)
        = (natBits 8 (k * 2 ^ (8 - pos))).take pos ++ [true]
      ∧ (natBits 8 (k * 2 ^ (8 - pos))).take (pos + 1)
        = (natBits 8 (k * 2 ^ (8 - pos))).take pos ++ [false]
      ∧ (k * 2 ^ (8 - pos) ||| (1 <<< (7 - pos))) % 256 < 256
      ∧ ((k * 2 ^ (8 - pos) ||| (1 <<< (7 - pos))) % 256) % 2 ^ (8 - (pos + 1)) = 0
      ∧ (k * 2 ^ (8 - pos)) % 2 ^ (8 - (pos + 1)) = 0
      ∧ natBits 8 (k * 2 ^ (8 - pos))
        = (natBits 8 (k * 2 ^ (8 - pos))).take pos ++ List.replicate (8 - pos) false) := by
  decide

theorem accumulator_step (pos : Nat) (hpos : pos < 8) (buf : Nat) (hbuf : buf < 256)
    (hlow : buf % 2 ^ (8 - pos) = 0) :
    ((natBits 8 ((buf ||| (1 <<< (7 - pos))) % 256)).take (pos + 1)
        = (natBits 8 buf).take pos ++ [true]
      ∧ (natBits 8 buf).take (pos + 1) = (natBits 8 buf).take pos ++ [false]
      ∧ (buf ||| (1 <<< (7 - pos))) % 256 < 256
      ∧ ((buf ||| (1 <<< (7 - pos))) % 256) % 2 ^ (8 - (pos + 1)) = 0
      ∧ buf % 2 ^ (8 - (pos + 1)) = 0
      ∧ natBits 8 buf = (natBits 8 buf).take pos ++ List.replicate (8 - pos) false) := by
  have hk : buf / 2 ^ (8 - pos) * 2 ^ (8 - pos) = buf :=
    Nat.div_mul_cancel (Nat.dvd_of_mod_eq_zero hlow)
  have hlt : buf / 2 ^ (8 - pos) < 2 ^ pos := by
    rw [Nat.div_lt_iff_lt_mul (by positivity)]
    rw [← pow_add]
    have : pos + (8 - pos) = 8 := by omega
    rw [this]; exact hbuf
  have := accumulator_cases pos hpos (buf / 2 ^ (8 - pos)) hlt
  rw [hk] at this
  exact this

theorem natBits_length (n v : Nat) : (natBits n v).length = n := by
  induction n with
  | zero => rfl
  | succ n ih => simp [natBits, ih]

theorem bytesToBits_append (a b : List Nat) :
    bytesToBits (a ++ b) = bytesToBits a ++ bytesToBits b := by
  induction a with
  | nil => rfl
  | cons x a ih => simp [bytesToBits, ih]

theorem bytesToBits_length (a : List Nat) : (bytesToBits a).length = 8 * a.length := by
  induction a with
  | nil => rfl
  | cons x a ih => simp [bytesToBits, natBits_length, ih]; omega

theorem bit_ne_zero_eq_testBit (v i : Nat) : decide ((v >>> i) &&& 1 ≠ 0) = v.testBit i := by
  unfold Nat.testBit
  rw [Nat.land_comm]
  cases h : (1 &&& v >>> i) with
  | zero => simp
  | succ k => simp

theorem and_one_eq_toNat (v i : Nat) : (v >>> i) &&& 1 = (v.testBit i).toNat := by
  have h := bit_ne_zero_eq_testBit v i
  have h1 : (v >>> i) &&& 1 = (v >>> i) % 2 := Nat.and_one_is_mod _
  rcases Nat.mod_two_eq_zero_or_one (v >>> i) with h2 | h2
  · rw [h1, h2] at h; rw [h1, h2, ← h]; simp
  · rw [h1, h2] at h; rw [h1, h2, ← h]; simp

theorem BitWriterOpen_ok : BitWriterOpen.Ok := by
  simp [BitWriter.Ok, BitWriterOpen]

theorem BitWriterOpen_written : BitWriterOpen.written = [] := by
  simp [BitWriter.written, BitWriterOpen, bytesToBits]

theorem writeBit_aux (w : BitWriter) (h : w.Ok) (buf : Nat) (b : Bool)
    (ht : (natBits 8 buf).take (w.bitPos + 1) = (natBits 8 w.buffer).take w.bitPos ++ [b])
    (hlt : buf < 256) (hl : buf % 2 ^ (8 - (w.bitPos + 1)) = 0) :
    (if w.bitPos + 1 = 8 then (⟨w.file ++ [buf], 0, 0⟩ : BitWriter)
      else ⟨w.file, buf, w.bitPos + 1⟩).Ok ∧
    (if w.bitPos + 1 = 8 then (⟨w.file ++ [buf], 0, 0⟩ : BitWriter)
      else ⟨w.file, buf, w.bitPos + 1⟩).written = w.written ++ [b] := by
  obtain ⟨hpos, hbuf, hlow, hfile⟩ := h
  by_cases h8 : w.bitPos + 1 = 8
  · have hfull : natBits 8 buf = (natBits 8 w.buffer).take w.bitPos ++ [b] := by
      rw [← ht, h8, List.take_of_length_le (by simp [natBits_length])]
    rw [if_pos h8]
    refine ⟨⟨by simp, by simp, by simp, ?_⟩, ?_⟩
    · intro x hx
      rcases List.mem_append.1 hx with hm | hm
      · exact hfile x hm
      · simp at hm; omega
    · simp [BitWriter.written, bytesToBits_append, bytesToBits, hfull]
  · rw [if_neg h8]
    refine ⟨⟨by simp; omega, hlt, hl, hfile⟩, ?_⟩
    simp [BitWriter.written, ht]

theorem BitWriterWriteBit_spec (w : BitWriter) (bit : Nat) (h : w.Ok) :
    (BitWriterWriteBit w bit).Ok ∧
      (BitWriterWriteBit w bit).written = w.written ++ [decide (bit ≠ 0)] := by
  obtain ⟨h1, h0, hlt, hl1, hl0, _⟩ := accumulator_step w.bitPos h.1 w.buffer h.2.1 h.2.2.1
  unfold BitWriterWriteBit
  by_cases hb : bit ≠ 0
  · have hd : decide (bit ≠ 0) = true := by simp [hb]
    simp only [if_pos hb, hd]
    exact writeBit_aux w h _ true h1 hlt hl1
  · have hd : decide (bit ≠ 0) = false := by simp [hb]
    simp only [if_neg hb, hd]
    exact writeBit_aux w h _ false h0 h.2.1 hl0

theorem writeBitsLoop_spec (v : Nat) : ∀ (n : Nat) (w : BitWriter), w.Ok →
    (writeBitsLoop v n w).Ok ∧ (writeBitsLoop v n w).written = w.written ++ natBits n v := by
  intro n
  induction n with
  | zero => intro w h; simp [writeBitsLoop, natBits, h]
  | succ n ih =>
    intro w h
    obtain ⟨hok, hw⟩ := BitWriterWriteBit_spec w ((v >>> n) &&& 1) h
    obtain ⟨hok2, hw2⟩ := ih _ hok
    refine ⟨hok2, ?_⟩
    simp only [writeBitsLoop]
    rw [hw2, hw, bit_ne_zero_eq_testBit]
    simp [natBits]

theorem BitWriterWriteBits_spec (w : BitWriter) (v n : Nat) (h : w.Ok) :
    (BitWriterWriteBits w v n).Ok ∧
      (BitWriterWriteBits w v n).written = w.written ++ natBits n (v % 2 ^ 32) :=
  writeBitsLoop_spec _ n w h

theorem BitWriterClose_spec (w : BitWriter) (h : w.Ok) :
    bytesToBits (BitWriterClose w) = w.written ++ List.replicate ((8 - w.bitPos) % 8) false ∧
      ∀ b ∈ BitWriterClose w, b < 256 := by
  obtain ⟨_, _, _, _, _, hpad⟩ := accumulator_step w.bitPos h.1 w.buffer h.2.1 h.2.2.1
  obtain ⟨hpos, hbuf, hlow, hfile⟩ := h
  unfold BitWriterClose BitWriterFlush
  by_cases h0 : w.bitPos > 0
  · rw [if_pos h0]
    refine ⟨?_, ?_⟩
    · have : (8 - w.bitPos) % 8 = 8 - w.bitPos := Nat.mod_eq_of_lt (by omega)
      rw [this]
      simp only [BitWriter.written, bytesToBits_append, bytesToBits, List.append_nil,
        List.append_assoc]
      rw [← hpad]
    · intro x hx
      rcases List.mem_append.1 hx with hm | hm
      · exact hfile x hm
      · simp at hm; omega
  · rw [if_neg h0]
    have hz : w.bitPos = 0 := by omega
    refine ⟨?_, hfile⟩
    simp [BitWriter.written, hz]

theorem natBits_drop (v : Nat) : ∀ (n pos : Nat), pos ≤ n →
    (natBits n v).drop pos = natBits (n - pos) v := by
  intro n
  induction n with
  | zero => intro pos h; simp [natBits]
  | succ n ih =>
    intro pos h
    cases pos with
    | zero => simp
    | succ p =>
      have : n + 1 - (p + 1) = n - p := by omega
      rw [this]
      simp only [natBits, List.drop_succ_cons]
      exact ih p (by omega)

theorem Reads_open (archive : List Nat) : Reads (BitReaderOpen archive) (bytesToBits archive) := by
  refine ⟨by simp [BitReaderOpen], ?_⟩
  simp [BitReader.remaining, BitReaderOpen, natBits_drop 0 8 8 (le_refl 8), natBits]

theorem Reads_length (r : BitReader) (bits : List Bool) (h : Reads r bits) :
    bits.length = (8 - r.bitPos) + 8 * r.file.length := by
  obtain ⟨hpos, hrem⟩ := h
  rw [← hrem]
  simp [BitReader.remaining, natBits_length, bytesToBits_length]

theorem BitReaderReadBit_nil (r : BitReader) (h : Reads r []) :
    BitReaderReadBit r = (none, r) := by
  have hlen := Reads_length r [] h
  obtain ⟨hpos, hrem⟩ := h
  simp only [List.length_nil] at hlen
  have h8 : r.bitPos = 8 := by omega
  have hf : r.file = [] := by
    cases hfile : r.file with
    | nil => rfl
    | cons x rest => simp [hfile] at hlen; omega
  simp [BitReaderReadBit, h8, hf]

theorem BitReaderReadBit_cons (r : BitReader) (b : Bool) (bits : List Bool)
    (h : Reads r (b :: bits)) :
    ∃ r', BitReaderReadBit r = (some b.toNat, r') ∧ Reads r' bits := by
  obtain ⟨hpos, hrem⟩ := h
  unfold BitReader.remaining at hrem
  rw [natBits_drop _ 8 _ hpos.2] at hrem
  by_cases h8 : r.bitPos = 8
  · cases hfile : r.file with
    | nil => simp [hfile, bytesToBits, h8, natBits] at hrem
    | cons x rest =>
      rw [h8, hfile] at hrem
      simp only [bytesToBits, natBits, List.nil_append, List.cons_append, List.cons.injEq,
        Nat.sub_self] at hrem
      refine ⟨⟨rest, x, 0 + 1⟩, ?_, ?_, ?_⟩
      · simp only [BitReaderReadBit, h8, hfile, if_true]
        rw [and_one_eq_toNat, ← hrem.1]
      · simp
      · simp only [BitReader.remaining]
        rw [natBits_drop _ 8 (0 + 1) (by omega)]
        simp only [natBits]
        exact hrem.2
  · have hlt : r.bitPos < 8 := by omega
    obtain ⟨m, hm⟩ : ∃ m, 8 - r.bitPos = m + 1 := ⟨7 - r.bitPos, by omega⟩
    have hm7 : 7 - r.bitPos = m := by omega
    rw [hm] at hrem
    simp only [natBits, List.cons_append, List.cons.injEq] at hrem
    refine ⟨⟨r.file, r.buffer, r.bitPos + 1⟩, ?_, ?_, ?_⟩
    · simp only [BitReaderReadBit, h8, if_false]
      rw [and_one_eq_toNat, hm7, ← hrem.1]
    · simp; omega
    · simp only [BitReader.remaining]
      rw [natBits_drop _ 8 _ (by omega)]
      have : 8 - (r.bitPos + 1) = m := by omega
      rw [this]
      exact hrem.2

theorem readBitsLoop_spec : ∀ (n result : Nat) (r : BitReader) (bits : List Bool),
    Reads r bits →
    ∃ r', readBitsLoop n result r = (accBits result (bits.take n), r') ∧
      Reads r' (bits.drop n) := by
  intro n
  induction n with
  | zero => intro result r bits h; exact ⟨r, by simp [readBitsLoop, accBits], by simpa using h⟩
  | succ n ih =>
    intro result r bits h
    cases bits with
    | nil =>
      refine ⟨r, ?_, by simpa using h⟩
      simp [readBitsLoop, BitReaderReadBit_nil r h, accBits]
    | cons b bits =>
      obtain ⟨r1, h1, hr1⟩ := BitReaderReadBit_cons r b bits h
      obtain ⟨r2, h2, hr2⟩ := ih (((result <<< 1) ||| b.toNat) % 2 ^ 32) r1 bits hr1
      refine ⟨r2, ?_, by simpa using hr2⟩
      simp only [readBitsLoop, h1, h2]
      simp [accBits]

theorem BitReaderReadBits_spec (r : BitReader) (n : Nat) (bits : List Bool) (h : Reads r bits) :
    ∃ r', BitReaderReadBits r n = (accBits 0 (bits.take n), r') ∧ Reads r' (bits.drop n) :=
  readBitsLoop_spec n 0 r bits h

theorem accBits_natBits (v : Nat) : ∀ (n a : Nat), a < 2 ^ 32 →
    accBits a (natBits n v) = (a * 2 ^ n + v % 2 ^ n) % 2 ^ 32 := by
  intro n
  induction n with
  | zero =>
    intro a ha
    simp only [accBits, natBits, List.foldl_nil, pow_zero, Nat.mul_one, Nat.mod_one, Nat.add_zero]
    exact (Nat.mod_eq_of_lt ha).symm
  | succ n ih =>
    intro a _
    have hstep : accBits a (natBits (n + 1) v)
        = accBits (((a <<< 1) ||| (v.testBit n).toNat) % 2 ^ 32) (natBits n v) := by
      simp [accBits, natBits]
    have hor : (a <<< 1) ||| (v.testBit n).toNat = 2 * a + (v.testBit n).toNat := by
      have hb : (v.testBit n).toNat < 2 ^ 1 := by
        have := Bool.toNat_le (v.testBit n); omega
      have := Nat.mul_add_lt_is_or hb a
      rw [Nat.shiftLeft_eq, Nat.mul_comm a (2 ^ 1)]
      simpa using this.symm
    have hmod : v % 2 ^ (n + 1) = v % 2 ^ n + 2 ^ n * (v.testBit n).toNat := by
      rw [Nat.mod_pow_succ, Nat.toNat_testBit]
    rw [hstep, ih _ (Nat.mod_lt _ (by positivity)), hor, hmod]
    have h32 : ((2 * a + (v.testBit n).toNat) % 2 ^ 32 * 2 ^ n + v % 2 ^ n) % 2 ^ 32
        = ((2 * a + (v.testBit n).toNat) * 2 ^ n + v % 2 ^ n) % 2 ^ 32 := by
      rw [Nat.add_mod, Nat.mul_mod, Nat.mod_mod, ← Nat.mul_mod, ← Nat.add_mod]
    rw [h32]
    congr 1
    rw [pow_succ]
    ring

theorem accBits_natBits_zero (v n : Nat) (hn : n ≤ 32) :
    accBits 0 (natBits n v) = v % 2 ^ n := by
  rw [accBits_natBits v n 0 (by positivity)]
  simp only [Nat.zero_mul, Nat.zero_add]
  apply Nat.mod_eq_of_lt
  calc v % 2 ^ n < 2 ^ n := Nat.mod_lt _ (by positivity)
    _ ≤ 2 ^ 32 := Nat.pow_le_pow_right (by norm_num) hn

/-! ## Byte-aligned reads -/

theorem readBits_fst (r : BitReader) (n : Nat) (bits : List Bool) (h : Reads r bits) :
    (BitReaderReadBits r n).1 = accBits 0 (bits.take n) := by
  obtain ⟨r', h1, _⟩ := BitReaderReadBits_spec r n bits h
  rw [h1]

theorem readBits_snd (r : BitReader) (n : Nat) (bits : List Bool) (h : Reads r bits) :
    Reads (BitReaderReadBits r n).2 (bits.drop n) := by
  obtain ⟨r', h1, h2⟩ := BitReaderReadBits_spec r n bits h
  rw [h1]; exact h2

theorem readByte_fst (r : BitReader) (a : List Nat) (h : Reads r (bytesToBits a)) :
    (BitReaderReadBits r 8).1 = a.headD 0 % 2 ^ 8 := by
  rw [readBits_fst r 8 _ h]
  cases a with
  | nil => simp [bytesToBits, accBits]
  | cons x rest =>
    have : (bytesToBits (x :: rest)).take 8 = natBits 8 x := by
      simp [bytesToBits, List.take_append_of_le_length, natBits_length]
    rw [this, accBits_natBits_zero x 8 (by norm_num)]
    rfl

theorem readByte_snd (r : BitReader) (a : List Nat) (h : Reads r (bytesToBits a)) :
    Reads (BitReaderReadBits r 8).2 (bytesToBits a.tail) := by
  have h2 := readBits_snd r 8 _ h
  cases a with
  | nil => simpa [bytesToBits] using h2
  | cons x rest =>
    have : (bytesToBits (x :: rest)).drop 8 = bytesToBits rest := by
      simp [bytesToBits, List.drop_append_of_le_length, natBits_length]
    rw [this] at h2
    exact h2

theorem readName_bytes : ∀ (k : Nat) (r : BitReader) (a : List Nat), Reads r (bytesToBits a) →
    (readName k r).1 = padBytes k a ∧ Reads (readName k r).2 (bytesToBits (a.drop k)) := by
  intro k
  induction k with
  | zero => intro r a h; exact ⟨rfl, by simpa [readName] using h⟩
  | succ k ih =>
    intro r a h
    obtain ⟨h1, h2⟩ := ih _ a.tail (readByte_snd r a h)
    refine ⟨?_, ?_⟩
    · simp only [readName, padBytes, h1, readByte_fst r a h]
      simp
    · simp only [readName]
      have : a.drop (k + 1) = a.tail.drop k := by
        cases a <;> simp
      rw [this]; exact h2

theorem padBytes_eq_iff : ∀ (k : Nat) (a l : List Nat), (∀ b ∈ a, b < 256) →
    (∀ x ∈ l, x ≠ 0) → l.length = k → (padBytes k a = l ↔ a.take k = l) := by
  intro k
  induction k with
  | zero => intro a l _ _ hl; simp [padBytes, List.length_eq_zero.1 hl]
  | succ k ih =>
    intro a l ha hl hlen
    cases l with
    | nil => simp at hlen
    | cons x l =>
      have hx : x ≠ 0 := hl x (by simp)
      cases a with
      | nil =>
        simp only [padBytes, List.headD_nil, Nat.zero_mod, List.cons.injEq, List.take_nil]
        constructor
        · intro h; exact absurd h.1.symm hx
        · intro h; simp at h
      | cons y a =>
        have hy : y < 256 := ha y (by simp)
        have := ih a l (fun b hb => ha b (by simp [hb])) (fun z hz => hl z (by simp [hz]))
          (by simpa using hlen)
        simp only [padBytes, List.headD_cons, List.tail_cons, List.cons.injEq, List.take_succ_cons,
          this]
        have hmod : y % 2 ^ 8 = y := Nat.mod_eq_of_lt (by simpa using hy)
        rw [hmod]

theorem Reads_file_length (r : BitReader) (a : List Nat) (h : Reads r (bytesToBits a)) :
    a.length ≤ r.file.length := by
  have := Reads_length r _ h
  rw [bytesToBits_length] at this
  have := h.1.1
  omega

/-! ## The bits written by the encoder -/

theorem writeBytes_spec : ∀ (bytes : List Nat) (w : BitWriter), w.Ok →
    (writeBytes bytes w).Ok ∧ (writeBytes bytes w).written = w.written ++ bytesBits bytes := by
  intro bytes
  induction bytes with
  | nil => intro w h; simp [writeBytes, bytesBits, h]
  | cons c rest ih =>
    intro w h
    obtain ⟨h1, h2⟩ := BitWriterWriteBits_spec w c 8 h
    obtain ⟨h3, h4⟩ := ih _ h1
    refine ⟨h3, ?_⟩
    simp only [writeBytes]
    rw [h4, h2]
    simp [bytesBits]

theorem writeHeader_spec (n symbol_size : Nat) :
    (writeHeader n symbol_size).Ok ∧
      (writeHeader n symbol_size).written = headerBits n symbol_size := by
  obtain ⟨h1, h2⟩ := writeBytes_spec MAGIC_BYTES BitWriterOpen BitWriterOpen_ok
  obtain ⟨h3, h4⟩ := BitWriterWriteBits_spec _ ARCHIVE_VERSION 8 h1
  obtain ⟨h5, h6⟩ := BitWriterWriteBits_spec _ (symbol_size % 2 ^ 8) 8 h3
  obtain ⟨h7, h8⟩ := BitWriterWriteBits_spec _ (n % 2 ^ 32) 32 h5
  refine ⟨h7, ?_⟩
  unfold writeHeader
  rw [h8, h6, h4, h2, BitWriterOpen_written]
  simp [headerBits]

theorem BitWriterWriteUint64_spec (w : BitWriter) (value : Nat) (h : w.Ok) :
    (BitWriterWriteUint64 w value).Ok ∧
      (BitWriterWriteUint64 w value).written = w.written ++
        (natBits 32 ((value % 2 ^ 64) >>> 32 % 2 ^ 32) ++
          natBits 32 (((value % 2 ^ 64) &&& 0xFFFFFFFF) % 2 ^ 32)) := by
  obtain ⟨h1, h2⟩ := BitWriterWriteBits_spec w ((value % 2 ^ 64) >>> 32) 32 h
  obtain ⟨h3, h4⟩ := BitWriterWriteBits_spec _ ((value % 2 ^ 64) &&& 0xFFFFFFFF) 32 h1
  refine ⟨h3, ?_⟩
  unfold BitWriterWriteUint64
  rw [h4, h2]
  simp

theorem writeTableRecord_spec (symbol_size : Nat) (huff_codes : CodeTable) (w : BitWriter)
    (s : Nat) (h : w.Ok) :
    (writeTableRecord symbol_size huff_codes w s).Ok ∧
      (writeTableRecord symbol_size huff_codes w s).written =
        w.written ++ recordBits symbol_size huff_codes s := by
  unfold writeTableRecord recordBits
  by_cases hc : (huff_codes s).code_len > 0
  · rw [if_pos hc, if_pos hc]
    have hsym : (if symbol_size = 1 then BitWriterWriteBits w (s % 2 ^ 8) 8
          else if symbol_size = 2 then BitWriterWriteBits w (s % 2 ^ 16) 16 else w).Ok ∧
        (if symbol_size = 1 then BitWriterWriteBits w (s % 2 ^ 8) 8
          else if symbol_size = 2 then BitWriterWriteBits w (s % 2 ^ 16) 16 else w).written =
        w.written ++ (if symbol_size = 1 then natBits 8 (s % 2 ^ 8 % 2 ^ 32)
          else if symbol_size = 2 then natBits 16 (s % 2 ^ 16 % 2 ^ 32) else []) := by
      by_cases h1 : symbol_size = 1
      · rw [if_pos h1, if_pos h1]; exact BitWriterWriteBits_spec w _ 8 h
      · by_cases h2 : symbol_size = 2
        · rw [if_neg h1, if_neg h1, if_pos h2, if_pos h2]
          exact BitWriterWriteBits_spec w _ 16 h
        · rw [if_neg h1, if_neg h1, if_neg h2, if_neg h2]
          exact ⟨h, (List.append_nil _).symm⟩
    obtain ⟨h1, h2⟩ := hsym
    obtain ⟨h3, h4⟩ := BitWriterWriteBits_spec _ (huff_codes s).code_len 8 h1
    obtain ⟨h5, h6⟩ := BitWriterWriteBits_spec _ (huff_codes s).code (huff_codes s).code_len h3
    refine ⟨h5, ?_⟩
    rw [h6, h4, h2]
    simp only [codeBits, List.append_assoc]
  · rw [if_neg hc, if_neg hc]
    exact ⟨h, (List.append_nil _).symm⟩

theorem foldl_written {α : Type} (f : BitWriter → α → BitWriter) (g : α → List Bool)
    (hf : ∀ w a, w.Ok → (f w a).Ok ∧ (f w a).written = w.written ++ g a) :
    ∀ (l : List α) (w : BitWriter), w.Ok →
      (l.foldl f w).Ok ∧ (l.foldl f w).written = w.written ++ l.flatMap g := by
  intro l
  induction l with
  | nil => intro w h; simp [h]
  | cons a l ih =>
    intro w h
    obtain ⟨h1, h2⟩ := hf w a h
    obtain ⟨h3, h4⟩ := ih _ h1
    refine ⟨h3, ?_⟩
    simp only [List.foldl_cons, List.flatMap_cons]
    rw [h4, h2, List.append_assoc]

theorem writeTable_spec (symbol_size : Nat) (huff_codes : CodeTable) (card : Nat)
    (w : BitWriter) (h : w.Ok) :
    (writeTable symbol_size huff_codes card w).Ok ∧
      (writeTable symbol_size huff_codes card w).written =
        w.written ++ tableBits symbol_size huff_codes card :=
  foldl_written _ _ (fun w a hw => writeTableRecord_spec symbol_size huff_codes w a hw) _ w h

theorem writeSymbol_spec (huff_codes : CodeTable) (w : BitWriter) (s : Nat) (h : w.Ok) :
    (writeSymbol huff_codes w s).Ok ∧
      (writeSymbol huff_codes w s).written = w.written ++ payloadBits huff_codes [s] := by
  unfold writeSymbol payloadBits
  by_cases hc : (huff_codes s).code_len > 0
  · rw [if_pos hc]
    simp only [List.flatMap_cons, List.flatMap_nil, List.append_nil, if_pos hc]
    exact BitWriterWriteBits_spec w _ _ h
  · rw [if_neg hc]
    simp only [List.flatMap_cons, List.flatMap_nil, List.append_nil, if_neg hc]
    exact ⟨h, trivial⟩

theorem payloadBits_cons (huff_codes : CodeTable) (s : Nat) (syms : List Nat) :
    payloadBits huff_codes (s :: syms) =
      payloadBits huff_codes [s] ++ payloadBits huff_codes syms := by
  simp [payloadBits]

theorem encodePayload_spec (symbol_size : Nat) (huff_codes : CodeTable) :
    ∀ (n : Nat) (content : List Nat) (w : BitWriter), content.length ≤ n → w.Ok →
      (encodePayload symbol_size huff_codes content w).Ok ∧
        (encodePayload symbol_size huff_codes content w).written =
          w.written ++ payloadBits huff_codes (symbolsOf symbol_size content) := by
  intro n
  induction n with
  | zero =>
    intro content w hlen h
    have : content = [] := List.length_eq_zero.1 (by omega)
    subst this
    simp [encodePayload, symbolsOf, payloadBits, h]
  | succ n ih =>
    intro content w hlen h
    match content with
    | [] => simp [encodePayload, symbolsOf, payloadBits, h]
    | [c1] =>
      unfold encodePayload symbolsOf
      by_cases h1 : symbol_size = 1
      · rw [if_pos h1, if_pos h1]; exact writeSymbol_spec huff_codes w c1 h
      · by_cases h2 : symbol_size = 2
        · rw [if_neg h1, if_neg h1, if_pos h2, if_pos h2]
          exact writeSymbol_spec huff_codes w _ h
        · rw [if_neg h1, if_neg h1, if_neg h2, if_neg h2]
          exact ⟨h, by simp [payloadBits]⟩
    | c1 :: c2 :: rest =>
      unfold encodePayload symbolsOf
      by_cases h1 : symbol_size = 1
      · rw [if_pos h1, if_pos h1]
        obtain ⟨h3, h4⟩ := writeSymbol_spec huff_codes w c1 h
        obtain ⟨h5, h6⟩ := ih (c2 :: rest) _ (by simp at hlen ⊢; omega) h3
        refine ⟨h5, ?_⟩
        rw [h6, h4, payloadBits_cons huff_codes c1 (symbolsOf symbol_size (c2 :: rest)),
          List.append_assoc]
      · by_cases h2 : symbol_size = 2
        · rw [if_neg h1, if_neg h1, if_pos h2, if_pos h2]
          obtain ⟨h3, h4⟩ := writeSymbol_spec huff_codes w
            ((((c1 <<< 8) % 2 ^ 16) ||| c2) % 2 ^ 16) h
          obtain ⟨h5, h6⟩ := ih rest _ (by simp at hlen ⊢; omega) h3
          refine ⟨h5, ?_⟩
          rw [h6, h4, payloadBits_cons huff_codes _ (symbolsOf symbol_size rest),
            List.append_assoc]
        · rw [if_neg h1, if_neg h1, if_neg h2, if_neg h2]
          exact ⟨h, by simp [payloadBits]⟩

theorem encodeEntry_spec (symbol_size : Nat) (w w' : BitWriter) (input : List Nat × List Nat)
    (h : w.Ok) (he : encodeEntry symbol_size w input = some w') :
    w'.Ok ∧ w'.written = w.written ++ entryBits symbol_size input := by
  unfold encodeEntry at he
  simp only [] at he
  split at he
  · cases he
  · obtain ⟨h1, h2⟩ := BitWriterWriteBits_spec w (input.1.length % 2 ^ 16) 16 h
    obtain ⟨h3, h4⟩ := writeBytes_spec input.1 _ h1
    obtain ⟨h5, h6⟩ := BitWriterWriteUint64_spec _ input.2.length h3
    have hmeta : (BitWriterWriteUint64 (writeBytes input.1
        (BitWriterWriteBits w (input.1.length % 2 ^ 16) 16)) input.2.length).written
        = w.written ++ metaBits input.1 input.2.length := by
      rw [h6, h4, h2]; simp [metaBits]
    split at he
    · rename_i hpos
      split at he
      · cases he
      · rename_i huff_codes hg
        obtain ⟨h7, h8⟩ := BitWriterWriteBits_spec _
          (countActiveCodes huff_codes ((1 <<< (symbol_size * 8)) % 2 ^ 32)) 16 h5
        obtain ⟨h9, h10⟩ := writeTable_spec symbol_size huff_codes
          ((1 <<< (symbol_size * 8)) % 2 ^ 32) _ h7
        obtain ⟨h11, h12⟩ := encodePayload_spec symbol_size huff_codes _ input.2 _ (le_refl _) h9
        simp only [Option.some.injEq] at he
        rw [← he]
        refine ⟨h11, ?_⟩
        rw [h12, h10, h8, hmeta]
        simp only [entryBits, hpos, if_true, hg, List.append_assoc]
    · rename_i hpos
      obtain ⟨h7, h8⟩ := BitWriterWriteBits_spec _ 0 16 h5
      simp only [Option.some.injEq] at he
      rw [← he]
      refine ⟨h7, ?_⟩
      rw [h8, hmeta]
      simp only [entryBits, hpos, if_false, List.append_assoc]

theorem encodeEntries_spec (symbol_size : Nat) : ∀ (inputs : List (List Nat × List Nat))
    (w w' : BitWriter), w.Ok → encodeEntries symbol_size inputs w = some w' →
    w'.Ok ∧ w'.written = w.written ++ inputs.flatMap (entryBits symbol_size) := by
  intro inputs
  induction inputs with
  | nil => intro w w' h he; simp [encodeEntries] at he; subst he; simp [h]
  | cons input rest ih =>
    intro w w' h he
    simp only [encodeEntries] at he
    split at he
    · cases he
    · rename_i w1 h1
      obtain ⟨h2, h3⟩ := encodeEntry_spec symbol_size w w1 input h h1
      obtain ⟨h4, h5⟩ := ih w1 w' h2 he
      refine ⟨h4, ?_⟩
      rw [h5, h3]
      simp

theorem EncodeFiles_bits (inputs : List (List Nat × List Nat)) (symbol_size : Nat)
    (archive : List Nat) (h : EncodeFiles inputs symbol_size = some archive) :
    ∃ pad, pad < 8 ∧ (∀ b ∈ archive, b < 256) ∧
      bytesToBits archive = headerBits inputs.length symbol_size ++
        inputs.flatMap (entryBits symbol_size) ++ List.replicate pad false := by
  unfold EncodeFiles at h
  split at h
  · cases h
  · split at h
    · cases h
    · split at h
      · cases h
      · rename_i w hw
        obtain ⟨h1, h2⟩ := writeHeader_spec inputs.length symbol_size
        obtain ⟨h3, h4⟩ := encodeEntries_spec symbol_size inputs _ w h1 hw
        obtain ⟨h5, h6⟩ := BitWriterClose_spec w h3
        simp only [Option.some.injEq] at h
        subst h
        exact ⟨(8 - w.bitPos) % 8, Nat.mod_lt _ (by norm_num), h6, by rw [h5, h4, h2]⟩

/-! ## The heap keeps the forest -/

theorem SwapNodes_perm (data : List HuffNode) (i j : Nat) (hi : i < data.length)
    (hj : j < data.length) : (SwapNodes data i j).Perm data := by
  have hgi : data.getD i default = data[i] := List.getD_eq_getElem _ _ hi
  have hgj : data.getD j default = data[j] := List.getD_eq_getElem _ _ hj
  unfold SwapNodes
  rw [hgi, hgj, List.perm_iff_count]
  intro b
  have hj' : j < (data.set i data[j]).length := by simpa using hj
  rw [List.count_set _ _ _ _ hj', List.count_set _ _ _ _ hi]
  have hset : (data.set i data[j])[j] = data[j] := by
    rw [List.getElem_set]
    split
    · rename_i h; subst h; rfl
    · rfl
  rw [hset]
  have hci : (if data[i] == b then 1 else 0) ≤ data.count b := by
    split
    · rename_i h
      have : data[i] = b := by simpa using h
      rw [← this]
      exact List.count_pos_iff.2 (List.getElem_mem _)
    · exact Nat.zero_le _
  omega

theorem SwapNodes_length (data : List HuffNode) (i j : Nat) :
    (SwapNodes data i j).length = data.length := by
  simp [SwapNodes]

theorem heapifyDownLoop_perm : ∀ (fuel : Nat) (data : List HuffNode) (i : Nat),
    i < data.length → (heapifyDownLoop fuel data i).Perm data := by
  intro fuel
  induction fuel with
  | zero => intro data i _; exact List.Perm.refl _
  | succ fuel ih =>
    intro data i hi
    have step : ∀ smallest, smallest < data.length →
        (if smallest ≠ i then heapifyDownLoop fuel (SwapNodes data i smallest) smallest
          else data).Perm data := by
      intro smallest hs
      split
      · exact (ih _ _ (by rw [SwapNodes_length]; exact hs)).trans (SwapNodes_perm _ _ _ hi hs)
      · exact List.Perm.refl _
    unfold heapifyDownLoop
    refine step _ ?_
    split_ifs with h1 h2 h3
    · exact h2.1
    · exact h1.1
    · exact h3.1
    · exact hi

theorem heapifyUpLoop_perm : ∀ (fuel : Nat) (data : List HuffNode) (i : Nat),
    i < data.length → (heapifyUpLoop fuel data i).Perm data := by
  intro fuel
  induction fuel with
  | zero => intro data i _; exact List.Perm.refl _
  | succ fuel ih =>
    intro data i hi
    unfold heapifyUpLoop
    split
    · have hp : (i - 1) / 2 < data.length := by omega
      exact (ih _ _ (by rw [SwapNodes_length]; exact hp)).trans (SwapNodes_perm _ _ _ hi hp)
    · exact List.Perm.refl _

theorem PushHeap_perm (heap : MinHeap) (node : HuffNode) (h : heap.size ≠ heap.capacity) :
    (PushHeap heap node).data.Perm (node :: heap.data) ∧
      (PushHeap heap node).capacity = heap.capacity := by
  unfold PushHeap
  rw [if_neg h]
  refine ⟨?_, rfl⟩
  unfold HeapifyUp
  simp only []
  refine (heapifyUpLoop_perm _ _ _ (by simp [MinHeap.size])).trans ?_
  exact List.perm_append_comm

theorem PopHeap_perm (heap : MinHeap) (min : HuffNode) (rest : List HuffNode)
    (h : heap.data = min :: rest) :
    (PopHeap heap).1 = some min ∧ (PopHeap heap).2.data.Perm rest ∧
      (PopHeap heap).2.capacity = heap.capacity := by
  unfold PopHeap
  rw [h]
  simp only [MinHeap.size, h, List.length_cons, Nat.add_sub_cancel]
  by_cases hr : rest.length > 0
  · rw [if_pos hr]
    refine ⟨rfl, ?_, rfl⟩
    unfold HeapifyDown
    simp only [MinHeap.size]
    have hlast : (min :: rest).getD rest.length default = rest.getLast (List.ne_nil_of_length_pos hr) := by
      rw [List.getD_eq_getElem _ _ (by simp)]
      rw [List.getLast_eq_getElem]
      cases rest with
      | nil => simp at hr
      | cons x xs => simp
    have hdata : ((min :: rest).set 0 ((min :: rest).getD rest.length default)).take rest.length
        = rest.getLast (List.ne_nil_of_length_pos hr) :: rest.dropLast := by
      rw [hlast]
      simp only [List.set_cons_zero]
      cases rest with
      | nil => simp at hr
      | cons x xs =>
        simp only [List.length_cons, List.take_succ_cons, List.cons.injEq, true_and]
        rw [List.dropLast_eq_take]
        simp
    rw [hdata]
    refine (heapifyDownLoop_perm _ _ 0 (by simp)).trans ?_
    have := List.dropLast_append_getLast (List.ne_nil_of_length_pos hr)
    conv_rhs => rw [← this]
    exact (List.perm_append_singleton _ _).symm
  · rw [if_neg hr]
    have : rest = [] := List.length_eq_zero.1 (by omega)
    subst this
    exact ⟨rfl, by simp, rfl⟩

theorem forestLeaves_perm (a b : List HuffNode) (h : a.Perm b) :
    (forestLeaves a).Perm (forestLeaves b) :=
  List.Perm.flatMap_right _ h

theorem activeSymbols_succ (freq_table : Nat → Nat) (k : Nat) :
    activeSymbols freq_table (k + 1) =
      activeSymbols freq_table k ++ (if freq_table k ≠ 0 then [k] else []) := by
  unfold activeSymbols
  rw [List.range_succ, List.filter_append]
  by_cases h : freq_table k ≠ 0
  · simp [h]
  · simp [h]

theorem activeSymbols_length_le (freq_table : Nat → Nat) (k : Nat) :
    (activeSymbols freq_table k).length ≤ k := by
  unfold activeSymbols
  calc ((List.range k).filter _).length ≤ (List.range k).length := List.length_filter_le _ _
    _ = k := List.length_range k

theorem fillHeap_prefix (freq_table : Nat → Nat) (n : Nat) : ∀ k, k ≤ n →
    ((List.range k).foldl (fillHeapStep freq_table) (CreateMinHeap n, 0)).1.capacity = n ∧
    ((List.range k).foldl (fillHeapStep freq_table) (CreateMinHeap n, 0)).1.data.Perm
        ((activeSymbols freq_table k).map (fun i => HuffNode.leaf (freq_table i) (i % 2 ^ 16))) ∧
    ((List.range k).foldl (fillHeapStep freq_table) (CreateMinHeap n, 0)).2
      = (activeSymbols freq_table k).length := by
  intro k
  induction k with
  | zero => intro _; simp [CreateMinHeap, activeSymbols]
  | succ k ih =>
    intro hk
    obtain ⟨hc, hp, hn⟩ := ih (by omega)
    rw [List.range_succ, List.foldl_append, activeSymbols_succ]
    simp only [List.foldl_cons, List.foldl_nil]
    generalize (List.range k).foldl (fillHeapStep freq_table) (CreateMinHeap n, 0) = acc at hc hp hn
    unfold fillHeapStep
    by_cases hf : freq_table k ≠ 0
    · rw [if_pos hf, if_pos hf]
      have hsize : acc.1.size ≠ acc.1.capacity := by
        have := hp.length_eq
        have hle := activeSymbols_length_le freq_table k
        simp only [List.length_map] at this
        unfold MinHeap.size
        omega
      obtain ⟨h1, h2⟩ := PushHeap_perm acc.1 (.leaf (freq_table k) (k % 2 ^ 16)) hsize
      refine ⟨by rw [h2, hc], ?_, ?_⟩
      · refine h1.trans ?_
        rw [List.map_append]
        exact (List.Perm.cons _ hp).trans (List.perm_append_singleton _ _).symm
      · show acc.2 + 1 = _
        rw [hn, List.length_append]
        rfl
    · rw [if_neg hf, if_neg hf]
      exact ⟨hc, by rw [List.append_nil]; exact hp, by rw [List.append_nil]; exact hn⟩

theorem fillHeap_spec (freq_table : Nat → Nat) (n : Nat) :
    (fillHeap freq_table n).1.capacity = n ∧
    (fillHeap freq_table n).1.data.Perm
      ((activeSymbols freq_table n).map (fun i => HuffNode.leaf (freq_table i) (i % 2 ^ 16))) ∧
    (fillHeap freq_table n).2 = (activeSymbols freq_table n).length :=
  fillHeap_prefix freq_table n n (le_refl n)

theorem mergeLoop_spec : ∀ (fuel : Nat) (heap : MinHeap), heap.size ≤ fuel →
    heap.size ≤ heap.capacity →
    ∃ heap', mergeLoop fuel heap = some heap' ∧ heap'.size ≤ 1 ∧
      (heap.size > 0 → heap'.size = 1) ∧
      (forestLeaves heap'.data).Perm (forestLeaves heap.data) := by
  intro fuel
  induction fuel with
  | zero =>
    intro heap h _
    exact ⟨heap, rfl, by omega, by omega, List.Perm.refl _⟩
  | succ fuel ih =>
    intro heap h hcap
    unfold mergeLoop
    by_cases hs : heap.size > 1
    · rw [if_pos hs]
      match hd : heap.data with
      | [] => simp [MinHeap.size, hd] at hs
      | [x] => simp [MinHeap.size, hd] at hs
      | a :: b :: rest =>
        obtain ⟨ha1, ha2, ha3⟩ := PopHeap_perm heap a (b :: rest) hd
        obtain ⟨m, rest', hd1⟩ : ∃ m rest', (PopHeap heap).2.data = m :: rest' := by
          cases hx : (PopHeap heap).2.data with
          | nil => rw [hx] at ha2; simpa using ha2.length_eq
          | cons m r => exact ⟨m, r, rfl⟩
        obtain ⟨hb1, hb2, hb3⟩ := PopHeap_perm (PopHeap heap).2 m rest' hd1
        have hlen1 : rest'.length = rest.length := by
          have := ha2.length_eq
          rw [hd1] at this
          simpa using this
        have hlen2 := hb2.length_eq
        have hsz : heap.size = rest.length + 2 := by simp [MinHeap.size, hd]
        have hne : (PopHeap (PopHeap heap).2).2.size ≠ (PopHeap (PopHeap heap).2).2.capacity := by
          rw [hb3, ha3]
          unfold MinHeap.size
          omega
        obtain ⟨hp1, hp2⟩ := PushHeap_perm (PopHeap (PopHeap heap).2).2
          (.node ((a.freq + m.freq) % 2 ^ 64) a m) hne
        have hsz' : (PushHeap (PopHeap (PopHeap heap).2).2
            (.node ((a.freq + m.freq) % 2 ^ 64) a m)).size = rest.length + 1 := by
          have := hp1.length_eq
          simp only [List.length_cons] at this
          unfold MinHeap.size
          omega
        obtain ⟨heap', h1, h2, h3, h4⟩ := ih (PushHeap (PopHeap (PopHeap heap).2).2
            (.node ((a.freq + m.freq) % 2 ^ 64) a m)) (by omega) (by rw [hp2, hb3, ha3]; omega)
        refine ⟨heap', ?_, h2, fun _ => h3 (by omega), ?_⟩
        · have e1 : PopHeap heap = (some a, (PopHeap heap).2) := by
            rw [← ha1]
          have e2 : PopHeap (PopHeap heap).2 = (some m, (PopHeap (PopHeap heap).2).2) := by
            rw [← hb1]
          rw [e1]
          simp only []
          rw [e2]
          exact h1
        · refine h4.trans ((forestLeaves_perm _ _ hp1).trans ?_)
          have hq : (forestLeaves (m :: rest')).Perm (forestLeaves (b :: rest)) :=
            forestLeaves_perm _ _ (hd1 ▸ ha2)
          have hq2 : (forestLeaves (PopHeap (PopHeap heap).2).2.data).Perm (forestLeaves rest') :=
            forestLeaves_perm _ _ hb2
          simp only [forestLeaves, List.flatMap_cons, HuffNode.leaves] at hq hq2 ⊢
          rw [List.append_assoc]
          exact List.Perm.append_left _ ((List.Perm.append_left _ hq2).trans hq)
    · rw [if_neg hs]
      exact ⟨heap, rfl, by omega, by omega, List.Perm.refl _⟩

theorem mergeLoop_small (fuel : Nat) (heap : MinHeap) (h : heap.size ≤ 1) :
    mergeLoop fuel heap = some heap := by
  cases fuel with
  | zero => rfl
  | succ fuel =>
    unfold mergeLoop
    rw [if_neg (by omega)]

theorem activeSymbols_lt (freq_table : Nat → Nat) (n s : Nat)
    (h : s ∈ activeSymbols freq_table n) : s < n ∧ freq_table s ≠ 0 := by
  unfold activeSymbols at h
  rw [List.mem_filter] at h
  exact ⟨List.mem_range.1 h.1, by simpa using h.2⟩

theorem mem_activeSymbols (freq_table : Nat → Nat) (n s : Nat) :
    s ∈ activeSymbols freq_table n ↔ s < n ∧ freq_table s ≠ 0 := by
  unfold activeSymbols
  rw [List.mem_filter, List.mem_range]
  simp

theorem activeSymbols_nodup (freq_table : Nat → Nat) (n : Nat) :
    (activeSymbols freq_table n).Nodup :=
  List.Nodup.filter _ (List.nodup_range n)

theorem fillHeap_leaves (freq_table : Nat → Nat) (n : Nat) (hn : n ≤ 2 ^ 16) :
    (forestLeaves (fillHeap freq_table n).1.data).Perm (activeSymbols freq_table n) := by
  obtain ⟨_, hp, _⟩ := fillHeap_spec freq_table n
  refine (forestLeaves_perm _ _ hp).trans ?_
  have : forestLeaves ((activeSymbols freq_table n).map
      (fun i => HuffNode.leaf (freq_table i) (i % 2 ^ 16))) = activeSymbols freq_table n := by
    unfold forestLeaves
    rw [List.flatMap_map]
    have : ∀ i ∈ activeSymbols freq_table n,
        (HuffNode.leaf (freq_table i) (i % 2 ^ 16)).leaves = [i] := by
      intro i hi
      have := (activeSymbols_lt freq_table n i hi).1
      simp only [HuffNode.leaves]
      rw [Nat.mod_eq_of_lt (by omega)]
    rw [List.flatMap_congr this]
    simp
  rw [this]

theorem huffmanTree_spec (freq_table : Nat → Nat) (n : Nat) (hn : n ≤ 2 ^ 16) :
    (activeSymbols freq_table n = [] ∧ huffmanTree freq_table n = some none) ∨
    (∃ root, huffmanTree freq_table n = some (some root) ∧
      root.leaves.Perm (activeSymbols freq_table n)) := by
  obtain ⟨hc, hp, hcount⟩ := fillHeap_spec freq_table n
  have hl := fillHeap_leaves freq_table n hn
  have hsize : (fillHeap freq_table n).1.size = (activeSymbols freq_table n).length := by
    have := hp.length_eq
    simpa [MinHeap.size] using this
  unfold huffmanTree
  by_cases h0 : (fillHeap freq_table n).1.size = 0
  · left
    rw [mergeLoop_small _ _ (by omega)]
    refine ⟨List.length_eq_zero.1 (by omega), ?_⟩
    have : (fillHeap freq_table n).1.data = [] := List.length_eq_zero.1 h0
    simp [PopHeap, this]
  · right
    obtain ⟨heap', h1, h2, h3, h4⟩ := mergeLoop_spec _ (fillHeap freq_table n).1 (le_refl _)
      (by rw [hc, hsize]; exact activeSymbols_length_le _ _)
    rw [h1]
    have h5 := h3 (by omega)
    obtain ⟨root, hroot⟩ : ∃ root, heap'.data = [root] := by
      unfold MinHeap.size at h5
      exact List.length_eq_one.1 h5
    obtain ⟨hq1, _, _⟩ := PopHeap_perm heap' root [] hroot
    refine ⟨root, by simp only [hq1], ?_⟩
    rw [hroot] at h4
    simp only [forestLeaves, List.flatMap_cons, List.flatMap_nil, List.append_nil] at h4
    exact h4.trans hl

theorem fillHeap_count (freq_table : Nat → Nat) (n : Nat) :
    (fillHeap freq_table n).2 = (activeSymbols freq_table n).length :=
  (fillHeap_spec freq_table n).2.2

/-! ## The codes assigned by `BuildCodes` -/

theorem paths_fst (t : HuffNode) : t.paths.map Prod.fst = t.leaves := by
  induction t with
  | leaf f s => rfl
  | node f l r ihl ihr =>
    simp only [HuffNode.paths, HuffNode.leaves, List.map_append, List.map_map]
    rw [← ihl, ← ihr]
    rfl

theorem mem_leaves_iff (t : HuffNode) (s : Nat) : s ∈ t.leaves ↔ ∃ p, (s, p) ∈ t.paths := by
  rw [← paths_fst]
  simp

theorem BuildCodes_not_mem : ∀ (t : HuffNode) (table : CodeTable) (code length s : Nat),
    s ∉ t.leaves → BuildCodes t table code length s = table s := by
  intro t
  induction t with
  | leaf f sym =>
    intro table code length s hs
    have hne : s ≠ sym := by simpa [HuffNode.leaves] using hs
    unfold BuildCodes
    split_ifs <;> simp [setCode, hne]
  | node f l r ihl ihr =>
    intro table code length s hs
    simp only [HuffNode.leaves, List.mem_append, not_or] at hs
    unfold BuildCodes
    rw [ihr _ _ _ _ hs.2, ihl _ _ _ _ hs.1]

theorem BuildCodes_mem : ∀ (t : HuffNode) (table : CodeTable) (code length s : Nat)
    (p : List Bool), (s, p) ∈ t.paths → t.leaves.Nodup →
    BuildCodes t table code length s = leafCode (pathCode code p) (length + p.length) := by
  intro t
  induction t with
  | leaf f sym =>
    intro table code length s p hp _
    simp only [HuffNode.paths, List.mem_singleton, Prod.mk.injEq] at hp
    obtain ⟨rfl, rfl⟩ := hp
    unfold BuildCodes leafCode
    simp only [pathCode, List.length_nil, Nat.add_zero]
    split_ifs <;> simp [setCode]
  | node f l r ihl ihr =>
    intro table code length s p hp hnd
    simp only [HuffNode.leaves] at hnd
    have hdis := List.disjoint_of_nodup_append hnd
    simp only [HuffNode.paths, List.mem_append, List.mem_map] at hp
    unfold BuildCodes
    rcases hp with ⟨⟨s', q⟩, hq, he⟩ | ⟨⟨s', q⟩, hq, he⟩
    · simp only [Prod.mk.injEq] at he
      obtain ⟨rfl, rfl⟩ := he
      have hsl : s' ∈ l.leaves := (mem_leaves_iff l s').2 ⟨q, hq⟩
      rw [BuildCodes_not_mem r _ _ _ s' (fun hr => hdis hsl hr)]
      rw [ihl _ _ _ s' q hq (List.Nodup.of_append_left hnd)]
      simp only [pathCode, Bool.toNat_false, Nat.or_zero, List.length_cons]
      congr 1
      omega
    · simp only [Prod.mk.injEq] at he
      obtain ⟨rfl, rfl⟩ := he
      rw [ihr _ _ _ s' q hq (List.Nodup.of_append_right hnd)]
      simp only [pathCode, Bool.toNat_true, List.length_cons]
      congr 1
      omega

theorem paths_length_le_height (t : HuffNode) : ∀ s p, (s, p) ∈ t.paths →
    p.length ≤ t.height := by
  induction t with
  | leaf f sym =>
    intro s p hp
    simp only [HuffNode.paths, List.mem_singleton, Prod.mk.injEq] at hp
    simp [hp.2]
  | node f l r ihl ihr =>
    intro s p hp
    simp only [HuffNode.paths, List.mem_append, List.mem_map] at hp
    simp only [HuffNode.height]
    rcases hp with ⟨⟨s', q⟩, hq, he⟩ | ⟨⟨s', q⟩, hq, he⟩
    · simp only [Prod.mk.injEq] at he
      obtain ⟨rfl, rfl⟩ := he
      have := ihl _ _ hq
      simp only [List.length_cons]
      omega
    · simp only [Prod.mk.injEq] at he
      obtain ⟨rfl, rfl⟩ := he
      have := ihr _ _ hq
      simp only [List.length_cons]
      omega

theorem paths_incomparable (t : HuffNode) : ∀ s p s' p', (s, p) ∈ t.paths →
    (s', p') ∈ t.paths → p <+: p' → t.leaves.Nodup → s = s' := by
  induction t with
  | leaf f sym =>
    intro s p s' p' h h' _ _
    simp only [HuffNode.paths, List.mem_singleton, Prod.mk.injEq] at h h'
    rw [h.1, h'.1]
  | node f l r ihl ihr =>
    intro s p s' p' h h' hpre hnd
    simp only [HuffNode.leaves] at hnd
    simp only [HuffNode.paths, List.mem_append, List.mem_map] at h h'
    rcases h with ⟨⟨a, q⟩, hq, he⟩ | ⟨⟨a, q⟩, hq, he⟩ <;>
      rcases h' with ⟨⟨a', q'⟩, hq', he'⟩ | ⟨⟨a', q'⟩, hq', he'⟩ <;>
      simp only [Prod.mk.injEq] at he he' <;>
      obtain ⟨rfl, rfl⟩ := he <;> obtain ⟨rfl, rfl⟩ := he'
    · exact ihl _ _ _ _ hq hq' ((List.cons_prefix_cons.1 hpre).2) (List.Nodup.of_append_left hnd)
    · exact absurd (List.cons_prefix_cons.1 hpre).1 (by simp)
    · exact absurd (List.cons_prefix_cons.1 hpre).1 (by simp)
    · exact ihr _ _ _ _ hq hq' ((List.cons_prefix_cons.1 hpre).2) (List.Nodup.of_append_right hnd)

theorem bitsVal_lt (p : List Bool) : bitsVal p < 2 ^ p.length := by
  induction p with
  | nil => simp [bitsVal]
  | cons b p ih =>
    simp only [bitsVal, List.length_cons, pow_succ]
    have := Bool.toNat_le b
    nlinarith

theorem pathCode_eq : ∀ (p : List Bool) (code k : Nat), code < 2 ^ k → k + p.length ≤ 64 →
    pathCode code p = code * 2 ^ p.length + bitsVal p := by
  intro p
  induction p with
  | nil => intro code k _ _; simp [pathCode, bitsVal]
  | cons b p ih =>
    intro code k hc hk
    simp only [List.length_cons] at hk
    have h2 : code <<< 1 = 2 * code := by rw [Nat.shiftLeft_eq]; ring
    have hlt : 2 * code < 2 ^ 64 := by
      calc 2 * code < 2 * 2 ^ k := by omega
        _ = 2 ^ (k + 1) := by rw [pow_succ]; ring
        _ ≤ 2 ^ 64 := Nat.pow_le_pow_right (by norm_num) (by omega)
    have hor : 2 * code ||| b.toNat = 2 * code + b.toNat := by
      have hb : b.toNat < 2 ^ 1 := by have := Bool.toNat_le b; omega
      have := Nat.mul_add_lt_is_or hb code
      simpa using this.symm
    have hc' : 2 * code + b.toNat < 2 ^ (k + 1) := by
      have := Bool.toNat_le b
      rw [pow_succ]; omega
    simp only [pathCode, bitsVal, List.length_cons]
    rw [h2, Nat.mod_eq_of_lt hlt, hor, ih _ (k + 1) hc' (by omega), pow_succ]
    ring

theorem natBits_bitsVal : ∀ (p : List Bool) (c : Nat),
    natBits p.length (c * 2 ^ p.length + bitsVal p) = p := by
  intro p
  induction p with
  | nil => intro c; rfl
  | cons b p ih =>
    intro c
    simp only [List.length_cons, natBits, bitsVal]
    have hv : c * 2 ^ (p.length + 1) + (b.toNat * 2 ^ p.length + bitsVal p)
        = 2 ^ p.length * (2 * c + b.toNat) + bitsVal p := by
      rw [pow_succ]; ring
    have hv2 : c * 2 ^ (p.length + 1) + (b.toNat * 2 ^ p.length + bitsVal p)
        = (2 * c + b.toNat) * 2 ^ p.length + bitsVal p := by
      rw [pow_succ]; ring
    have htest : (c * 2 ^ (p.length + 1) + (b.toNat * 2 ^ p.length + bitsVal p)).testBit p.length
        = b := by
      rw [hv, Nat.testBit_mul_pow_two_add _ (bitsVal_lt p)]
      simp only [lt_self_iff_false, if_false, Nat.sub_self]
      cases b
      · simp [Nat.testBit_zero]
      · simp [Nat.testBit_zero]; omega
    rw [htest, hv2, ih]

theorem natBits_pathCode (p : List Bool) (h : p.length ≤ 64) :
    natBits p.length (pathCode 0 p) = p := by
  rw [pathCode_eq p 0 0 (by norm_num) (by omega)]
  exact natBits_bitsVal p 0

theorem pathCode_lt (p : List Bool) (h : p.length ≤ 64) : pathCode 0 p < 2 ^ p.length := by
  rw [pathCode_eq p 0 0 (by norm_num) (by omega)]
  simpa using bitsVal_lt p

theorem leaves_length_pos (t : HuffNode) : 0 < t.leaves.length := by
  induction t with
  | leaf f s => simp [HuffNode.leaves]
  | node f l r ihl _ => simp only [HuffNode.leaves, List.length_append]; omega

theorem huffmanTree_cases (freq_table : Nat → Nat) (file_size n : Nat) (hn : n ≤ 2 ^ 16) :
    (activeSymbols freq_table n = [] ∧ huffmanTree freq_table n = some none ∧
      codesFromFrequencies freq_table file_size n = some emptyTable) ∨
    (∃ f s, huffmanTree freq_table n = some (some (.leaf f s)) ∧
      activeSymbols freq_table n = [s] ∧
      codesFromFrequencies freq_table file_size n =
        some (if file_size > 0 then setCode emptyTable s ⟨0, 1⟩
          else setCode emptyTable s ⟨0, 0⟩)) ∨
    (∃ f l r, huffmanTree freq_table n = some (some (.node f l r)) ∧
      (HuffNode.node f l r).leaves.Perm (activeSymbols freq_table n) ∧
      codesFromFrequencies freq_table file_size n =
        some (BuildCodes (.node f l r) emptyTable 0 0)) := by
  rcases huffmanTree_spec freq_table n hn with ⟨h0, h1⟩ | ⟨root, h1, h2⟩
  · left
    refine ⟨h0, h1, ?_⟩
    simp only [codesFromFrequencies, h1]
  · right
    have hcount := fillHeap_count freq_table n
    cases root with
    | leaf f s =>
      left
      have hs : activeSymbols freq_table n = [s] := by
        have := h2.symm
        simpa [HuffNode.leaves] using this
      refine ⟨f, s, h1, hs, ?_⟩
      simp only [codesFromFrequencies, h1, hcount, hs, List.length_singleton, true_and]
      by_cases hfs : file_size > 0
      · simp only [hfs, if_true]
      · simp only [hfs, if_false, false_or, Nat.lt_one_iff, Nat.one_ne_zero]
        simp [BuildCodes]
    | node f l r =>
      right
      refine ⟨f, l, r, h1, h2, ?_⟩
      have hpos : (activeSymbols freq_table n).length > 0 := by
        have := h2.length_eq
        simp only [HuffNode.leaves, List.length_append] at this
        have hl := leaves_length_pos l
        omega
      simp only [codesFromFrequencies, h1, hcount]
      rw [if_pos (Or.inr hpos)]

theorem node_paths_length_pos (f : Nat) (l r : HuffNode) (s : Nat) (p : List Bool)
    (h : (s, p) ∈ (HuffNode.node f l r).paths) : 1 ≤ p.length := by
  simp only [HuffNode.paths, List.mem_append, List.mem_map] at h
  rcases h with ⟨⟨a, q⟩, _, he⟩ | ⟨⟨a, q⟩, _, he⟩ <;>
    simp only [Prod.mk.injEq] at he <;> rw [← he.2] <;> simp

/-- What the table built from a frequency table looks like when `file_size > 0`:
it is described by the code words of a tree whose leaves are the symbols of
non-zero count. -/
theorem codes_spec (freq_table : Nat → Nat) (file_size n : Nat) (hn : n ≤ 2 ^ 16)
    (hfs : file_size > 0) :
    ∃ T, codesFromFrequencies freq_table file_size n = some T ∧
      ((activeSymbols freq_table n = [] ∧ huffmanTree freq_table n = some none ∧
          T = emptyTable) ∨
        (∃ root, huffmanTree freq_table n = some (some root) ∧
          root.leaves.Perm (activeSymbols freq_table n) ∧
          (∀ s p, (s, p) ∈ codePaths root →
            1 ≤ p.length ∧ T s = leafCode (pathCode 0 p) p.length) ∧
          (∀ s, s ∈ root.leaves → ∃ p, (s, p) ∈ codePaths root) ∧
          (∀ s p s' p', (s, p) ∈ codePaths root → (s', p') ∈ codePaths root →
            p <+: p' → s = s') ∧
          (∀ s p, (s, p) ∈ codePaths root → p.length ≤ max root.height 1) ∧
          (∀ s, s ∉ root.leaves → T s = ⟨0, 0⟩))) := by
  rcases huffmanTree_cases freq_table file_size n hn with
    ⟨h0, h1, h2⟩ | ⟨f, s, h1, h2, h3⟩ | ⟨f, l, r, h1, h2, h3⟩
  · exact ⟨_, h2, Or.inl ⟨h0, h1, rfl⟩⟩
  · refine ⟨_, h3, Or.inr ⟨.leaf f s, h1, by simp [HuffNode.leaves, h2], ?_, ?_, ?_, ?_, ?_⟩⟩
    · intro s' p hp
      simp only [codePaths, List.mem_singleton, Prod.mk.injEq] at hp
      obtain ⟨rfl, rfl⟩ := hp
      simp [hfs, setCode, leafCode, pathCode]
    · intro s' hs'
      simp only [HuffNode.leaves, List.mem_singleton] at hs'
      exact ⟨[false], by simp [codePaths, hs']⟩
    · intro a p a' p' h h' _
      simp only [codePaths, List.mem_singleton, Prod.mk.injEq] at h h'
      rw [h.1, h'.1]
    · intro a p h
      simp only [codePaths, List.mem_singleton, Prod.mk.injEq] at h
      simp [h.2]
    · intro s' hs'
      simp only [HuffNode.leaves, List.mem_singleton] at hs'
      simp [hfs, setCode, hs', emptyTable]
  · have hnd : (HuffNode.node f l r).leaves.Nodup :=
      (h2.nodup_iff).2 (activeSymbols_nodup freq_table n)
    refine ⟨_, h3, Or.inr ⟨.node f l r, h1, h2, ?_, ?_, ?_, ?_, ?_⟩⟩
    · intro s p hp
      simp only [codePaths] at hp
      refine ⟨node_paths_length_pos f l r s p hp, ?_⟩
      rw [BuildCodes_mem _ _ _ _ s p hp hnd, Nat.zero_add]
    · intro s hs
      exact (mem_leaves_iff _ s).1 hs
    · intro a p a' p' h h' hpre
      exact paths_incomparable _ a p a' p' h h' hpre hnd
    · intro a p h
      have := paths_length_le_height _ a p h
      omega
    · intro s hs
      rw [BuildCodes_not_mem _ _ _ _ s hs]
      rfl

theorem leafCode_pos (code length : Nat) (h : (leafCode code length).code_len > 0) :
    1 ≤ length ∧ length ≤ 64 ∧ leafCode code length = ⟨code, length⟩ := by
  unfold leafCode at h ⊢
  split_ifs at h ⊢ with h1 h2
  · simp at h
  · simp at h
  · exact ⟨by omega, by omega, rfl⟩

theorem incFreq_ne_zero (freq_table : Nat → Nat) (sym s : Nat)
    (h : incFreq freq_table sym s ≠ 0) : s = sym ∨ freq_table s ≠ 0 := by
  unfold incFreq at h
  by_cases hs : s = sym
  · exact Or.inl hs
  · rw [if_neg hs] at h
    exact Or.inr h

theorem countLoop_support (file_size symbol_size n : Nat)
    (hn : n = if symbol_size = 1 then MAX_SYMBOLS_1B else MAX_SYMBOLS_2B) :
    ∀ (k : Nat) (data : List Nat) (counted : Nat) (freq_table : Nat → Nat),
      data.length ≤ k → (∀ s, freq_table s ≠ 0 → s < n) →
      ∀ s, countLoop file_size symbol_size data counted freq_table s ≠ 0 → s < n := by
  have h256 : ∀ c : Nat, symbol_size = 1 → c % 256 < n := by
    intro c h1
    rw [hn, if_pos h1]
    exact Nat.mod_lt _ (by norm_num [MAX_SYMBOLS_1B])
  have h65536 : ∀ c : Nat, ¬ symbol_size = 1 → c % 2 ^ 16 < n := by
    intro c h1
    rw [hn, if_neg h1]
    exact Nat.mod_lt _ (by norm_num)
  have hinc : ∀ (freq_table : Nat → Nat) (sym : Nat), sym < n →
      (∀ s, freq_table s ≠ 0 → s < n) → ∀ s, incFreq freq_table sym s ≠ 0 → s < n := by
    intro freq_table sym hsym hf s hs
    rcases incFreq_ne_zero freq_table sym s hs with h | h
    · rw [h]; exact hsym
    · exact hf s h
  intro k
  induction k with
  | zero =>
    intro data counted freq_table hlen hf s hs
    have : data = [] := List.length_eq_zero.1 (by omega)
    subst this
    exact hf s hs
  | succ k ih =>
    intro data counted freq_table hlen hf s hs
    match data with
    | [] => exact hf s hs
    | [c1] =>
      unfold countLoop at hs
      split_ifs at hs with h1 h2
      · exact hinc _ _ (h256 c1 h2) hf s hs
      · exact hinc _ _ (h65536 _ h2) hf s hs
      · exact hf s hs
    | c1 :: c2 :: rest =>
      unfold countLoop at hs
      split_ifs at hs with h1 h2 h3
      · exact ih (c2 :: rest) _ _ (by simp at hlen ⊢; omega) (hinc _ _ (h256 c1 h2) hf) s hs
      · exact ih rest _ _ (by simp at hlen ⊢; omega) (hinc _ _ (h65536 _ h2) hf) s hs
      · exact hinc _ _ (h65536 _ h2) hf s hs
      · exact hf s hs

theorem frequencies_support (data : List Nat) (file_size symbol_size s : Nat)
    (h : frequencies data file_size symbol_size s ≠ 0) :
    s < if symbol_size = 1 then MAX_SYMBOLS_1B else MAX_SYMBOLS_2B := by
  unfold frequencies at h
  split_ifs at h with h1
  · exact countLoop_support file_size symbol_size _ rfl data.length data 0 _ (le_refl _)
      (fun s hs => absurd rfl hs) s h
  · exact absurd rfl h

theorem symbol_count_le (symbol_size : Nat) :
    (if symbol_size = 1 then MAX_SYMBOLS_1B else MAX_SYMBOLS_2B) ≤ 2 ^ 16 := by
  split_ifs <;> norm_num [MAX_SYMBOLS_1B, MAX_SYMBOLS_2B]

theorem leafCode_of_le (code length : Nat) (h1 : 1 ≤ length) (h64 : length ≤ 64) :
    leafCode code length = ⟨code, length⟩ := by
  unfold leafCode
  rw [if_neg (by omega), if_neg (by omega)]

theorem codes_of_tree (freq_table : Nat → Nat) (file_size n : Nat) (hn : n ≤ 2 ^ 16)
    (f : Nat) (l r : HuffNode)
    (h : huffmanTree freq_table n = some (some (.node f l r))) :
    codesFromFrequencies freq_table file_size n =
      some (BuildCodes (.node f l r) emptyTable 0 0) := by
  rcases huffmanTree_cases freq_table file_size n hn with
    ⟨_, h1, _⟩ | ⟨f', s', h1, _, _⟩ | ⟨f', l', r', h1, _, h2⟩
  · rw [h] at h1; cases h1
  · rw [h] at h1; cases h1
  · rw [h] at h1
    cases h1
    exact h2

/-! ## Reading back what the writer wrote -/

theorem readBits_natBits (r : BitReader) (n v : Nat) (rest : List Bool)
    (h : Reads r (natBits n v ++ rest)) :
    (BitReaderReadBits r n).1 = (v % 2 ^ n) % 2 ^ 32 ∧ Reads (BitReaderReadBits r n).2 rest := by
  have h1 := readBits_fst r n _ h
  have h2 := readBits_snd r n _ h
  rw [List.take_left' (natBits_length n v)] at h1
  rw [List.drop_left' (natBits_length n v)] at h2
  refine ⟨?_, h2⟩
  rw [h1, accBits_natBits v n 0 (by positivity)]
  simp

theorem readBits_natBits_le (r : BitReader) (n v : Nat) (rest : List Bool) (hn : n ≤ 32)
    (h : Reads r (natBits n v ++ rest)) :
    (BitReaderReadBits r n).1 = v % 2 ^ n ∧ Reads (BitReaderReadBits r n).2 rest := by
  obtain ⟨h1, h2⟩ := readBits_natBits r n v rest h
  refine ⟨?_, h2⟩
  rw [h1]
  apply Nat.mod_eq_of_lt
  calc v % 2 ^ n < 2 ^ n := Nat.mod_lt _ (by positivity)
    _ ≤ 2 ^ 32 := Nat.pow_le_pow_right (by norm_num) hn

theorem readName_bits : ∀ (name : List Nat) (r : BitReader) (rest : List Bool),
    (∀ b ∈ name, b < 256) → Reads r (bytesBits name ++ rest) →
    (readName name.length r).1 = name ∧ Reads (readName name.length r).2 rest := by
  intro name
  induction name with
  | nil => intro r rest _ h; exact ⟨rfl, by simpa [readName, bytesBits] using h⟩
  | cons c name ih =>
    intro r rest hv h
    have hc : c < 256 := hv c (by simp)
    have h' : Reads r (natBits 8 (c % 2 ^ 32) ++ (bytesBits name ++ rest)) := by
      simpa [bytesBits] using h
    obtain ⟨h1, h2⟩ := readBits_natBits_le r 8 _ _ (by norm_num) h'
    obtain ⟨h3, h4⟩ := ih _ rest (fun b hb => hv b (by simp [hb])) h2
    have hval : (BitReaderReadBits r 8).1 % 2 ^ 8 = c := by
      rw [h1]; omega
    refine ⟨?_, ?_⟩
    · simp only [List.length_cons, readName]
      rw [hval, h3]
    · simp only [List.length_cons, readName]
      exact h4

theorem uint64_hi (v : Nat) (hv : v < 2 ^ 64) :
    ((v % 2 ^ 64) >>> 32 % 2 ^ 32) % 2 ^ 32 = v / 2 ^ 32 := by
  have h4 : v / 2 ^ 32 < 2 ^ 32 := by
    rw [Nat.div_lt_iff_lt_mul (by positivity)]
    calc v < 2 ^ 64 := hv
      _ = 2 ^ 32 * 2 ^ 32 := by norm_num
  rw [Nat.mod_eq_of_lt hv, Nat.shiftRight_eq_div_pow, Nat.mod_mod, Nat.mod_eq_of_lt h4]

theorem uint64_lo (v : Nat) (hv : v < 2 ^ 64) :
    (((v % 2 ^ 64) &&& 0xFFFFFFFF) % 2 ^ 32) % 2 ^ 32 = v % 2 ^ 32 := by
  have h2 : v &&& 0xFFFFFFFF = v % 2 ^ 32 := by
    have := Nat.and_pow_two_sub_one_eq_mod v 32
    simpa using this
  rw [Nat.mod_eq_of_lt hv, h2, Nat.mod_mod, Nat.mod_mod]

theorem uint64_join (v : Nat) (hv : v < 2 ^ 64) :
    (((v / 2 ^ 32) <<< 32) % 2 ^ 64) ||| (v % 2 ^ 32) = v := by
  have h5 : v / 2 ^ 32 * 2 ^ 32 < 2 ^ 64 := by
    calc v / 2 ^ 32 * 2 ^ 32 ≤ v := Nat.div_mul_le_self v _
      _ < 2 ^ 64 := hv
  rw [Nat.shiftLeft_eq, Nat.mod_eq_of_lt h5, Nat.mul_comm]
  rw [← Nat.mul_add_lt_is_or (Nat.mod_lt v (by positivity))]
  exact Nat.div_add_mod v (2 ^ 32)

theorem readUint64_bits (r : BitReader) (v : Nat) (rest : List Bool) (hv : v < 2 ^ 64)
    (h : Reads r (natBits 32 ((v % 2 ^ 64) >>> 32 % 2 ^ 32) ++
      natBits 32 (((v % 2 ^ 64) &&& 0xFFFFFFFF) % 2 ^ 32) ++ rest)) :
    (BitReaderReadUint64 r).1 = v ∧ Reads (BitReaderReadUint64 r).2 rest := by
  rw [List.append_assoc] at h
  obtain ⟨h1, h2⟩ := readBits_natBits_le r 32 ((v % 2 ^ 64) >>> 32 % 2 ^ 32) _ (le_refl _) h
  obtain ⟨h3, h4⟩ := readBits_natBits_le (BitReaderReadBits r 32).2 32
    (((v % 2 ^ 64) &&& 0xFFFFFFFF) % 2 ^ 32) rest (le_refl _) h2
  rw [uint64_hi v hv] at h1
  rw [uint64_lo v hv] at h3
  unfold BitReaderReadUint64
  refine ⟨?_, h4⟩
  show (((BitReaderReadBits r 32).1 <<< 32) % 2 ^ 64) |||
    (BitReaderReadBits (BitReaderReadBits r 32).2 32).1 = v
  rw [h1, h3]
  exact uint64_join v hv

/-! ## The decoding tree -/

theorem leafSym_null (q : List Bool) : leafSym .null q = none := by
  cases q <;> rfl

theorem leafSym_create (q : List Bool) : leafSym CreateDecodingNode q = none := by
  cases q with
  | nil => rfl
  | cons b q => cases b <;> simp [CreateDecodingNode, leafSym, leafSym_null]

theorem leafSym_next (child : DecodingTreeNode) (q : List Bool) :
    leafSym (if child = .null then CreateDecodingNode else child) q = leafSym child q := by
  by_cases h : child = .null
  · rw [if_pos h, h, leafSym_create, leafSym_null]
  · rw [if_neg h]

theorem isLeaf_of_leafSym_nil (t : DecodingTreeNode) (h : leafSym t [] = none) :
    t.isLeaf = false := by
  cases t with
  | null => rfl
  | node c0 c1 lf sym =>
    simp only [leafSym] at h
    simp only [DecodingTreeNode.isLeaf]
    cases lf <;> simp_all

theorem next_ne_null (child : DecodingTreeNode) :
    (if child = .null then CreateDecodingNode else child) ≠ .null := by
  by_cases h : child = .null
  · rw [if_pos h]; simp [CreateDecodingNode]
  · rw [if_neg h]; exact h

theorem insertPath_spec (s code : Nat) : ∀ (n : Nat) (t : DecodingTreeNode), t ≠ .null →
    (∀ q, q <+: natBits n code → leafSym t q = none) →
    ∃ t', insertPath s code n t = some t' ∧ t' ≠ .null ∧
      ∀ q, leafSym t' q = if q = natBits n code then some s else leafSym t q := by
  intro n
  induction n with
  | zero =>
    intro t ht hq
    cases t with
    | null => exact absurd rfl ht
    | node c0 c1 lf sym =>
      have hlf : lf = false := by
        have := hq [] (List.nil_prefix)
        simp only [leafSym] at this
        cases lf <;> simp_all
      subst hlf
      refine ⟨.node c0 c1 true s, by simp [insertPath], by simp, ?_⟩
      intro q
      cases q with
      | nil => simp [leafSym, natBits]
      | cons b q => simp [leafSym, natBits]
  | succ n ih =>
    intro t ht hq
    cases t with
    | null => exact absurd rfl ht
    | node c0 c1 lf sym =>
      have hbit : ((code >>> n) &&& 1 = 0) ↔ code.testBit n = false := by
        rw [and_one_eq_toNat]
        cases code.testBit n <;> simp
      by_cases hb : code.testBit n = false
      · have hnext : ∀ q, q <+: natBits n code →
            leafSym (if c0 = .null then CreateDecodingNode else c0) q = none := by
          intro q hpre
          rw [leafSym_next]
          have := hq (false :: q) (by
            simp only [natBits, hb]
            exact List.cons_prefix_cons.2 ⟨rfl, hpre⟩)
          simpa [leafSym] using this
        obtain ⟨t1, h1, h2, h3⟩ := ih _ (next_ne_null c0) hnext
        have hleaf : (if c0 = .null then CreateDecodingNode else c0).isLeaf = false :=
          isLeaf_of_leafSym_nil _ (hnext [] List.nil_prefix)
        refine ⟨.node t1 c1 lf sym, ?_, by simp, ?_⟩
        · unfold insertPath
          rw [if_pos (hbit.2 hb)]
          simp only [hleaf, Bool.false_eq_true, false_and, if_false, h1]
        · intro q
          cases q with
          | nil => simp [leafSym, natBits]
          | cons b q =>
            cases b with
            | false =>
              simp only [leafSym, Bool.false_eq_true, if_false, h3, natBits, hb, List.cons.injEq,
                true_and, leafSym_next]
            | true =>
              simp [leafSym, natBits, hb]
      · have hb' : code.testBit n = true := by simpa using hb
        have hnext : ∀ q, q <+: natBits n code →
            leafSym (if c1 = .null then CreateDecodingNode else c1) q = none := by
          intro q hpre
          rw [leafSym_next]
          have := hq (true :: q) (by
            simp only [natBits, hb']
            exact List.cons_prefix_cons.2 ⟨rfl, hpre⟩)
          simpa [leafSym] using this
        obtain ⟨t1, h1, h2, h3⟩ := ih _ (next_ne_null c1) hnext
        have hleaf : (if c1 = .null then CreateDecodingNode else c1).isLeaf = false :=
          isLeaf_of_leafSym_nil _ (hnext [] List.nil_prefix)
        refine ⟨.node c0 t1 lf sym, ?_, by simp, ?_⟩
        · unfold insertPath
          rw [if_neg (fun h => hb (hbit.1 h))]
          simp only [hleaf, Bool.false_eq_true, false_and, if_false, h1]
        · intro q
          cases q with
          | nil => simp [leafSym, natBits]
          | cons b q =>
            cases b with
            | false =>
              simp [leafSym, natBits, hb']
            | true =>
              simp only [leafSym, if_true, h3, natBits, hb', List.cons.injEq,
                true_and, leafSym_next]

theorem walkToLeaf_spec : ∀ (p : List Bool) (t : DecodingTreeNode) (r : BitReader)
    (rest : List Bool) (s : Nat), leafSym t p = some s →
    (∀ q, q <+: p → q ≠ p → leafSym t q = none) → Reads r (p ++ rest) →
    (walkToLeaf t r).1 = some s ∧ Reads (walkToLeaf t r).2 rest := by
  intro p
  induction p with
  | nil =>
    intro t r rest s hs _ hr
    cases t with
    | null => simp [leafSym] at hs
    | node c0 c1 lf sym =>
      simp only [leafSym] at hs
      cases lf with
      | false => simp at hs
      | true =>
        simp only [if_true, Option.some.injEq] at hs
        simp only [walkToLeaf, if_true, hs]
        exact ⟨trivial, by simpa using hr⟩
  | cons b p ih =>
    intro t r rest s hs hq hr
    cases t with
    | null => simp [leafSym] at hs
    | node c0 c1 lf sym =>
      have hlf : lf = false := by
        have := hq [] List.nil_prefix (by simp)
        simp only [leafSym] at this
        cases lf <;> simp_all
      subst hlf
      obtain ⟨r1, h1, h2⟩ := BitReaderReadBit_cons r b (p ++ rest) (by simpa using hr)
      have hsub : ∀ q, q <+: p → q ≠ p → leafSym (if b then c1 else c0) q = none := by
        intro q hpre hne
        have := hq (b :: q) (List.cons_prefix_cons.2 ⟨rfl, hpre⟩) (by simpa using hne)
        simpa [leafSym] using this
      have hs' : leafSym (if b then c1 else c0) p = some s := by simpa [leafSym] using hs
      obtain ⟨h3, h4⟩ := ih _ r1 rest s hs' hsub h2
      simp only [walkToLeaf, Bool.false_eq_true, if_false, h1]
      cases b with
      | false => simpa using ⟨h3, h4⟩
      | true => simpa using ⟨h3, h4⟩

theorem readRecord_bits (symbol_size : Nat) (huff_codes : CodeTable) (s : Nat) (r : BitReader)
    (rest : List Bool) (hW : symbol_size = 1 ∨ symbol_size = 2)
    (hs : s < 2 ^ (8 * symbol_size)) (h1 : 1 ≤ (huff_codes s).code_len)
    (h64 : (huff_codes s).code_len ≤ 64)
    (hr : Reads r (recordBits symbol_size huff_codes s ++ rest)) :
    ((if symbol_size = 1 then BitReaderReadBits r 8 else BitReaderReadBits r 16).1 % 2 ^ 16 = s) ∧
    ((BitReaderReadBits (if symbol_size = 1 then BitReaderReadBits r 8
        else BitReaderReadBits r 16).2 8).1 % 2 ^ 8 = (huff_codes s).code_len) ∧
    ((BitReaderReadBits (BitReaderReadBits (if symbol_size = 1 then BitReaderReadBits r 8
        else BitReaderReadBits r 16).2 8).2 (huff_codes s).code_len).1
      = readCode (huff_codes s)) ∧
    Reads (BitReaderReadBits (BitReaderReadBits (if symbol_size = 1 then BitReaderReadBits r 8
        else BitReaderReadBits r 16).2 8).2 (huff_codes s).code_len).2 rest := by
  unfold recordBits at hr
  rw [if_pos (by omega)] at hr
  have hsym : ((if symbol_size = 1 then BitReaderReadBits r 8
        else BitReaderReadBits r 16).1 % 2 ^ 16 = s) ∧
      Reads (if symbol_size = 1 then BitReaderReadBits r 8 else BitReaderReadBits r 16).2
        (natBits 8 ((huff_codes s).code_len % 2 ^ 32) ++ (codeBits (huff_codes s) ++ rest)) := by
    rcases hW with hW | hW
    · subst hW
      simp only [if_true] at hr ⊢
      rw [List.append_assoc, List.append_assoc] at hr
      obtain ⟨e1, e2⟩ := readBits_natBits_le r 8 _ _ (by norm_num) hr
      refine ⟨?_, e2⟩
      rw [e1]
      have : s < 2 ^ 8 := by simpa using hs
      omega
    · subst hW
      have hne : (2 : Nat) ≠ 1 := by norm_num
      simp only [hne, if_false, if_true] at hr ⊢
      rw [List.append_assoc, List.append_assoc] at hr
      obtain ⟨e1, e2⟩ := readBits_natBits_le r 16 _ _ (by norm_num) hr
      refine ⟨?_, e2⟩
      rw [e1]
      have : s < 2 ^ 16 := by simpa using hs
      omega
  obtain ⟨e1, e2⟩ := hsym
  obtain ⟨e3, e4⟩ := readBits_natBits_le _ 8 _ _ (by norm_num) e2
  unfold codeBits at e4
  obtain ⟨e5, e6⟩ := readBits_natBits _ (huff_codes s).code_len _ _ e4
  refine ⟨e1, ?_, ?_, e6⟩
  · rw [e3]; omega
  · rw [e5]; rfl

theorem readTable_bits (symbol_size K : Nat) (huff_codes : CodeTable)
    (hW : symbol_size = 1 ∨ symbol_size = 2) :
    ∀ (cs : List Nat) (t : DecodingTreeNode) (r : BitReader) (rest : List Bool),
      (∀ s ∈ cs, s < 2 ^ (8 * symbol_size) ∧ 1 ≤ (huff_codes s).code_len ∧
        (huff_codes s).code_len ≤ 64) →
      Reads r (cs.flatMap (recordBits symbol_size huff_codes) ++ rest) →
      (readTable symbol_size K cs.length t r).1 = insertAll huff_codes cs t ∧
      (∀ t', insertAll huff_codes cs t = some t' →
        Reads (readTable symbol_size K cs.length t r).2 rest) := by
  intro cs
  induction cs with
  | nil =>
    intro t r rest _ hr
    exact ⟨rfl, fun _ _ => by simpa [readTable] using hr⟩
  | cons s cs ih =>
    intro t r rest hcs hr
    obtain ⟨hs, h1, h64⟩ := hcs s (by simp)
    rw [List.flatMap_cons, List.append_assoc] at hr
    obtain ⟨e1, e2, e3, e4⟩ := readRecord_bits symbol_size huff_codes s r _ hW hs h1 h64 hr
    simp only [List.length_cons, readTable, insertAll]
    rw [e2, e1]
    rw [if_neg (by omega), if_pos (by omega)]
    rw [e3]
    cases hins : InsertIntoDecodingTree t s (readCode (huff_codes s)) (huff_codes s).code_len with
    | none => exact ⟨rfl, fun _ h => by cases h⟩
    | some t1 =>
      simp only []
      exact ih t1 _ rest (fun x hx => hcs x (by simp [hx])) e4

theorem natBits_congr : ∀ (n v w : Nat), (∀ i, i < n → v.testBit i = w.testBit i) →
    natBits n v = natBits n w := by
  intro n
  induction n with
  | zero => intro v w _; rfl
  | succ n ih =>
    intro v w h
    simp only [natBits]
    rw [h n (by omega), ih v w (fun i hi => h i (by omega))]

theorem natBits_readCode (hc : HuffCode) (h : hc.code_len ≤ 32) :
    natBits hc.code_len (readCode hc) = codeBits hc := by
  unfold readCode codeBits
  apply natBits_congr
  intro i hi
  simp only [Nat.testBit_mod_two_pow]
  have : i < 32 := by omega
  simp [hi, this]

theorem TrieFor_create (huff_codes : CodeTable) :
    TrieFor huff_codes CreateDecodingNode (fun _ => False) := by
  refine ⟨by simp [CreateDecodingNode], fun s hs => absurd hs id, ?_⟩
  intro q x h
  rw [leafSym_create] at h
  cases h

theorem codeBits_length (hc : HuffCode) : (codeBits hc).length = hc.code_len := by
  simp [codeBits, natBits_length]

theorem insertAll_spec (huff_codes : CodeTable) : ∀ (cs : List Nat) (t : DecodingTreeNode)
    (P : Nat → Prop), TrieFor huff_codes t P →
    (∀ s ∈ cs, 1 ≤ (huff_codes s).code_len ∧ (huff_codes s).code_len ≤ 32) →
    cs.Nodup → (∀ s ∈ cs, ¬ P s) →
    (∀ a b, (a ∈ cs ∨ P a) → (b ∈ cs ∨ P b) →
      codeBits (huff_codes a) <+: codeBits (huff_codes b) → a = b) →
    ∃ t', insertAll huff_codes cs t = some t' ∧
      TrieFor huff_codes t' (fun x => x ∈ cs ∨ P x) := by
  intro cs
  induction cs with
  | nil =>
    intro t P ht _ _ _ _
    exact ⟨t, rfl, by simpa using ht⟩
  | cons s cs ih =>
    intro t P ht hlen hnd hnot hpf
    obtain ⟨hne, hin, hout⟩ := ht
    obtain ⟨h1, h32⟩ := hlen s (by simp)
    have hnoleaf : ∀ q, q <+: natBits (huff_codes s).code_len (readCode (huff_codes s)) →
        leafSym t q = none := by
      intro q hq
      rw [natBits_readCode _ h32] at hq
      cases hl : leafSym t q with
      | none => rfl
      | some x =>
        obtain ⟨hx, hxq⟩ := hout q x hl
        have : x = s := hpf x s (Or.inr hx) (Or.inl (by simp)) (by rw [hxq]; exact hq)
        rw [this] at hx
        exact absurd hx (hnot s (by simp))
    obtain ⟨t1, ht1, hne1, hleaf1⟩ := insertPath_spec s (readCode (huff_codes s))
      (huff_codes s).code_len t hne hnoleaf
    rw [natBits_readCode _ h32] at hleaf1
    have hins : InsertIntoDecodingTree t s (readCode (huff_codes s)) (huff_codes s).code_len
        = some t1 := by
      cases t with
      | null => exact absurd rfl hne
      | node c0 c1 lf sym =>
        simp only [InsertIntoDecodingTree]
        rw [if_neg (by omega)]
        exact ht1
    have hnd' := List.nodup_cons.1 hnd
    have ht1for : TrieFor huff_codes t1 (fun x => x = s ∨ P x) := by
      refine ⟨hne1, ?_, ?_⟩
      · intro x hx
        rw [hleaf1]
        rcases hx with hx | hx
        · rw [hx, if_pos rfl]
        · have hxs : x ≠ s := fun h => hnot s (by simp) (h ▸ hx)
          have : codeBits (huff_codes x) ≠ codeBits (huff_codes s) := by
            intro he
            exact hxs (hpf x s (Or.inr hx) (Or.inl (by simp)) (by rw [he]))
          rw [if_neg this]
          exact hin x hx
      · intro q x hl
        rw [hleaf1] at hl
        by_cases hq : q = codeBits (huff_codes s)
        · rw [if_pos hq] at hl
          simp only [Option.some.injEq] at hl
          rw [← hl]
          exact ⟨Or.inl rfl, hq.symm⟩
        · rw [if_neg hq] at hl
          obtain ⟨hx, hxq⟩ := hout q x hl
          exact ⟨Or.inr hx, hxq⟩
    obtain ⟨t2, ht2, hfor2⟩ := ih t1 (fun x => x = s ∨ P x) ht1for
      (fun x hx => hlen x (by simp [hx])) hnd'.2
      (by
        intro x hx hP
        rcases hP with hP | hP
        · rw [hP] at hx; exact hnd'.1 hx
        · exact hnot x (by simp [hx]) hP)
      (by
        intro a b ha hb hpre
        apply hpf a b _ _ hpre
        · rcases ha with ha | ha | ha
          · exact Or.inl (by simp [ha])
          · exact Or.inl (by simp [ha])
          · exact Or.inr ha
        · rcases hb with hb | hb | hb
          · exact Or.inl (by simp [hb])
          · exact Or.inl (by simp [hb])
          · exact Or.inr hb)
    refine ⟨t2, ?_, ?_⟩
    · simp only [insertAll, hins, ht2]
    · obtain ⟨g1, g2, g3⟩ := hfor2
      refine ⟨g1, ?_, ?_⟩
      · intro x hx
        apply g2
        rcases hx with hx | hx
        · rcases List.mem_cons.1 hx with h | h
          · exact Or.inr (Or.inl h)
          · exact Or.inl h
        · exact Or.inr (Or.inr hx)
      · intro q x hl
        obtain ⟨hx, hxq⟩ := g3 q x hl
        refine ⟨?_, hxq⟩
        rcases hx with hx | hx | hx
        · exact Or.inl (by simp [hx])
        · exact Or.inl (by simp [hx])
        · exact Or.inr hx

/-! ## What insertions into the decoding tree keep, mark and reject -/

theorem insertPath_succ (s code i : Nat) (c0 c1 : DecodingTreeNode) (lf : Bool) (sym : Nat) :
    insertPath s code (i + 1) (.node c0 c1 lf sym) =
      if (if (if code.testBit i then c1 else c0) = .null then CreateDecodingNode
          else (if code.testBit i then c1 else c0)).isLeaf ∧ i > 0 then none
      else
        match insertPath s code i
            (if (if code.testBit i then c1 else c0) = .null then CreateDecodingNode
              else (if code.testBit i then c1 else c0)) with
        | none => none
        | some next' =>
          some (if code.testBit i then .node c0 next' lf sym else .node next' c1 lf sym) := by
  have hbit : ((code >>> i) &&& 1 = 0) ↔ code.testBit i = false := by
    rw [and_one_eq_toNat]
    cases code.testBit i <;> simp
  rw [insertPath]
  by_cases hb : code.testBit i = false
  · rw [if_pos (hbit.2 hb), hb]
    simp only [Bool.false_eq_true, if_false]
  · have hb' : code.testBit i = true := by simpa using hb
    rw [if_neg (fun h => hb (hbit.1 h)), hb']
    simp only [if_true]

theorem leafSym_cons (c0 c1 : DecodingTreeNode) (lf : Bool) (sym : Nat) (b : Bool)
    (q : List Bool) :
    leafSym (.node c0 c1 lf sym) (b :: q) = leafSym (if b then c1 else c0) q := rfl

theorem leafSym_nil_some (t : DecodingTreeNode) (x : Nat) (h : leafSym t [] = some x) :
    ∃ c0 c1, t = .node c0 c1 true x := by
  cases t with
  | null => simp [leafSym] at h
  | node c0 c1 lf sym =>
    cases lf with
    | false => simp [leafSym] at h
    | true =>
      simp only [leafSym, if_true, Option.some.injEq] at h
      exact ⟨c0, c1, by rw [h]⟩

theorem insertPath_keeps (s code : Nat) : ∀ (n : Nat) (t t' : DecodingTreeNode),
    insertPath s code n t = some t' →
    ∀ q x, leafSym t q = some x → leafSym t' q = some x := by
  intro n
  induction n with
  | zero =>
    intro t t' h q x hq
    cases t with
    | null => simp [insertPath] at h
    | node c0 c1 lf sym =>
      simp only [insertPath] at h
      by_cases hl : lf = true
      · rw [if_pos hl] at h; cases h
      · rw [if_neg hl] at h
        cases h
        cases q with
        | nil => simp [leafSym, hl] at hq
        | cons b q => exact hq
  | succ n ih =>
    intro t t' h q x hq
    cases t with
    | null => simp [insertPath] at h
    | node c0 c1 lf sym =>
      rw [insertPath_succ] at h
      generalize code.testBit n = tb at h
      have hnx := leafSym_next (if tb then c1 else c0)
      generalize (if (if tb then c1 else c0) = .null then CreateDecodingNode
        else (if tb then c1 else c0)) = next at h hnx
      by_cases hc : next.isLeaf = true ∧ n > 0
      · rw [if_pos hc] at h; cases h
      · rw [if_neg hc] at h
        cases hrec : insertPath s code n next with
        | none => rw [hrec] at h; cases h
        | some next' =>
          rw [hrec] at h
          simp only [Option.some.injEq] at h
          subst h
          have key := ih next next' hrec
          cases q with
          | nil => cases tb <;> exact hq
          | cons b q =>
            rw [leafSym_cons] at hq
            cases tb <;> cases b
            · exact key q x (by rw [hnx]; exact hq)
            · exact hq
            · exact hq
            · exact key q x (by rw [hnx]; exact hq)

theorem insertPath_marks (s code : Nat) : ∀ (n : Nat) (t t' : DecodingTreeNode),
    insertPath s code n t = some t' → leafSym t' (natBits n code) = some s := by
  intro n
  induction n with
  | zero =>
    intro t t' h
    cases t with
    | null => simp [insertPath] at h
    | node c0 c1 lf sym =>
      simp only [insertPath] at h
      by_cases hl : lf = true
      · rw [if_pos hl] at h; cases h
      · rw [if_neg hl] at h
        cases h
        simp [natBits, leafSym]
  | succ n ih =>
    intro t t' h
    cases t with
    | null => simp [insertPath] at h
    | node c0 c1 lf sym =>
      rw [insertPath_succ] at h
      show leafSym t' (code.testBit n :: natBits n code) = some s
      generalize code.testBit n = tb at h ⊢
      generalize (if (if tb then c1 else c0) = .null then CreateDecodingNode
        else (if tb then c1 else c0)) = next at h
      by_cases hc : next.isLeaf = true ∧ n > 0
      · rw [if_pos hc] at h; cases h
      · rw [if_neg hc] at h
        cases hrec : insertPath s code n next with
        | none => rw [hrec] at h; cases h
        | some next' =>
          rw [hrec] at h
          simp only [Option.some.injEq] at h
          subst h
          have key := ih next next' hrec
          cases tb <;> exact key

theorem insertPath_rejects (s code : Nat) : ∀ (n : Nat) (t : DecodingTreeNode)
    (q : List Bool) (x : Nat), leafSym t q = some x → q ≠ [] → q <+: natBits n code →
    insertPath s code n t = none := by
  intro n
  induction n with
  | zero =>
    intro t q x _ hne hpre
    simp only [natBits, List.prefix_nil] at hpre
    exact absurd hpre hne
  | succ n ih =>
    intro t q x hq hne hpre
    cases t with
    | null => simp [insertPath]
    | node c0 c1 lf sym =>
      cases q with
      | nil => exact absurd rfl hne
      | cons b q =>
        have hpre' : b :: q <+: code.testBit n :: natBits n code := hpre
        rw [List.cons_prefix_cons] at hpre'
        obtain ⟨hb, hpre'⟩ := hpre'
        rw [leafSym_cons, hb, ← leafSym_next] at hq
        rw [insertPath_succ]
        generalize (if (if code.testBit n then c1 else c0) = .null then CreateDecodingNode
          else (if code.testBit n then c1 else c0)) = next at hq ⊢
        by_cases hc : next.isLeaf = true ∧ n > 0
        · rw [if_pos hc]
        · rw [if_neg hc]
          cases q with
          | nil =>
            obtain ⟨d0, d1, hnode⟩ := leafSym_nil_some _ x hq
            subst hnode
            have hn0 : n = 0 := by
              by_contra hn
              exact hc ⟨rfl, by omega⟩
            subst hn0
            simp [insertPath]
          | cons b' q' =>
            rw [ih _ (b' :: q') x hq (by simp) hpre']

theorem Insert_of_pos (t : DecodingTreeNode) (s code n : Nat) (h : 1 ≤ n) :
    InsertIntoDecodingTree t s code n = insertPath s code n t := by
  cases t with
  | null =>
    cases n with
    | zero => rfl
    | succ n => rfl
  | node c0 c1 lf sym =>
    simp only [InsertIntoDecodingTree]
    rw [if_neg (by omega)]

theorem Insert_keeps (t t' : DecodingTreeNode) (s code n : Nat)
    (h : InsertIntoDecodingTree t s code n = some t') :
    ∀ q x, leafSym t q = some x → leafSym t' q = some x := by
  by_cases hn : 1 ≤ n
  · rw [Insert_of_pos _ _ _ _ hn] at h
    exact insertPath_keeps s code n t t' h
  · have hn0 : n = 0 := by omega
    subst hn0
    cases t with
    | null => simp [InsertIntoDecodingTree] at h
    | node c0 c1 lf sym =>
      simp only [InsertIntoDecodingTree, if_true] at h
      by_cases h1 : lf = true ∧ sym ≠ s
      · rw [if_pos h1] at h; cases h
      · rw [if_neg h1] at h
        by_cases h2 : ¬ lf = true ∧ (c0 ≠ .null ∨ c1 ≠ .null)
        · rw [if_pos h2] at h; cases h
        · rw [if_neg h2] at h
          cases h
          intro q x hq
          cases q with
          | nil =>
            cases lf with
            | false => simp [leafSym] at hq
            | true =>
              simp only [leafSym, if_true, Option.some.injEq] at hq ⊢
              have : sym = s := by
                by_contra hne
                exact h1 ⟨rfl, hne⟩
              rw [← this, hq]
          | cons b q => exact hq

theorem Insert_marks (t t' : DecodingTreeNode) (s code n : Nat)
    (h : InsertIntoDecodingTree t s code n = some t') :
    leafSym t' (natBits n code) = some s := by
  by_cases hn : 1 ≤ n
  · rw [Insert_of_pos _ _ _ _ hn] at h
    exact insertPath_marks s code n t t' h
  · have hn0 : n = 0 := by omega
    subst hn0
    cases t with
    | null => simp [InsertIntoDecodingTree] at h
    | node c0 c1 lf sym =>
      simp only [InsertIntoDecodingTree, if_true] at h
      by_cases h1 : lf = true ∧ sym ≠ s
      · rw [if_pos h1] at h; cases h
      · rw [if_neg h1] at h
        by_cases h2 : ¬ lf = true ∧ (c0 ≠ .null ∨ c1 ≠ .null)
        · rw [if_pos h2] at h; cases h
        · rw [if_neg h2] at h
          cases h
          simp [natBits, leafSym]

theorem Insert_rejects (t : DecodingTreeNode) (s code n : Nat) (q : List Bool) (x : Nat)
    (hq : leafSym t q = some x) (hne : q ≠ []) (hpre : q <+: natBits n code) :
    InsertIntoDecodingTree t s code n = none := by
  have hn : 1 ≤ n := by
    cases n with
    | zero =>
      simp only [natBits, List.prefix_nil] at hpre
      exact absurd hpre hne
    | succ n => omega
  rw [Insert_of_pos _ _ _ _ hn]
  exact insertPath_rejects s code n t q x hq hne hpre

theorem insertRecords_leaves : ∀ (records : List (Nat × Nat × Nat)) (t t' : DecodingTreeNode),
    insertRecords records t = some t' →
    (∀ q x, leafSym t q = some x → leafSym t' q = some x) ∧
    (∀ record ∈ records, leafSym t' (recordWord record) = some record.1) := by
  intro records
  induction records with
  | nil =>
    intro t t' h
    simp only [insertRecords, Option.some.injEq] at h
    subst h
    exact ⟨fun _ _ h => h, fun _ h => by simp at h⟩
  | cons record rest ih =>
    intro t t' h
    simp only [insertRecords] at h
    cases hins : InsertIntoDecodingTree t record.1 record.2.1 record.2.2 with
    | none => rw [hins] at h; cases h
    | some t1 =>
      rw [hins] at h
      obtain ⟨h1, h2⟩ := ih t1 t' h
      refine ⟨fun q x hq => h1 q x (Insert_keeps _ _ _ _ _ hins q x hq), ?_⟩
      intro rec' hmem
      rcases List.mem_cons.1 hmem with hm | hm
      · rw [hm]
        exact h1 _ _ (Insert_marks _ _ _ _ _ hins)
      · exact h2 rec' hm

theorem insert_after_records (records : List (Nat × Nat × Nat)) (t t' : DecodingTreeNode)
    (h : insertRecords records t = some t') (earlier : Nat × Nat × Nat)
    (hmem : earlier ∈ records) (hlen : 1 ≤ earlier.2.2) (s code n : Nat)
    (hpre : recordWord earlier <+: natBits n code) :
    InsertIntoDecodingTree t' s code n = none := by
  have hleaf := (insertRecords_leaves records t t' h).2 earlier hmem
  have hne : recordWord earlier ≠ [] := by
    intro h0
    have := congrArg List.length h0
    simp only [recordWord, natBits_length, List.length_nil] at this
    omega
  exact Insert_rejects t' s code n _ _ hleaf hne hpre

theorem insertRecords_append (a b : List (Nat × Nat × Nat)) (t : DecodingTreeNode) :
    insertRecords (a ++ b) t =
      match insertRecords a t with
      | none => none
      | some t' => insertRecords b t' := by
  induction a generalizing t with
  | nil => rfl
  | cons record rest ih =>
    simp only [List.cons_append, insertRecords]
    cases InsertIntoDecodingTree t record.1 record.2.1 record.2.2 with
    | none => rfl
    | some t1 => exact ih t1

theorem insertRecords_no_later_extension : ∀ (records : List (Nat × Nat × Nat))
    (t t' : DecodingTreeNode), insertRecords records t = some t' →
    records.Pairwise (fun earlier later =>
      1 ≤ earlier.2.2 → ¬ recordWord earlier <+: recordWord later) := by
  intro records
  induction records using List.reverseRecOn with
  | nil => intro _ _ _; exact List.Pairwise.nil
  | append_singleton rest record ih =>
    intro t t' h
    rw [insertRecords_append] at h
    cases hrest : insertRecords rest t with
    | none => rw [hrest] at h; cases h
    | some t1 =>
      rw [hrest] at h
      rw [List.pairwise_append]
      refine ⟨ih t t1 hrest, List.pairwise_singleton _ _, ?_⟩
      intro earlier hmem later hlater hlen hpre
      rw [List.mem_singleton] at hlater
      subst hlater
      have := insert_after_records rest t t1 hrest earlier hmem hlen later.1 later.2.1
        later.2.2 hpre
      simp only [insertRecords] at h
      rw [this] at h
      cases h

theorem readTable_succ (symbol_size_val count k : Nat) (t : DecodingTreeNode)
    (r : BitReader) :
    readTable symbol_size_val count (k + 1) t r =
      if (recordLen symbol_size_val r).1 % 2 ^ 8 > 64 ∧ count > 1 then
        (none, (recordLen symbol_size_val r).2)
      else
        match InsertIntoDecodingTree t (recordSymbol symbol_size_val r)
            (recordCode symbol_size_val r).1 ((recordLen symbol_size_val r).1 % 2 ^ 8) with
        | none => (none, (recordCode symbol_size_val r).2)
        | some root' => readTable symbol_size_val count k root' (recordCode symbol_size_val r).2 := by
  rw [readTable]
  rfl

theorem readTable_append (symbol_size_val count : Nat) : ∀ (j m : Nat)
    (t : DecodingTreeNode) (r : BitReader),
    readTable symbol_size_val count (j + m) t r =
      match readTable symbol_size_val count j t r with
      | (some t', r') => readTable symbol_size_val count m t' r'
      | (none, r') => (none, r') := by
  intro j
  induction j with
  | zero =>
    intro m t r
    rw [Nat.zero_add]
    rfl
  | succ j ih =>
    intro m t r
    have e : j + 1 + m = (j + m) + 1 := by omega
    rw [e, readTable_succ, readTable_succ]
    by_cases hc : (recordLen symbol_size_val r).1 % 2 ^ 8 > 64 ∧ count > 1
    · rw [if_pos hc, if_pos hc]
    · rw [if_neg hc, if_neg hc]
      cases InsertIntoDecodingTree t (recordSymbol symbol_size_val r)
          (recordCode symbol_size_val r).1 ((recordLen symbol_size_val r).1 % 2 ^ 8) with
      | none => rfl
      | some root' => exact ih m root' _

theorem readTable_long (symbol_size_val count k : Nat) (t : DecodingTreeNode) (r : BitReader)
    (hc : count > 1) (hlen : (recordLen symbol_size_val r).1 % 2 ^ 8 > 64) :
    readTable symbol_size_val count (k + 1) t r = (none, (recordLen symbol_size_val r).2) := by
  rw [readTable_succ, if_pos ⟨hlen, hc⟩]

theorem decodeEntries_failed (fs : FsEnv) (symbol_size_val : Nat)
    (wantedFiles : List (List Nat)) (extractAll : Bool) (n : Nat) (r r' : BitReader)
    (h : decodeEntry fs symbol_size_val wantedFiles extractAll r = .failed r') :
    decodeEntries fs symbol_size_val wantedFiles extractAll (n + 1) r =
      ⟨.returned 1, true, [], r'⟩ := by
  unfold decodeEntries
  rw [h]

theorem decodeEntry_table_none (fs : FsEnv) (symbol_size_val : Nat)
    (wantedFiles : List (List Nat)) (extractAll : Bool) (r r1 : BitReader)
    (h : readTable symbol_size_val (tableCount r) (tableCount r) CreateDecodingNode
      (tableReader r) = (none, r1)) :
    ∃ r', decodeEntry fs symbol_size_val wantedFiles extractAll r = .failed r' := by
  unfold tableCount tableReader at h
  unfold decodeEntry
  dsimp only
  by_cases hn : (BitReaderReadBits r 16).1 % 2 ^ 16 = 0 ∨
      (BitReaderReadBits r 16).1 % 2 ^ 16 ≥ PATH_MAX
  · rw [if_pos hn]
    exact ⟨_, rfl⟩
  · rw [if_neg hn, h]
    exact ⟨_, rfl⟩

/-! ## Decoding the payload -/

theorem walk_symbol (huff_codes : CodeTable) (t : DecodingTreeNode) (P : Nat → Prop)
    (ht : TrieFor huff_codes t P)
    (hpf : ∀ a b, P a → P b → codeBits (huff_codes a) <+: codeBits (huff_codes b) → a = b)
    (s : Nat) (hs : P s) (r : BitReader) (rest : List Bool)
    (hr : Reads r (codeBits (huff_codes s) ++ rest)) :
    ∃ r', walkToLeaf t r = (some s, r') ∧ Reads r' rest := by
  obtain ⟨_, hin, hout⟩ := ht
  have h := walkToLeaf_spec (codeBits (huff_codes s)) t r rest s (hin s hs)
    (by
      intro q hq hne
      cases hl : leafSym t q with
      | none => rfl
      | some x =>
        obtain ⟨hx, hxq⟩ := hout q x hl
        have : x = s := hpf x s hx hs (by rw [hxq]; exact hq)
        rw [this] at hxq
        exact absurd hxq.symm hne)
    hr
  exact ⟨(walkToLeaf t r).2, Prod.ext h.1 rfl, h.2⟩

theorem payloadBits_coded (huff_codes : CodeTable) (s : Nat) (syms : List Nat)
    (h : (huff_codes s).code_len > 0) :
    payloadBits huff_codes (s :: syms) = codeBits (huff_codes s) ++ payloadBits huff_codes syms := by
  simp [payloadBits, h]

theorem payloadLoop_done (symbol_size : Nat) (writing : Bool) (t : DecodingTreeNode)
    (L fuel bytes : Nat) (r : BitReader) (h : ¬ bytes < L) :
    payloadLoop symbol_size writing t L (fuel + 1) bytes r = some (false, r, []) := by
  unfold payloadLoop
  rw [if_neg h]

theorem payloadLoop_step (symbol_size : Nat) (writing : Bool) (t : DecodingTreeNode)
    (L fuel bytes : Nat) (r r1 : BitReader) (s : Nat) (h : bytes < L)
    (hw : walkToLeaf t r = (some s, r1)) :
    payloadLoop symbol_size writing t L (fuel + 1) bytes r =
      match payloadLoop symbol_size writing t L fuel
          (emitSymbol symbol_size writing L s bytes).1 r1 with
      | none => none
      | some (error, r2, written) =>
        some (error, r2, (emitSymbol symbol_size writing L s bytes).2 ++ written) := by
  conv_lhs => unfold payloadLoop
  rw [if_pos h, hw]
  try rfl

theorem payload_one_byte (huff_codes : CodeTable) (t : DecodingTreeNode) (P : Nat → Prop)
    (ht : TrieFor huff_codes t P)
    (hpf : ∀ a b, P a → P b → codeBits (huff_codes a) <+: codeBits (huff_codes b) → a = b)
    (writing : Bool) (L : Nat) (rest : List Bool) :
    ∀ (syms : List Nat) (fuel bytes : Nat) (r : BitReader),
      (∀ s ∈ syms, P s ∧ (huff_codes s).code_len > 0 ∧ s < 256) →
      bytes + syms.length = L → syms.length < fuel →
      Reads r (payloadBits huff_codes syms ++ rest) →
      ∃ r', payloadLoop 1 writing t L fuel bytes r =
          some (false, r', if writing then syms else []) ∧ Reads r' rest := by
  intro syms
  induction syms with
  | nil =>
    intro fuel bytes r _ hL hfuel hr
    obtain ⟨f, rfl⟩ : ∃ f, fuel = f + 1 := ⟨fuel - 1, by simp at hfuel; omega⟩
    refine ⟨r, ?_, by simpa [payloadBits] using hr⟩
    rw [payloadLoop_done _ _ _ _ _ _ _ (by simp at hL; omega)]
    cases writing <;> rfl
  | cons s syms ih =>
    intro fuel bytes r hs hL hfuel hr
    obtain ⟨f, rfl⟩ : ∃ f, fuel = f + 1 := ⟨fuel - 1, by simp at hfuel; omega⟩
    obtain ⟨hP, hlen, h256⟩ := hs s (by simp)
    rw [payloadBits_coded _ _ _ hlen, List.append_assoc] at hr
    obtain ⟨r1, hw, hr1⟩ := walk_symbol huff_codes t P ht hpf s hP r _ hr
    have hlt : bytes < L := by simp at hL; omega
    have hemit : emitSymbol 1 writing L s bytes = (bytes + 1, if writing then [s] else []) := by
      unfold emitSymbol
      cases writing with
      | true =>
        simp [h256]
      | false => simp [hlt]
    obtain ⟨r2, h2, hr2⟩ := ih f (bytes + 1) r1 (fun x hx => hs x (by simp [hx]))
      (by simp at hL ⊢; omega) (by simp at hfuel; omega) hr1
    refine ⟨r2, ?_, hr2⟩
    rw [payloadLoop_step 1 writing t L f bytes r r1 s hlt hw, hemit]
    simp only [h2]
    cases writing <;> simp

theorem symbol_bytes (c1 c2 : Nat) (h1 : c1 < 256) (h2 : c2 < 256) :
    (((((c1 <<< 8) % 2 ^ 16) ||| c2) % 2 ^ 16) >>> 8) % 2 ^ 8 = c1 ∧
    (((((c1 <<< 8) % 2 ^ 16) ||| c2) % 2 ^ 16) &&& 0xFF) % 2 ^ 8 = c2 := by
  have e1 : c1 <<< 8 = 2 ^ 8 * c1 := by rw [Nat.shiftLeft_eq, Nat.mul_comm]
  have e2 : (2 ^ 8 * c1) % 2 ^ 16 = 2 ^ 8 * c1 := Nat.mod_eq_of_lt (by omega)
  have e3 : 2 ^ 8 * c1 ||| c2 = 2 ^ 8 * c1 + c2 :=
    (Nat.mul_add_lt_is_or (by simpa using h2) c1).symm
  have e4 : (2 ^ 8 * c1 + c2) % 2 ^ 16 = 2 ^ 8 * c1 + c2 := Nat.mod_eq_of_lt (by omega)
  have e5 : ∀ x : Nat, x &&& 0xFF = x % 2 ^ 8 := by
    intro x
    have := Nat.and_pow_two_sub_one_eq_mod x 8
    simpa using this
  rw [e1, e2, e3, e4, e5, Nat.shiftRight_eq_div_pow]
  constructor <;> omega

theorem payload_two_bytes (huff_codes : CodeTable) (t : DecodingTreeNode) (P : Nat → Prop)
    (ht : TrieFor huff_codes t P)
    (hpf : ∀ a b, P a → P b → codeBits (huff_codes a) <+: codeBits (huff_codes b) → a = b)
    (L : Nat) (rest : List Bool) :
    ∀ (n : Nat) (content : List Nat) (fuel bytes : Nat) (r : BitReader),
      content.length ≤ n → (∀ b ∈ content, b < 256) →
      (∀ s ∈ symbolsOf 2 content, P s ∧ (huff_codes s).code_len > 0) →
      bytes + content.length = L → content.length < fuel →
      Reads r (payloadBits huff_codes (symbolsOf 2 content) ++ rest) →
      ∃ r', payloadLoop 2 true t L fuel bytes r = some (false, r', content) ∧ Reads r' rest := by
  intro n
  induction n with
  | zero =>
    intro content fuel bytes r hn _ _ hL hfuel hr
    have : content = [] := List.length_eq_zero.1 (by omega)
    subst this
    obtain ⟨f, rfl⟩ : ∃ f, fuel = f + 1 := ⟨fuel - 1, by simp at hfuel; omega⟩
    refine ⟨r, ?_, by simpa [payloadBits, symbolsOf] using hr⟩
    rw [payloadLoop_done _ _ _ _ _ _ _ (by simp at hL; omega)]
  | succ n ih =>
    intro content fuel bytes r hn hv hs hL hfuel hr
    obtain ⟨f, rfl⟩ : ∃ f, fuel = f + 1 := ⟨fuel - 1, by omega⟩
    match content with
    | [] =>
      refine ⟨r, ?_, by simpa [payloadBits, symbolsOf] using hr⟩
      rw [payloadLoop_done _ _ _ _ _ _ _ (by simp at hL; omega)]
    | [c1] =>
      have hc1 : c1 < 256 := hv c1 (by simp)
      have hsym : symbolsOf 2 [c1] = [(((c1 <<< 8) % 2 ^ 16) ||| PADDING_BYTE) % 2 ^ 16] := by
        simp [symbolsOf]
      rw [hsym] at hs hr
      obtain ⟨hP, hlen⟩ := hs ((((c1 <<< 8) % 2 ^ 16) ||| PADDING_BYTE) % 2 ^ 16)
        (List.mem_singleton.2 rfl)
      rw [payloadBits_coded _ _ _ hlen, List.append_assoc] at hr
      obtain ⟨r1, hw, hr1⟩ := walk_symbol huff_codes t P ht hpf _ hP r _ hr
      have hlt : bytes < L := by simp at hL; omega
      obtain ⟨hb1, _⟩ := symbol_bytes c1 PADDING_BYTE hc1 (by norm_num [PADDING_BYTE])
      have hemit : emitSymbol 2 true L ((((c1 <<< 8) % 2 ^ 16) ||| PADDING_BYTE) % 2 ^ 16) bytes
          = (bytes + 1, [c1]) := by
        unfold emitSymbol
        have hne : (2 : Nat) ≠ 1 := by norm_num
        have hL1 : ¬ bytes + 1 < L := by simp at hL; omega
        simp only [if_true, hne, if_false, hlt, hb1, hL1]
      refine ⟨r1, ?_, by simpa [payloadBits] using hr1⟩
      rw [payloadLoop_step 2 true t L f bytes r r1 _ hlt hw, hemit]
      obtain ⟨g, rfl⟩ : ∃ g, f = g + 1 := ⟨f - 1, by simp at hfuel; omega⟩
      rw [payloadLoop_done _ _ _ _ _ _ _ (by simp at hL ⊢; omega)]
      simp
    | c1 :: c2 :: tail =>
      have hc1 : c1 < 256 := hv c1 (by simp)
      have hc2 : c2 < 256 := hv c2 (by simp)
      have hsym : symbolsOf 2 (c1 :: c2 :: tail) =
          ((((c1 <<< 8) % 2 ^ 16) ||| c2) % 2 ^ 16) :: symbolsOf 2 tail := by
        simp [symbolsOf]
      rw [hsym] at hs hr
      obtain ⟨hP, hlen⟩ := hs ((((c1 <<< 8) % 2 ^ 16) ||| c2) % 2 ^ 16)
        (List.mem_cons_self _ _)
      rw [payloadBits_coded _ _ _ hlen, List.append_assoc] at hr
      obtain ⟨r1, hw, hr1⟩ := walk_symbol huff_codes t P ht hpf _ hP r _ hr
      have hlt : bytes < L := by simp at hL; omega
      obtain ⟨hb1, hb2⟩ := symbol_bytes c1 c2 hc1 hc2
      have hemit : emitSymbol 2 true L ((((c1 <<< 8) % 2 ^ 16) ||| c2) % 2 ^ 16) bytes
          = (bytes + 1 + 1, [c1, c2]) := by
        unfold emitSymbol
        have hne : (2 : Nat) ≠ 1 := by norm_num
        have hL1 : bytes + 1 < L := by simp at hL; omega
        simp only [if_true, hne, if_false, hlt, hb1, hb2, hL1, List.singleton_append]
      obtain ⟨r2, h2, hr2⟩ := ih tail f (bytes + 1 + 1) r1 (by simp at hn; omega)
        (fun b hb => hv b (by simp [hb])) (fun x hx => hs x (List.mem_cons_of_mem _ hx))
        (by simp at hL ⊢; omega) (by simp at hfuel; omega) hr1
      refine ⟨r2, ?_, hr2⟩
      rw [payloadLoop_step 2 true t L f bytes r r1 _ hlt hw, hemit]
      simp only [h2]
      simp

/-! ## The code table of a file, as the decoder needs it -/

theorem incFreq_le (freq_table : Nat → Nat) (sym counted : Nat)
    (h : ∀ x, freq_table x ≤ counted) : ∀ x, incFreq freq_table sym x ≤ counted + 1 := by
  intro x
  unfold incFreq
  split
  · exact le_trans (Nat.mod_le _ _) (by have := h x; omega)
  · have := h x; omega

theorem incFreq_ne_zero_of (freq_table : Nat → Nat) (sym counted x : Nat)
    (h : ∀ x, freq_table x ≤ counted) (hc : counted + 1 < 2 ^ 64)
    (hx : freq_table x ≠ 0 ∨ x = sym) : incFreq freq_table sym x ≠ 0 := by
  unfold incFreq
  by_cases hs : x = sym
  · rw [if_pos hs]
    have := h x
    rw [Nat.mod_eq_of_lt (by omega)]
    omega
  · rw [if_neg hs]
    rcases hx with hx | hx
    · exact hx
    · exact absurd hx hs

theorem countLoop_counts (file_size symbol_size : Nat) (hW : symbol_size = 1 ∨ symbol_size = 2)
    (hfs : file_size < 2 ^ 64) :
    ∀ (k : Nat) (data : List Nat) (counted : Nat) (freq_table : Nat → Nat),
      data.length ≤ k → counted + data.length = file_size → (∀ b ∈ data, b < 256) →
      (∀ x, freq_table x ≤ counted) →
      ∀ x, (freq_table x ≠ 0 ∨ x ∈ symbolsOf symbol_size data) →
        countLoop file_size symbol_size data counted freq_table x ≠ 0 := by
  intro k
  induction k with
  | zero =>
    intro data counted freq_table hk _ _ _ x hx
    have : data = [] := List.length_eq_zero.1 (by omega)
    subst this
    simpa [countLoop, symbolsOf] using hx
  | succ k ih =>
    intro data counted freq_table hk hlen hv hf x hx
    match data with
    | [] => simpa [countLoop, symbolsOf] using hx
    | [c1] =>
      have hc1 : c1 < 256 := hv c1 (by simp)
      have hlt : counted < file_size := by simp at hlen; omega
      unfold countLoop
      rw [if_pos hlt]
      rcases hW with hW | hW
      · rw [if_pos hW]
        apply incFreq_ne_zero_of _ _ counted x hf (by omega)
        rcases hx with hx | hx
        · exact Or.inl hx
        · right
          rw [hW] at hx
          simp only [symbolsOf, if_true, List.mem_singleton] at hx
          rw [hx, Nat.mod_eq_of_lt hc1]
      · have hne : symbol_size ≠ 1 := by omega
        rw [if_neg hne]
        apply incFreq_ne_zero_of _ _ counted x hf (by omega)
        rcases hx with hx | hx
        · exact Or.inl hx
        · right
          rw [hW] at hx
          have h21 : (2 : Nat) ≠ 1 := by norm_num
          simp only [symbolsOf, h21, if_false, if_true, List.mem_singleton] at hx
          exact hx
    | c1 :: c2 :: rest =>
      have hc1 : c1 < 256 := hv c1 (by simp)
      have hc2 : c2 < 256 := hv c2 (by simp)
      have hlt : counted < file_size := by simp at hlen; omega
      have hlt2 : counted + 1 < file_size := by simp at hlen; omega
      unfold countLoop
      rw [if_pos hlt]
      rcases hW with hW | hW
      · rw [if_pos hW]
        apply ih (c2 :: rest) (counted + 1) _ (by simp at hk ⊢; omega)
          (by simp at hlen ⊢; omega) (fun b hb => hv b (by simp [hb]))
          (incFreq_le _ _ counted hf)
        rw [hW] at hx
        simp only [symbolsOf, if_true, List.mem_cons] at hx
        rcases hx with hx | hx | hx
        · exact Or.inl (incFreq_ne_zero_of _ _ counted x hf (by omega) (Or.inl hx))
        · refine Or.inl (incFreq_ne_zero_of _ _ counted x hf (by omega) (Or.inr ?_))
          rw [hx, Nat.mod_eq_of_lt hc1]
        · right; rw [hW]; exact hx
      · have hne : symbol_size ≠ 1 := by omega
        rw [if_neg hne, if_pos hlt2]
        apply ih rest (counted + 1 + 1) _ (by simp at hk ⊢; omega)
          (by simp at hlen ⊢; omega) (fun b hb => hv b (by simp [hb]))
          (fun y => le_trans (incFreq_le _ _ counted hf y) (by omega))
        rw [hW] at hx
        have h21 : (2 : Nat) ≠ 1 := by norm_num
        simp only [symbolsOf, h21, if_false, if_true, List.mem_cons] at hx
        rcases hx with hx | hx | hx
        · exact Or.inl (incFreq_ne_zero_of _ _ counted x hf (by omega) (Or.inl hx))
        · refine Or.inl (incFreq_ne_zero_of _ _ counted x hf (by omega) (Or.inr ?_))
          rw [hx, Nat.mod_eq_of_lt hc2]
        · right; rw [hW]; exact hx

theorem frequencies_of_symbol (content : List Nat) (symbol_size : Nat)
    (hW : symbol_size = 1 ∨ symbol_size = 2) (hfs : content.length < 2 ^ 64)
    (hv : ∀ b ∈ content, b < 256) (x : Nat) (hx : x ∈ symbolsOf symbol_size content) :
    frequencies content content.length symbol_size x ≠ 0 := by
  unfold frequencies
  have hpos : content.length > 0 := by
    cases content with
    | nil => simp [symbolsOf] at hx
    | cons c cs => simp
  rw [if_pos hpos]
  exact countLoop_counts content.length symbol_size hW hfs content.length content 0 _
    (le_refl _) (by simp) hv (fun _ => le_refl _) x (Or.inr hx)

theorem exists_shallow_leaf (t : HuffNode) :
    ∃ s p, (s, p) ∈ t.paths ∧ 2 ^ p.length ≤ t.leaves.length := by
  induction t with
  | leaf f s => exact ⟨s, [], by simp [HuffNode.paths], by simp [HuffNode.leaves]⟩
  | node f l r ihl ihr =>
    obtain ⟨s1, p1, h1, hl⟩ := ihl
    obtain ⟨s2, p2, h2, hr⟩ := ihr
    by_cases hle : p1.length ≤ p2.length
    · refine ⟨s1, false :: p1, ?_, ?_⟩
      · simp only [HuffNode.paths, List.mem_append, List.mem_map]
        exact Or.inl ⟨(s1, p1), h1, rfl⟩
      · have : 2 ^ p1.length ≤ 2 ^ p2.length := Nat.pow_le_pow_right (by norm_num) hle
        simp only [List.length_cons, pow_succ, HuffNode.leaves, List.length_append]
        omega
    · refine ⟨s2, true :: p2, ?_, ?_⟩
      · simp only [HuffNode.paths, List.mem_append, List.mem_map]
        exact Or.inr ⟨(s2, p2), h2, rfl⟩
      · have : 2 ^ p2.length ≤ 2 ^ p1.length := Nat.pow_le_pow_right (by norm_num) (by omega)
        simp only [List.length_cons, pow_succ, HuffNode.leaves, List.length_append]
        omega

theorem exists_leaf_in_band : ∀ (a : Nat) (t : HuffNode), t.leaves.length ≤ 2 ^ 16 →
    a ≤ t.height → ∃ s p, (s, p) ∈ t.paths ∧ a ≤ p.length ∧ p.length ≤ a + 16 := by
  intro a
  induction a with
  | zero =>
    intro t hn _
    obtain ⟨s, p, hp, hlen⟩ := exists_shallow_leaf t
    refine ⟨s, p, hp, Nat.zero_le _, ?_⟩
    have h : 2 ^ p.length ≤ 2 ^ 16 := le_trans hlen hn
    have := (Nat.pow_le_pow_iff_right (by norm_num : 1 < 2)).1 h
    omega
  | succ a ih =>
    intro t hn hh
    cases t with
    | leaf f s => simp [HuffNode.height] at hh
    | node f l r =>
      simp only [HuffNode.height] at hh
      simp only [HuffNode.leaves, List.length_append] at hn
      by_cases hl : a ≤ l.height
      · obtain ⟨s, p, hp, h1, h2⟩ := ih l (by omega) hl
        refine ⟨s, false :: p, ?_, by simp; omega, by simp; omega⟩
        simp only [HuffNode.paths, List.mem_append, List.mem_map]
        exact Or.inl ⟨(s, p), hp, rfl⟩
      · obtain ⟨s, p, hp, h1, h2⟩ := ih r (by omega) (by omega)
        refine ⟨s, true :: p, ?_, by simp; omega, by simp; omega⟩
        simp only [HuffNode.paths, List.mem_append, List.mem_map]
        exact Or.inr ⟨(s, p), hp, rfl⟩

theorem exists_path_of_height (t : HuffNode) : ∃ s p, (s, p) ∈ t.paths ∧ p.length = t.height := by
  induction t with
  | leaf f s => exact ⟨s, [], by simp [HuffNode.paths], rfl⟩
  | node f l r ihl ihr =>
    obtain ⟨s1, p1, h1, hl⟩ := ihl
    obtain ⟨s2, p2, h2, hr⟩ := ihr
    by_cases hle : l.height ≤ r.height
    · refine ⟨s2, true :: p2, ?_, ?_⟩
      · simp only [HuffNode.paths, List.mem_append, List.mem_map]
        exact Or.inr ⟨(s2, p2), h2, rfl⟩
      · simp only [List.length_cons, HuffNode.height, hr]; omega
    · refine ⟨s1, false :: p1, ?_, ?_⟩
      · simp only [HuffNode.paths, List.mem_append, List.mem_map]
        exact Or.inl ⟨(s1, p1), h1, rfl⟩
      · simp only [List.length_cons, HuffNode.height, hl]; omega

theorem natBits_mod_32 (n v : Nat) (h : n ≤ 32) : natBits n (v % 2 ^ 32) = natBits n v := by
  apply natBits_congr
  intro i hi
  rw [Nat.testBit_mod_two_pow]
  have : i < 32 := by omega
  simp [this]

theorem codePaths_short (root : HuffNode) (T : CodeTable) (n : Nat)
    (hleaves : root.leaves.length ≤ 2 ^ 16) (hlt : ∀ s ∈ root.leaves, s < n)
    (hcode : ∀ s p, (s, p) ∈ codePaths root →
      1 ≤ p.length ∧ T s = leafCode (pathCode 0 p) p.length)
    (h32 : ∀ s, s < n → (T s).code_len ≤ 32) :
    ∀ s p, (s, p) ∈ codePaths root → p.length ≤ 32 := by
  intro s p hp
  cases root with
  | leaf f a =>
    simp only [codePaths, List.mem_singleton, Prod.mk.injEq] at hp
    rw [hp.2]; simp
  | node f l r =>
    by_contra hgt
    have hh : 33 ≤ (HuffNode.node f l r).height := by
      have := paths_length_le_height _ s p hp
      omega
    obtain ⟨s', p', hp', h1, h2⟩ := exists_leaf_in_band 33 _ hleaves hh
    obtain ⟨_, hT⟩ := hcode s' p' hp'
    rw [leafCode_of_le _ _ (by omega) (by omega)] at hT
    have := h32 s' (hlt s' ((mem_leaves_iff _ s').2 ⟨p', hp'⟩))
    rw [hT] at this
    simp only at this
    omega

theorem table_words (freq_table : Nat → Nat) (file_size n : Nat) (hn : n ≤ 2 ^ 16)
    (hfs : file_size > 0) (T : CodeTable)
    (hT : codesFromFrequencies freq_table file_size n = some T)
    (h32 : ∀ s, s < n → (T s).code_len ≤ 32) :
    (∀ s, s ∈ activeSymbols freq_table n → 1 ≤ (T s).code_len) ∧
    (∀ a b, (T a).code_len > 0 → (T b).code_len > 0 →
      codeBits (T a) <+: codeBits (T b) → a = b) ∧
    (∀ s, (T s).code_len > 0 → s ∈ activeSymbols freq_table n) := by
  obtain ⟨T', hT', hcase⟩ := codes_spec freq_table file_size n hn hfs
  rw [hT] at hT'
  simp only [Option.some.injEq] at hT'
  subst hT'
  rcases hcase with ⟨h0, _, hE⟩ | ⟨root, _, hperm, hcode, hex, hinc, _, hnot⟩
  · subst hE
    refine ⟨?_, ?_, ?_⟩
    · intro s hs; rw [h0] at hs; simp at hs
    · intro a b ha; simp [emptyTable] at ha
    · intro s hs; simp [emptyTable] at hs
  · have hleaves : root.leaves.length ≤ 2 ^ 16 := by
      rw [hperm.length_eq]
      exact le_trans (activeSymbols_length_le _ _) hn
    have hshort := codePaths_short root T n hleaves
      (fun s hs => (activeSymbols_lt freq_table n s ((hperm.mem_iff).1 hs)).1) hcode h32
    have hword : ∀ s p, (s, p) ∈ codePaths root →
        T s = ⟨pathCode 0 p, p.length⟩ ∧ codeBits (T s) = p := by
      intro s p hp
      obtain ⟨h1, hTs⟩ := hcode s p hp
      have hs32 := hshort s p hp
      rw [leafCode_of_le _ _ h1 (by omega)] at hTs
      refine ⟨hTs, ?_⟩
      rw [hTs]
      unfold codeBits
      simp only
      rw [natBits_mod_32 _ _ hs32]
      exact natBits_pathCode p (by omega)
    have hcoded : ∀ s, (T s).code_len > 0 → s ∈ root.leaves := by
      intro s hs
      by_contra hm
      rw [hnot s hm] at hs
      simp at hs
    refine ⟨?_, ?_, ?_⟩
    · intro s hs
      obtain ⟨p, hp⟩ := hex s ((hperm.mem_iff).2 hs)
      obtain ⟨h1, _⟩ := hcode s p hp
      rw [(hword s p hp).1]
      exact h1
    · intro a b ha hb hpre
      obtain ⟨p, hp⟩ := hex a (hcoded a ha)
      obtain ⟨q, hq⟩ := hex b (hcoded b hb)
      rw [(hword a p hp).2, (hword b q hq).2] at hpre
      exact hinc a p b q hp hq hpre
    · intro s hs
      exact (hperm.mem_iff).1 (hcoded s hs)

/-! ## Decoding one entry of an archive written by the encoder -/

theorem countActiveCodes_eq (huff_codes : CodeTable) (n : Nat) :
    countActiveCodes huff_codes n = (codedSymbols huff_codes n).length % 2 ^ 16 := by
  unfold countActiveCodes codedSymbols
  induction n with
  | zero => rfl
  | succ n ih =>
    rw [List.range_succ, List.foldl_append, List.filter_append, ih]
    simp only [List.foldl_cons, List.foldl_nil, List.length_append]
    by_cases h : (huff_codes n).code_len > 0
    · rw [if_pos h]
      simp only [h, decide_True, List.filter_cons_of_pos, List.filter_nil, List.length_singleton]
      omega
    · rw [if_neg h]
      simp [h]

theorem tableBits_eq (symbol_size : Nat) (huff_codes : CodeTable) (n : Nat) :
    tableBits symbol_size huff_codes n =
      (codedSymbols huff_codes n).flatMap (recordBits symbol_size huff_codes) := by
  unfold tableBits codedSymbols
  induction (List.range n) with
  | nil => rfl
  | cons x l ih =>
    by_cases h : (huff_codes x).code_len > 0
    · simp only [List.flatMap_cons, h, decide_True, List.filter_cons_of_pos, ih]
    · have : recordBits symbol_size huff_codes x = [] := by
        unfold recordBits; rw [if_neg h]
      simp only [List.flatMap_cons, this, List.nil_append, ih, h, decide_False,
        Bool.false_eq_true, not_false_eq_true, List.filter_cons_of_neg]

theorem mem_codedSymbols (huff_codes : CodeTable) (n s : Nat) :
    s ∈ codedSymbols huff_codes n ↔ s < n ∧ (huff_codes s).code_len > 0 := by
  unfold codedSymbols
  rw [List.mem_filter, List.mem_range]
  simp

theorem codedSymbols_nodup (huff_codes : CodeTable) (n : Nat) :
    (codedSymbols huff_codes n).Nodup :=
  List.Nodup.filter _ (List.nodup_range n)

theorem cString_valid (name : List Nat) (h : ∀ c ∈ name, 0 < c ∧ c < 256) :
    cString name = name := by
  unfold cString
  rw [List.takeWhile_eq_self_iff]
  intro c hc
  have := (h c hc).1
  simp
  omega

theorem symbolsOf_one (content : List Nat) : symbolsOf 1 content = content := by
  induction content with
  | nil => rfl
  | cons c rest ih =>
    cases rest with
    | nil => simp [symbolsOf]
    | cons d rest => simp only [symbolsOf, if_true, ih]

theorem alphabet_eq (symbol_size : Nat) (hW : symbol_size = 1 ∨ symbol_size = 2) :
    (1 <<< (symbol_size * 8)) % 2 ^ 32 = 2 ^ (8 * symbol_size) ∧
    (if symbol_size = 1 then MAX_SYMBOLS_1B else MAX_SYMBOLS_2B) = 2 ^ (8 * symbol_size) ∧
    2 ^ (8 * symbol_size) ≤ 2 ^ 16 := by
  rcases hW with h | h <;> subst h <;> decide

theorem decodeEntry_roundtrip (fs : FsEnv) (symbol_size : Nat) (wantedFiles : List (List Nat))
    (extractAll : Bool) (name content : List Nat) (r : BitReader) (rest : List Bool)
    (hW : symbol_size = 1 ∨ symbol_size = 2) (hname : ValidName name)
    (hbytes : ∀ b ∈ content, b < 256) (hsize : content.length < 2 ^ 64 - 1)
    (hfit : TableFits symbol_size content)
    (hsel : symbol_size = 1 ∨ (shouldExtract wantedFiles extractAll name && fs.openOk name) = true)
    (hr : Reads r (entryBits symbol_size (name, content) ++ rest)) :
    ∃ r', decodeEntry fs symbol_size wantedFiles extractAll r =
        .finished false r'
          (if (shouldExtract wantedFiles extractAll name && fs.openOk name) = true
            then some (name, content) else none) ∧
      Reads r' rest := by
  obtain ⟨hn0, hnmax, hnbytes⟩ := hname
  unfold entryBits metaBits at hr
  simp only [List.append_assoc] at hr
  obtain ⟨e1, hr1⟩ := readBits_natBits_le r 16 _ _ (by norm_num) hr
  have e1' : (BitReaderReadBits r 16).1 % 2 ^ 16 = name.length := by
    rw [e1]
    unfold PATH_MAX at hnmax
    omega
  obtain ⟨e2, hr2⟩ := readName_bits name _ _ (fun b hb => (hnbytes b hb).2) hr1
  rw [← List.append_assoc] at hr2
  obtain ⟨e3, hr3⟩ := readUint64_bits _ content.length _ (by omega) hr2
  unfold decodeEntry
  dsimp only
  rw [e1']
  rw [if_neg (by unfold PATH_MAX at hnmax ⊢; omega)]
  rw [e2, e3, cString_valid name hnbytes]
  generalize (BitReaderReadUint64 (readName name.length (BitReaderReadBits r 16).2).2).2 = R3
    at hr3 ⊢
  clear e1 e1' e2 e3 hr hr1 hr2
  by_cases hL : content.length > 0
  · -- a file of positive length: table and payload
    obtain ⟨hcard1, hcard2, hcard3⟩ := alphabet_eq symbol_size hW
    have hgen : GenerateCodes content content.length symbol_size =
        codesFromFrequencies (frequencies content content.length symbol_size) content.length
          (2 ^ (8 * symbol_size)) := by
      unfold GenerateCodes
      rw [if_neg (by omega), hcard2]
    obtain ⟨T, hT, _⟩ := codes_spec (frequencies content content.length symbol_size)
      content.length (2 ^ (8 * symbol_size)) hcard3 hL
    have hG : GenerateCodes content content.length symbol_size = some T := by rw [hgen, hT]
    unfold TableFits at hfit
    rw [hG] at hfit
    obtain ⟨h32, hcount⟩ := hfit
    obtain ⟨hw1, hw2, hw3⟩ := table_words _ _ _ hcard3 hL T hT h32
    rw [if_pos hL, hG] at hr3
    simp only [] at hr3
    rw [hcard1, countActiveCodes_eq, tableBits_eq, List.append_assoc, List.append_assoc] at hr3
    obtain ⟨e4, hr4⟩ := readBits_natBits_le R3 16 _ _ (by norm_num) hr3
    have e4' : (BitReaderReadBits R3 16).1 % 2 ^ 16 =
        (codedSymbols T (2 ^ (8 * symbol_size))).length := by
      rw [e4]; omega
    rw [e4']
    have hcs : ∀ s ∈ codedSymbols T (2 ^ (8 * symbol_size)),
        s < 2 ^ (8 * symbol_size) ∧ 1 ≤ (T s).code_len ∧ (T s).code_len ≤ 32 := by
      intro s hs
      obtain ⟨h1, h2⟩ := (mem_codedSymbols _ _ _).1 hs
      exact ⟨h1, h2, h32 s h1⟩
    obtain ⟨e5, hr5⟩ := readTable_bits symbol_size (codedSymbols T (2 ^ (8 * symbol_size))).length
      T hW (codedSymbols T (2 ^ (8 * symbol_size))) CreateDecodingNode _ _
      (fun s hs => ⟨(hcs s hs).1, (hcs s hs).2.1, by have := (hcs s hs).2.2; omega⟩) hr4
    obtain ⟨t', ht', hfor⟩ := insertAll_spec T (codedSymbols T (2 ^ (8 * symbol_size)))
      CreateDecodingNode (fun _ => False) (TrieFor_create T)
      (fun s hs => (hcs s hs).2) (codedSymbols_nodup _ _) (fun _ _ h => h)
      (by
        intro a b ha hb hpre
        have ha' : a ∈ codedSymbols T (2 ^ (8 * symbol_size)) := by
          rcases ha with h | h
          · exact h
          · exact absurd h id
        have hb' : b ∈ codedSymbols T (2 ^ (8 * symbol_size)) := by
          rcases hb with h | h
          · exact h
          · exact absurd h id
        exact hw2 a b (hcs a ha').2.1 (hcs b hb').2.1 hpre)
    have hfor' : TrieFor T t' (fun x => x ∈ codedSymbols T (2 ^ (8 * symbol_size))) := by
      obtain ⟨g1, g2, g3⟩ := hfor
      exact ⟨g1, fun s hs => g2 s (Or.inl hs), fun q x h => by
        obtain ⟨h1, h2⟩ := g3 q x h
        rcases h1 with h1 | h1
        · exact ⟨h1, h2⟩
        · exact absurd h1 id⟩
    have hpf : ∀ a b, a ∈ codedSymbols T (2 ^ (8 * symbol_size)) →
        b ∈ codedSymbols T (2 ^ (8 * symbol_size)) →
        codeBits (T a) <+: codeBits (T b) → a = b :=
      fun a b ha hb hpre => hw2 a b (hcs a ha).2.1 (hcs b hb).2.1 hpre
    have hr5' := hr5 t' ht'
    rw [ht'] at e5
    have htab : readTable symbol_size (codedSymbols T (2 ^ (8 * symbol_size))).length
        (codedSymbols T (2 ^ (8 * symbol_size))).length CreateDecodingNode
        (BitReaderReadBits R3 16).2 =
        (some t', (readTable symbol_size (codedSymbols T (2 ^ (8 * symbol_size))).length
          (codedSymbols T (2 ^ (8 * symbol_size))).length CreateDecodingNode
          (BitReaderReadBits R3 16).2).2) := Prod.ext e5 rfl
    rw [htab]
    dsimp only
    generalize (readTable symbol_size (codedSymbols T (2 ^ (8 * symbol_size))).length
      (codedSymbols T (2 ^ (8 * symbol_size))).length CreateDecodingNode
      (BitReaderReadBits R3 16).2).2 = R5 at hr5' ⊢
    have hsyms : ∀ s ∈ symbolsOf symbol_size content,
        s ∈ codedSymbols T (2 ^ (8 * symbol_size)) ∧ (T s).code_len > 0 := by
      intro s hs
      have hf := frequencies_of_symbol content symbol_size hW (by omega) hbytes s hs
      have hlt := frequencies_support content content.length symbol_size s hf
      rw [hcard2] at hlt
      have hact : s ∈ activeSymbols (frequencies content content.length symbol_size)
          (2 ^ (8 * symbol_size)) := (mem_activeSymbols _ _ _).2 ⟨hlt, hf⟩
      have := hw1 s hact
      exact ⟨(mem_codedSymbols _ _ _).2 ⟨hlt, this⟩, this⟩
    have hfuel : content.length < payloadFuel content.length R5 := by
      unfold payloadFuel; omega
    rcases hW with hW1 | hW2
    · subst hW1
      rw [symbolsOf_one] at hr5' hsyms
      obtain ⟨r', hp, hr'⟩ := payload_one_byte T t' _ hfor' hpf
        (shouldExtract wantedFiles extractAll name && fs.openOk name) content.length rest
        content (payloadFuel content.length R5) 0 R5
        (fun s hs => ⟨(hsyms s hs).1, (hsyms s hs).2, hbytes s hs⟩) (by simp) hfuel hr5'
      refine ⟨r', ?_, hr'⟩
      rw [hp]
      dsimp only
      cases (shouldExtract wantedFiles extractAll name && fs.openOk name) <;> rfl
    · subst hW2
      have hwr : (shouldExtract wantedFiles extractAll name && fs.openOk name) = true := by
        rcases hsel with h | h
        · exact absurd h (by norm_num)
        · exact h
      rw [hwr]
      obtain ⟨r', hp, hr'⟩ := payload_two_bytes T t' _ hfor' hpf content.length rest
        content.length content (payloadFuel content.length R5) 0 R5 (le_refl _) hbytes
        hsyms (by simp) hfuel hr5'
      refine ⟨r', ?_, hr'⟩
      rw [hp]
  · -- an empty file: no table, no payload
    have hL0 : content.length = 0 := by omega
    have hc : content = [] := List.length_eq_zero.1 hL0
    subst hc
    rw [if_neg hL] at hr3
    obtain ⟨e4, hr4⟩ := readBits_natBits_le R3 16 _ _ (by norm_num) hr3
    have e4' : (BitReaderReadBits R3 16).1 % 2 ^ 16 = 0 := by rw [e4]; norm_num
    rw [e4']
    refine ⟨(BitReaderReadBits R3 16).2, ?_, hr4⟩
    simp only [readTable, List.length_nil]
    unfold payloadFuel
    rw [payloadLoop_done _ _ _ _ _ _ _ (by omega)]

/-! ## The archive: encoder success and the decoding of every entry -/

theorem decodeEntries_roundtrip (fs : FsEnv) (symbol_size : Nat) (wantedFiles : List (List Nat))
    (extractAll : Bool) (hW : symbol_size = 1 ∨ symbol_size = 2) :
    ∀ (inputs : List (List Nat × List Nat)) (r : BitReader) (rest : List Bool),
      (∀ input ∈ inputs, ValidInput symbol_size input) →
      (symbol_size = 1 ∨ ∀ input ∈ inputs, isWritten fs wantedFiles extractAll input = true) →
      Reads r (inputs.flatMap (entryBits symbol_size) ++ rest) →
      ∃ r', decodeEntries fs symbol_size wantedFiles extractAll inputs.length r =
          ⟨.returned 0, true, inputs.filter (isWritten fs wantedFiles extractAll), r'⟩ ∧
        Reads r' rest := by
  intro inputs
  induction inputs with
  | nil =>
    intro r rest _ _ hr
    exact ⟨r, rfl, by simpa using hr⟩
  | cons input inputs ih =>
    intro r rest hv hsel hr
    obtain ⟨h1, h2, h3, h4⟩ := hv input (by simp)
    rw [List.flatMap_cons, List.append_assoc] at hr
    obtain ⟨r1, he, hr1⟩ := decodeEntry_roundtrip fs symbol_size wantedFiles extractAll
      input.1 input.2 r _ hW h1 h2 h3 h4
      (by
        rcases hsel with h | h
        · exact Or.inl h
        · exact Or.inr (h input (by simp))) hr
    obtain ⟨r2, hd, hr2⟩ := ih r1 rest (fun x hx => hv x (by simp [hx]))
      (by
        rcases hsel with h | h
        · exact Or.inl h
        · exact Or.inr (fun x hx => h x (by simp [hx]))) hr1
    refine ⟨r2, ?_, hr2⟩
    simp only [List.length_cons, decodeEntries, he, hd]
    rw [if_neg (by simp)]
    by_cases hw : isWritten fs wantedFiles extractAll input = true
    · have hw' : (shouldExtract wantedFiles extractAll input.1 && fs.openOk input.1) = true := hw
      rw [if_pos hw', List.filter_cons_of_pos hw]
      rfl
    · have hw' : ¬ (shouldExtract wantedFiles extractAll input.1 && fs.openOk input.1) = true := hw
      rw [if_neg hw', List.filter_cons_of_neg hw]
      rfl

theorem GenerateCodes_some (content : List Nat) (file_size symbol_size : Nat)
    (hW : symbol_size = 1 ∨ symbol_size = 2) :
    ∃ T, GenerateCodes content file_size symbol_size = some T := by
  unfold GenerateCodes
  rw [if_neg (by omega)]
  rcases huffmanTree_cases (frequencies content file_size symbol_size) file_size
    (if symbol_size = 1 then MAX_SYMBOLS_1B else MAX_SYMBOLS_2B) (symbol_count_le symbol_size) with
    ⟨_, _, h⟩ | ⟨_, _, _, _, h⟩ | ⟨_, _, _, _, _, h⟩
  · exact ⟨_, h⟩
  · exact ⟨_, h⟩
  · exact ⟨_, h⟩

theorem encodeEntry_some (symbol_size : Nat) (w : BitWriter) (input : List Nat × List Nat)
    (hW : symbol_size = 1 ∨ symbol_size = 2) (hsize : input.2.length < 2 ^ 64 - 1) :
    ∃ w', encodeEntry symbol_size w input = some w' := by
  unfold encodeEntry
  dsimp only
  rw [if_neg (by omega)]
  by_cases hL : input.2.length > 0
  · rw [if_pos hL]
    obtain ⟨T, hT⟩ := GenerateCodes_some input.2 input.2.length symbol_size hW
    rw [hT]
    exact ⟨_, rfl⟩
  · rw [if_neg hL]
    exact ⟨_, rfl⟩

theorem encodeEntries_some (symbol_size : Nat) (hW : symbol_size = 1 ∨ symbol_size = 2) :
    ∀ (inputs : List (List Nat × List Nat)) (w : BitWriter),
      (∀ input ∈ inputs, input.2.length < 2 ^ 64 - 1) →
      ∃ w', encodeEntries symbol_size inputs w = some w' := by
  intro inputs
  induction inputs with
  | nil => intro w _; exact ⟨w, rfl⟩
  | cons input inputs ih =>
    intro w hs
    obtain ⟨w1, h1⟩ := encodeEntry_some symbol_size w input hW (hs input (by simp))
    obtain ⟨w2, h2⟩ := ih w1 (fun x hx => hs x (by simp [hx]))
    exact ⟨w2, by simp only [encodeEntries, h1, h2]⟩

theorem EncodeFiles_some (inputs : List (List Nat × List Nat)) (symbol_size : Nat)
    (hW : symbol_size = 1 ∨ symbol_size = 2) (hN : 1 ≤ inputs.length)
    (hs : ∀ input ∈ inputs, input.2.length < 2 ^ 64 - 1) :
    ∃ archive, EncodeFiles inputs symbol_size = some archive := by
  unfold EncodeFiles
  rw [if_neg (by omega), if_neg (by omega)]
  obtain ⟨w, hw⟩ := encodeEntries_some symbol_size hW inputs
    (writeHeader inputs.length symbol_size) hs
  rw [hw]
  exact ⟨_, rfl⟩

theorem header_read (fs : FsEnv) (archive : List Nat) (wantedFiles : List (List Nat))
    (extractAll : Bool) (n symbol_size : Nat) (rest : List Bool)
    (hW : symbol_size = 1 ∨ symbol_size = 2) (hn : n < 2 ^ 32) (hmk : fs.mkdirOk = true)
    (hbits : bytesToBits archive = headerBits n symbol_size ++ rest) :
    ∃ r, Reads r rest ∧
      DecodeArchive fs archive wantedFiles extractAll =
        decodeEntries fs symbol_size wantedFiles extractAll n r := by
  have h0 := Reads_open archive
  rw [hbits] at h0
  unfold headerBits at h0
  simp only [List.append_assoc] at h0
  have hmagic : MAGIC_BYTES.length = 4 := rfl
  obtain ⟨e1, hr1⟩ := readName_bits MAGIC_BYTES _ _ (by decide) h0
  rw [hmagic] at e1 hr1
  obtain ⟨e2, hr2⟩ := readBits_natBits_le _ 8 _ _ (by norm_num) hr1
  obtain ⟨e3, hr3⟩ := readBits_natBits_le _ 8 _ _ (by norm_num) hr2
  obtain ⟨e4, hr4⟩ := readBits_natBits_le _ 32 _ _ (by norm_num) hr3
  have e2' : (BitReaderReadBits (readName 4 (BitReaderOpen archive)).2 8).1 % 2 ^ 8 =
      ARCHIVE_VERSION_EXPECTED := by
    rw [e2]; rfl
  have e3' : (BitReaderReadBits (BitReaderReadBits (readName 4 (BitReaderOpen archive)).2
      8).2 8).1 % 2 ^ 8 = symbol_size := by
    rw [e3]
    rcases hW with h | h <;> subst h <;> rfl
  have e4' : (BitReaderReadBits (BitReaderReadBits (BitReaderReadBits
      (readName 4 (BitReaderOpen archive)).2 8).2 8).2 32).1 = n := by
    rw [e4]; omega
  refine ⟨_, hr4, ?_⟩
  unfold DecodeArchive
  dsimp only
  rw [e1, if_neg (by simp), e2', if_neg (by simp), e3', if_neg (by omega), e4',
    if_neg (by simp [hmk])]

theorem DecodeArchive_roundtrip (fs : FsEnv) (symbol_size : Nat) (wantedFiles : List (List Nat))
    (extractAll : Bool) (inputs : List (List Nat × List Nat)) (archive : List Nat)
    (hW : symbol_size = 1 ∨ symbol_size = 2) (hN : inputs.length < 2 ^ 32)
    (hmk : fs.mkdirOk = true) (hv : ∀ input ∈ inputs, ValidInput symbol_size input)
    (hsel : symbol_size = 1 ∨ ∀ input ∈ inputs, isWritten fs wantedFiles extractAll input = true)
    (henc : EncodeFiles inputs symbol_size = some archive) :
    (DecodeArchive fs archive wantedFiles extractAll).status = .returned 0 ∧
    (DecodeArchive fs archive wantedFiles extractAll).files =
      inputs.filter (isWritten fs wantedFiles extractAll) := by
  obtain ⟨pad, _, _, hbits⟩ := EncodeFiles_bits inputs symbol_size archive henc
  rw [List.append_assoc] at hbits
  obtain ⟨r, hr, hd⟩ := header_read fs archive wantedFiles extractAll inputs.length
    symbol_size _ hW hN hmk hbits
  obtain ⟨r', hd', _⟩ := decodeEntries_roundtrip fs symbol_size wantedFiles extractAll hW
    inputs r _ hv hsel hr
  rw [hd, hd']
  exact ⟨rfl, rfl⟩

theorem isWritten_all (input : List Nat × List Nat) :
    isWritten FsEnv.allOk [] true input = true := by
  simp [isWritten, shouldExtract, FsEnv.allOk]

theorem filter_isWritten_all (inputs : List (List Nat × List Nat)) :
    inputs.filter (isWritten FsEnv.allOk [] true) = inputs := by
  rw [List.filter_eq_self]
  exact fun input _ => isWritten_all input

theorem entry_positions (symbol_size : Nat) (inputs : List (List Nat × List Nat))
    (archive : List Nat) (i : Nat) (hi : i < inputs.length)
    (hW : symbol_size = 1 ∨ symbol_size = 2)
    (hs : ∀ input ∈ inputs, input.2.length < 2 ^ 64 - 1)
    (henc : EncodeFiles inputs symbol_size = some archive) :
    ∃ w w' rest,
      encodeEntries symbol_size (inputs.take i) (writeHeader inputs.length symbol_size) = some w ∧
      encodeEntry symbol_size w (inputs.get ⟨i, hi⟩) = some w' ∧
      (bytesToBits archive).drop w.written.length =
        entryBits symbol_size (inputs.get ⟨i, hi⟩) ++ rest ∧
      (bytesToBits archive).drop w'.written.length = rest := by
  obtain ⟨pad, _, _, hbits⟩ := EncodeFiles_bits inputs symbol_size archive henc
  obtain ⟨h1, h2⟩ := writeHeader_spec inputs.length symbol_size
  obtain ⟨w, hw⟩ := encodeEntries_some symbol_size hW (inputs.take i)
    (writeHeader inputs.length symbol_size) (fun x hx => hs x (List.mem_of_mem_take hx))
  obtain ⟨h3, h4⟩ := encodeEntries_spec symbol_size _ _ w h1 hw
  obtain ⟨w', hw'⟩ := encodeEntry_some symbol_size w (inputs.get ⟨i, hi⟩) hW
    (hs _ (List.get_mem inputs i hi))
  obtain ⟨_, h6⟩ := encodeEntry_spec symbol_size w w' _ h3 hw'
  have hsplit : inputs = inputs.take i ++ inputs.get ⟨i, hi⟩ :: inputs.drop (i + 1) := by
    rw [List.get_eq_getElem, List.getElem_cons_drop, List.take_append_drop]
  have hflat : inputs.flatMap (entryBits symbol_size) =
      (inputs.take i).flatMap (entryBits symbol_size) ++
        (entryBits symbol_size (inputs.get ⟨i, hi⟩) ++
          (inputs.drop (i + 1)).flatMap (entryBits symbol_size)) := by
    conv_lhs => rw [hsplit]
    rw [List.flatMap_append, List.flatMap_cons]
  refine ⟨w, w', (inputs.drop (i + 1)).flatMap (entryBits symbol_size) ++
    List.replicate pad false, hw, hw', ?_, ?_⟩
  · rw [hbits, hflat, h4, h2]
    simp only [List.append_assoc]
    rw [← List.append_assoc, List.drop_left]
  · rw [hbits, hflat, h6, h4, h2]
    have h := List.drop_left
      (headerBits inputs.length symbol_size ++
        (inputs.take i).flatMap (entryBits symbol_size) ++
          entryBits symbol_size (inputs.get ⟨i, hi⟩))
      ((inputs.drop (i + 1)).flatMap (entryBits symbol_size) ++ List.replicate pad false)
    simpa only [List.append_assoc] using h

theorem isWritten_allow_list (wantedFiles : List (List Nat)) (input : List Nat × List Nat)
    (hA : wantedFiles.length > 0) :
    isWritten FsEnv.allOk wantedFiles false input = decide (input.1 ∈ wantedFiles) := by
  unfold isWritten shouldExtract FsEnv.allOk
  rw [if_pos ⟨by simp, hA⟩, Bool.and_true]
  by_cases h : input.1 ∈ wantedFiles
  · rw [decide_eq_true h, List.any_eq_true]
    exact ⟨input.1, h, by simp⟩
  · rw [decide_eq_false h, List.any_eq_false]
    intro w hw
    have : w ≠ input.1 := fun e => h (e ▸ hw)
    simpa using this

theorem DecodeArchive_selective (inputs : List (List Nat × List Nat)) (archive : List Nat)
    (wantedFiles : List (List Nat)) (hN32 : inputs.length < 2 ^ 32)
    (hv : ∀ input ∈ inputs, ValidInput 1 input) (hA : wantedFiles.length > 0)
    (henc : EncodeFiles inputs 1 = some archive) :
    (DecodeArchive FsEnv.allOk archive wantedFiles false).status = .returned 0 ∧
    (DecodeArchive FsEnv.allOk archive wantedFiles false).files =
      inputs.filter (fun input => decide (input.1 ∈ wantedFiles)) := by
  obtain ⟨h1, h2⟩ := DecodeArchive_roundtrip FsEnv.allOk 1 wantedFiles false inputs archive
    (Or.inl rfl) hN32 rfl hv (Or.inl rfl) henc
  refine ⟨h1, ?_⟩
  rw [h2]
  exact List.filter_congr (fun input _ => isWritten_allow_list wantedFiles input hA)

/-! ## What a decoded two-byte entry can contain -/

theorem walkToLeaf_mem : ∀ (t : DecodingTreeNode) (r r' : BitReader) (s : Nat),
    walkToLeaf t r = (some s, r') → s ∈ t.leafSymbols := by
  intro t
  induction t with
  | null => intro r r' s h; simp [walkToLeaf] at h
  | node c0 c1 is_leaf symbol ih0 ih1 =>
    intro r r' s h
    unfold walkToLeaf at h
    unfold DecodingTreeNode.leafSymbols
    split at h
    · rename_i hl
      simp only [Prod.mk.injEq, Option.some.injEq] at h
      simp [hl, h.1]
    · split at h
      · simp at h
      · split at h
        · have := ih0 _ _ _ h
          simp [this]
        · have := ih1 _ _ _ h
          simp [this]

theorem leafSymbols_next (c : DecodingTreeNode) :
    (if c = .null then CreateDecodingNode else c).leafSymbols = c.leafSymbols := by
  split
  · rename_i h; subst h; rfl
  · rfl

theorem insertPath_leaves (symbol_val code : Nat) : ∀ (i : Nat) (t t' : DecodingTreeNode),
    insertPath symbol_val code i t = some t' →
    t'.leafSymbols.length ≤ t.leafSymbols.length + 1 := by
  intro i
  induction i with
  | zero =>
    intro t t' h
    cases t with
    | null => simp [insertPath] at h
    | node c0 c1 l s =>
      simp only [insertPath] at h
      by_cases hl : l = true
      · rw [if_pos hl] at h; cases h
      · rw [if_neg hl] at h
        cases h
        simp [DecodingTreeNode.leafSymbols]
  | succ i ih =>
    intro t t' h
    cases t with
    | null => simp [insertPath] at h
    | node c0 c1 l s =>
      simp only [insertPath] at h
      by_cases hbit : (code >>> i) &&& 1 = 0
      · rw [if_pos hbit] at h
        have hn := leafSymbols_next c0
        generalize (if c0 = .null then CreateDecodingNode else c0) = next at h hn
        by_cases hl : next.isLeaf = true ∧ i > 0
        · rw [if_pos hl] at h; cases h
        · rw [if_neg hl] at h
          cases hrec : insertPath symbol_val code i next with
          | none => rw [hrec] at h; cases h
          | some n =>
            rw [hrec] at h
            cases h
            have := ih _ _ hrec
            have hn1 := congrArg List.length hn
            simp only [DecodingTreeNode.leafSymbols, List.length_append]
            omega
      · rw [if_neg hbit] at h
        have hn := leafSymbols_next c1
        generalize (if c1 = .null then CreateDecodingNode else c1) = next at h hn
        by_cases hl : next.isLeaf = true ∧ i > 0
        · rw [if_pos hl] at h; cases h
        · rw [if_neg hl] at h
          cases hrec : insertPath symbol_val code i next with
          | none => rw [hrec] at h; cases h
          | some n =>
            rw [hrec] at h
            cases h
            have := ih _ _ hrec
            have hn1 := congrArg List.length hn
            simp only [DecodingTreeNode.leafSymbols, List.length_append]
            omega

theorem InsertIntoDecodingTree_leaves (t t' : DecodingTreeNode) (symbol_val code code_len : Nat)
    (h : InsertIntoDecodingTree t symbol_val code code_len = some t') :
    t'.leafSymbols.length ≤ t.leafSymbols.length + 1 := by
  cases t with
  | null => simp [InsertIntoDecodingTree] at h
  | node c0 c1 l s =>
    simp only [InsertIntoDecodingTree] at h
    by_cases hc : code_len = 0
    · rw [if_pos hc] at h
      by_cases h1 : l = true ∧ s ≠ symbol_val
      · rw [if_pos h1] at h; cases h
      · rw [if_neg h1] at h
        by_cases h2 : ¬ l = true ∧ (c0 ≠ .null ∨ c1 ≠ .null)
        · rw [if_pos h2] at h; cases h
        · rw [if_neg h2] at h
          cases h
          simp only [DecodingTreeNode.leafSymbols, List.length_append, if_true,
            List.length_singleton]
          omega
    · rw [if_neg hc] at h
      exact insertPath_leaves _ _ _ _ _ h

theorem readTable_leaves (symbol_size_val count : Nat) : ∀ (k : Nat)
    (t : DecodingTreeNode) (r : BitReader) (t' : DecodingTreeNode) (r' : BitReader),
    readTable symbol_size_val count k t r = (some t', r') →
    t'.leafSymbols.length ≤ t.leafSymbols.length + k := by
  intro k
  induction k with
  | zero =>
    intro t r t' r' h
    simp only [readTable, Prod.mk.injEq, Option.some.injEq] at h
    rw [← h.1]
    omega
  | succ k ih =>
    intro t r t' r' h
    unfold readTable at h
    dsimp only at h
    generalize (if symbol_size_val = 1 then BitReaderReadBits r 8
      else BitReaderReadBits r 16) = symbol at h
    generalize BitReaderReadBits symbol.2 8 = code_len at h
    by_cases hc : code_len.1 % 2 ^ 8 > 64 ∧ count > 1
    · rw [if_pos hc] at h; cases h
    · rw [if_neg hc] at h
      generalize (if code_len.1 % 2 ^ 8 > 0 then
        BitReaderReadBits code_len.2 (code_len.1 % 2 ^ 8) else (0, code_len.2)) = code at h
      cases hins : InsertIntoDecodingTree t (symbol.1 % 2 ^ 16) code.1 (code_len.1 % 2 ^ 8) with
      | none => rw [hins] at h; cases h
      | some root' =>
        rw [hins] at h
        have h1 := InsertIntoDecodingTree_leaves _ _ _ _ _ hins
        have h2 := ih _ _ _ _ h
        omega

theorem payloadLoop_past (symbol_size_val : Nat) (writing : Bool) (root : DecodingTreeNode)
    (L fuel bytes : Nat) (r r' : BitReader) (e : Bool) (out : List Nat) (hb : ¬ bytes < L)
    (h : payloadLoop symbol_size_val writing root L fuel bytes r = some (e, r', out)) :
    out = [] := by
  cases fuel with
  | zero => simp [payloadLoop] at h
  | succ fuel =>
    unfold payloadLoop at h
    rw [if_neg hb] at h
    simp only [Option.some.injEq, Prod.mk.injEq] at h
    exact h.2.2.symm

theorem payloadLoop_pairs (root : DecodingTreeNode) (L : Nat) : ∀ (fuel bytes : Nat)
    (r r' : BitReader) (e : Bool) (out : List Nat),
    payloadLoop 2 true root L fuel bytes r = some (e, r', out) →
    ∃ syms : List Nat, (∀ s ∈ syms, s ∈ root.leafSymbols) ∧
      out <+: syms.flatMap symbolPair := by
  intro fuel
  induction fuel with
  | zero => intro bytes r r' e out h; simp [payloadLoop] at h
  | succ fuel ih =>
    intro bytes r r' e out h
    unfold payloadLoop at h
    by_cases hb : bytes < L
    · rw [if_pos hb] at h
      cases hwalk : walkToLeaf root r with
      | mk o r1 =>
        rw [hwalk] at h
        cases o with
        | none =>
          simp only [Option.some.injEq, Prod.mk.injEq] at h
          exact ⟨[], by simp, by rw [← h.2.2]; simp⟩
        | some s =>
          have hs := walkToLeaf_mem _ _ _ _ hwalk
          dsimp only at h
          by_cases hb1 : bytes + 1 < L
          · have hstep : emitSymbol 2 true L s bytes = (bytes + 2, symbolPair s) := by
              simp [emitSymbol, hb, hb1, symbolPair]
            rw [hstep] at h
            dsimp only at h
            cases hrec : payloadLoop 2 true root L fuel (bytes + 2) r1 with
            | none => rw [hrec] at h; cases h
            | some res =>
              obtain ⟨e1, r2, written⟩ := res
              rw [hrec] at h
              simp only [Option.some.injEq, Prod.mk.injEq] at h
              obtain ⟨syms, h1, h2⟩ := ih _ _ _ _ _ hrec
              refine ⟨s :: syms, ?_, ?_⟩
              · intro x hx
                rcases List.mem_cons.1 hx with hx | hx
                · rw [hx]; exact hs
                · exact h1 x hx
              · rw [← h.2.2, List.flatMap_cons]
                exact (List.prefix_append_right_inj _).2 h2
          · have hstep : emitSymbol 2 true L s bytes = (bytes + 1, [(s >>> 8) % 2 ^ 8]) := by
              simp [emitSymbol, hb, hb1]
            rw [hstep] at h
            dsimp only at h
            cases hrec : payloadLoop 2 true root L fuel (bytes + 1) r1 with
            | none => rw [hrec] at h; cases h
            | some res =>
              obtain ⟨e1, r2, written⟩ := res
              rw [hrec] at h
              simp only [Option.some.injEq, Prod.mk.injEq] at h
              have hw := payloadLoop_past _ _ _ _ _ _ _ _ _ _ hb1 hrec
              subst hw
              refine ⟨[s], ?_, ?_⟩
              · intro x hx
                rw [List.mem_singleton.1 hx]; exact hs
              · rw [← h.2.2]
                exact ⟨[(s &&& 0xFF) % 2 ^ 8], by simp [symbolPair]⟩
    · rw [if_neg hb] at h
      simp only [Option.some.injEq, Prod.mk.injEq] at h
      exact ⟨[], by simp, by rw [← h.2.2]; simp⟩

theorem decodeEntry_two_byte_output (fs : FsEnv) (wantedFiles : List (List Nat))
    (extractAll : Bool) (r r' : BitReader) (e : Bool) (name out : List Nat)
    (h : decodeEntry fs 2 wantedFiles extractAll r = .finished e r' (some (name, out))) :
    ∃ syms leaves : List Nat, leaves.length < 65536 ∧ (∀ s ∈ syms, s ∈ leaves) ∧
      out <+: syms.flatMap symbolPair := by
  unfold decodeEntry at h
  dsimp only at h
  generalize BitReaderReadBits r 16 = filename_len at h
  by_cases hlen : filename_len.1 % 2 ^ 16 = 0 ∨ filename_len.1 % 2 ^ 16 ≥ PATH_MAX
  · rw [if_pos hlen] at h; cases h
  · rw [if_neg hlen] at h
    generalize readName (filename_len.1 % 2 ^ 16) filename_len.2 = filename at h
    generalize BitReaderReadUint64 filename.2 = size at h
    generalize BitReaderReadBits size.2 16 = count at h
    have hcount : count.1 % 2 ^ 16 < 65536 := Nat.mod_lt _ (by norm_num)
    cases htable : readTable 2 (count.1 % 2 ^ 16) (count.1 % 2 ^ 16) CreateDecodingNode
      count.2 with
    | mk o reader' =>
      rw [htable] at h
      cases o with
      | none => cases h
      | some root =>
        have hk := readTable_leaves _ _ _ _ _ _ _ htable
        have h0 : CreateDecodingNode.leafSymbols.length = 0 := rfl
        dsimp only at h
        generalize (shouldExtract wantedFiles extractAll (cString filename.1) &&
          fs.openOk (cString filename.1)) = writing at h
        cases hloop : payloadLoop 2 writing root size.1 (payloadFuel size.1 reader') 0
          reader' with
        | none => rw [hloop] at h; cases h
        | some res =>
          obtain ⟨error, reader'', written⟩ := res
          rw [hloop] at h
          dsimp only at h
          cases writing with
          | false => simp at h
          | true =>
            simp only [if_true, EntryResult.finished.injEq, Option.some.injEq,
              Prod.mk.injEq] at h
            obtain ⟨syms, h1, h2⟩ := payloadLoop_pairs _ _ _ _ _ _ _ _ hloop
            exact ⟨syms, root.leafSymbols, by omega, h1, by rw [← h.2.2.2]; exact h2⟩

theorem pairs_of_prefix : ∀ (l syms : List Nat),
    l.flatMap (fun s => [s / 256, s % 256]) <+: syms.flatMap symbolPair →
    (∀ s ∈ l, s < 65536) → ∀ s ∈ l, ∃ t ∈ syms, t % 65536 = s := by
  intro l
  induction l with
  | nil => intro syms _ _ s hs; simp at hs
  | cons a l ih =>
    intro syms hp hl s hs
    cases syms with
    | nil => simp at hp
    | cons t syms =>
      simp only [List.flatMap_cons, symbolPair, List.cons_append, List.nil_append,
        List.cons_prefix_cons] at hp
      obtain ⟨e1, e2, hp⟩ := hp
      rcases List.mem_cons.1 hs with hs | hs
      · refine ⟨t, by simp, ?_⟩
        have ha : a < 65536 := hl a (by simp)
        have e3 : t &&& 0xFF = t % 2 ^ 8 := Nat.and_pow_two_sub_one_eq_mod t 8
        have e4 : t >>> 8 = t / 2 ^ 8 := Nat.shiftRight_eq_div_pow t 8
        rw [e3] at e2
        rw [e4] at e1
        rw [hs]
        omega
      · obtain ⟨t', ht', h'⟩ := ih syms hp (fun x hx => hl x (by simp [hx])) s hs
        exact ⟨t', by simp [ht'], h'⟩

theorem allSymbolsFile_length : allSymbolsFile.length = 131072 := by
  have : ∀ l : List Nat, (l.flatMap (fun s => [s / 256, s % 256])).length = 2 * l.length := by
    intro l
    induction l with
    | nil => rfl
    | cons a l ih =>
      rw [List.flatMap_cons, List.length_append, ih, List.length_cons]
      simp only [List.length_cons, List.length_nil]
      omega
  unfold allSymbolsFile
  rw [this, List.length_range]

theorem not_allSymbolsFile (syms leaves : List Nat) (hlen : leaves.length < 65536)
    (hsub : ∀ s ∈ syms, s ∈ leaves) : ¬ allSymbolsFile <+: syms.flatMap symbolPair := by
  intro hp
  have h := pairs_of_prefix (List.range 65536) syms hp (fun s hs => List.mem_range.1 hs)
  have hsubset : List.range 65536 ⊆ leaves.map (fun t => t % 65536) := by
    intro s hs
    obtain ⟨t, ht, e⟩ := h s hs
    exact List.mem_map.2 ⟨t, hsub t ht, e⟩
  have := ((List.nodup_range 65536).subperm hsubset).length_le
  rw [List.length_range, List.length_map] at this
  omega

/-! ## A file whose Huffman code has words of 33 bits -/

theorem countLoop_one_count (L : Nat) : ∀ (data : List Nat) (counted : Nat)
    (freq : Nat → Nat) (s : Nat), counted + data.length ≤ L → (∀ b ∈ data, b < 256) →
    freq s + data.count s < 2 ^ 64 →
    countLoop L 1 data counted freq s = freq s + data.count s := by
  intro data
  induction data with
  | nil => intro counted freq s _ _ _; simp [countLoop]
  | cons c1 tl ih =>
    intro counted freq s hlen hb hlt
    have hc1 : c1 % 256 = c1 := Nat.mod_eq_of_lt (hb c1 (by simp))
    have hinc : incFreq freq c1 s + tl.count s = freq s + (c1 :: tl).count s := by
      unfold incFreq
      rw [List.count_cons]
      by_cases h : s = c1
      · subst h
        rw [if_pos rfl]
        simp only [beq_self_eq_true, if_true] at hlt ⊢
        rw [List.count_cons_self] at hlt
        rw [Nat.mod_eq_of_lt (by omega)]
        omega
      · rw [if_neg h]
        have : (c1 == s) = false := by simpa using fun h' => h h'.symm
        simp [this]
    cases tl with
    | nil =>
      rw [List.length_singleton] at hlen
      rw [countLoop, if_pos (by omega), if_pos rfl, hc1]
      simpa using hinc
    | cons c2 rest =>
      unfold countLoop
      rw [if_pos (by simp only [List.length_cons] at hlen; omega), if_pos rfl, hc1]
      rw [ih (counted + 1) (incFreq freq c1) s (by simp only [List.length_cons] at hlen ⊢; omega)
        (fun b h => hb b (by simp [h])) (by rw [hinc]; exact hlt)]
      exact hinc

theorem frequencies_one_count (content : List Nat) (s : Nat) (hpos : content.length > 0)
    (hlen : content.length < 2 ^ 64) (hb : ∀ b ∈ content, b < 256) :
    frequencies content content.length 1 s = content.count s := by
  unfold frequencies
  rw [if_pos hpos]
  have := List.count_le_length s content
  rw [countLoop_one_count content.length content 0 (fun _ => 0) s (by omega) hb
    (by dsimp only; omega)]
  simp

theorem count_fileOfCounts (s : Nat) : ∀ (counts : List Nat) (k : Nat),
    (fileOfCounts k counts).count s = if k ≤ s then counts.getD (s - k) 0 else 0 := by
  intro counts
  induction counts with
  | nil => intro k; simp [fileOfCounts]
  | cons c counts ih =>
    intro k
    rw [fileOfCounts, List.count_append, ih (k + 1), List.count_replicate]
    rcases Nat.lt_trichotomy k s with h | h | h
    · have e : s - k = (s - (k + 1)) + 1 := by omega
      have hbeq : (k == s) = false := by simp; omega
      have hk1 : k + 1 ≤ s := h
      have hk : k ≤ s := by omega
      rw [hbeq, if_pos hk1, if_pos hk, e, List.getD_cons_succ]
      simp
    · subst h
      simp
    · have hbeq : (k == s) = false := by simp; omega
      have hk1 : ¬ k + 1 ≤ s := by omega
      have hk : ¬ k ≤ s := by omega
      rw [hbeq, if_neg hk1, if_neg hk]
      simp

theorem length_fileOfCounts : ∀ (counts : List Nat) (k : Nat),
    (fileOfCounts k counts).length = counts.sum := by
  intro counts
  induction counts with
  | nil => intro k; rfl
  | cons c counts ih =>
    intro k
    rw [fileOfCounts, List.length_append, ih, List.length_replicate, List.sum_cons]

theorem mem_fileOfCounts : ∀ (counts : List Nat) (k b : Nat),
    b ∈ fileOfCounts k counts → b < k + counts.length := by
  intro counts
  induction counts with
  | nil => intro k b h; simp [fileOfCounts] at h
  | cons c counts ih =>
    intro k b h
    rw [fileOfCounts, List.mem_append] at h
    rcases h with h | h
    · have := (List.mem_replicate.1 h).2
      simp only [List.length_cons]
      omega
    · have := ih _ _ h
      simp only [List.length_cons]
      omega

theorem fillHeap_congr (f g : Nat → Nat) (n : Nat) (h : ∀ s, s < n → f s = g s) :
    fillHeap f n = fillHeap g n := by
  unfold fillHeap
  have : ∀ (l : List Nat) (acc : MinHeap × Nat), (∀ i ∈ l, f i = g i) →
      l.foldl (fillHeapStep f) acc = l.foldl (fillHeapStep g) acc := by
    intro l
    induction l with
    | nil => intro acc _; rfl
    | cons i l ih =>
      intro acc hl
      rw [List.foldl_cons, List.foldl_cons]
      have : fillHeapStep f acc i = fillHeapStep g acc i := by
        unfold fillHeapStep
        rw [hl i (by simp)]
      rw [this]
      exact ih _ (fun j hj => hl j (by simp [hj]))
  exact this _ _ (fun i hi => h i (List.mem_range.1 hi))

theorem codesFromFrequencies_congr (f g : Nat → Nat) (file_size n : Nat)
    (h : ∀ s, s < n → f s = g s) :
    codesFromFrequencies f file_size n = codesFromFrequencies g file_size n := by
  unfold codesFromFrequencies huffmanTree
  rw [fillHeap_congr f g n h]

theorem huffmanTree_congr (f g : Nat → Nat) (n : Nat) (h : ∀ s, s < n → f s = g s) :
    huffmanTree f n = huffmanTree g n := by
  unfold huffmanTree
  rw [fillHeap_congr f g n h]

theorem skewedFile_length : skewedFile.length = 14930351 := by
  unfold skewedFile
  rw [length_fileOfCounts]
  decide

theorem skewedFile_bytes : ∀ b ∈ skewedFile, b < 256 := by
  intro b hb
  have := mem_fileOfCounts _ _ _ hb
  have hl : skewCounts.length = 34 := rfl
  omega

theorem skewedFile_frequencies (s : Nat) :
    frequencies skewedFile skewedFile.length 1 s = skewFreq s := by
  rw [frequencies_one_count skewedFile s (by rw [skewedFile_length]; norm_num)
    (by rw [skewedFile_length]; norm_num) skewedFile_bytes]
  unfold skewedFile
  rw [count_fileOfCounts]
  simp [skewFreq]

set_option maxRecDepth 1000000 in
theorem skewTree_built : huffmanTree skewFreq 256 = some (some (skewTree 32)) := by
  decide

theorem skewedFile_codes :
    GenerateCodes skewedFile skewedFile.length 1 =
      some (BuildCodes (skewTree 32) emptyTable 0 0) := by
  unfold GenerateCodes
  rw [if_neg (by omega), if_pos rfl,
    codesFromFrequencies_congr _ skewFreq _ _ (fun s _ => skewedFile_frequencies s)]
  unfold MAX_SYMBOLS_1B
  exact codes_of_tree skewFreq skewedFile.length 256 (by norm_num) _ _ _ skewTree_built

set_option maxRecDepth 1000000 in
theorem skewedFile_table :
    (codedSymbols (BuildCodes (skewTree 32) emptyTable 0 0) 256).length < 65536 ∧
    (∀ s ∈ codedSymbols (BuildCodes (skewTree 32) emptyTable 0 0) 256,
      (BuildCodes (skewTree 32) emptyTable 0 0 s).code_len ≤ 64) ∧
    insertAll (BuildCodes (skewTree 32) emptyTable 0 0)
      (codedSymbols (BuildCodes (skewTree 32) emptyTable 0 0) 256) CreateDecodingNode = none := by
  decide

theorem decodeEntry_table_rejected (fs : FsEnv) (symbol_size : Nat)
    (wantedFiles : List (List Nat)) (extractAll : Bool) (name content : List Nat)
    (r : BitReader) (rest : List Bool) (huff_codes : CodeTable)
    (hW : symbol_size = 1 ∨ symbol_size = 2) (hname : ValidName name)
    (hsize : content.length < 2 ^ 64 - 1) (hL : content.length > 0)
    (hG : GenerateCodes content content.length symbol_size = some huff_codes)
    (hcount : (codedSymbols huff_codes (2 ^ (8 * symbol_size))).length < 65536)
    (h64 : ∀ s ∈ codedSymbols huff_codes (2 ^ (8 * symbol_size)),
      (huff_codes s).code_len ≤ 64)
    (hins : insertAll huff_codes (codedSymbols huff_codes (2 ^ (8 * symbol_size)))
      CreateDecodingNode = none)
    (hr : Reads r (entryBits symbol_size (name, content) ++ rest)) :
    ∃ r', decodeEntry fs symbol_size wantedFiles extractAll r = .failed r' := by
  obtain ⟨hn0, hnmax, hnbytes⟩ := hname
  unfold entryBits metaBits at hr
  simp only [List.append_assoc] at hr
  obtain ⟨e1, hr1⟩ := readBits_natBits_le r 16 _ _ (by norm_num) hr
  have e1' : (BitReaderReadBits r 16).1 % 2 ^ 16 = name.length := by
    rw [e1]
    unfold PATH_MAX at hnmax
    omega
  obtain ⟨e2, hr2⟩ := readName_bits name _ _ (fun b hb => (hnbytes b hb).2) hr1
  rw [← List.append_assoc] at hr2
  obtain ⟨e3, hr3⟩ := readUint64_bits _ content.length _ (by omega) hr2
  unfold decodeEntry
  dsimp only
  rw [e1']
  rw [if_neg (by unfold PATH_MAX at hnmax ⊢; omega)]
  rw [e2, e3]
  generalize (BitReaderReadUint64 (readName name.length (BitReaderReadBits r 16).2).2).2 = R3
    at hr3 ⊢
  clear e1 e1' e2 e3 hr hr1 hr2
  obtain ⟨hcard1, _, _⟩ := alphabet_eq symbol_size hW
  rw [if_pos hL, hG] at hr3
  simp only [] at hr3
  rw [hcard1, countActiveCodes_eq, tableBits_eq, List.append_assoc, List.append_assoc] at hr3
  obtain ⟨e4, hr4⟩ := readBits_natBits_le R3 16 _ _ (by norm_num) hr3
  have e4' : (BitReaderReadBits R3 16).1 % 2 ^ 16 =
      (codedSymbols huff_codes (2 ^ (8 * symbol_size))).length := by
    rw [e4]; omega
  rw [e4']
  obtain ⟨e5, _⟩ := readTable_bits symbol_size
    (codedSymbols huff_codes (2 ^ (8 * symbol_size))).length huff_codes hW
    (codedSymbols huff_codes (2 ^ (8 * symbol_size))) CreateDecodingNode _ _
    (fun s hs => ⟨((mem_codedSymbols _ _ _).1 hs).1, ((mem_codedSymbols _ _ _).1 hs).2,
      h64 s hs⟩) hr4
  rw [hins] at e5
  have htab : readTable symbol_size (codedSymbols huff_codes (2 ^ (8 * symbol_size))).length
      (codedSymbols huff_codes (2 ^ (8 * symbol_size))).length CreateDecodingNode
      (BitReaderReadBits R3 16).2 =
      (none, (readTable symbol_size (codedSymbols huff_codes (2 ^ (8 * symbol_size))).length
        (codedSymbols huff_codes (2 ^ (8 * symbol_size))).length CreateDecodingNode
        (BitReaderReadBits R3 16).2).2) := Prod.ext e5 rfl
  rw [htab]
  exact ⟨_, rfl⟩

/-! ## The frequency pass counts the symbols of the input -/

theorem incFreq_apply (freq_table : Nat → Nat) (sym x : Nat) (h : freq_table x + 1 < 2 ^ 64) :
    incFreq freq_table sym x = freq_table x + if x = sym then 1 else 0 := by
  unfold incFreq
  by_cases hx : x = sym
  · rw [if_pos hx, if_pos hx, Nat.mod_eq_of_lt h]
  · rw [if_neg hx, if_neg hx, Nat.add_zero]

theorem count_cons_add (x a : Nat) (l : List Nat) :
    (a :: l).count x = l.count x + if x = a then 1 else 0 := by
  rw [List.count_cons]
  by_cases h : x = a
  · subst h; simp
  · have : (a == x) = false := by simpa using fun e => h e.symm
    simp [this, h]

theorem countLoop_take (file_size symbol_size : Nat) :
    ∀ (k : Nat) (data : List Nat) (counted : Nat) (freq_table : Nat → Nat),
      data.length ≤ k →
      countLoop file_size symbol_size data counted freq_table =
        countLoop file_size symbol_size (data.take (file_size - counted)) counted freq_table := by
  intro k
  induction k with
  | zero =>
    intro data counted freq_table hk
    have : data = [] := List.length_eq_zero.1 (by omega)
    subst this
    rw [List.take_nil]
  | succ k ih =>
    intro data counted freq_table hk
    match data with
    | [] => rw [List.take_nil]
    | [c1] =>
      by_cases hlt : counted < file_size
      · have : file_size - counted = (file_size - counted - 1) + 1 := by omega
        rw [this, List.take_succ_cons, List.take_nil]
      · have : file_size - counted = 0 := by omega
        rw [this, List.take_zero]
        unfold countLoop
        rw [if_neg hlt]
    | c1 :: c2 :: rest =>
      by_cases hlt : counted < file_size
      · by_cases hlt2 : counted + 1 < file_size
        · have e : file_size - counted = (file_size - (counted + 1 + 1)) + 1 + 1 := by omega
          have e1 : file_size - (counted + 1) = (file_size - (counted + 1 + 1)) + 1 := by omega
          rw [e, List.take_succ_cons, List.take_succ_cons]
          unfold countLoop
          rw [if_pos hlt, if_pos hlt, if_pos hlt2, if_pos hlt2]
          by_cases hW : symbol_size = 1
          · rw [if_pos hW, if_pos hW]
            rw [ih (c2 :: rest) (counted + 1) _ (by simp at hk ⊢; omega), e1,
              List.take_succ_cons]
          · rw [if_neg hW, if_neg hW]
            exact ih rest (counted + 1 + 1) _ (by simp at hk ⊢; omega)
        · have e : file_size - counted = 1 := by omega
          rw [e, List.take_succ_cons, List.take_zero]
          unfold countLoop
          rw [if_pos hlt, if_pos hlt, if_neg hlt2]
          by_cases hW : symbol_size = 1
          · rw [if_pos hW, if_pos hW]
            cases rest with
            | nil => rw [countLoop, if_neg (by omega)]
            | cons c3 rest => rw [countLoop, if_neg (by omega)]
          · rw [if_neg hW, if_neg hW]
      · have : file_size - counted = 0 := by omega
        rw [this, List.take_zero]
        unfold countLoop
        rw [if_neg hlt]

theorem countLoop_eq_count (file_size symbol_size : Nat)
    (hW : symbol_size = 1 ∨ symbol_size = 2) :
    ∀ (k : Nat) (data : List Nat) (counted : Nat) (freq_table : Nat → Nat) (x : Nat),
      data.length ≤ k → counted + data.length = file_size → (∀ b ∈ data, b < 256) →
      freq_table x + data.length < 2 ^ 64 →
      countLoop file_size symbol_size data counted freq_table x =
        freq_table x + (symbolsOf symbol_size data).count x := by
  intro k
  induction k with
  | zero =>
    intro data counted freq_table x hk _ _ _
    have : data = [] := List.length_eq_zero.1 (by omega)
    subst this
    simp [countLoop, symbolsOf]
  | succ k ih =>
    intro data counted freq_table x hk hlen hv hlt64
    match data with
    | [] => simp [countLoop, symbolsOf]
    | [c1] =>
      have hc1 : c1 < 256 := hv c1 (by simp)
      have hlt : counted < file_size := by simp at hlen; omega
      simp only [List.length_singleton] at hlt64
      unfold countLoop symbolsOf
      rw [if_pos hlt]
      rcases hW with hW | hW
      · rw [if_pos hW, if_pos hW, incFreq_apply _ _ _ hlt64, Nat.mod_eq_of_lt hc1,
          count_cons_add, List.count_nil, Nat.zero_add]
      · have hne : symbol_size ≠ 1 := by omega
        rw [if_neg hne, if_neg hne, if_pos hW, incFreq_apply _ _ _ hlt64,
          count_cons_add, List.count_nil, Nat.zero_add]
    | c1 :: c2 :: rest =>
      have hc1 : c1 < 256 := hv c1 (by simp)
      have hc2 : c2 < 256 := hv c2 (by simp)
      have hlt : counted < file_size := by simp at hlen; omega
      have hlt2 : counted + 1 < file_size := by simp at hlen; omega
      simp only [List.length_cons] at hlt64
      unfold countLoop symbolsOf
      rw [if_pos hlt]
      rcases hW with hW | hW
      · rw [if_pos hW, if_pos hW,
          ih (c2 :: rest) (counted + 1) _ x (by simp at hk ⊢; omega) (by simp at hlen ⊢; omega)
            (fun b hb => hv b (by simp [hb]))
            (by
              rw [incFreq_apply _ _ _ (by omega)]
              simp only [List.length_cons]
              split <;> omega),
          incFreq_apply _ _ _ (by omega), Nat.mod_eq_of_lt hc1, count_cons_add]
        omega
      · have hne : symbol_size ≠ 1 := by omega
        rw [if_neg hne, if_neg hne, if_pos hW, if_pos hlt2,
          ih rest (counted + 1 + 1) _ x (by simp at hk ⊢; omega) (by simp at hlen ⊢; omega)
            (fun b hb => hv b (by simp [hb]))
            (by
              rw [incFreq_apply _ _ _ (by omega)]
              split <;> omega),
          incFreq_apply _ _ _ (by omega), Nat.mod_eq_of_lt hc2, count_cons_add]
        omega

theorem frequencies_eq_count (content : List Nat) (symbol_size : Nat)
    (hW : symbol_size = 1 ∨ symbol_size = 2) (hfs : content.length < 2 ^ 64)
    (hv : ∀ b ∈ content, b < 256) (x : Nat) :
    frequencies content content.length symbol_size x =
      (symbolsOf symbol_size content).count x := by
  unfold frequencies
  by_cases hpos : content.length > 0
  · rw [if_pos hpos, countLoop_eq_count content.length symbol_size hW content.length content 0
      (fun _ => 0) x (le_refl _) (by omega) hv (by dsimp only; omega)]
    simp
  · rw [if_neg hpos]
    have : content = [] := List.length_eq_zero.1 (by omega)
    subst this
    simp [symbolsOf]

theorem frequencies_take (data : List Nat) (file_size symbol_size : Nat) :
    frequencies data file_size symbol_size =
      frequencies (data.take file_size) file_size symbol_size := by
  unfold frequencies
  by_cases hpos : file_size > 0
  · rw [if_pos hpos, if_pos hpos, countLoop_take file_size symbol_size data.length data 0 _
      (le_refl _)]
    rfl
  · rw [if_neg hpos, if_neg hpos]

theorem eq_singleton_of_nodup (l : List Nat) (s : Nat) (hn : l.Nodup)
    (h : ∀ x, x ∈ l ↔ x = s) : l = [s] := by
  cases l with
  | nil => exact absurd ((h s).2 rfl) (by simp)
  | cons a l =>
    have ha : a = s := (h a).1 (by simp)
    subst ha
    cases l with
    | nil => rfl
    | cons b l =>
      have hb : b = a := (h b).1 (by simp)
      subst hb
      simp at hn

theorem payloadBits_single (huff_codes : CodeTable) (s : Nat) (h : huff_codes s = ⟨0, 1⟩) :
    ∀ syms : List Nat, (∀ x ∈ syms, x = s) →
      payloadBits huff_codes syms = List.replicate syms.length false := by
  intro syms
  induction syms with
  | nil => intro _; rfl
  | cons a syms ih =>
    intro hs
    have ha : a = s := hs a (by simp)
    rw [payloadBits_cons, ih (fun x hx => hs x (by simp [hx])), ha]
    simp [payloadBits, h, codeBits, natBits, List.replicate_succ]

theorem indicator_sum (a : Nat) : ∀ n : Nat,
    ((List.range n).map (fun x => if x = a then 1 else 0)).sum = if a < n then 1 else 0 := by
  intro n
  induction n with
  | zero => simp
  | succ n ih =>
    rw [List.range_succ, List.map_append, List.sum_append, ih]
    simp only [List.map_cons, List.map_nil, List.sum_cons, List.sum_nil, Nat.add_zero]
    by_cases h1 : a < n
    · rw [if_pos h1, if_neg (by omega), if_pos (by omega)]
    · rw [if_neg h1]
      by_cases h2 : n = a
      · rw [if_pos h2, if_pos (by omega)]
      · rw [if_neg h2, if_neg (by omega)]

theorem count_sum (n : Nat) : ∀ l : List Nat, (∀ y ∈ l, y < n) →
    ((List.range n).map (fun x => l.count x)).sum = l.length := by
  intro l
  induction l with
  | nil => intro _; simp
  | cons a l ih =>
    intro h
    have e : (List.range n).map (fun x => (a :: l).count x) =
        (List.range n).map (fun x => l.count x + if x = a then 1 else 0) :=
      List.map_congr_left (fun x _ => count_cons_add x a l)
    rw [e, List.sum_map_add, ih (fun y hy => h y (by simp [hy])), indicator_sum,
      if_pos (h a (by simp)), List.length_cons]

theorem symbolsOf_length (symbol_size : Nat) (hW : symbol_size = 1 ∨ symbol_size = 2) :
    ∀ (k : Nat) (content : List Nat), content.length ≤ k →
      (symbolsOf symbol_size content).length =
        (content.length + symbol_size - 1) / symbol_size := by
  intro k
  induction k with
  | zero =>
    intro content hk
    have : content = [] := List.length_eq_zero.1 (by omega)
    subst this
    rcases hW with h | h <;> subst h <;> simp [symbolsOf]
  | succ k ih =>
    intro content hk
    match content with
    | [] => rcases hW with h | h <;> subst h <;> simp [symbolsOf]
    | [c1] => rcases hW with h | h <;> subst h <;> simp [symbolsOf]
    | c1 :: c2 :: rest =>
      rcases hW with h | h
      · subst h
        rw [symbolsOf_one]
        simp
      · subst h
        have := ih rest (by simp at hk ⊢; omega)
        simp only [symbolsOf, List.length_cons, if_true]
        have h21 : (2 : Nat) ≠ 1 := by norm_num
        simp only [h21, if_false, List.length_cons, this]
        omega

/-! ## Bytes written for two-byte symbols -/

theorem payloadLoop_two_bytes (decoding_root : DecodingTreeNode) (L : Nat) :
    ∀ (m bytes fuel : Nat) (r r' : BitReader) (syms : List Nat),
      bytes ≤ L → m = (L - bytes + 1) / 2 →
      decodeSymbols decoding_root m r = some (syms, r') → m < fuel →
      payloadLoop 2 true decoding_root L fuel bytes r =
        some (false, r', (syms.flatMap symbolPair).take (L - bytes)) := by
  intro m
  induction m with
  | zero =>
    intro bytes fuel r r' syms hb hm hd hf
    simp only [decodeSymbols, Option.some.injEq, Prod.mk.injEq] at hd
    obtain ⟨h1, h2⟩ := hd
    subst h1 h2
    obtain ⟨fuel', rfl⟩ : ∃ k, fuel = k + 1 := ⟨fuel - 1, by omega⟩
    rw [payloadLoop_done _ _ _ _ _ _ _ (by omega)]
    simp
  | succ m ih =>
    intro bytes fuel r r' syms hb hm hd hf
    have hlt : bytes < L := by omega
    obtain ⟨fuel', rfl⟩ : ∃ k, fuel = k + 1 := ⟨fuel - 1, by omega⟩
    unfold decodeSymbols at hd
    cases hwalk : walkToLeaf decoding_root r with
    | mk o r1 =>
      rw [hwalk] at hd
      cases o with
      | none => cases hd
      | some s =>
        dsimp only at hd
        cases hrec : decodeSymbols decoding_root m r1 with
        | none => rw [hrec] at hd; cases hd
        | some res =>
          obtain ⟨syms', r2⟩ := res
          rw [hrec] at hd
          simp only [Option.some.injEq, Prod.mk.injEq] at hd
          obtain ⟨h1, h2⟩ := hd
          subst h1 h2
          rw [payloadLoop_step 2 true decoding_root L fuel' bytes r r1 s hlt hwalk]
          by_cases hb1 : bytes + 1 < L
          · have hstep : emitSymbol 2 true L s bytes = (bytes + 2, symbolPair s) := by
              simp [emitSymbol, hlt, hb1, symbolPair]
            rw [hstep]
            dsimp only
            rw [ih (bytes + 2) fuel' r1 r2 syms' (by omega) (by omega) hrec (by omega)]
            dsimp only
            have e : L - bytes = (symbolPair s).length + (L - (bytes + 2)) := by
              simp only [symbolPair, List.length_cons, List.length_nil]
              omega
            rw [List.flatMap_cons, e, List.take_append]
          · have hstep : emitSymbol 2 true L s bytes = (bytes + 1, [(s >>> 8) % 2 ^ 8]) := by
              simp [emitSymbol, hlt, hb1]
            rw [hstep]
            dsimp only
            have hm0 : m = 0 := by omega
            subst hm0
            simp only [decodeSymbols, Option.some.injEq, Prod.mk.injEq] at hrec
            obtain ⟨h1, h2⟩ := hrec
            subst h1 h2
            obtain ⟨fuel'', rfl⟩ : ∃ k, fuel' = k + 1 := ⟨fuel' - 1, by omega⟩
            rw [payloadLoop_done _ _ _ _ _ _ _ (by omega)]
            dsimp only
            have e : L - bytes = 1 := by omega
            rw [e]
            simp [symbolPair]

/-! ## A file whose Huffman tree is deeper than 64 -/

theorem deepFile_length : deepFile.length = 72723460248140 := by
  unfold deepFile
  rw [length_fileOfCounts]
  decide

theorem deepFile_bytes : ∀ b ∈ deepFile, b < 256 := by
  intro b hb
  have := mem_fileOfCounts _ _ _ hb
  have hl : deepCounts.length = 66 := rfl
  omega

theorem deepFile_frequencies (s : Nat) :
    frequencies deepFile deepFile.length 1 s = deepFreq s := by
  rw [frequencies_one_count deepFile s (by rw [deepFile_length]; norm_num)
    (by rw [deepFile_length]; norm_num) deepFile_bytes]
  unfold deepFile
  rw [count_fileOfCounts]
  simp [deepFreq]

set_option maxRecDepth 1000000 in
theorem deepTree_built : huffmanTree deepFreq 256 = some (some (deepTree 64)) := by
  decide!

theorem deepFreq_codes :
    codesFromFrequencies deepFreq 72723460248140 256 =
      some (BuildCodes (deepTree 64) emptyTable 0 0) :=
  codes_of_tree deepFreq 72723460248140 256 (by norm_num) _ _ _ deepTree_built

theorem deepFile_codes :
    GenerateCodes deepFile deepFile.length 1 =
      some (BuildCodes (deepTree 64) emptyTable 0 0) := by
  unfold GenerateCodes
  rw [if_neg (by omega), if_pos rfl,
    codesFromFrequencies_congr _ deepFreq _ _ (fun s _ => deepFile_frequencies s),
    deepFile_length]
  exact deepFreq_codes

/-! ## Table records and code bits -/

theorem natBits_mod (n m v : Nat) (h : n ≤ m) : natBits n (v % 2 ^ m) = natBits n v := by
  apply natBits_congr
  intro i hi
  rw [Nat.testBit_mod_two_pow]
  simp [show i < m by omega]

theorem recordBits_coded (symbol_size : Nat) (huff_codes : CodeTable) (s : Nat)
    (hW : symbol_size = 1 ∨ symbol_size = 2) (h : (huff_codes s).code_len > 0) :
    recordBits symbol_size huff_codes s =
      natBits (8 * symbol_size) s ++ natBits 8 (huff_codes s).code_len ++
        codeBits (huff_codes s) := by
  have hlen : natBits 8 ((huff_codes s).code_len % 2 ^ 32) = natBits 8 (huff_codes s).code_len :=
    natBits_mod 8 32 _ (by norm_num)
  unfold recordBits
  rw [if_pos h, hlen]
  rcases hW with hW | hW
  · subst hW
    have hsym : natBits 8 (s % 2 ^ 8 % 2 ^ 32) = natBits (8 * 1) s := by
      rw [natBits_mod 8 32 _ (by norm_num), natBits_mod 8 8 _ (by norm_num)]
    rw [if_pos rfl, hsym]
  · subst hW
    have hsym : natBits 16 (s % 2 ^ 16 % 2 ^ 32) = natBits (8 * 2) s := by
      rw [natBits_mod 16 32 _ (by norm_num), natBits_mod 16 16 _ (by norm_num)]
    rw [if_neg (by norm_num), if_pos rfl, hsym]

theorem flatMap_congr_mem {α β : Type} (l : List α) (f g : α → List β)
    (h : ∀ a ∈ l, f a = g a) : l.flatMap f = l.flatMap g := by
  induction l with
  | nil => rfl
  | cons a l ih =>
    rw [List.flatMap_cons, List.flatMap_cons, h a (by simp),
      ih (fun b hb => h b (by simp [hb]))]

theorem codeBits_short (hc : HuffCode) (h : hc.code_len ≤ 32) :
    codeBits hc = natBits hc.code_len hc.code := by
  unfold codeBits
  exact natBits_mod_32 _ _ h

theorem payloadBits_length (huff_codes : CodeTable) : ∀ syms : List Nat,
    (payloadBits huff_codes syms).length = (syms.map (fun s => (huff_codes s).code_len)).sum := by
  intro syms
  induction syms with
  | nil => rfl
  | cons s syms ih =>
    rw [payloadBits_cons, List.length_append, ih, List.map_cons, List.sum_cons]
    congr 1
    unfold payloadBits
    rw [List.flatMap_singleton]
    by_cases h : (huff_codes s).code_len > 0
    · rw [if_pos h, codeBits_length]
    · rw [if_neg h]
      simp only [List.length_nil]
      omega

/-! ## Bit packing and bit runs -/

theorem writeBitList_spec : ∀ (bits : List Nat) (w : BitWriter), w.Ok →
    (bits.foldl BitWriterWriteBit w).Ok ∧
      (bits.foldl BitWriterWriteBit w).written = w.written ++ bits.map (fun b => decide (b ≠ 0)) := by
  intro bits
  induction bits with
  | nil => intro w h; simp [h]
  | cons b bits ih =>
    intro w h
    obtain ⟨h1, h2⟩ := BitWriterWriteBit_spec w b h
    obtain ⟨h3, h4⟩ := ih _ h1
    rw [List.foldl_cons]
    refine ⟨h3, ?_⟩
    rw [h4, h2]
    simp

theorem natBits_getD (v : Nat) : ∀ (n j : Nat), j < n →
    (natBits n v).getD j false = v.testBit (n - 1 - j) := by
  intro n
  induction n with
  | zero => intro j h; omega
  | succ n ih =>
    intro j h
    cases j with
    | zero => simp [natBits]
    | succ j =>
      have := ih j (by omega)
      simp only [natBits, List.getD_cons_succ]
      rw [this]
      congr 1
      omega

theorem bytesToBits_getD : ∀ (bytes : List Nat) (i j : Nat), j < 8 → i < bytes.length →
    (bytesToBits bytes).getD (8 * i + j) false = (bytes.getD i 0).testBit (7 - j) := by
  intro bytes
  induction bytes with
  | nil => intro i j _ h; simp at h
  | cons b bytes ih =>
    intro i j hj hi
    cases i with
    | zero =>
      simp only [bytesToBits, Nat.mul_zero, Nat.zero_add, List.getD_cons_zero]
      rw [List.getD_append _ _ _ _ (by rw [natBits_length]; exact hj), natBits_getD b 8 j hj]
    | succ i =>
      simp only [bytesToBits, List.getD_cons_succ]
      have hi2 : i < bytes.length := by simpa using hi
      rw [List.getD_append_right _ _ _ _ (by rw [natBits_length]; omega), natBits_length,
        show 8 * (i + 1) + j - 8 = 8 * i + j by omega]
      exact ih i j hj hi2

theorem close_bits (bits : List Nat) :
    ∃ pad, pad < 8 ∧
      bytesToBits (BitWriterClose (bits.foldl BitWriterWriteBit BitWriterOpen)) =
        bits.map (fun b => decide (b ≠ 0)) ++ List.replicate pad false ∧
      ∀ b ∈ BitWriterClose (bits.foldl BitWriterWriteBit BitWriterOpen), b < 256 := by
  obtain ⟨h1, h2⟩ := writeBitList_spec bits BitWriterOpen BitWriterOpen_ok
  obtain ⟨h3, h4⟩ := BitWriterClose_spec _ h1
  refine ⟨(8 - (bits.foldl BitWriterWriteBit BitWriterOpen).bitPos) % 8,
    Nat.mod_lt _ (by norm_num), ?_, h4⟩
  rw [h3, h2, BitWriterOpen_written, List.nil_append]

theorem accBits_zeros : ∀ (m : Nat), accBits 0 (List.replicate m false) = 0 := by
  intro m
  induction m with
  | zero => rfl
  | succ m ih =>
    rw [List.replicate_succ]
    unfold accBits at ih ⊢
    rw [List.foldl_cons]
    simpa using ih

theorem accBits_append (a : Nat) (x y : List Bool) :
    accBits a (x ++ y) = accBits (accBits a x) y := by
  unfold accBits
  rw [List.foldl_append]

/-! ## Byte layout of the archive -/

theorem natBits_inj (n v w : Nat) (hv : v < 2 ^ n) (hw : w < 2 ^ n)
    (h : natBits n v = natBits n w) : v = w := by
  apply Nat.eq_of_testBit_eq
  intro i
  by_cases hi : i < n
  · have h1 := natBits_getD v n (n - 1 - i) (by omega)
    have h2 := natBits_getD w n (n - 1 - i) (by omega)
    rw [h, h2] at h1
    have e : n - 1 - (n - 1 - i) = i := by omega
    rw [e] at h1
    exact h1.symm
  · have hle : 2 ^ n ≤ 2 ^ i := Nat.pow_le_pow_right (by norm_num) (by omega)
    rw [Nat.testBit_lt_two_pow (lt_of_lt_of_le hv hle),
      Nat.testBit_lt_two_pow (lt_of_lt_of_le hw hle)]

theorem bytes_of_bits : ∀ (b a : List Nat) (r : List Bool), (∀ x ∈ a, x < 256) →
    (∀ x ∈ b, x < 256) → bytesToBits a = bytesToBits b ++ r → a.take b.length = b := by
  intro b
  induction b with
  | nil => intro a r _ _ _; simp
  | cons x b ih =>
    intro a r ha hb h
    cases a with
    | nil =>
      have := congrArg List.length h
      simp [bytesToBits, natBits_length] at this
      omega
    | cons y a =>
      simp only [bytesToBits, List.append_assoc] at h
      obtain ⟨h1, h2⟩ := List.append_inj h (by rw [natBits_length, natBits_length])
      have hy : y < 2 ^ 8 := ha y (by simp)
      have hx : x < 2 ^ 8 := hb x (by simp)
      have e := natBits_inj 8 y x hy hx h1
      have := ih a r (fun z hz => ha z (by simp [hz])) (fun z hz => hb z (by simp [hz])) h2
      simp only [List.length_cons, List.take_succ_cons, e, this]

theorem bytes_eq_of_bits (a b : List Nat) (pad : Nat) (hpad : pad < 8)
    (ha : ∀ x ∈ a, x < 256) (hb : ∀ x ∈ b, x < 256)
    (h : bytesToBits a = bytesToBits b ++ List.replicate pad false) : a = b := by
  have hl := congrArg List.length h
  simp only [List.length_append, bytesToBits_length, List.length_replicate] at hl
  have h1 := bytes_of_bits b a _ ha hb h
  rw [← h1, List.take_of_length_le (by omega)]

theorem natBits_split (m v : Nat) : ∀ (n : Nat),
    natBits (n + m) v = natBits n (v >>> m) ++ natBits m v := by
  intro n
  induction n with
  | zero => simp [natBits]
  | succ n ih =>
    rw [show n + 1 + m = (n + m) + 1 by omega]
    simp only [natBits, List.cons_append, ih, Nat.testBit_shiftRight]
    rw [Nat.add_comm m n]

theorem natBits_8_div (v k : Nat) : natBits 8 (v >>> k) = natBits 8 (v / 2 ^ k % 256) := by
  rw [Nat.shiftRight_eq_div_pow]
  exact (natBits_mod 8 8 _ (le_refl 8)).symm

theorem natBits_16_bytes (v : Nat) : natBits 16 v = bytesToBits [v / 2 ^ 8 % 256, v % 256] := by
  rw [show (16 : Nat) = 8 + 8 by rfl, natBits_split 8 v 8, natBits_8_div]
  have := natBits_mod 8 8 v (le_refl 8)
  simp only [bytesToBits, List.append_nil]
  rw [show v % 256 = v % 2 ^ 8 by norm_num, this]

theorem natBits_32_bytes (v : Nat) :
    natBits 32 v = bytesToBits [v / 2 ^ 24 % 256, v / 2 ^ 16 % 256, v / 2 ^ 8 % 256, v % 256] := by
  rw [show (32 : Nat) = 8 + 24 by rfl, natBits_split 24 v 8,
    show (24 : Nat) = 8 + 16 by rfl, natBits_split 16 v 8, natBits_16_bytes,
    natBits_8_div, natBits_8_div]
  simp only [bytesToBits, List.append_nil, List.append_assoc]

theorem bytesBits_eq (bytes : List Nat) : bytesBits bytes = bytesToBits bytes := by
  induction bytes with
  | nil => rfl
  | cons c bytes ih =>
    have : bytesBits (c :: bytes) = natBits 8 (c % 2 ^ 32) ++ bytesBits bytes := by
      simp [bytesBits]
    rw [this, ih, natBits_mod 8 32 c (by norm_num)]
    rfl

theorem headerBits_bytes (n symbol_size : Nat) (hn : n < 2 ^ 32) (hW : symbol_size < 256) :
    headerBits n symbol_size = bytesToBits [0x48, 0x55, 0x46, 0x46, 0x01, symbol_size,
      n / 2 ^ 24 % 256, n / 2 ^ 16 % 256, n / 2 ^ 8 % 256, n % 256] := by
  unfold headerBits
  rw [bytesBits_eq, Nat.mod_eq_of_lt hn, Nat.mod_eq_of_lt hn, natBits_32_bytes,
    Nat.mod_eq_of_lt (show symbol_size < 2 ^ 8 from hW),
    natBits_mod 8 32 _ (by norm_num), natBits_mod 8 32 _ (by norm_num)]
  simp only [MAGIC_BYTES, ARCHIVE_VERSION, bytesToBits, List.append_nil, List.append_assoc]

theorem EncodeFiles_width (inputs : List (List Nat × List Nat)) (symbol_size : Nat)
    (archive : List Nat) (h : EncodeFiles inputs symbol_size = some archive) :
    (symbol_size = 1 ∨ symbol_size = 2) ∧ 1 ≤ inputs.length := by
  unfold EncodeFiles at h
  by_cases h0 : inputs.length = 0
  · rw [if_pos h0] at h; cases h
  · by_cases hW : symbol_size ≠ 1 ∧ symbol_size ≠ 2
    · rw [if_neg h0, if_pos hW] at h; cases h
    · exact ⟨by omega, by omega⟩

theorem entryBits_empty (symbol_size : Nat) (name : List Nat) (hlen : name.length < 2 ^ 16) :
    entryBits symbol_size (name, []) =
      bytesToBits ([name.length / 256, name.length % 256] ++ name ++ List.replicate 8 0 ++
        [0, 0]) := by
  have h16 := natBits_16_bytes name.length
  have h32 := natBits_32_bytes 0
  have h0 := natBits_16_bytes 0
  have hd : name.length / 2 ^ 8 % 256 = name.length / 256 := by
    rw [show (2 : Nat) ^ 8 = 256 by norm_num]
    apply Nat.mod_eq_of_lt
    omega
  rw [hd] at h16
  simp only [Nat.zero_div, Nat.zero_mod] at h32 h0
  simp only [entryBits, metaBits, List.length_nil, gt_iff_lt, lt_self_iff_false, if_false,
    Nat.zero_mod, Nat.zero_shiftRight, Nat.zero_and, bytesBits_eq]
  rw [Nat.mod_eq_of_lt hlen, natBits_mod 16 32 _ (by norm_num), h16, h32, h0]
  simp only [bytesToBits_append]
  simp only [List.replicate, bytesToBits, List.append_nil, List.append_assoc]

/-! ## Symbol framing of the two passes -/

theorem pair_symbol (c1 c2 : Nat) (h1 : c1 < 256) (h2 : c2 < 256) :
    (((c1 <<< 8) % 2 ^ 16) ||| c2) % 2 ^ 16 = (c1 <<< 8) ||| c2 := by
  have h3 : c1 <<< 8 < 2 ^ 16 := by rw [Nat.shiftLeft_eq]; omega
  rw [Nat.mod_eq_of_lt h3]
  exact Nat.mod_eq_of_lt (Nat.or_lt_two_pow h3 (by omega))

theorem symbolsOf_eq_spec (symbol_size : Nat) (hW : symbol_size = 1 ∨ symbol_size = 2) :
    ∀ (k : Nat) (content : List Nat), content.length ≤ k → (∀ b ∈ content, b < 256) →
      symbolsOf symbol_size content = specSymbols symbol_size content := by
  intro k
  induction k with
  | zero =>
    intro content hk _
    have : content = [] := List.length_eq_zero.1 (by omega)
    subst this
    rfl
  | succ k ih =>
    intro content hk hv
    match content with
    | [] => rfl
    | [c1] =>
      have hc1 : c1 < 256 := hv c1 (by simp)
      unfold symbolsOf specSymbols
      rcases hW with hW | hW
      · rw [if_pos hW, if_pos hW]
      · have hne : symbol_size ≠ 1 := by omega
        rw [if_neg hne, if_neg hne, if_pos hW]
        have := pair_symbol c1 0 hc1 (by norm_num)
        unfold PADDING_BYTE
        rw [this]
    | c1 :: c2 :: rest =>
      have hc1 : c1 < 256 := hv c1 (by simp)
      have hc2 : c2 < 256 := hv c2 (by simp)
      unfold symbolsOf specSymbols
      rcases hW with hW | hW
      · rw [if_pos hW, if_pos hW, ih (c2 :: rest) (by simp at hk ⊢; omega)
          (fun b hb => hv b (by simp [hb]))]
      · have hne : symbol_size ≠ 1 := by omega
        rw [if_neg hne, if_neg hne, if_pos hW, pair_symbol c1 c2 hc1 hc2,
          ih rest (by simp at hk ⊢; omega) (fun b hb => hv b (by simp [hb]))]

theorem encodePayload_foldl (symbol_size : Nat) (hW : symbol_size = 1 ∨ symbol_size = 2)
    (huff_codes : CodeTable) :
    ∀ (k : Nat) (content : List Nat) (w : BitWriter), content.length ≤ k →
      encodePayload symbol_size huff_codes content w =
        (symbolsOf symbol_size content).foldl (writeSymbol huff_codes) w := by
  intro k
  induction k with
  | zero =>
    intro content w hk
    have : content = [] := List.length_eq_zero.1 (by omega)
    subst this
    rfl
  | succ k ih =>
    intro content w hk
    match content with
    | [] => rfl
    | [c1] =>
      unfold encodePayload symbolsOf
      rcases hW with hW | hW
      · rw [if_pos hW, if_pos hW]; rfl
      · have hne : symbol_size ≠ 1 := by omega
        rw [if_neg hne, if_neg hne, if_pos hW, if_pos hW]; rfl
    | c1 :: c2 :: rest =>
      unfold encodePayload symbolsOf
      rcases hW with hW | hW
      · rw [if_pos hW, if_pos hW, ih (c2 :: rest) _ (by simp at hk ⊢; omega)]; rfl
      · have hne : symbol_size ≠ 1 := by omega
        rw [if_neg hne, if_neg hne, if_pos hW, if_pos hW,
          ih rest _ (by simp at hk ⊢; omega)]; rfl

theorem countLoop_foldl (file_size symbol_size : Nat)
    (hW : symbol_size = 1 ∨ symbol_size = 2) :
    ∀ (k : Nat) (data : List Nat) (counted : Nat) (freq_table : Nat → Nat),
      data.length ≤ k → counted + data.length = file_size → (∀ b ∈ data, b < 256) →
      countLoop file_size symbol_size data counted freq_table =
        (symbolsOf symbol_size data).foldl incFreq freq_table := by
  intro k
  induction k with
  | zero =>
    intro data counted freq_table hk _ _
    have : data = [] := List.length_eq_zero.1 (by omega)
    subst this
    rfl
  | succ k ih =>
    intro data counted freq_table hk hlen hv
    match data with
    | [] => rfl
    | [c1] =>
      have hc1 : c1 < 256 := hv c1 (by simp)
      have hlt : counted < file_size := by simp at hlen; omega
      unfold countLoop symbolsOf
      rw [if_pos hlt]
      rcases hW with hW | hW
      · rw [if_pos hW, if_pos hW, Nat.mod_eq_of_lt hc1]; rfl
      · have hne : symbol_size ≠ 1 := by omega
        rw [if_neg hne, if_neg hne, if_pos hW]; rfl
    | c1 :: c2 :: rest =>
      have hc1 : c1 < 256 := hv c1 (by simp)
      have hc2 : c2 < 256 := hv c2 (by simp)
      have hlt : counted < file_size := by simp at hlen; omega
      have hlt2 : counted + 1 < file_size := by simp at hlen; omega
      unfold countLoop symbolsOf
      rw [if_pos hlt]
      rcases hW with hW | hW
      · rw [if_pos hW, if_pos hW,
          ih (c2 :: rest) (counted + 1) _ (by simp at hk ⊢; omega) (by simp at hlen ⊢; omega)
            (fun b hb => hv b (by simp [hb])), Nat.mod_eq_of_lt hc1]
        rfl
      · have hne : symbol_size ≠ 1 := by omega
        rw [if_neg hne, if_neg hne, if_pos hW, if_pos hlt2,
          ih rest (counted + 1 + 1) _ (by simp at hk ⊢; omega) (by simp at hlen ⊢; omega)
            (fun b hb => hv b (by simp [hb])), Nat.mod_eq_of_lt hc2]
        rfl

/-! ## Name length check -/

theorem decodeEntries_prefix (fs : FsEnv) (symbol_size : Nat) (wantedFiles : List (List Nat))
    (extractAll : Bool) (hW : symbol_size = 1 ∨ symbol_size = 2) (n : Nat) :
    ∀ (inputs : List (List Nat × List Nat)) (r : BitReader) (rest : List Bool),
      (∀ input ∈ inputs, ValidInput symbol_size input) →
      (symbol_size = 1 ∨ ∀ input ∈ inputs, isWritten fs wantedFiles extractAll input = true) →
      Reads r (inputs.flatMap (entryBits symbol_size) ++ rest) →
      ∃ r', Reads r' rest ∧
        decodeEntries fs symbol_size wantedFiles extractAll (inputs.length + n) r =
          { decodeEntries fs symbol_size wantedFiles extractAll n r' with
            files := inputs.filter (isWritten fs wantedFiles extractAll) ++
              (decodeEntries fs symbol_size wantedFiles extractAll n r').files } := by
  intro inputs
  induction inputs with
  | nil =>
    intro r rest _ _ hr
    refine ⟨r, by simpa using hr, ?_⟩
    simp
  | cons input inputs ih =>
    intro r rest hv hsel hr
    obtain ⟨h1, h2, h3, h4⟩ := hv input (by simp)
    rw [List.flatMap_cons, List.append_assoc] at hr
    obtain ⟨r1, he, hr1⟩ := decodeEntry_roundtrip fs symbol_size wantedFiles extractAll
      input.1 input.2 r _ hW h1 h2 h3 h4
      (by
        rcases hsel with h | h
        · exact Or.inl h
        · exact Or.inr (h input (by simp))) hr
    obtain ⟨r2, hr2, hd⟩ := ih r1 rest (fun x hx => hv x (by simp [hx]))
      (by
        rcases hsel with h | h
        · exact Or.inl h
        · exact Or.inr (fun x hx => h x (by simp [hx]))) hr1
    refine ⟨r2, hr2, ?_⟩
    rw [List.length_cons, Nat.add_right_comm]
    simp only [decodeEntries, he, hd]
    rw [if_neg (by simp)]
    by_cases hw : isWritten fs wantedFiles extractAll input = true
    · have hw' : (shouldExtract wantedFiles extractAll input.1 && fs.openOk input.1) = true := hw
      rw [if_pos hw', List.filter_cons_of_pos hw]
      rfl
    · have hw' : ¬ (shouldExtract wantedFiles extractAll input.1 && fs.openOk input.1) = true := hw
      rw [if_neg hw', List.filter_cons_of_neg hw]
      rfl

theorem decodeEntry_bad_name_len (fs : FsEnv) (symbol_size_val : Nat)
    (wantedFiles : List (List Nat)) (extractAll : Bool) (r : BitReader)
    (h : (BitReaderReadBits r 16).1 % 2 ^ 16 = 0 ∨ (BitReaderReadBits r 16).1 % 2 ^ 16 ≥ PATH_MAX) :
    decodeEntry fs symbol_size_val wantedFiles extractAll r = .failed (BitReaderReadBits r 16).2 := by
  unfold decodeEntry
  dsimp only
  rw [if_pos h]

theorem decodeEntry_failed_iff (fs : FsEnv) (symbol_size_val : Nat)
    (wantedFiles : List (List Nat)) (extractAll : Bool) (r r' : BitReader)
    (h : ¬ ((BitReaderReadBits r 16).1 % 2 ^ 16 = 0 ∨
      (BitReaderReadBits r 16).1 % 2 ^ 16 ≥ PATH_MAX)) :
    decodeEntry fs symbol_size_val wantedFiles extractAll r = .failed r' ↔
      readTable symbol_size_val (tableCount r) (tableCount r) CreateDecodingNode
        (tableReader r) = (none, r') := by
  unfold decodeEntry tableCount tableReader
  dsimp only
  rw [if_neg h]
  generalize readTable symbol_size_val _ _ CreateDecodingNode _ = T
  obtain ⟨root, rd⟩ := T
  cases root with
  | none => simp
  | some t =>
    dsimp only
    generalize payloadLoop symbol_size_val _ t _ _ 0 rd = P
    cases P with
    | none => simp
    | some p => simp

/-! ## Inputs with two distinct symbols -/

theorem two_leaf_tree (f : Nat) (l r : HuffNode) (x y : Nat) (hxy : x ≠ y)
    (hp : (HuffNode.node f l r).leaves.Perm [x, y]) :
    ∃ fa fb a b, l = .leaf fa a ∧ r = .leaf fb b ∧ a ≠ b ∧
      ((a = x ∧ b = y) ∨ (a = y ∧ b = x)) := by
  have hlen := hp.length_eq
  have hl := leaves_length_pos l
  have hr := leaves_length_pos r
  simp only [HuffNode.leaves, List.length_append, List.length_cons, List.length_nil] at hlen
  cases l with
  | node fl l1 l2 =>
    have h1 := leaves_length_pos l1
    have h2 := leaves_length_pos l2
    simp only [HuffNode.leaves, List.length_append] at hlen hl
    omega
  | leaf fa a =>
    cases r with
    | node fr r1 r2 =>
      have h1 := leaves_length_pos r1
      have h2 := leaves_length_pos r2
      simp only [HuffNode.leaves, List.length_append, List.length_singleton] at hlen hr
      omega
    | leaf fb b =>
      refine ⟨fa, fb, a, b, rfl, rfl, ?_, ?_⟩
      · have hnd : ([x, y] : List Nat).Nodup := by simp [hxy]
        have := hp.nodup_iff.2 hnd
        simpa [HuffNode.leaves] using this
      · have hx : x ∈ (HuffNode.node f (.leaf fa a) (.leaf fb b)).leaves := hp.mem_iff.2 (by simp)
        have hy : y ∈ (HuffNode.node f (.leaf fa a) (.leaf fb b)).leaves := hp.mem_iff.2 (by simp)
        simp only [HuffNode.leaves, List.singleton_append, List.mem_cons, List.mem_singleton,
          List.not_mem_nil, or_false] at hx hy
        rcases hx with hx | hx <;> rcases hy with hy | hy
        · exact absurd (hx.trans hy.symm) hxy
        · exact Or.inl ⟨hx.symm, hy.symm⟩
        · exact Or.inr ⟨hy.symm, hx.symm⟩
        · exact absurd (hx.trans hy.symm) hxy

theorem BuildCodes_two_leaves (f fa fb a b : Nat) (hab : a ≠ b) :
    BuildCodes (.node f (.leaf fa a) (.leaf fb b)) emptyTable 0 0 a = ⟨0, 1⟩ ∧
      BuildCodes (.node f (.leaf fa a) (.leaf fb b)) emptyTable 0 0 b = ⟨1, 1⟩ ∧
      ∀ s, s ≠ a → s ≠ b →
        BuildCodes (.node f (.leaf fa a) (.leaf fb b)) emptyTable 0 0 s = ⟨0, 0⟩ := by
  refine ⟨?_, ?_, ?_⟩
  · simp [BuildCodes, setCode, hab]
  · simp [BuildCodes, setCode]
  · intro s hsa hsb
    simp [BuildCodes, setCode, hsa, hsb, emptyTable]

theorem payloadBits_one_bit (huff_codes : CodeTable) : ∀ syms : List Nat,
    (∀ s ∈ syms, (huff_codes s).code_len = 1 ∧ (huff_codes s).code < 2) →
    payloadBits huff_codes syms = syms.map (fun s => decide ((huff_codes s).code = 1)) := by
  intro syms
  induction syms with
  | nil => intro _; rfl
  | cons s syms ih =>
    intro h
    obtain ⟨h1, h2⟩ := h s (by simp)
    rw [payloadBits_cons, ih (fun x hx => h x (by simp [hx])), List.map_cons]
    have : payloadBits huff_codes [s] = [decide ((huff_codes s).code = 1)] := by
      unfold payloadBits
      simp only [List.flatMap_cons, List.flatMap_nil, List.append_nil, h1, gt_iff_lt,
        Nat.lt_one_iff, Nat.zero_lt_one, if_true]
      unfold codeBits
      rw [h1]
      have hc : (huff_codes s).code = 0 ∨ (huff_codes s).code = 1 := by omega
      rcases hc with hc | hc <;> rw [hc] <;> decide
    rw [this]
    rfl

/-! ## EncodeFiles over a file system -/

theorem encodeLoop_regular (symbol_size : Nat) (hW : symbol_size = 1 ∨ symbol_size = 2)
    (huff_codes : CodeTable) (fileSize : Nat) :
    ∀ (k : Nat) (stream : List Nat) (bytes_processed : Nat) (w : BitWriter),
      stream.length ≤ k → bytes_processed + stream.length = fileSize →
      encodeLoop symbol_size huff_codes fileSize stream bytes_processed w =
        (true, encodePayload symbol_size huff_codes stream w) := by
  intro k
  induction k with
  | zero =>
    intro stream p w hk hlen
    have : stream = [] := List.length_eq_zero.1 (by omega)
    subst this
    simp only [List.length_nil, Nat.add_zero] at hlen
    rw [encodeLoop, if_neg (by omega), encodePayload]
  | succ k ih =>
    intro stream p w hk hlen
    match stream with
    | [] =>
      simp only [List.length_nil, Nat.add_zero] at hlen
      rw [encodeLoop, if_neg (by omega), encodePayload]
    | [c1] =>
      simp only [List.length_singleton] at hlen
      rw [encodeLoop, if_pos (by omega), encodePayload]
      rcases hW with hW | hW
      · rw [if_pos hW, if_pos hW, encodeLoop, if_neg (by omega)]
      · have hne : symbol_size ≠ 1 := by omega
        rw [if_neg hne, if_neg hne, if_pos hW, encodeLoop, if_neg (by omega)]
    | c1 :: c2 :: rest =>
      simp only [List.length_cons] at hlen hk
      rw [encodeLoop, if_pos (by omega), encodePayload]
      rcases hW with hW | hW
      · rw [if_pos hW, if_pos hW]
        exact ih (c2 :: rest) (p + 1) _ (by simp only [List.length_cons]; omega)
          (by simp only [List.length_cons]; omega)
      · have hne : symbol_size ≠ 1 := by omega
        rw [if_neg hne, if_neg hne, if_pos hW, if_neg (by omega)]
        exact ih rest (p + 2) _ (by omega) (by omega)

theorem encodeLoop_short (symbol_size : Nat) (hW : symbol_size = 1 ∨ symbol_size = 2)
    (huff_codes : CodeTable) (fileSize : Nat) :
    ∀ (k : Nat) (stream : List Nat) (bytes_processed : Nat) (w : BitWriter),
      stream.length ≤ k → bytes_processed + stream.length < fileSize →
      (encodeLoop symbol_size huff_codes fileSize stream bytes_processed w).1 = false := by
  intro k
  induction k with
  | zero =>
    intro stream p w hk hlen
    have : stream = [] := List.length_eq_zero.1 (by omega)
    subst this
    simp only [List.length_nil, Nat.add_zero] at hlen
    rw [encodeLoop, if_pos hlen]
  | succ k ih =>
    intro stream p w hk hlen
    match stream with
    | [] =>
      simp only [List.length_nil, Nat.add_zero] at hlen
      rw [encodeLoop, if_pos hlen]
    | [c1] =>
      simp only [List.length_singleton] at hlen
      rw [encodeLoop, if_pos (by omega)]
      rcases hW with hW | hW
      · rw [if_pos hW, encodeLoop, if_pos (by omega)]
      · have hne : symbol_size ≠ 1 := by omega
        rw [if_neg hne, encodeLoop, if_pos (by omega)]
    | c1 :: c2 :: rest =>
      simp only [List.length_cons] at hlen hk
      rw [encodeLoop, if_pos (by omega)]
      rcases hW with hW | hW
      · rw [if_pos hW]
        exact ih (c2 :: rest) (p + 1) _ (by simp only [List.length_cons]; omega)
          (by simp only [List.length_cons]; omega)
      · have hne : symbol_size ≠ 1 := by omega
        rw [if_neg hne, if_neg (by omega)]
        exact ih rest (p + 2) _ (by omega) (by omega)

theorem encodeEntryFs_regular (symbol_size : Nat) (hW : symbol_size = 1 ∨ symbol_size = 2)
    (w : BitWriter) (name content : List Nat) (hs : content.length < 2 ^ 64 - 1) :
    ∃ w', encodeEntry symbol_size w (name, content) = some w' ∧
      encodeEntryFs symbol_size w (regularInput name content) = (true, w') := by
  obtain ⟨T, hT⟩ := GenerateCodes_some content content.length symbol_size hW
  have key : ∀ o, encodeEntry symbol_size w (name, content) = o →
      ∃ w', o = some w' ∧ encodeEntryFs symbol_size w (regularInput name content) = (true, w') := by
    intro o ho
    unfold encodeEntry at ho
    dsimp only at ho
    rw [if_neg (by omega)] at ho
    unfold encodeEntryFs regularInput
    dsimp only
    rw [if_neg (by simp), if_neg (by omega)]
    by_cases hpos : content.length > 0
    · rw [if_pos hpos, hT] at ho
      subst ho
      refine ⟨_, rfl, ?_⟩
      rw [if_pos hpos, if_pos rfl, hT]
      dsimp only
      rw [if_neg (by simp)]
      exact encodeLoop_regular symbol_size hW T content.length content.length content 0 _
        (le_refl _) (by omega)
    · rw [if_neg hpos] at ho
      subst ho
      refine ⟨_, rfl, ?_⟩
      rw [if_neg hpos]
  obtain ⟨w', h1, h2⟩ := key _ rfl
  exact ⟨w', h1, h2⟩

theorem encodeEntriesFs_regular (symbol_size : Nat) (hW : symbol_size = 1 ∨ symbol_size = 2) :
    ∀ (inputs : List (List Nat × List Nat)) (w : BitWriter),
      (∀ input ∈ inputs, input.2.length < 2 ^ 64 - 1) →
      ∃ w', encodeEntries symbol_size inputs w = some w' ∧
        encodeEntriesFs symbol_size (inputs.map (fun input => regularInput input.1 input.2)) w
          = (true, w') := by
  intro inputs
  induction inputs with
  | nil => intro w _; exact ⟨w, rfl, rfl⟩
  | cons input inputs ih =>
    intro w hs
    obtain ⟨w1, h1, h2⟩ := encodeEntryFs_regular symbol_size hW w input.1 input.2
      (hs input (by simp))
    obtain ⟨w2, h3, h4⟩ := ih w1 (fun x hx => hs x (by simp [hx]))
    refine ⟨w2, ?_, ?_⟩
    · rw [encodeEntries, h1]
      exact h3
    · rw [List.map_cons, encodeEntriesFs, h2]
      exact h4

theorem EncodeFilesFs_regular (fs : FileSystem) (outputPath : List Nat)
    (inputs : List (List Nat × List Nat)) (symbol_size : Nat)
    (hW : symbol_size = 1 ∨ symbol_size = 2) (hN : 1 ≤ inputs.length)
    (hs : ∀ input ∈ inputs, input.2.length < 2 ^ 64 - 1) :
    ∃ archive, EncodeFiles inputs symbol_size = some archive ∧
      (EncodeFilesFs fs outputPath true (inputs.map (fun input => regularInput input.1 input.2))
        symbol_size).1 = 0 ∧
      (EncodeFilesFs fs outputPath true (inputs.map (fun input => regularInput input.1 input.2))
        symbol_size).2 outputPath = some archive := by
  obtain ⟨w, h1, h2⟩ := encodeEntriesFs_regular symbol_size hW inputs
    (writeHeader inputs.length symbol_size) hs
  have e1 : EncodeFiles inputs symbol_size = some (BitWriterClose w) := by
    unfold EncodeFiles
    rw [if_neg (by omega), if_neg (by omega), h1]
  refine ⟨_, e1, ?_, ?_⟩
  · unfold EncodeFilesFs
    rw [if_neg (by rw [List.length_map]; omega), if_neg (by omega), if_neg (by simp),
      List.length_map, h2]
  · unfold EncodeFilesFs
    rw [if_neg (by rw [List.length_map]; omega), if_neg (by omega), if_neg (by simp),
      List.length_map, h2]
    simp [FileSystem.store]

theorem encodeLoop_enough (symbol_size : Nat) (hW : symbol_size = 1 ∨ symbol_size = 2)
    (huff_codes : CodeTable) (fileSize : Nat) :
    ∀ (k : Nat) (stream : List Nat) (bytes_processed : Nat) (w : BitWriter),
      stream.length ≤ k → fileSize ≤ bytes_processed + stream.length →
      (encodeLoop symbol_size huff_codes fileSize stream bytes_processed w).1 = true := by
  intro k
  induction k with
  | zero =>
    intro stream p w hk hlen
    have : stream = [] := List.length_eq_zero.1 (by omega)
    subst this
    simp only [List.length_nil, Nat.add_zero] at hlen
    rw [encodeLoop, if_neg (by omega)]
  | succ k ih =>
    intro stream p w hk hlen
    match stream with
    | [] =>
      simp only [List.length_nil, Nat.add_zero] at hlen
      rw [encodeLoop, if_neg (by omega)]
    | [c1] =>
      simp only [List.length_singleton] at hlen
      rw [encodeLoop]
      by_cases hp : p < fileSize
      · rw [if_pos hp]
        rcases hW with hW | hW
        · rw [if_pos hW, encodeLoop, if_neg (by omega)]
        · have hne : symbol_size ≠ 1 := by omega
          rw [if_neg hne, encodeLoop, if_neg (by omega)]
      · rw [if_neg hp]
    | c1 :: c2 :: rest =>
      simp only [List.length_cons] at hlen hk
      rw [encodeLoop]
      by_cases hp : p < fileSize
      · rw [if_pos hp]
        rcases hW with hW | hW
        · rw [if_pos hW]
          exact ih (c2 :: rest) (p + 1) _ (by simp only [List.length_cons]; omega)
            (by simp only [List.length_cons]; omega)
        · have hne : symbol_size ≠ 1 := by omega
          rw [if_neg hne]
          by_cases h2 : fileSize - p < symbol_size
          · rw [if_pos h2]
            exact ih (c2 :: rest) (p + 1) _ (by simp only [List.length_cons]; omega)
              (by simp only [List.length_cons]; omega)
          · rw [if_neg h2]
            exact ih rest (p + 2) _ (by omega) (by omega)
      · rw [if_neg hp]

theorem encodeEntryFs_fails_iff (symbol_size : Nat) (hW : symbol_size = 1 ∨ symbol_size = 2)
    (w : BitWriter) (input : InputFile) :
    (encodeEntryFs symbol_size w input).1 = false ↔ inputFails input := by
  obtain ⟨T, hT⟩ := GenerateCodes_some input.data input.fileSize symbol_size hW
  unfold encodeEntryFs inputFails
  dsimp only
  by_cases h1 : input.fopenOk = true
  · rw [if_neg (by simp [h1])]
    by_cases h2 : input.fileSize = 2 ^ 64 - 1
    · rw [if_pos h2]
      simp [h2]
    · rw [if_neg h2]
      by_cases h3 : input.fileSize > 0
      · rw [if_pos h3]
        by_cases h4 : input.generateOk = true
        · rw [if_pos h4, hT]
          dsimp only
          by_cases h5 : input.fseekOk = true
          · rw [if_neg (by simp [h5])]
            by_cases h6 : input.stream.length < input.fileSize
            · rw [encodeLoop_short symbol_size hW T input.fileSize input.stream.length
                input.stream 0 _ (le_refl _) (by omega)]
              simp [h6, h3]
            · rw [encodeLoop_enough symbol_size hW T input.fileSize input.stream.length
                input.stream 0 _ (le_refl _) (by omega)]
              simp [h1, h4, h5, h6]
              omega
          · rw [if_pos (by simp [h5])]
            simp at h5
            simp [h5, h3]
        · rw [if_neg h4]
          simp at h4
          simp [h4, h3]
      · rw [if_neg h3]
        simp [h1, h3]
        omega
  · rw [if_pos (by simp [h1])]
    simp at h1
    simp [h1]

theorem encodeEntriesFs_fails_iff (symbol_size : Nat)
    (hW : symbol_size = 1 ∨ symbol_size = 2) :
    ∀ (inputs : List InputFile) (w : BitWriter),
      (encodeEntriesFs symbol_size inputs w).1 = false ↔ ∃ input ∈ inputs, inputFails input := by
  intro inputs
  induction inputs with
  | nil => intro w; simp [encodeEntriesFs]
  | cons input inputs ih =>
    intro w
    have h := encodeEntryFs_fails_iff symbol_size hW w input
    rw [encodeEntriesFs]
    generalize encodeEntryFs symbol_size w input = R at h
    obtain ⟨ok, w'⟩ := R
    cases ok with
    | false =>
      have hf : inputFails input := h.1 rfl
      simp only [List.mem_cons, exists_eq_or_imp, true_iff]
      exact Or.inl hf
    | true =>
      have hf : ¬ inputFails input := fun hx => by have := h.2 hx; simp at this
      simp only [List.mem_cons, exists_eq_or_imp]
      rw [ih w']
      simp [hf]

/-! ## Exit status of main -/

theorem main_status (args : ParsedArgs) (result res : Nat) :
    (main args result res).status ≠ 0 ↔
      (args.mode = .MODE_NONE ∨
        ((args.mode = .MODE_COMPRESS ∨ args.mode = .MODE_DECOMPRESS) ∧
          (args.input_paths.length = 0 ∨ args.output_path = none))) := by
  obtain ⟨mode, output_path, input_paths, symbol_size⟩ := args
  cases mode <;> simp only [main, print_error_and_exit, EXIT_FAILURE]
  · simp
  · by_cases h : input_paths.length = 0 ∨ output_path = none
    · rw [if_pos h]
      simp only [List.length_eq_zero] at h
      simp [h]
    · rw [if_neg h]
      simp only [List.length_eq_zero, not_or] at h
      by_cases h2 : result = 0
      · rw [if_pos h2]; simp [h]
      · rw [if_neg h2]; simp [h]
  · by_cases h : input_paths.length = 0 ∨ output_path = none
    · rw [if_pos h]
      simp only [List.length_eq_zero] at h
      simp [h]
    · rw [if_neg h]
      simp only [List.length_eq_zero, not_or] at h
      by_cases h2 : res ≠ 0
      · rw [if_pos h2]; simp [h]
      · rw [if_neg h2]; simp [h]
  · simp

/-! ## Codes and tree paths -/

theorem huffmanTree_nodup (freq_table : Nat → Nat) (n : Nat) (hn : n ≤ 2 ^ 16) (root : HuffNode)
    (h : huffmanTree freq_table n = some (some root)) : root.leaves.Nodup := by
  rcases huffmanTree_spec freq_table n hn with ⟨_, h1⟩ | ⟨root', h1, h2⟩
  · rw [h] at h1; cases h1
  · rw [h] at h1
    cases h1
    exact h2.nodup_iff.2 (activeSymbols_nodup _ _)

/-! ## Truncated headers -/

theorem accBits_eq_zero : ∀ (bits : List Bool) (a : Nat), a < 2 ^ (32 - bits.length) →
    bits.length ≤ 32 → (accBits a bits = 0 ↔ a = 0 ∧ ∀ b ∈ bits, b = false) := by
  intro bits
  induction bits with
  | nil => intro a _ _; simp [accBits]
  | cons b bits ih =>
    intro a ha hl
    simp only [List.length_cons] at ha hl
    have h2 : a <<< 1 = 2 * a := by rw [Nat.shiftLeft_eq]; ring
    have hor : 2 * a ||| b.toNat = 2 * a + b.toNat := by
      have hb : b.toNat < 2 ^ 1 := by have := Bool.toNat_le b; omega
      have := Nat.mul_add_lt_is_or hb a
      simpa using this.symm
    have hb := Bool.toNat_le b
    have hpow : 2 ^ (32 - bits.length) = 2 * 2 ^ (32 - (bits.length + 1)) := by
      rw [show 32 - bits.length = (32 - (bits.length + 1)) + 1 by omega, pow_succ]; ring
    have hlt : 2 * a + b.toNat < 2 ^ (32 - bits.length) := by rw [hpow]; omega
    have hle : 2 ^ (32 - bits.length) ≤ 2 ^ 32 := Nat.pow_le_pow_right (by norm_num) (by omega)
    have hstep : accBits a (b :: bits) = accBits (2 * a + b.toNat) bits := by
      unfold accBits
      rw [List.foldl_cons, h2, hor, Nat.mod_eq_of_lt (by omega)]
    rw [hstep, ih _ hlt (by omega)]
    simp only [List.mem_cons, forall_eq_or_imp]
    cases b <;> simp

theorem natBits_zero : ∀ (n : Nat) (b : Bool), b ∈ natBits n 0 → b = false := by
  intro n
  induction n with
  | zero => intro b h; simp [natBits] at h
  | succ n ih =>
    intro b h
    simp only [natBits, Nat.zero_testBit, List.mem_cons] at h
    rcases h with h | h
    · exact h
    · exact ih b h

theorem natBits_all_false (n v : Nat) (hv : v < 2 ^ n) (h : ∀ b ∈ natBits n v, b = false) :
    v = 0 := by
  apply natBits_inj n v 0 hv (by positivity)
  apply List.ext_getElem
  · rw [natBits_length, natBits_length]
  · intro i h1 h2
    rw [h _ (List.getElem_mem h1), natBits_zero n _ (List.getElem_mem h2)]

theorem bytesToBits_all_false : ∀ (a : List Nat), (∀ x ∈ a, x < 256) →
    ((∀ b ∈ bytesToBits a, b = false) ↔ ∀ x ∈ a, x = 0) := by
  intro a
  induction a with
  | nil => intro _; simp [bytesToBits]
  | cons x a ih =>
    intro ha
    have hx : x < 2 ^ 8 := ha x (by simp)
    have iha := ih (fun z hz => ha z (by simp [hz]))
    simp only [bytesToBits, List.mem_append, List.mem_cons, forall_eq_or_imp]
    constructor
    · intro h
      exact ⟨natBits_all_false 8 x hx (fun b hb => h b (Or.inl hb)),
        iha.1 (fun b hb => h b (Or.inr hb))⟩
    · intro h b hb
      rcases hb with hb | hb
      · rw [h.1] at hb
        exact natBits_zero 8 b hb
      · exact iha.2 h.2 b hb

theorem header_valid_or_rejected (fs : FsEnv) (archive : List Nat)
    (wantedFiles : List (List Nat)) (extractAll : Bool) (hbytes : ∀ b ∈ archive, b < 256) :
    ((DecodeArchive fs archive wantedFiles extractAll).status = .returned 1 ∧
      (DecodeArchive fs archive wantedFiles extractAll).files = [] ∧
      ¬ ∃ W tail, (W = 1 ∨ W = 2) ∧ archive = [0x48, 0x55, 0x46, 0x46, 0x01, W] ++ tail) ∨
    (∃ W tail r, (W = 1 ∨ W = 2) ∧ archive = [0x48, 0x55, 0x46, 0x46, 0x01, W] ++ tail ∧
      Reads r (bytesToBits tail) ∧
      DecodeArchive fs archive wantedFiles extractAll =
        if ¬ fs.mkdirOk then ⟨.returned 1, false, [], (BitReaderReadBits r 32).2⟩
        else decodeEntries fs W wantedFiles extractAll (BitReaderReadBits r 32).1
          (BitReaderReadBits r 32).2) := by
  have h0 := Reads_open archive
  obtain ⟨hm1, hm2⟩ := readName_bytes 4 _ archive h0
  have hv1 := readByte_fst _ _ hm2
  have hv2 := readByte_snd _ _ hm2
  have hs1 := readByte_fst _ _ hv2
  have hs2 := readByte_snd _ _ hv2
  unfold DecodeArchive
  dsimp only
  by_cases c1 : (readName 4 (BitReaderOpen archive)).1 ≠ MAGIC_BYTES
  · rw [if_pos c1]
    refine Or.inl ⟨rfl, rfl, ?_⟩
    rintro ⟨W, tail, _, rfl⟩
    apply c1
    rw [hm1]
    simp [padBytes, MAGIC_BYTES]
  · rw [if_neg c1]
    by_cases c2 : (BitReaderReadBits (readName 4 (BitReaderOpen archive)).2 8).1 % 2 ^ 8 ≠
        ARCHIVE_VERSION_EXPECTED
    · rw [if_pos c2]
      refine Or.inl ⟨rfl, rfl, ?_⟩
      rintro ⟨W, tail, _, rfl⟩
      apply c2
      rw [hv1]
      simp [ARCHIVE_VERSION_EXPECTED]
    · rw [if_neg c2]
      by_cases c3 : (BitReaderReadBits
            (BitReaderReadBits (readName 4 (BitReaderOpen archive)).2 8).2 8).1 % 2 ^ 8 ≠ 1 ∧
          (BitReaderReadBits
            (BitReaderReadBits (readName 4 (BitReaderOpen archive)).2 8).2 8).1 % 2 ^ 8 ≠ 2
      · rw [if_pos c3]
        refine Or.inl ⟨rfl, rfl, ?_⟩
        rintro ⟨W, tail, hW, rfl⟩
        rw [hs1] at c3
        simp at c3
        rcases hW with hW | hW <;> subst hW <;> simp at c3
      · rw [if_neg c3]
        rw [not_not] at c1 c2
        rw [hv1, Nat.mod_mod] at c2
        rw [hs1, Nat.mod_mod] at c3
        rw [hm1] at c1
        refine Or.inr ?_
        rcases archive with _ | ⟨a, _ | ⟨b, _ | ⟨c, _ | ⟨d, _ | ⟨e, _ | ⟨f, tail⟩⟩⟩⟩⟩⟩
        · simp [padBytes, MAGIC_BYTES] at c1
        · simp [padBytes, MAGIC_BYTES] at c1
        · simp [padBytes, MAGIC_BYTES] at c1
        · simp [padBytes, MAGIC_BYTES] at c1
        · simp [ARCHIVE_VERSION_EXPECTED] at c2
        · simp at c3
        · have ha := hbytes a (by simp)
          have hb := hbytes b (by simp)
          have hc := hbytes c (by simp)
          have hd := hbytes d (by simp)
          have he := hbytes e (by simp)
          have hf := hbytes f (by simp)
          simp only [padBytes, MAGIC_BYTES, List.headD_cons, List.tail_cons, List.cons.injEq,
            and_true] at c1
          simp only [List.drop_succ_cons, List.drop_zero, List.headD_cons,
            ARCHIVE_VERSION_EXPECTED] at c2
          simp only [List.drop_succ_cons, List.drop_zero, List.tail_cons, List.headD_cons] at c3
          simp only [List.drop_succ_cons, List.drop_zero, List.tail_cons] at hs2
          have ea : a = 0x48 := by omega
          have eb : b = 0x55 := by omega
          have ec : c = 0x46 := by omega
          have ed : d = 0x46 := by omega
          have ee : e = 0x01 := by omega
          have ef : f % 2 ^ 8 = f := Nat.mod_eq_of_lt (by omega)
          subst ea eb ec ed ee
          rw [hs1]
          simp only [List.drop_succ_cons, List.drop_zero, List.tail_cons, List.headD_cons,
            Nat.mod_mod, ef]
          refine ⟨f, tail, _, ?_, rfl, hs2, rfl⟩
          rw [ef] at c3
          omega

theorem decodeEntries_at_end (fs : FsEnv) (W : Nat) (wantedFiles : List (List Nat))
    (extractAll : Bool) (n : Nat) (r : BitReader) (hr : Reads r []) :
    (decodeEntries fs W wantedFiles extractAll n r).files = [] ∧
      (decodeEntries fs W wantedFiles extractAll n r).status =
        if n = 0 then .returned 0 else .returned 1 := by
  cases n with
  | zero => exact ⟨rfl, rfl⟩
  | succ n =>
    have h16 := readBits_fst r 16 [] hr
    have hbad : (BitReaderReadBits r 16).1 % 2 ^ 16 = 0 ∨
        (BitReaderReadBits r 16).1 % 2 ^ 16 ≥ PATH_MAX := by
      left; rw [h16]; rfl
    rw [decodeEntries_failed fs W wantedFiles extractAll n r _
      (decodeEntry_bad_name_len fs W wantedFiles extractAll r hbad)]
    exact ⟨rfl, by simp⟩

/-! ## Payload decoding inverts payload encoding -/

theorem decodeSymbols_payload (huff_codes : CodeTable) (t : DecodingTreeNode) (P : Nat → Prop)
    (ht : TrieFor huff_codes t P)
    (hpf : ∀ a b, P a → P b → codeBits (huff_codes a) <+: codeBits (huff_codes b) → a = b)
    (rest : List Bool) :
    ∀ (syms : List Nat) (r : BitReader),
      (∀ s ∈ syms, P s ∧ (huff_codes s).code_len > 0) →
      Reads r (payloadBits huff_codes syms ++ rest) →
      ∃ r', decodeSymbols t syms.length r = some (syms, r') ∧ Reads r' rest := by
  intro syms
  induction syms with
  | nil =>
    intro r _ hr
    exact ⟨r, rfl, by simpa [payloadBits] using hr⟩
  | cons s syms ih =>
    intro r hs hr
    obtain ⟨hP, hpos⟩ := hs s (by simp)
    rw [payloadBits_coded huff_codes s syms hpos, List.append_assoc] at hr
    obtain ⟨r1, hw, hr1⟩ := walk_symbol huff_codes t P ht hpf s hP r _ hr
    obtain ⟨r2, hd, hr2⟩ := ih r1 (fun x hx => hs x (by simp [hx])) hr1
    refine ⟨r2, ?_, hr2⟩
    rw [List.length_cons, decodeSymbols, hw]
    dsimp only
    rw [hd]

theorem payloadBits_flatMap (huff_codes : CodeTable) : ∀ syms : List Nat,
    (∀ s ∈ syms, (huff_codes s).code_len > 0) →
    payloadBits huff_codes syms = syms.flatMap (fun s => codeBits (huff_codes s)) := by
  intro syms
  induction syms with
  | nil => intro _; rfl
  | cons s syms ih =>
    intro h
    rw [payloadBits_coded huff_codes s syms (h s (by simp)),
      ih (fun x hx => h x (by simp [hx])), List.flatMap_cons]

theorem writeSymbols_spec (huff_codes : CodeTable) : ∀ (syms : List Nat) (w : BitWriter),
    w.Ok → (syms.foldl (writeSymbol huff_codes) w).Ok ∧
      (syms.foldl (writeSymbol huff_codes) w).written =
        w.written ++ payloadBits huff_codes syms := by
  intro syms
  induction syms with
  | nil => intro w h; exact ⟨h, by simp [payloadBits]⟩
  | cons s syms ih =>
    intro w h
    obtain ⟨h1, h2⟩ := writeSymbol_spec huff_codes w s h
    obtain ⟨h3, h4⟩ := ih _ h1
    rw [List.foldl_cons]
    refine ⟨h3, ?_⟩
    rw [h4, h2, payloadBits_cons huff_codes s syms, List.append_assoc]

/-! ## Termination of the payload loop -/

theorem walkToLeaf_reads : ∀ (t : DecodingTreeNode) (r : BitReader) (bits : List Bool),
    Reads r bits →
    ∃ bits1, Reads (walkToLeaf t r).2 bits1 ∧ bits1.length ≤ bits.length ∧
      (t.isLeaf = false → (walkToLeaf t r).1 ≠ none → bits1.length < bits.length) := by
  intro t
  induction t with
  | null =>
    intro r bits hr
    exact ⟨bits, by simpa [walkToLeaf] using hr, le_refl _, by simp [walkToLeaf]⟩
  | node c0 c1 is_leaf symbol ih0 ih1 =>
    intro r bits hr
    unfold walkToLeaf
    cases is_leaf with
    | true =>
      rw [if_pos rfl]
      exact ⟨bits, hr, le_refl _, by simp [DecodingTreeNode.isLeaf]⟩
    | false =>
      rw [if_neg (by simp)]
      cases bits with
      | nil =>
        rw [BitReaderReadBit_nil r hr]
        exact ⟨[], hr, le_refl _, by simp⟩
      | cons b bits =>
        obtain ⟨r1, h1, hr1⟩ := BitReaderReadBit_cons r b bits hr
        rw [h1]
        dsimp only
        by_cases hb : b.toNat = 0
        · rw [if_pos hb]
          obtain ⟨bits1, h2, h3, _⟩ := ih0 r1 bits hr1
          exact ⟨bits1, h2, by simp only [List.length_cons]; omega,
            fun _ _ => by simp only [List.length_cons]; omega⟩
        · rw [if_neg hb]
          obtain ⟨bits1, h2, h3, _⟩ := ih1 r1 bits hr1
          exact ⟨bits1, h2, by simp only [List.length_cons]; omega,
            fun _ _ => by simp only [List.length_cons]; omega⟩

theorem emitSymbol_progress (symbol_size_val : Nat) (writing : Bool) (L s bytes : Nat)
    (hW : symbol_size_val = 1 ∨ symbol_size_val = 2) (hb : bytes < L) :
    bytes ≤ (emitSymbol symbol_size_val writing L s bytes).1 ∧
      ((symbol_size_val = 1 ∨ writing = true) →
        bytes < (emitSymbol symbol_size_val writing L s bytes).1) := by
  unfold emitSymbol
  cases writing with
  | true =>
    rw [if_pos rfl]
    rcases hW with hW | hW
    · rw [if_pos hW]
      exact ⟨by dsimp only; omega, fun _ => by dsimp only; omega⟩
    · have hne : symbol_size_val ≠ 1 := by omega
      rw [if_neg hne, if_pos hW]
      dsimp only
      rw [if_pos hb]
      dsimp only
      by_cases h2 : bytes + 1 < L
      · rw [if_pos h2]
        exact ⟨by dsimp only; omega, fun _ => by dsimp only; omega⟩
      · rw [if_neg h2]
        exact ⟨by dsimp only; omega, fun _ => by dsimp only; omega⟩
  | false =>
    rw [if_neg (by simp)]
    rcases hW with hW | hW
    · rw [if_pos hW, if_pos hb]
      exact ⟨by dsimp only; omega, fun _ => by dsimp only; omega⟩
    · have hne : symbol_size_val ≠ 1 := by omega
      rw [if_neg hne]
      exact ⟨le_refl _, fun h => by rcases h with h | h; exact absurd h hne; cases h⟩

theorem payloadLoop_terminates (symbol_size_val : Nat) (writing : Bool)
    (decoding_root : DecodingTreeNode) (L : Nat)
    (hW : symbol_size_val = 1 ∨ symbol_size_val = 2)
    (hcase : symbol_size_val = 1 ∨ writing = true ∨ decoding_root.isLeaf = false) :
    ∀ (fuel bytes : Nat) (r : BitReader) (bits : List Bool), Reads r bits →
      (L - bytes) + bits.length < fuel →
      ∃ res, payloadLoop symbol_size_val writing decoding_root L fuel bytes r = some res := by
  intro fuel
  induction fuel with
  | zero => intro bytes r bits _ h; omega
  | succ fuel ih =>
    intro bytes r bits hr hf
    unfold payloadLoop
    by_cases hb : bytes < L
    · rw [if_pos hb]
      obtain ⟨bits1, hr1, hle, hlt⟩ := walkToLeaf_reads decoding_root r bits hr
      cases hw : walkToLeaf decoding_root r with
      | mk o r1 =>
        rw [hw] at hr1 hlt
        cases o with
        | none => exact ⟨_, rfl⟩
        | some s =>
          dsimp only
          obtain ⟨hp1, hp2⟩ := emitSymbol_progress symbol_size_val writing L s bytes hW hb
          have hmeasure : (L - (emitSymbol symbol_size_val writing L s bytes).1) + bits1.length
              < fuel := by
            rcases hcase with h | h | h
            · have := hp2 (Or.inl h); omega
            · have := hp2 (Or.inr h); omega
            · have := hlt h (by simp); omega
          obtain ⟨res, hres⟩ := ih _ r1 bits1 hr1 hmeasure
          rw [hres]
          exact ⟨_, rfl⟩
    · rw [if_neg hb]
      exact ⟨_, rfl⟩

theorem payloadLoop_fuel (symbol_size_val : Nat) (writing : Bool)
    (decoding_root : DecodingTreeNode) (L : Nat) (r : BitReader) (bits : List Bool)
    (hW : symbol_size_val = 1 ∨ symbol_size_val = 2)
    (hcase : symbol_size_val = 1 ∨ writing = true ∨ decoding_root.isLeaf = false)
    (hr : Reads r bits) :
    ∃ res, payloadLoop symbol_size_val writing decoding_root L (payloadFuel L r) 0 r
      = some res := by
  have hl := Reads_length r bits hr
  exact payloadLoop_terminates symbol_size_val writing decoding_root L hW hcase _ 0 r bits hr
    (by unfold payloadFuel; omega)

theorem payloadLoop_stuck (symbol_size_val : Nat) (child0 child1 : DecodingTreeNode)
    (symbol L : Nat) (hW : symbol_size_val ≠ 1) :
    ∀ (fuel bytes : Nat) (r : BitReader), bytes < L →
      payloadLoop symbol_size_val false (.node child0 child1 true symbol) L fuel bytes r
        = none := by
  intro fuel
  induction fuel with
  | zero => intro bytes r _; rfl
  | succ fuel ih =>
    intro bytes r hb
    have hw : walkToLeaf (.node child0 child1 true symbol) r = (some symbol, r) := by
      simp [walkToLeaf]
    have he : emitSymbol symbol_size_val false L symbol bytes = (bytes, []) := by
      simp [emitSymbol, hW]
    rw [payloadLoop_step symbol_size_val false _ L fuel bytes r r symbol hb hw, he]
    dsimp only
    rw [ih bytes r hb]

/-! ## Command line -/

theorem parseLoop_paths (atoi : List Nat → Nat) : ∀ (paths : List (List Nat)) (args : ParsedArgs),
    (∀ p ∈ paths, IsPath p) →
    parseLoop atoi paths args = some { args with input_paths := args.input_paths ++ paths } := by
  intro paths
  induction paths with
  | nil => intro args _; simp [parseLoop]
  | cons p paths ih =>
    intro args h
    obtain ⟨h1, h2, h3, h4, _⟩ := h p (by simp)
    cases paths with
    | nil =>
      rw [parseLoop, if_neg h1, if_neg h2, if_neg h3, if_neg h4]
    | cons q paths =>
      rw [parseLoop, if_neg h1, if_neg h2, if_neg h3, if_neg h4,
        ih _ (fun x hx => h x (by simp [hx]))]
      simp

theorem parse_decompress (atoi : List Nat → Nat) (prog dir archive : List Nat)
    (names : List (List Nat)) (hdir : dir ≠ HELP_ARG) (harch : IsPath archive)
    (hnames : ∀ p ∈ names, IsPath p) :
    parseLoop atoi (DECOMPRESS_ARG :: OUTPUT_ARG :: dir :: archive :: names)
        ⟨.MODE_NONE, none, [], 0⟩ =
      some ⟨.MODE_DECOMPRESS, some dir, archive :: names, 0⟩ ∧
    HELP_ARG ∉ (prog :: DECOMPRESS_ARG :: OUTPUT_ARG :: dir :: archive :: names).tail := by
  constructor
  · rw [parseLoop, if_neg (by decide), if_pos rfl, if_neg (by simp), parseLoop,
      if_neg (by decide), if_neg (by decide), if_pos rfl, if_neg (by simp),
      parseLoop_paths atoi (archive :: names) _
        (by intro p hp; rcases List.mem_cons.1 hp with h | h; rw [h]; exact harch;
            exact hnames p h)]
    simp
  · simp only [List.tail_cons, List.mem_cons, not_or]
    refine ⟨by decide, by decide, fun h => hdir h.symm, fun h => harch.2.2.2.2 h.symm, ?_⟩
    intro h
    exact (hnames _ h).2.2.2.2 rfl

/-! ## Heap order and the merge loop -/

theorem keyAt_swap (data : List HuffNode) (i j x : Nat) (hi : i < data.length)
    (hj : j < data.length) :
    keyAt (SwapNodes data i j) x =
      if x = j then keyAt data i else if x = i then keyAt data j else keyAt data x := by
  unfold keyAt SwapNodes
  simp only [List.getD_eq_getElem?_getD, List.getElem?_set, List.length_set]
  by_cases h1 : x = j
  · subst h1
    simp [hj]
  · by_cases h2 : x = i
    · subst h2
      have : ¬ j = x := fun h => h1 h.symm
      simp [this, h1, hi]
    · have h3 : ¬ j = x := fun h => h1 h.symm
      have h4 : ¬ i = x := fun h => h2 h.symm
      simp [h1, h2, h3, h4]

theorem heapifyUpLoop_heap : ∀ (fuel : Nat) (data : List HuffNode) (i : Nat),
    i < data.length → i < fuel → UpInv data i → IsMinHeap (heapifyUpLoop fuel data i) := by
  intro fuel
  induction fuel with
  | zero => intro data i _ h; omega
  | succ fuel ih =>
    intro data i hi hf hinv
    obtain ⟨h1, h2⟩ := hinv
    unfold heapifyUpLoop
    by_cases hc : i ≠ 0 ∧ (data.getD i default).freq < (data.getD ((i - 1) / 2) default).freq
    · rw [if_pos hc]
      obtain ⟨hi0, hlt⟩ := hc
      have hp : (i - 1) / 2 < data.length := by omega
      have hpi : (i - 1) / 2 < i := by omega
      apply ih _ _ (by rw [SwapNodes_length]; exact hp) (by omega)
      have hk : ∀ x, keyAt (SwapNodes data i ((i - 1) / 2)) x =
          if x = (i - 1) / 2 then keyAt data i
          else if x = i then keyAt data ((i - 1) / 2) else keyAt data x :=
        fun x => keyAt_swap data i _ x hi hp
      have hlt' : keyAt data i < keyAt data ((i - 1) / 2) := hlt
      constructor
      · intro j hj0 hjl hjp
        rw [SwapNodes_length] at hjl
        rw [hk, hk]
        by_cases hji : j = i
        · subst hji
          rw [if_pos rfl, if_neg (by omega), if_pos rfl]
          omega
        · rw [if_neg hjp, if_neg hji]
          by_cases hq : (j - 1) / 2 = (i - 1) / 2
          · rw [if_pos hq]
            have := h1 j hj0 hjl hji
            rw [hq] at this
            omega
          · rw [if_neg hq]
            by_cases hq2 : (j - 1) / 2 = i
            · rw [if_pos hq2]
              exact h2 (by omega) j hjl hq2 hj0
            · rw [if_neg hq2]
              exact h1 j hj0 hjl hji
      · intro hp0 j hjl hjq hj0
        rw [SwapNodes_length] at hjl
        rw [hk, hk]
        have hpp : ((i - 1) / 2 - 1) / 2 < (i - 1) / 2 := by omega
        rw [if_neg (by omega), if_neg (by omega), if_neg (by omega)]
        have hpar := h1 ((i - 1) / 2) hp0 hp (by omega)
        by_cases hji : j = i
        · rw [if_pos hji]
          exact hpar
        · rw [if_neg hji]
          have := h1 j hj0 hjl hji
          rw [hjq] at this
          omega
    · rw [if_neg hc]
      intro j hj0 hjl
      by_cases hji : j = i
      · subst hji
        have : ¬ keyAt data j < keyAt data ((j - 1) / 2) := fun h => hc ⟨by omega, h⟩
        omega
      · exact h1 j hj0 hjl hji

theorem heapifyDownLoop_heap : ∀ (fuel : Nat) (data : List HuffNode) (i : Nat),
    data.length ≤ fuel + i → DownInv data i → IsMinHeap (heapifyDownLoop fuel data i) := by
  intro fuel
  induction fuel with
  | zero =>
    intro data i hf hinv j hj0 hjl
    simp only [heapifyDownLoop] at hjl ⊢
    exact hinv.1 j hj0 hjl (by omega)
  | succ fuel ih =>
    intro data i hf hinv
    obtain ⟨h1, h2⟩ := hinv
    unfold heapifyDownLoop
    dsimp only
    generalize hs1 : (if 2 * i + 1 < data.length ∧
        (data.getD (2 * i + 1) default).freq < (data.getD i default).freq
      then 2 * i + 1 else i) = s1
    generalize hs2 : (if 2 * i + 2 < data.length ∧
        (data.getD (2 * i + 2) default).freq < (data.getD s1 default).freq
      then 2 * i + 2 else s1) = s2
    have hs1' : (s1 = i ∧ (2 * i + 1 < data.length → keyAt data i ≤ keyAt data (2 * i + 1))) ∨
        (s1 = 2 * i + 1 ∧ 2 * i + 1 < data.length ∧ keyAt data (2 * i + 1) < keyAt data i) := by
      by_cases c : 2 * i + 1 < data.length ∧
          (data.getD (2 * i + 1) default).freq < (data.getD i default).freq
      · rw [if_pos c] at hs1
        exact Or.inr ⟨hs1.symm, c.1, c.2⟩
      · rw [if_neg c] at hs1
        refine Or.inl ⟨hs1.symm, fun h => ?_⟩
        have : ¬ keyAt data (2 * i + 1) < keyAt data i := fun h' => c ⟨h, h'⟩
        omega
    have hs2' : (s2 = s1 ∧ (2 * i + 2 < data.length → keyAt data s1 ≤ keyAt data (2 * i + 2))) ∨
        (s2 = 2 * i + 2 ∧ 2 * i + 2 < data.length ∧ keyAt data (2 * i + 2) < keyAt data s1) := by
      by_cases c : 2 * i + 2 < data.length ∧
          (data.getD (2 * i + 2) default).freq < (data.getD s1 default).freq
      · rw [if_pos c] at hs2
        exact Or.inr ⟨hs2.symm, c.1, c.2⟩
      · rw [if_neg c] at hs2
        refine Or.inl ⟨hs2.symm, fun h => ?_⟩
        have : ¬ keyAt data (2 * i + 2) < keyAt data s1 := fun h' => c ⟨h, h'⟩
        omega
    by_cases hne : s2 ≠ i
    · rw [if_pos hne]
      -- the slot `s2` is a child of `i` holding the least of the three frequencies
      have hm : s2 < data.length ∧ (s2 = 2 * i + 1 ∨ s2 = 2 * i + 2) ∧
          keyAt data s2 < keyAt data i ∧
          (2 * i + 1 < data.length → keyAt data s2 ≤ keyAt data (2 * i + 1)) ∧
          (2 * i + 2 < data.length → keyAt data s2 ≤ keyAt data (2 * i + 2)) := by
        rcases hs1' with ⟨e1, c1⟩ | ⟨e1, c1, c1'⟩ <;> rcases hs2' with ⟨e2, c2⟩ | ⟨e2, c2, c2'⟩
        · exact absurd (e2.trans e1) hne
        · rw [e1] at c2'
          refine ⟨by omega, Or.inr e2, by rw [e2]; exact c2', ?_, fun _ => by rw [e2]⟩
          intro h; rw [e2]; have := c1 h; omega
        · rw [e1] at c2
          refine ⟨by omega, Or.inl (e2.trans e1), by rw [e2, e1]; exact c1',
            fun _ => by rw [e2, e1], fun h => by rw [e2, e1]; exact c2 h⟩
        · rw [e1] at c2'
          refine ⟨by omega, Or.inr e2, by rw [e2]; omega, fun _ => by rw [e2]; omega,
            fun _ => by rw [e2]⟩
      obtain ⟨hml, hmc, hmlt, hmL, hmR⟩ := hm
      have hil : i < data.length := by omega
      have hpm : (s2 - 1) / 2 = i := by omega
      apply ih _ _ (by rw [SwapNodes_length]; omega)
      have hk : ∀ x, keyAt (SwapNodes data i s2) x =
          if x = s2 then keyAt data i else if x = i then keyAt data s2 else keyAt data x :=
        fun x => keyAt_swap data i _ x hil hml
      constructor
      · intro j hj0 hjl hjp
        rw [SwapNodes_length] at hjl
        rw [hk, hk]
        by_cases hjm : j = s2
        · rw [if_neg hjp, if_pos hjm, hjm, hpm, if_pos rfl]
          omega
        rw [if_neg hjp, if_neg hjm]
        by_cases hq : (j - 1) / 2 = i
        · rw [if_pos hq]
          have hji : j ≠ i := by omega
          rw [if_neg hji]
          have hjc : j = 2 * i + 1 ∨ j = 2 * i + 2 := by omega
          rcases hjc with hjc | hjc
          · rw [hjc]; exact hmL (by omega)
          · rw [hjc]; exact hmR (by omega)
        · rw [if_neg hq]
          by_cases hji : j = i
          · rw [if_pos hji]
            subst hji
            exact h2 hj0 s2 hml hpm (by omega)
          · rw [if_neg hji]
            exact h1 j hj0 hjl hq
      · intro hm0 j hjl hjq hj0
        rw [SwapNodes_length] at hjl
        rw [hk, hk, hpm, if_neg (by omega), if_pos rfl, if_neg (by omega), if_neg (by omega)]
        have := h1 j hj0 hjl (by omega)
        rw [hjq] at this
        exact this
    · rw [if_neg hne]
      have hs2i : s2 = i := by omega
      have hL : 2 * i + 1 < data.length → keyAt data i ≤ keyAt data (2 * i + 1) := by
        intro h
        rcases hs1' with ⟨e1, c1⟩ | ⟨e1, c1, c1'⟩
        · exact c1 h
        · rcases hs2' with ⟨e2, _⟩ | ⟨e2, _, _⟩ <;> omega
      have hR : 2 * i + 2 < data.length → keyAt data i ≤ keyAt data (2 * i + 2) := by
        intro h
        rcases hs1' with ⟨e1, c1⟩ | ⟨e1, c1, c1'⟩
        · rcases hs2' with ⟨e2, c2⟩ | ⟨e2, _, _⟩
          · rw [e1] at c2; exact c2 h
          · omega
        · rcases hs2' with ⟨e2, _⟩ | ⟨e2, _, _⟩ <;> omega
      intro j hj0 hjl
      by_cases hq : (j - 1) / 2 = i
      · rw [hq]
        have hjc : j = 2 * i + 1 ∨ j = 2 * i + 2 := by omega
        rcases hjc with hjc | hjc
        · rw [hjc]; exact hL (by omega)
        · rw [hjc]; exact hR (by omega)
      · exact h1 j hj0 hjl hq

theorem IsMinHeap_root (data : List HuffNode) (h : IsMinHeap data) :
    ∀ j, j < data.length → keyAt data 0 ≤ keyAt data j := by
  intro j
  induction j using Nat.strong_induction_on with
  | _ j ih =>
    intro hj
    by_cases hj0 : j = 0
    · subst hj0; exact le_refl _
    · have h1 := h j (by omega) hj
      have h2 := ih ((j - 1) / 2) (by omega) (by omega)
      omega

theorem keyAt_append (data l : List HuffNode) (j : Nat) (h : j < data.length) :
    keyAt (data ++ l) j = keyAt data j := by
  unfold keyAt
  rw [List.getD_eq_getElem?_getD, List.getD_eq_getElem?_getD, List.getElem?_append_left h]

theorem PushHeap_heap (heap : MinHeap) (node : HuffNode) (h : IsMinHeap heap.data) :
    IsMinHeap (PushHeap heap node).data := by
  unfold PushHeap
  by_cases hc : heap.size = heap.capacity
  · rw [if_pos hc]; exact h
  · rw [if_neg hc]
    unfold HeapifyUp
    simp only [MinHeap.size]
    apply heapifyUpLoop_heap _ _ _ (by simp) (by omega)
    constructor
    · intro j hj0 hjl hji
      have hjl' : j < heap.data.length := by
        simp only [List.length_append, List.length_singleton] at hjl
        omega
      rw [keyAt_append _ _ _ hjl', keyAt_append _ _ _ (by omega)]
      exact h j hj0 hjl'
    · intro _ j hjl hjq hj0
      simp only [List.length_append, List.length_singleton] at hjl
      omega

theorem keyAt_take_set (data : List HuffNode) (v : HuffNode) (k j : Nat) (hj0 : 0 < j)
    (hjk : j < k) : keyAt ((data.set 0 v).take k) j = keyAt data j := by
  unfold keyAt
  rw [List.getD_eq_getElem?_getD, List.getD_eq_getElem?_getD, List.getElem?_take_of_lt hjk,
    List.getElem?_set_ne (by omega)]

theorem PopHeap_heap (heap : MinHeap) (min : HuffNode) (rest : List HuffNode)
    (hd : heap.data = min :: rest) (h : IsMinHeap heap.data) :
    IsMinHeap (PopHeap heap).2.data ∧ ∀ x ∈ rest, min.freq ≤ x.freq := by
  constructor
  · unfold PopHeap
    rw [hd]
    simp only [MinHeap.size, hd, List.length_cons, Nat.add_sub_cancel]
    by_cases hr : rest.length > 0
    · rw [if_pos hr]
      unfold HeapifyDown
      simp only [MinHeap.size]
      have hlen : (List.take rest.length ((min :: rest).set 0
          ((min :: rest).getD rest.length default))).length = rest.length := by
        simp
      rw [hlen]
      apply heapifyDownLoop_heap _ _ _ (by rw [hlen]; omega)
      constructor
      · intro j hj0 hjl hjp
        rw [hlen] at hjl
        rw [keyAt_take_set _ _ _ _ (by omega) (by omega), keyAt_take_set _ _ _ _ hj0 hjl]
        have := h j hj0 (by rw [hd]; simp; omega)
        rw [hd] at this
        exact this
      · intro h0; omega
    · rw [if_neg hr]
      intro j _ hjl
      simp only [List.length_take, List.length_set, List.length_cons] at hjl
      omega
  · intro x hx
    obtain ⟨k, hk, rfl⟩ := List.getElem_of_mem hx
    have := IsMinHeap_root heap.data h (k + 1) (by rw [hd]; simp; omega)
    rw [hd] at this
    simpa [keyAt, hk] using this

theorem IsMinHeap_nil : IsMinHeap [] := by
  intro j _ hjl
  simp at hjl

theorem fillHeap_heap (freq_table : Nat → Nat) (n k : Nat) :
    IsMinHeap ((List.range k).foldl (fillHeapStep freq_table) (CreateMinHeap n, 0)).1.data := by
  induction k with
  | zero => exact IsMinHeap_nil
  | succ k ih =>
    rw [List.range_succ, List.foldl_append]
    simp only [List.foldl_cons, List.foldl_nil]
    unfold fillHeapStep
    by_cases hf : freq_table k ≠ 0
    · rw [if_pos hf]
      exact PushHeap_heap _ _ ih
    · rw [if_neg hf]
      exact ih

theorem merge_step (total : Nat) (heap : MinHeap) (htot : total < 2 ^ 64)
    (hinv : MergeInv total heap) (hsize : heap.size > 1) :
    ∃ a b heap1 heap2, PopHeap heap = (some a, heap1) ∧ PopHeap heap1 = (some b, heap2) ∧
      a.freq ≤ b.freq ∧ (∀ x ∈ heap2.data, b.freq ≤ x.freq) ∧
      (a.freq + b.freq) % 2 ^ 64 = a.freq + b.freq ∧
      (∀ fuel, mergeLoop (fuel + 1) heap =
        mergeLoop fuel (PushHeap heap2 (.node (a.freq + b.freq) a b))) ∧
      (PushHeap heap2 (.node (a.freq + b.freq) a b)).data.Perm
        (.node (a.freq + b.freq) a b :: heap2.data) ∧
      heap.data.Perm (a :: b :: heap2.data) ∧
      (PushHeap heap2 (.node (a.freq + b.freq) a b)).size + 1 = heap.size ∧
      (PushHeap heap2 (.node (a.freq + b.freq) a b)).capacity = heap.capacity ∧
      a.freq = a.weight ∧ b.freq = b.weight ∧
      MergeInv total (PushHeap heap2 (.node (a.freq + b.freq) a b)) := by
  obtain ⟨hheap, hcap, hfw, hsum⟩ := hinv
  cases hd : heap.data with
  | nil => simp [MinHeap.size, hd] at hsize
  | cons a rest =>
    obtain ⟨hp1, hperm1, hcap1⟩ := PopHeap_perm heap a rest hd
    obtain ⟨hh1, hmin1⟩ := PopHeap_heap heap a rest hd hheap
    cases hd1 : (PopHeap heap).2.data with
    | nil =>
      rw [hd1] at hperm1
      have := hperm1.length_eq
      simp [MinHeap.size, hd] at hsize this
      omega
    | cons b rest1 =>
      obtain ⟨hp2, hperm2, hcap2⟩ := PopHeap_perm (PopHeap heap).2 b rest1 hd1
      obtain ⟨hh2, hmin2⟩ := PopHeap_heap (PopHeap heap).2 b rest1 hd1 hh1
      rw [hd1] at hperm1
      have hpermAll : heap.data.Perm (a :: b :: (PopHeap (PopHeap heap).2).2.data) := by
        rw [hd]
        exact (hperm1.symm.trans (List.Perm.cons b hperm2.symm)).cons a
      have hlen2 : (PopHeap (PopHeap heap).2).2.data.length + 2 = heap.data.length := by
        have := hpermAll.length_eq
        simp only [List.length_cons] at this
        omega
      have hne : (PopHeap (PopHeap heap).2).2.size ≠ (PopHeap (PopHeap heap).2).2.capacity := by
        rw [hcap2, hcap1]
        simp only [MinHeap.size] at hcap ⊢
        omega
      have hfa : a.freq = a.weight := hfw a (by rw [hd]; simp)
      have hfb : b.freq = b.weight :=
        hfw b (by rw [hd]; exact List.mem_cons_of_mem _ (hperm1.subset (by simp)))
      have hsum' : a.weight + (b.weight +
          ((PopHeap (PopHeap heap).2).2.data.map HuffNode.weight).sum) = total := by
        rw [← hsum, (hpermAll.map HuffNode.weight).sum_eq]
        simp
      have hmod : (a.freq + b.freq) % 2 ^ 64 = a.freq + b.freq := by
        apply Nat.mod_eq_of_lt
        omega
      obtain ⟨hpush, hpcap⟩ := PushHeap_perm (PopHeap (PopHeap heap).2).2
        (.node (a.freq + b.freq) a b) hne
      refine ⟨a, b, (PopHeap heap).2, (PopHeap (PopHeap heap).2).2, ?_, ?_, ?_, ?_, hmod, ?_,
        hpush, by rw [hd] at hpermAll; exact hpermAll, ?_, ?_, hfa, hfb, ?_⟩
      · rw [← hp1]
      · rw [← hp2]
      · exact hmin1 b (hperm1.subset (by simp))
      · intro x hx
        exact hmin2 x (hperm2.subset hx)
      · intro fuel
        rw [mergeLoop, if_pos hsize]
        have e1 : PopHeap heap = (some a, (PopHeap heap).2) := by rw [← hp1]
        have e2 : PopHeap (PopHeap heap).2 = (some b, (PopHeap (PopHeap heap).2).2) := by
          rw [← hp2]
        rw [e1]
        simp only []
        rw [e2]
        simp only []
        rw [hmod]
      · have := hpush.length_eq
        simp only [List.length_cons, MinHeap.size] at this ⊢
        omega
      · rw [hpcap, hcap2, hcap1]
      · refine ⟨PushHeap_heap _ _ hh2, ?_, ?_, ?_⟩
        · rw [hpcap, hcap2, hcap1]
          have := hpush.length_eq
          simp only [List.length_cons, MinHeap.size] at this hcap ⊢
          omega
        · intro x hx
          rcases List.mem_cons.1 (hpush.subset hx) with hx | hx
          · subst hx
            show a.freq + b.freq = a.weight + b.weight
            rw [hfa, hfb]
          · exact hfw x (hpermAll.symm.subset
              (List.mem_cons_of_mem _ (List.mem_cons_of_mem _ hx)))
        · rw [(hpush.map HuffNode.weight).sum_eq]
          simp only [List.map_cons, List.sum_cons, HuffNode.weight]
          omega

theorem mergeLoop_greedy (total : Nat) (htot : total < 2 ^ 64) : ∀ (fuel : Nat) (heap : MinHeap),
    MergeInv total heap → heap.size ≤ fuel + 1 → 0 < heap.size →
    ∃ heap' root c, mergeLoop fuel heap = some heap' ∧ heap'.data = [root] ∧
      root.freq = total ∧ root.weight = total ∧
      Greedy (↑(heap.data.map HuffNode.weight) : Multiset Nat) c ∧
      root.cost = (heap.data.map HuffNode.cost).sum + c ∧
      ∀ freq_table, (∀ x ∈ heap.data, LeafFreq freq_table x) → LeafFreq freq_table root := by
  intro fuel
  induction fuel with
  | zero =>
    intro heap hinv hsize hpos
    have hlen : heap.data.length = 1 := by
      simp only [MinHeap.size] at hsize hpos; omega
    obtain ⟨root, hroot⟩ := List.length_eq_one.1 hlen
    obtain ⟨_, _, hfw, hsum⟩ := hinv
    refine ⟨heap, root, 0, rfl, hroot, ?_, ?_, ?_, ?_, ?_⟩
    · rw [hfw root (by rw [hroot]; simp), ← hsum, hroot]; simp
    · rw [← hsum, hroot]; simp
    · rw [hroot]
      exact Greedy.single _
    · rw [hroot]; simp
    · intro ft h
      exact h root (by rw [hroot]; simp)
  | succ fuel ih =>
    intro heap hinv hsize hpos
    by_cases h1 : heap.size ≤ 1
    · have hlen : heap.data.length = 1 := by
        simp only [MinHeap.size] at h1 hpos; omega
      obtain ⟨root, hroot⟩ := List.length_eq_one.1 hlen
      obtain ⟨_, _, hfw, hsum⟩ := hinv
      refine ⟨heap, root, 0, mergeLoop_small _ _ h1, hroot, ?_, ?_, ?_, ?_, ?_⟩
      · rw [hfw root (by rw [hroot]; simp), ← hsum, hroot]; simp
      · rw [← hsum, hroot]; simp
      · rw [hroot]
        exact Greedy.single _
      · rw [hroot]; simp
      · intro ft h
        exact h root (by rw [hroot]; simp)
    · obtain ⟨a, b, heap1, heap2, _, _, hab, hmin, _, hstep, hpush, hperm, hsz, _, hfa, hfb,
        hinv'⟩ := merge_step total heap htot hinv (by omega)
      obtain ⟨heap', root, c, hrun, hdata, hrf, hrw, hg, hcost, hleaf⟩ :=
        ih _ hinv' (by omega) (by omega)
      refine ⟨heap', root, c + a.weight + b.weight, ?_, hdata, hrf, hrw, ?_, ?_, ?_⟩
      · rw [hstep]; exact hrun
      · have e1 : (↑(heap.data.map HuffNode.weight) : Multiset Nat) =
            a.weight ::ₘ b.weight ::ₘ (↑(heap2.data.map HuffNode.weight) : Multiset Nat) := by
          rw [Multiset.cons_coe, Multiset.cons_coe, Multiset.coe_eq_coe]
          exact hperm.map HuffNode.weight
        have e2 : (↑((PushHeap heap2 (.node (a.freq + b.freq) a b)).data.map HuffNode.weight) :
              Multiset Nat) =
            (a.weight + b.weight) ::ₘ (↑(heap2.data.map HuffNode.weight) : Multiset Nat) := by
          rw [Multiset.cons_coe, Multiset.coe_eq_coe]
          exact hpush.map HuffNode.weight
        rw [e1]
        rw [e2] at hg
        apply Greedy.merge _ _ _ _ (by omega) _ hg
        intro w hw
        rw [Multiset.mem_coe, List.mem_map] at hw
        obtain ⟨x, hx, rfl⟩ := hw
        have hxf : x.freq = x.weight := hinv.2.2.1 x
          (hperm.symm.subset (List.mem_cons_of_mem _ (List.mem_cons_of_mem _ hx)))
        have := hmin x hx
        omega
      · rw [hcost, (hpush.map HuffNode.cost).sum_eq, (hperm.map HuffNode.cost).sum_eq]
        simp only [List.map_cons, List.sum_cons, HuffNode.cost]
        omega
      · intro ft h
        apply hleaf ft
        intro x hx
        rcases List.mem_cons.1 (hpush.subset hx) with hx | hx
        · subst hx
          exact ⟨h a (hperm.symm.subset (by simp)), h b (hperm.symm.subset (by simp))⟩
        · exact h x (hperm.symm.subset (List.mem_cons_of_mem _ (List.mem_cons_of_mem _ hx)))

theorem fillHeap_inv (freq_table : Nat → Nat) (n : Nat) :
    MergeInv ((activeSymbols freq_table n).map freq_table).sum (fillHeap freq_table n).1 := by
  obtain ⟨hc, hp, _⟩ := fillHeap_spec freq_table n
  refine ⟨fillHeap_heap freq_table n n, ?_, ?_, ?_⟩
  · rw [hc]
    have := hp.length_eq
    simp only [List.length_map] at this
    simp only [MinHeap.size, this]
    exact activeSymbols_length_le _ _
  · intro x hx
    obtain ⟨i, _, rfl⟩ := List.mem_map.1 (hp.subset hx)
    rfl
  · rw [(hp.map HuffNode.weight).sum_eq, List.map_map]
    rfl

theorem huffmanTree_greedy (freq_table : Nat → Nat) (n : Nat) (hn : n ≤ 2 ^ 16)
    (hsum : ((activeSymbols freq_table n).map freq_table).sum < 2 ^ 64)
    (hne : activeSymbols freq_table n ≠ []) :
    ∃ root, huffmanTree freq_table n = some (some root) ∧
      root.freq = ((activeSymbols freq_table n).map freq_table).sum ∧
      root.weight = ((activeSymbols freq_table n).map freq_table).sum ∧
      LeafFreq freq_table root ∧
      Greedy (↑((activeSymbols freq_table n).map freq_table) : Multiset Nat) root.cost := by
  obtain ⟨hc, hp, _⟩ := fillHeap_spec freq_table n
  have hsize : (fillHeap freq_table n).1.size = (activeSymbols freq_table n).length := by
    have := hp.length_eq
    simpa [MinHeap.size] using this
  have hpos : 0 < (activeSymbols freq_table n).length := List.length_pos.2 hne
  obtain ⟨heap', root, c, hrun, hdata, hrf, hrw, hg, hcost, hleaf⟩ :=
    mergeLoop_greedy _ hsum (fillHeap freq_table n).1.size _ (fillHeap_inv freq_table n)
      (by omega) (by omega)
  refine ⟨root, ?_, hrf, hrw, ?_, ?_⟩
  · unfold huffmanTree
    rw [hrun]
    simp only [PopHeap, hdata]
    split <;> rfl
  · apply hleaf
    intro x hx
    obtain ⟨i, hi, rfl⟩ := List.mem_map.1 (hp.subset hx)
    have := (activeSymbols_lt freq_table n i hi).1
    show freq_table i = freq_table (i % 2 ^ 16)
    rw [Nat.mod_eq_of_lt (by omega)]
  · have e : (↑((fillHeap freq_table n).1.data.map HuffNode.weight) : Multiset Nat) =
        ↑((activeSymbols freq_table n).map freq_table) := by
      rw [Multiset.coe_eq_coe]
      have := hp.map HuffNode.weight
      rw [List.map_map] at this
      exact this
    rw [e] at hg
    have hc0 : ((fillHeap freq_table n).1.data.map HuffNode.cost).sum = 0 := by
      rw [(hp.map HuffNode.cost).sum_eq, List.map_map]
      apply List.sum_eq_zero
      intro x hx
      obtain ⟨i, _, rfl⟩ := List.mem_map.1 hx
      rfl
    rw [hc0, Nat.zero_add] at hcost
    rw [hcost]
    exact hg

theorem PopHeap_order (heap : MinHeap) (h : IsMinHeap heap.data) :
    IsMinHeap (PopHeap heap).2.data ∧
      ∀ m, (PopHeap heap).1 = some m → ∀ x ∈ (PopHeap heap).2.data, m.freq ≤ x.freq := by
  cases hd : heap.data with
  | nil =>
    have e : PopHeap heap = (none, heap) := by
      unfold PopHeap
      rw [hd]
    rw [e]
    refine ⟨by rw [hd]; exact IsMinHeap_nil, ?_⟩
    intro m hm
    cases hm
  | cons min rest =>
    obtain ⟨h1, h2⟩ := PopHeap_heap heap min rest hd h
    obtain ⟨h3, h4, _⟩ := PopHeap_perm heap min rest hd
    refine ⟨h1, ?_⟩
    intro m hm x hx
    rw [h3] at hm
    cases hm
    exact h2 x (h4.subset hx)

/-! ## Greedy merging against any length assignment -/

theorem ksum_cons (D l : Nat) (ls : Multiset Nat) :
    ksum D (l ::ₘ ls) = 2 ^ (D - l) + ksum D ls := by
  simp [ksum]

theorem mcost_cons (x : Nat × Nat) (M : Multiset (Nat × Nat)) :
    mcost (x ::ₘ M) = x.1 * x.2 + mcost M := by
  simp [mcost]

theorem exists_max_length (M : Multiset (Nat × Nat)) (h : M ≠ 0) :
    ∃ x ∈ M, ∀ y ∈ M, y.2 ≤ x.2 := by
  induction M using Multiset.induction_on with
  | empty => exact absurd rfl h
  | cons a s ih =>
    by_cases hs : s = 0
    · subst hs
      exact ⟨a, by simp, by simp⟩
    · obtain ⟨x, hx, hmax⟩ := ih hs
      by_cases hax : a.2 ≤ x.2
      · refine ⟨x, Multiset.mem_cons_of_mem hx, ?_⟩
        intro y hy
        rcases Multiset.mem_cons.1 hy with rfl | hy
        · exact hax
        · exact hmax y hy
      · refine ⟨a, Multiset.mem_cons_self _ _, ?_⟩
        intro y hy
        rcases Multiset.mem_cons.1 hy with rfl | hy
        · exact le_refl _
        · have := hmax y hy
          omega

theorem place_weight (M : Multiset (Nat × Nat)) (w L : Nat) (W : Multiset Nat)
    (hW : M.map Prod.fst = w ::ₘ W) (hmin : ∀ v ∈ W, w ≤ v)
    (hL : ∀ x ∈ M, x.2 ≤ L) (hex : ∃ x ∈ M, x.2 = L) :
    ∃ R : Multiset (Nat × Nat), R.map Prod.fst = W ∧
      ((w, L) ::ₘ R).map Prod.snd = M.map Prod.snd ∧ mcost ((w, L) ::ₘ R) ≤ mcost M := by
  obtain ⟨p, hp, hpw, hrest⟩ := (Multiset.map_eq_cons _ _ _ _).2 hW
  have hM : M = p ::ₘ M.erase p := (Multiset.cons_erase hp).symm
  by_cases hpl : p.2 = L
  · refine ⟨M.erase p, hrest, ?_, ?_⟩
    · have : p = (w, L) := Prod.ext hpw hpl
      rw [← this, Multiset.cons_erase hp]
    · have : p = (w, L) := Prod.ext hpw hpl
      rw [← this, Multiset.cons_erase hp]
  · obtain ⟨x, hx, hxl⟩ := hex
    have hxp : x ≠ p := by
      intro h; rw [h] at hxl; exact hpl hxl
    have hx' : x ∈ M.erase p := (Multiset.mem_erase_of_ne hxp).2 hx
    have hR0 : M.erase p = x ::ₘ (M.erase p).erase x := (Multiset.cons_erase hx').symm
    have hxw : w ≤ x.1 := by
      apply hmin
      rw [← hrest]
      exact Multiset.mem_map_of_mem _ hx'
    have hple : p.2 ≤ L := hL p hp
    refine ⟨(x.1, p.2) ::ₘ (M.erase p).erase x, ?_, ?_, ?_⟩
    · rw [← hrest]
      nth_rewrite 2 [hR0]
      simp
    · nth_rewrite 2 [hM]
      nth_rewrite 2 [hR0]
      simp only [Multiset.map_cons]
      rw [hxl, Multiset.cons_swap]
    · nth_rewrite 2 [hM]
      nth_rewrite 2 [hR0]
      simp only [mcost_cons]
      rw [hxl, hpw]
      obtain ⟨d, hd⟩ := Nat.exists_eq_add_of_le hxw
      obtain ⟨e, he⟩ := Nat.exists_eq_add_of_le hple
      rw [hd, he]
      nlinarith [Nat.zero_le (d * e)]

theorem ksum_count (D L : Nat) (ls : Multiset Nat) :
    ksum D ls = ls.count L * 2 ^ (D - L) + ksum D (ls.filter (fun l => l ≠ L)) := by
  induction ls using Multiset.induction_on with
  | empty => simp [ksum]
  | cons a s ih =>
    by_cases h : a = L
    · subst h
      rw [ksum_cons, ih]
      simp [Multiset.filter_cons_of_neg]
      ring
    · have hf : Multiset.filter (fun l => l ≠ L) (a ::ₘ s) =
          a ::ₘ Multiset.filter (fun l => l ≠ L) s := Multiset.filter_cons_of_pos s h
      rw [ksum_cons, ih, hf, ksum_cons, Multiset.count_cons_of_ne (fun e => h e.symm)]
      ring

theorem two_longest (D L : Nat) (ls : Multiset Nat) (hL : ∀ l ∈ ls, l ≤ L) (hLD : L ≤ D)
    (h1 : 1 ≤ L) (hmem : L ∈ ls) (hk : ksum D ls = 2 ^ D) : 2 ≤ ls.count L := by
  have hdvd : 2 ^ (D - L + 1) ∣ ksum D (ls.filter (fun l => l ≠ L)) := by
    unfold ksum
    apply Multiset.dvd_sum
    intro x hx
    obtain ⟨l, hl, rfl⟩ := Multiset.mem_map.1 hx
    rw [Multiset.mem_filter] at hl
    have := hL l hl.1
    exact pow_dvd_pow 2 (by omega)
  have hD : 2 ^ (D - L + 1) ∣ 2 ^ D := pow_dvd_pow 2 (by omega)
  have hc := ksum_count D L ls
  rw [hk] at hc
  have h2 : 2 ^ (D - L + 1) ∣ ls.count L * 2 ^ (D - L) := by
    rw [hc] at hD
    exact (Nat.dvd_add_left hdvd).1 hD
  rw [pow_succ, mul_comm (Multiset.count L ls)] at h2
  have h3 : 2 ∣ ls.count L := (Nat.mul_dvd_mul_iff_left (by positivity)).1 h2
  have h4 : 0 < ls.count L := Multiset.count_pos.2 hmem
  omega

theorem merge_competitor (a b : Nat) (W : Multiset Nat) (hab : a ≤ b) (hb : ∀ w ∈ W, b ≤ w)
    (D : Nat) (M : Multiset (Nat × Nat)) (hM : M.map Prod.fst = a ::ₘ b ::ₘ W)
    (hD : ∀ x ∈ M, x.2 ≤ D) (hk : ksum D (M.map Prod.snd) = 2 ^ D) :
    ∃ M' : Multiset (Nat × Nat), M'.map Prod.fst = (a + b) ::ₘ W ∧ (∀ x ∈ M', x.2 ≤ D) ∧
      ksum D (M'.map Prod.snd) = 2 ^ D ∧ mcost M' + a + b ≤ mcost M := by
  have hne : M ≠ 0 := by
    intro h
    rw [h] at hM
    simp at hM
  obtain ⟨xm, hxm, hmax⟩ := exists_max_length M hne
  have hLD : xm.2 ≤ D := hD xm hxm
  -- at least two pairs, so the longest length is not zero
  have h1 : 1 ≤ xm.2 := by
    by_contra hcon
    have h0 : ∀ y ∈ M, y.2 = 0 := fun y hy => by have := hmax y hy; omega
    obtain ⟨p, hp, _, hrest⟩ := (Multiset.map_eq_cons _ _ _ _).2 hM
    obtain ⟨q, hq, _, _⟩ := (Multiset.map_eq_cons _ _ _ _).2 hrest
    have e1 : M = p ::ₘ q ::ₘ (M.erase p).erase q := by
      rw [Multiset.cons_erase hq, Multiset.cons_erase hp]
    rw [e1] at hk
    simp only [Multiset.map_cons, ksum_cons] at hk
    rw [h0 p hp, h0 q (Multiset.mem_of_mem_erase hq)] at hk
    have : 0 < 2 ^ D := by positivity
    simp only [Nat.sub_zero] at hk
    omega
  have hcount : 2 ≤ (M.map Prod.snd).count xm.2 := by
    apply two_longest D xm.2 _ _ hLD h1 (Multiset.mem_map_of_mem _ hxm) hk
    intro l hl
    obtain ⟨y, hy, rfl⟩ := Multiset.mem_map.1 hl
    exact hmax y hy
  obtain ⟨R, hRw, hRs, hRc⟩ := place_weight M a xm.2 (b ::ₘ W) hM
    (by
      intro v hv
      rcases Multiset.mem_cons.1 hv with rfl | hv
      · exact hab
      · exact hab.trans (hb v hv))
    hmax ⟨xm, hxm, rfl⟩
  have hRmem : ∀ y ∈ R, y.2 ∈ M.map Prod.snd := by
    intro y hy
    rw [← hRs]
    exact Multiset.mem_map_of_mem _ (Multiset.mem_cons_of_mem hy)
  have hRL : ∀ y ∈ R, y.2 ≤ xm.2 := by
    intro y hy
    obtain ⟨z, hz, hzy⟩ := Multiset.mem_map.1 (hRmem y hy)
    rw [← hzy]
    exact hmax z hz
  have hRex : ∃ y ∈ R, y.2 = xm.2 := by
    rw [← hRs, Multiset.map_cons, Multiset.count_cons_self] at hcount
    have : 0 < (R.map Prod.snd).count xm.2 := by omega
    obtain ⟨y, hy, hyl⟩ := Multiset.mem_map.1 (Multiset.count_pos.1 this)
    exact ⟨y, hy, hyl⟩
  obtain ⟨R2, hR2w, hR2s, hR2c⟩ := place_weight R b xm.2 W hRw hb hRL hRex
  have hsnd : M.map Prod.snd = xm.2 ::ₘ xm.2 ::ₘ R2.map Prod.snd := by
    rw [← hRs, Multiset.map_cons, ← hR2s, Multiset.map_cons]
  refine ⟨(a + b, xm.2 - 1) ::ₘ R2, ?_, ?_, ?_, ?_⟩
  · rw [Multiset.map_cons, hR2w]
  · intro y hy
    rcases Multiset.mem_cons.1 hy with rfl | hy
    · simp only; omega
    · have : y.2 ∈ M.map Prod.snd := by
        rw [hsnd]
        exact Multiset.mem_cons_of_mem (Multiset.mem_cons_of_mem (Multiset.mem_map_of_mem _ hy))
      obtain ⟨z, hz, hzy⟩ := Multiset.mem_map.1 this
      rw [← hzy]
      exact hD z hz
  · rw [hsnd] at hk
    simp only [ksum_cons, Multiset.map_cons] at hk ⊢
    have e : D - (xm.2 - 1) = (D - xm.2) + 1 := by omega
    rw [e, pow_succ]
    omega
  · have hc1 : mcost ((a, xm.2) ::ₘ (b, xm.2) ::ₘ R2) ≤ mcost M := by
      refine le_trans ?_ hRc
      rw [mcost_cons, mcost_cons (a, xm.2) R]
      exact Nat.add_le_add_left hR2c _
    simp only [mcost_cons] at hc1 ⊢
    obtain ⟨e, he⟩ := Nat.exists_eq_add_of_le h1
    rw [he] at hc1 ⊢
    simp only [Nat.add_sub_cancel_left] at hc1 ⊢
    nlinarith

theorem Greedy_ne_zero (W : Multiset Nat) (c : Nat) (h : Greedy W c) : W ≠ 0 := by
  induction h with
  | single w => exact Multiset.singleton_ne_zero w
  | merge a b W c _ _ _ _ => exact Multiset.cons_ne_zero

theorem greedy_le_full (W : Multiset Nat) (c : Nat) (hg : Greedy W c) :
    ∀ (D : Nat) (M : Multiset (Nat × Nat)), M.map Prod.fst = W → (∀ x ∈ M, x.2 ≤ D) →
      ksum D (M.map Prod.snd) = 2 ^ D → c ≤ mcost M := by
  induction hg with
  | single w => intro D M _ _ _; exact Nat.zero_le _
  | merge a b W c hab hb _ ih =>
    intro D M hM hD hk
    obtain ⟨M', h1, h2, h3, h4⟩ := merge_competitor a b W hab hb D M hM hD hk
    have := ih D M' h1 h2 h3
    omega

theorem kraft_fill (D : Nat) : ∀ (d : Nat) (M : Multiset (Nat × Nat)), M ≠ 0 →
    (∀ x ∈ M, x.2 ≤ D) → ksum D (M.map Prod.snd) + d = 2 ^ D →
    ∃ M2 : Multiset (Nat × Nat), M2.map Prod.fst = M.map Prod.fst ∧ (∀ x ∈ M2, x.2 ≤ D) ∧
      ksum D (M2.map Prod.snd) = 2 ^ D ∧ mcost M2 ≤ mcost M := by
  intro d
  induction d using Nat.strong_induction_on with
  | _ d ih =>
    intro M hne hD hk
    by_cases hd : d = 0
    · subst hd
      exact ⟨M, rfl, hD, hk, le_refl _⟩
    · obtain ⟨xm, hxm, hmax⟩ := exists_max_length M hne
      have hLD : xm.2 ≤ D := hD xm hxm
      have hMe : M = xm ::ₘ M.erase xm := (Multiset.cons_erase hxm).symm
      have h1 : 1 ≤ xm.2 := by
        by_contra hcon
        have h0 : xm.2 = 0 := by omega
        rw [hMe, Multiset.map_cons, ksum_cons, h0] at hk
        simp only [Nat.sub_zero] at hk
        omega
      have hdvd : 2 ^ (D - xm.2) ∣ ksum D (M.map Prod.snd) := by
        unfold ksum
        apply Multiset.dvd_sum
        intro x hx
        obtain ⟨l, hl, rfl⟩ := Multiset.mem_map.1 hx
        obtain ⟨y, hy, rfl⟩ := Multiset.mem_map.1 hl
        have := hmax y hy
        exact pow_dvd_pow 2 (by omega)
      have hdD : 2 ^ (D - xm.2) ∣ 2 ^ D := pow_dvd_pow 2 (by omega)
      have hdd : 2 ^ (D - xm.2) ∣ d := by
        rw [← hk] at hdD
        exact (Nat.dvd_add_right hdvd).1 hdD
      have hge : 2 ^ (D - xm.2) ≤ d := Nat.le_of_dvd (by omega) hdd
      have hpos : 0 < 2 ^ (D - xm.2) := by positivity
      have hk2 : ksum D (((xm.1, xm.2 - 1) ::ₘ M.erase xm).map Prod.snd) +
          (d - 2 ^ (D - xm.2)) = 2 ^ D := by
        rw [hMe] at hk
        simp only [Multiset.map_cons, ksum_cons] at hk ⊢
        have e : D - (xm.2 - 1) = (D - xm.2) + 1 := by omega
        rw [e, pow_succ]
        omega
      obtain ⟨M2, e1, e2, e3, e4⟩ := ih (d - 2 ^ (D - xm.2)) (by omega)
        ((xm.1, xm.2 - 1) ::ₘ M.erase xm) Multiset.cons_ne_zero
        (by
          intro y hy
          rcases Multiset.mem_cons.1 hy with rfl | hy
          · simp only; omega
          · exact hD y (Multiset.mem_of_mem_erase hy))
        hk2
      refine ⟨M2, ?_, e2, e3, ?_⟩
      · rw [e1]
        nth_rewrite 2 [hMe]
        simp
      · refine le_trans e4 ?_
        nth_rewrite 2 [hMe]
        simp only [mcost_cons]
        exact Nat.add_le_add_right (Nat.mul_le_mul_left _ (Nat.sub_le _ _)) _

theorem greedy_le_kraft (W : Multiset Nat) (c : Nat) (hg : Greedy W c) (D : Nat)
    (M : Multiset (Nat × Nat)) (hM : M.map Prod.fst = W) (hD : ∀ x ∈ M, x.2 ≤ D)
    (hk : ksum D (M.map Prod.snd) ≤ 2 ^ D) : c ≤ mcost M := by
  have hne : M ≠ 0 := by
    intro h
    rw [h] at hM
    exact Greedy_ne_zero W c hg hM.symm
  obtain ⟨M2, e1, e2, e3, e4⟩ := kraft_fill D (2 ^ D - ksum D (M.map Prod.snd)) M hne hD
    (by omega)
  exact (greedy_le_full W c hg D M2 (e1.trans hM) e2 e3).trans e4

/-! ## Kraft inequality and tree cost -/

theorem tailsOf_cons_same (b : Bool) (t : List Bool) (ws : List (List Bool)) :
    tailsOf b ((b :: t) :: ws) = t :: tailsOf b ws := by
  simp [tailsOf, List.filterMap_cons]

theorem tailsOf_cons_other (b c : Bool) (t : List Bool) (ws : List (List Bool)) (h : c ≠ b) :
    tailsOf b ((c :: t) :: ws) = tailsOf b ws := by
  simp [tailsOf, List.filterMap_cons, h]

theorem mem_tailsOf (b : Bool) (t : List Bool) (ws : List (List Bool)) :
    t ∈ tailsOf b ws ↔ b :: t ∈ ws := by
  induction ws with
  | nil => simp [tailsOf]
  | cons w rest ih =>
    cases w with
    | nil =>
      have : tailsOf b ([] :: rest) = tailsOf b rest := by simp [tailsOf, List.filterMap_cons]
      rw [this, ih]
      simp
    | cons c u =>
      by_cases h : c = b
      · subst h
        rw [tailsOf_cons_same, List.mem_cons, ih, List.mem_cons]
        simp
      · rw [tailsOf_cons_other _ _ _ _ h, ih, List.mem_cons]
        constructor
        · intro h'; exact Or.inr h'
        · intro h'
          rcases h' with h' | h'
          · simp only [List.cons.injEq] at h'
            exact absurd h'.1.symm h
          · exact h'

theorem tailsOf_pairwise (b : Bool) (ws : List (List Bool))
    (h : ws.Pairwise (fun u v => ¬ u <+: v ∧ ¬ v <+: u)) :
    (tailsOf b ws).Pairwise (fun u v => ¬ u <+: v ∧ ¬ v <+: u) := by
  unfold tailsOf
  apply List.Pairwise.filterMap _ _ h
  intro u v huv t ht t' ht'
  cases u with
  | nil => simp at ht
  | cons c x =>
    cases v with
    | nil => simp at ht'
    | cons c' x' =>
      simp only [Option.mem_def] at ht ht'
      by_cases hc : c = b
      · by_cases hc' : c' = b
        · rw [if_pos hc] at ht
          rw [if_pos hc'] at ht'
          cases ht
          cases ht'
          subst hc hc'
          rw [List.prefix_cons_inj, List.prefix_cons_inj] at huv
          exact huv
        · rw [if_neg hc'] at ht'
          cases ht'
      · rw [if_neg hc] at ht
        cases ht

theorem kraft_split (D : Nat) (ws : List (List Bool)) (h : [] ∉ ws) :
    (ws.map (fun w => 2 ^ (D + 1 - w.length))).sum =
      ((tailsOf false ws).map (fun w => 2 ^ (D - w.length))).sum +
        ((tailsOf true ws).map (fun w => 2 ^ (D - w.length))).sum := by
  induction ws with
  | nil => simp [tailsOf]
  | cons w rest ih =>
    have hr : [] ∉ rest := fun h' => h (List.mem_cons_of_mem _ h')
    cases w with
    | nil => simp at h
    | cons c t =>
      have e : D + 1 - (c :: t).length = D - t.length := by
        simp only [List.length_cons]; omega
      cases c with
      | false =>
        rw [tailsOf_cons_same, tailsOf_cons_other _ _ _ _ (by decide)]
        simp only [List.map_cons, List.sum_cons]
        rw [ih hr, e]
        omega
      | true =>
        rw [tailsOf_cons_same, tailsOf_cons_other _ _ _ _ (by decide)]
        simp only [List.map_cons, List.sum_cons]
        rw [ih hr, e]
        omega

theorem kraft_prefix_free : ∀ (D : Nat) (ws : List (List Bool)), (∀ w ∈ ws, w.length ≤ D) →
    ws.Pairwise (fun u v => ¬ u <+: v ∧ ¬ v <+: u) →
    (ws.map (fun w => 2 ^ (D - w.length))).sum ≤ 2 ^ D := by
  intro D
  induction D with
  | zero =>
    intro ws hlen hp
    cases ws with
    | nil => simp
    | cons w rest =>
      cases rest with
      | nil => simp
      | cons v rest' =>
        have hw : w = [] := List.length_eq_zero.1 (Nat.le_zero.1 (hlen w (by simp)))
        have := (List.pairwise_cons.1 hp).1 v (by simp)
        rw [hw] at this
        exact absurd (List.nil_prefix) this.1
  | succ D ih =>
    intro ws hlen hp
    by_cases hnil : [] ∈ ws
    · -- the empty word is comparable with every word, so it is alone
      cases ws with
      | nil => simp
      | cons w rest =>
        cases rest with
        | nil =>
          simp only [List.map_cons, List.map_nil, List.sum_cons, List.sum_nil, Nat.add_zero]
          exact Nat.pow_le_pow_right (by norm_num) (Nat.sub_le _ _)
        | cons v rest' =>
          have hcons := List.pairwise_cons.1 hp
          by_cases hw : w = []
          · have := hcons.1 v (by simp)
            rw [hw] at this
            exact absurd (List.nil_prefix) this.1
          · have hmem : [] ∈ v :: rest' := by
              rcases List.mem_cons.1 hnil with h | h
              · exact absurd h.symm hw
              · exact h
            have := hcons.1 [] hmem
            exact absurd (List.nil_prefix) this.2
    · rw [kraft_split D ws hnil]
      have h0 := ih (tailsOf false ws)
        (fun t ht => by
          have := hlen _ ((mem_tailsOf _ _ _).1 ht)
          simp only [List.length_cons] at this
          omega)
        (tailsOf_pairwise _ _ hp)
      have h1 := ih (tailsOf true ws)
        (fun t ht => by
          have := hlen _ ((mem_tailsOf _ _ _).1 ht)
          simp only [List.length_cons] at this
          omega)
        (tailsOf_pairwise _ _ hp)
      rw [pow_succ]
      omega

theorem weight_paths (freq_table : Nat → Nat) (t : HuffNode) (h : LeafFreq freq_table t) :
    t.weight = (t.paths.map (fun sp => freq_table sp.1)).sum := by
  induction t with
  | leaf f s =>
    simp only [HuffNode.weight, HuffNode.paths, List.map_cons, List.map_nil, List.sum_cons,
      List.sum_nil, Nat.add_zero]
    exact h
  | node f l r ihl ihr =>
    simp only [HuffNode.weight, HuffNode.paths, List.map_append, List.map_map, List.sum_append]
    rw [ihl h.1, ihr h.2]
    rfl

theorem cost_paths (freq_table : Nat → Nat) (t : HuffNode) (h : LeafFreq freq_table t) :
    t.cost = (t.paths.map (fun sp => freq_table sp.1 * sp.2.length)).sum := by
  induction t with
  | leaf f s => simp [HuffNode.cost, HuffNode.paths]
  | node f l r ihl ihr =>
    have step : ∀ (b : Bool) (ps : List (Nat × List Bool)),
        ((ps.map (fun sp => (sp.1, b :: sp.2))).map
          (fun sp => freq_table sp.1 * sp.2.length)).sum =
        (ps.map (fun sp => freq_table sp.1 * sp.2.length)).sum +
          (ps.map (fun sp => freq_table sp.1)).sum := by
      intro b ps
      induction ps with
      | nil => rfl
      | cons x xs ihx =>
        simp only [List.map_cons, List.sum_cons, List.length_cons] at ihx ⊢
        rw [ihx, Nat.mul_succ]
        omega
    simp only [HuffNode.cost, HuffNode.paths, List.map_append, List.sum_append]
    rw [step, step, ← ihl h.1, ← ihr h.2, ← weight_paths _ _ h.1, ← weight_paths _ _ h.2]
    omega

theorem node_paths_pos (f : Nat) (l r : HuffNode) (s : Nat) (p : List Bool)
    (h : (s, p) ∈ (HuffNode.node f l r).paths) : 1 ≤ p.length := by
  simp only [HuffNode.paths, List.mem_append, List.mem_map] at h
  rcases h with ⟨x, _, hx⟩ | ⟨x, _, hx⟩
  · cases hx; simp
  · cases hx; simp

theorem table_cost (freq_table : Nat → Nat) (f : Nat) (l r : HuffNode)
    (hnd : (HuffNode.node f l r).leaves.Nodup) (hleaf : LeafFreq freq_table (.node f l r))
    (hdepth : (HuffNode.node f l r).height ≤ 64) (cs : List Nat)
    (hperm : (HuffNode.node f l r).leaves.Perm cs) :
    (cs.map (fun s => freq_table s *
        (BuildCodes (.node f l r) emptyTable 0 0 s).code_len)).sum =
      (HuffNode.node f l r).cost := by
  rw [cost_paths freq_table _ hleaf, ← (hperm.map _).sum_eq, ← paths_fst, List.map_map]
  congr 1
  apply List.map_congr_left
  intro sp hsp
  have h1 := node_paths_pos f l r sp.1 sp.2 hsp
  have h64 := (paths_length_le_height _ sp.1 sp.2 hsp).trans hdepth
  have := BuildCodes_mem (.node f l r) emptyTable 0 0 sp.1 sp.2 hsp hnd
  rw [Nat.zero_add, leafCode_of_le _ _ h1 h64] at this
  simp only [Function.comp_apply, this]

theorem prefix_free_kraft (cs : List Nat) (code : Nat → List Bool) (hnd : cs.Nodup)
    (hpf : ∀ s ∈ cs, ∀ s' ∈ cs, s ≠ s' → ¬ code s <+: code s') (D : Nat)
    (hD : ∀ s ∈ cs, (code s).length ≤ D) :
    (cs.map (fun s => 2 ^ (D - (code s).length))).sum ≤ 2 ^ D := by
  have h := kraft_prefix_free D (cs.map code)
    (by
      intro w hw
      obtain ⟨s, hs, rfl⟩ := List.mem_map.1 hw
      exact hD s hs)
    (by
      rw [List.pairwise_map]
      apply List.Pairwise.imp_of_mem _ hnd
      intro a b ha hb hab
      exact ⟨hpf a ha b hb hab, hpf b hb a ha (fun e => hab e.symm)⟩)
  rw [List.map_map] at h
  exact h

/-! ## Complete codes -/

theorem kraft_paths (t : HuffNode) : ∀ D, t.height ≤ D →
    (t.paths.map (fun sp => 2 ^ (D - sp.2.length))).sum = 2 ^ D := by
  induction t with
  | leaf f s => intro D _; simp [HuffNode.paths]
  | node f l r ihl ihr =>
    intro D hD
    simp only [HuffNode.height] at hD
    obtain ⟨E, rfl⟩ : ∃ E, D = E + 1 := ⟨D - 1, by omega⟩
    have step : ∀ (b : Bool) (ps : List (Nat × List Bool)),
        ((ps.map (fun sp => (sp.1, b :: sp.2))).map (fun sp => 2 ^ (E + 1 - sp.2.length))) =
          ps.map (fun sp => 2 ^ (E - sp.2.length)) := by
      intro b ps
      rw [List.map_map]
      apply List.map_congr_left
      intro sp _
      simp only [Function.comp_apply, List.length_cons]
      congr 1
      omega
    simp only [HuffNode.paths, List.map_append, List.sum_append]
    rw [step, step, ihl E (by omega), ihr E (by omega), pow_succ]
    omega

theorem node_code_len (f : Nat) (l r : HuffNode) (hnd : (HuffNode.node f l r).leaves.Nodup)
    (hdepth : (HuffNode.node f l r).height ≤ 64) (s : Nat) (p : List Bool)
    (hp : (s, p) ∈ (HuffNode.node f l r).paths) :
    BuildCodes (.node f l r) emptyTable 0 0 s = ⟨pathCode 0 p, p.length⟩ := by
  have h1 := node_paths_pos f l r s p hp
  have h64 := (paths_length_le_height _ s p hp).trans hdepth
  have := BuildCodes_mem (.node f l r) emptyTable 0 0 s p hp hnd
  rw [Nat.zero_add, leafCode_of_le _ _ h1 h64] at this
  exact this

theorem kraft_table (freq_table : Nat → Nat) (file_size n : Nat) (hn : n ≤ 2 ^ 16)
    (f : Nat) (l r : HuffNode) (hroot : huffmanTree freq_table n = some (some (.node f l r)))
    (hdepth : (HuffNode.node f l r).height ≤ 64) (D : Nat)
    (hD : (HuffNode.node f l r).height ≤ D) :
    ∃ T, codesFromFrequencies freq_table file_size n = some T ∧
      ((activeSymbols freq_table n).map (fun s => 2 ^ (D - (T s).code_len))).sum = 2 ^ D := by
  refine ⟨_, codes_of_tree freq_table file_size n hn f l r hroot, ?_⟩
  have hnd := huffmanTree_nodup freq_table n hn _ hroot
  have hperm : (HuffNode.node f l r).leaves.Perm (activeSymbols freq_table n) := by
    rcases huffmanTree_spec freq_table n hn with ⟨_, h1⟩ | ⟨root', h1, h2⟩
    · rw [hroot] at h1; cases h1
    · rw [hroot] at h1
      cases h1
      exact h2
  rw [← kraft_paths _ D hD, ← (hperm.map _).sum_eq, ← paths_fst, List.map_map]
  congr 1
  apply List.map_congr_left
  intro sp hsp
  simp only [Function.comp_apply, node_code_len f l r hnd hdepth sp.1 sp.2 hsp]

theorem full_prefix (t : HuffNode) : ∀ q : List Bool, t.height ≤ q.length →
    ∃ s p, (s, p) ∈ t.paths ∧ p <+: q := by
  induction t with
  | leaf f s => intro q _; exact ⟨s, [], by simp [HuffNode.paths], List.nil_prefix⟩
  | node f l r ihl ihr =>
    intro q hq
    simp only [HuffNode.height] at hq
    cases q with
    | nil => simp at hq
    | cons b q =>
      simp only [List.length_cons] at hq
      cases b with
      | false =>
        obtain ⟨s, p, hp, hpre⟩ := ihl q (by omega)
        refine ⟨s, false :: p, ?_, (List.prefix_cons_inj _).2 hpre⟩
        simp only [HuffNode.paths, List.mem_append, List.mem_map]
        exact Or.inl ⟨(s, p), hp, rfl⟩
      | true =>
        obtain ⟨s, p, hp, hpre⟩ := ihr q (by omega)
        refine ⟨s, true :: p, ?_, (List.prefix_cons_inj _).2 hpre⟩
        simp only [HuffNode.paths, List.mem_append, List.mem_map]
        exact Or.inr ⟨(s, p), hp, rfl⟩

theorem trie_complete (freq_table : Nat → Nat) (file_size n : Nat) (hn : n ≤ 2 ^ 16)
    (f : Nat) (l r : HuffNode) (hroot : huffmanTree freq_table n = some (some (.node f l r)))
    (hdepth : (HuffNode.node f l r).height ≤ 32) :
    ∃ T t, codesFromFrequencies freq_table file_size n = some T ∧
      insertAll T (codedSymbols T n) CreateDecodingNode = some t ∧
      ∀ (reader : BitReader) (bits : List Bool), Reads reader bits →
        (HuffNode.node f l r).height ≤ bits.length →
        ∃ s, s ∈ activeSymbols freq_table n ∧ (T s).code_len ≤ bits.length ∧
          (walkToLeaf t reader).1 = some s ∧
          Reads (walkToLeaf t reader).2 (bits.drop (T s).code_len) := by
  have hT := codes_of_tree freq_table file_size n hn f l r hroot
  have hT1 := codes_of_tree freq_table 1 n hn f l r hroot
  have hnd := huffmanTree_nodup freq_table n hn _ hroot
  have hperm : (HuffNode.node f l r).leaves.Perm (activeSymbols freq_table n) := by
    rcases huffmanTree_spec freq_table n hn with ⟨_, h1⟩ | ⟨root', h1, h2⟩
    · rw [hroot] at h1; cases h1
    · rw [hroot] at h1
      cases h1
      exact h2
  have hlen : ∀ s, (BuildCodes (.node f l r) emptyTable 0 0 s).code_len ≤ 32 := by
    intro s
    by_cases hs : s ∈ (HuffNode.node f l r).leaves
    · rw [← paths_fst] at hs
      obtain ⟨sp, hsp, rfl⟩ := List.mem_map.1 hs
      rw [node_code_len f l r hnd (by omega) sp.1 sp.2 hsp]
      exact (paths_length_le_height _ sp.1 sp.2 hsp).trans hdepth
    · rw [BuildCodes_not_mem _ _ _ _ _ hs]
      simp [emptyTable]
  obtain ⟨hpos, hpf, hact⟩ := table_words freq_table 1 n hn (by norm_num) _ hT1
    (fun s _ => hlen s)
  obtain ⟨t, hins, htrie⟩ := insertAll_spec (BuildCodes (.node f l r) emptyTable 0 0)
    (codedSymbols (BuildCodes (.node f l r) emptyTable 0 0) n) CreateDecodingNode
    (fun _ => False) (TrieFor_create _)
    (fun s hs => ⟨((mem_codedSymbols _ _ _).1 hs).2, hlen s⟩)
    (codedSymbols_nodup _ _) (fun _ _ h => h)
    (by
      intro a b ha hb hpre
      rcases ha with ha | ha
      · rcases hb with hb | hb
        · exact hpf a b ((mem_codedSymbols _ _ _).1 ha).2 ((mem_codedSymbols _ _ _).1 hb).2 hpre
        · exact absurd hb id
      · exact absurd ha id)
  refine ⟨_, t, hT, hins, ?_⟩
  intro reader bits hr hbits
  obtain ⟨s, p, hp, hpre⟩ := full_prefix _ bits hbits
  obtain ⟨rest, hrest⟩ := hpre
  have hTs := node_code_len f l r hnd (by omega) s p hp
  have hp32 : p.length ≤ 32 := (paths_length_le_height _ s p hp).trans hdepth
  have hword : codeBits (BuildCodes (.node f l r) emptyTable 0 0 s) = p := by
    rw [codeBits_short _ (hlen s), hTs]
    exact natBits_pathCode p (by omega)
  have hsl : s ∈ (HuffNode.node f l r).leaves := by
    rw [← paths_fst]
    exact List.mem_map_of_mem Prod.fst hp
  have hsa : s ∈ activeSymbols freq_table n := (hperm.mem_iff).1 hsl
  have hsc : s ∈ codedSymbols (BuildCodes (.node f l r) emptyTable 0 0) n := by
    rw [mem_codedSymbols]
    exact ⟨(activeSymbols_lt _ _ _ hsa).1, hpos s hsa⟩
  have hleaf := htrie.2.1 s (Or.inl hsc)
  rw [hword] at hleaf
  have hw := walkToLeaf_spec p t reader rest s hleaf
    (by
      intro q hq hne
      cases hx : leafSym t q with
      | none => rfl
      | some x =>
        obtain ⟨hxP, hxq⟩ := htrie.2.2 q x hx
        rcases hxP with hxP | hxP
        · rw [← hxq, ← hword] at hq
          have := hpf x s ((mem_codedSymbols _ _ _).1 hxP).2 ((mem_codedSymbols _ _ _).1 hsc).2 hq
          subst this
          rw [hword] at hxq
          exact absurd hxq.symm hne
        · exact absurd hxP id)
    (by rw [hrest]; exact hr)
  refine ⟨s, hsa, ?_, hw.1, ?_⟩
  · rw [hTs, ← hrest]
    simp
  · rw [hTs, ← hrest]
    simpa using hw.2

set_option maxRecDepth 1000000 in
theorem skewedFile_kraft :
    (skewTree 32).height = 33 ∧
      ((codedSymbols (BuildCodes (skewTree 32) emptyTable 0 0) 256).map
        (fun s => 2 ^ (64 - (BuildCodes (skewTree 32) emptyTable 0 0 s).code_len))).sum =
          2 ^ 64 := by
  decide

/-! ## Round trip of a single file -/

/-- C1 (as stated, refuted): for the file of 131072 bytes in which every 16-bit symbol
occurs once, encoded with symbol width 2, `EncodeFiles` writes an archive, and
`DecodeArchive` with extract-all on that archive does not write the file back: the
table of an entry has at most 65535 records (its count is a 16-bit field), so the
decoding tree has fewer leaves than the file has distinct symbols. -/
theorem single_file_round_trip_counterexample :
    ∃ archive, EncodeFiles [([0x61], allSymbolsFile)] 2 = some archive ∧
      (DecodeArchive FsEnv.allOk archive [] true).files ≠ [([0x61], allSymbolsFile)] := by
  obtain ⟨archive, henc⟩ := EncodeFiles_some [([0x61], allSymbolsFile)] 2 (Or.inr rfl)
    (by simp) (by
      intro input h
      rw [List.mem_singleton.1 h]
      have hl := allSymbolsFile_length
      dsimp only
      omega)
  refine ⟨archive, henc, ?_⟩
  obtain ⟨pad, _, _, hbits⟩ := EncodeFiles_bits _ _ archive henc
  rw [List.append_assoc] at hbits
  obtain ⟨r, _, hd⟩ := header_read FsEnv.allOk archive [] true
    [([0x61], allSymbolsFile)].length 2 _ (Or.inr rfl) (by simp) rfl hbits
  rw [hd]
  show (decodeEntries FsEnv.allOk 2 [] true 1 r).files ≠ _
  unfold decodeEntries
  cases he : decodeEntry FsEnv.allOk 2 [] true r with
  | failed r1 => simp
  | noReturn => simp
  | finished error r1 file =>
    dsimp only
    rw [if_neg (by simp)]
    cases file with
    | none => simp [decodeEntries, addFile]
    | some f =>
      obtain ⟨name, out⟩ := f
      simp only [decodeEntries, addFile, ne_eq, List.cons.injEq, Prod.mk.injEq, and_true,
        not_and]
      intro _ hout
      obtain ⟨syms, leaves, h1, h2, h3⟩ :=
        decodeEntry_two_byte_output FsEnv.allOk [] true r r1 error name out he
      rw [hout] at h3
      exact not_allSymbolsFile syms leaves h1 h2 h3

/-- C1 (amended): for every symbol width 1 or 2 and every file (of a valid name, with
fewer than `2 ^ 64 - 1` bytes) whose code table has fewer than 65536 coded symbols and
all code lengths at most 32, `EncodeFiles` writes an archive of that single file, and
`DecodeArchive` with extract-all on it returns 0 and writes exactly one file, of that
name, whose content is exactly the content of the input. -/
theorem single_file_round_trip (symbol_size : Nat) (name content : List Nat)
    (hW : symbol_size = 1 ∨ symbol_size = 2) (hname : ValidName name)
    (hbytes : ∀ b ∈ content, b < 256) (hsize : content.length < 2 ^ 64 - 1)
    (hfit : TableFits symbol_size content) :
    ∃ archive, EncodeFiles [(name, content)] symbol_size = some archive ∧
      (DecodeArchive FsEnv.allOk archive [] true).status = .returned 0 ∧
      (DecodeArchive FsEnv.allOk archive [] true).files = [(name, content)] := by
  obtain ⟨archive, henc⟩ := EncodeFiles_some [(name, content)] symbol_size hW (by simp)
    (fun input h => by rw [List.mem_singleton.1 h]; exact hsize)
  obtain ⟨h1, h2⟩ := DecodeArchive_roundtrip FsEnv.allOk symbol_size [] true
    [(name, content)] archive hW (by simp) rfl
    (fun input h => by rw [List.mem_singleton.1 h]; exact ⟨hname, hbytes, hsize, hfit⟩)
    (Or.inr (fun x _ => isWritten_all x)) henc
  rw [filter_isWritten_all] at h2
  exact ⟨archive, henc, h1, h2⟩

set_option maxRecDepth 100000 in
theorem single_file_round_trip_witness :
    ∃ archive, EncodeFiles [([0x61], [0x41, 0x42, 0x41, 0x42, 0x43])] 1 = some archive ∧
      (DecodeArchive FsEnv.allOk archive [] true).status = .returned 0 ∧
      (DecodeArchive FsEnv.allOk archive [] true).files =
        [([0x61], [0x41, 0x42, 0x41, 0x42, 0x43])] :=
  single_file_round_trip 1 [0x61] [0x41, 0x42, 0x41, 0x42, 0x43] (Or.inl rfl)
    (by unfold ValidName PATH_MAX; decide) (by decide) (by decide) (by decide)

/-! ## Round trip of an archive of several entries -/

/-- C2: for every symbol width 1 or 2 and every list of at least one (and fewer than
`2 ^ 32`) inputs with valid names whose code tables have all code lengths at most 32
and fewer than 65536 coded symbols, `EncodeFiles` writes an archive on which
`DecodeArchive` with extract-all returns 0 and writes exactly the inputs, in caller
order, each under its name with its content.  Moreover, for every entry, the encoder
starts its metadata after the bits `w` has written and ends it after the bits of `w'`
(where the metadata of the next entry starts), and the decoder, started on the entry at
the first position, writes the entry and stops exactly at the second. -/
theorem multi_entry_round_trip (symbol_size : Nat) (inputs : List (List Nat × List Nat))
    (hW : symbol_size = 1 ∨ symbol_size = 2) (hN : 1 ≤ inputs.length)
    (hN32 : inputs.length < 2 ^ 32)
    (hv : ∀ input ∈ inputs, ValidInput symbol_size input) :
    ∃ archive, EncodeFiles inputs symbol_size = some archive ∧
      (DecodeArchive FsEnv.allOk archive [] true).status = .returned 0 ∧
      (DecodeArchive FsEnv.allOk archive [] true).files = inputs ∧
      ∀ (i : Nat) (hi : i < inputs.length), ∃ w w',
        encodeEntries symbol_size (inputs.take i) (writeHeader inputs.length symbol_size) =
          some w ∧
        encodeEntry symbol_size w (inputs.get ⟨i, hi⟩) = some w' ∧
        ∀ r, Reads r ((bytesToBits archive).drop w.written.length) →
          ∃ r', decodeEntry FsEnv.allOk symbol_size [] true r =
              .finished false r' (some (inputs.get ⟨i, hi⟩)) ∧
            Reads r' ((bytesToBits archive).drop w'.written.length) := by
  have hs : ∀ input ∈ inputs, input.2.length < 2 ^ 64 - 1 := fun x hx => (hv x hx).2.2.1
  obtain ⟨archive, henc⟩ := EncodeFiles_some inputs symbol_size hW hN hs
  obtain ⟨h1, h2⟩ := DecodeArchive_roundtrip FsEnv.allOk symbol_size [] true inputs archive
    hW hN32 rfl hv (Or.inr (fun x _ => isWritten_all x)) henc
  rw [filter_isWritten_all] at h2
  refine ⟨archive, henc, h1, h2, ?_⟩
  intro i hi
  obtain ⟨w, w', rest, hw, hw', hd, hd'⟩ :=
    entry_positions symbol_size inputs archive i hi hW hs henc
  refine ⟨w, w', hw, hw', ?_⟩
  intro r hr
  rw [hd] at hr
  obtain ⟨g1, g2, g3, g4⟩ := hv _ (List.get_mem inputs i hi)
  obtain ⟨r', he, hr'⟩ := decodeEntry_roundtrip FsEnv.allOk symbol_size [] true
    (inputs.get ⟨i, hi⟩).1 (inputs.get ⟨i, hi⟩).2 r rest hW g1 g2 g3 g4
    (Or.inr (isWritten_all _)) hr
  refine ⟨r', ?_, by rw [hd']; exact hr'⟩
  have hx : (shouldExtract [] true (inputs.get ⟨i, hi⟩).1 &&
      FsEnv.allOk.openOk (inputs.get ⟨i, hi⟩).1) = true := isWritten_all _
  rw [he, if_pos hx]

set_option maxRecDepth 100000 in
theorem multi_entry_round_trip_witness :
    ∃ archive, EncodeFiles [([0x61], [0x78, 0x78]), ([0x62], [0x79, 0x7A, 0x79])] 1 =
        some archive ∧
      (DecodeArchive FsEnv.allOk archive [] true).status = .returned 0 ∧
      (DecodeArchive FsEnv.allOk archive [] true).files =
        [([0x61], [0x78, 0x78]), ([0x62], [0x79, 0x7A, 0x79])] ∧
      ∀ (i : Nat) (hi : i < [([0x61], [0x78, 0x78]), ([0x62], [0x79, 0x7A, 0x79])].length),
        ∃ w w',
        encodeEntries 1 ([([0x61], [0x78, 0x78]), ([0x62], [0x79, 0x7A, 0x79])].take i)
            (writeHeader [([0x61], [0x78, 0x78]), ([0x62], [0x79, 0x7A, 0x79])].length 1) =
          some w ∧
        encodeEntry 1 w ([([0x61], [0x78, 0x78]), ([0x62], [0x79, 0x7A, 0x79])].get ⟨i, hi⟩) =
          some w' ∧
        ∀ r, Reads r ((bytesToBits archive).drop w.written.length) →
          ∃ r', decodeEntry FsEnv.allOk 1 [] true r =
              .finished false r'
                (some ([([0x61], [0x78, 0x78]), ([0x62], [0x79, 0x7A, 0x79])].get ⟨i, hi⟩)) ∧
            Reads r' ((bytesToBits archive).drop w'.written.length) :=
  multi_entry_round_trip 1 [([0x61], [0x78, 0x78]), ([0x62], [0x79, 0x7A, 0x79])]
    (Or.inl rfl) (by decide) (by decide)
    (by
      intro input h
      simp only [List.mem_cons, List.mem_singleton, List.not_mem_nil, or_false] at h
      rcases h with h | h <;> subst h <;>
        exact ⟨by unfold ValidName PATH_MAX; decide, by decide, by decide, by decide⟩)

/-! ## Skipping an entry -/

set_option maxRecDepth 100000 in
/-- C3 (code bug, symbol width 2): in the archive of `a = "xx"`, `b = "yy"` written with
symbol width 2 (extract-all restores both files from it), extracting entry `a` ends
without error 122 bits after its start, while
skipping it (allow-list `["b"]`) never raises the byte counter (the `else` of line 374
binds to the inner `if`), reads on into the bits of entry `b` until a child is missing
and ends with the error flag at another position; `DecodeArchive` then closes the reader
and goes on using it, and `b` is not written. -/
theorem skip_two_byte_entry_misaligns :
    decodeEntry FsEnv.allOk 2 [] true
        ⟨[0, 1, 97, 0, 0, 0, 0, 0, 0, 0, 2, 0, 1, 120, 120, 1, 0, 0, 88, 128, 0, 0, 0, 0, 0, 0, 0,
          128, 0, 94, 94, 64, 64], 2, 8⟩ =
      .finished false
        ⟨[0, 88, 128, 0, 0, 0, 0, 0, 0, 0, 128, 0, 94, 94, 64, 64], 0, 2⟩
        (some ([97], [120, 120])) ∧
    decodeEntry FsEnv.allOk 2 [[0x62]] false
        ⟨[0, 1, 97, 0, 0, 0, 0, 0, 0, 0, 2, 0, 1, 120, 120, 1, 0, 0, 88, 128, 0, 0, 0, 0, 0, 0, 0,
          128, 0, 94, 94, 64, 64], 2, 8⟩ =
      .finished true ⟨[128, 0, 0, 0, 0, 0, 0, 0, 128, 0, 94, 94, 64, 64], 88, 2⟩ none ∧
    DecodeArchive FsEnv.allOk
        [72, 85, 70, 70, 1, 2, 0, 0, 0, 2, 0, 1, 97, 0, 0, 0, 0, 0, 0, 0, 2, 0, 1, 120, 120, 1,
          0, 0, 88, 128, 0, 0, 0, 0, 0, 0, 0, 128, 0, 94, 94, 64, 64] [] true =
      ⟨.returned 0, true, [([97], [120, 120]), ([98], [121, 121])], ⟨[], 64, 4⟩⟩ ∧
    (DecodeArchive FsEnv.allOk
        [72, 85, 70, 70, 1, 2, 0, 0, 0, 2, 0, 1, 97, 0, 0, 0, 0, 0, 0, 0, 2, 0, 1, 120, 120, 1,
          0, 0, 88, 128, 0, 0, 0, 0, 0, 0, 0, 128, 0, 94, 94, 64, 64] [[0x62]] false).status =
      .readerUsedAfterClose ∧
    (DecodeArchive FsEnv.allOk
        [72, 85, 70, 70, 1, 2, 0, 0, 0, 2, 0, 1, 97, 0, 0, 0, 0, 0, 0, 0, 2, 0, 1, 120, 120, 1,
          0, 0, 88, 128, 0, 0, 0, 0, 0, 0, 0, 128, 0, 94, 94, 64, 64] [[0x62]] false).files = [] := by
  decide

/-! ## Selection of the entries to extract -/

theorem shouldExtract_iff (wantedFiles : List (List Nat)) (extractAll : Bool)
    (filename : List Nat) :
    shouldExtract wantedFiles extractAll filename = true ↔
      (extractAll = true ∨ filename ∈ wantedFiles) := by
  unfold shouldExtract
  cases extractAll with
  | true => simp
  | false =>
    cases wantedFiles with
    | nil => simp
    | cons w ws =>
      simp only [Bool.false_eq_true, not_false_eq_true, List.length_cons, gt_iff_lt,
        Nat.zero_lt_succ, and_self, if_true, false_or, List.any_eq_true, decide_eq_true_eq]
      constructor
      · rintro ⟨x, hx, rfl⟩; exact hx
      · intro h; exact ⟨filename, h, rfl⟩

/-- C4 (as stated, refuted): with extract-all true and the allow-list `["b"]`, the entry
`a` of a one-entry archive is written although neither "the allow-list is empty and
extract-all is true" nor "the name is in the allow-list" holds. -/
theorem selection_rule_counterexample :
    (DecodeArchive FsEnv.allOk
        [72, 85, 70, 70, 1, 1, 0, 0, 0, 1, 0, 1, 97, 0, 0, 0, 0, 0, 0, 0, 1, 0, 1, 120, 1, 0]
        [[0x62]] true).files = [([0x61], [0x78])] ∧
    ¬ ((([[0x62]] : List (List Nat)) = [] ∧ true = true) ∨ [0x61] ∈ ([[0x62]] : List (List Nat))) := by
  decide

/-- C4 (amended): an entry that `DecodeArchive` processes to its end is written iff
extract-all is true or its name equals some allow-list name, and the output file can be
opened; with extract-all false and an empty allow-list no entry is written. -/
theorem decodeEntry_written_iff (fs : FsEnv) (symbol_size_val : Nat)
    (wantedFiles : List (List Nat)) (extractAll : Bool) (reader reader' : BitReader)
    (error : Bool) (file : Option (List Nat × List Nat))
    (h : decodeEntry fs symbol_size_val wantedFiles extractAll reader
      = .finished error reader' file) :
    (file ≠ none ↔ ((extractAll = true ∨ entryName reader ∈ wantedFiles) ∧
      fs.openOk (entryName reader) = true)) ∧
    (∀ f, file = some f → f.1 = entryName reader) := by
  unfold decodeEntry at h
  dsimp only at h
  split at h
  · cases h
  · split at h
    · cases h
    · split at h
      · cases h
      · rename_i herr
        simp only [EntryResult.finished.injEq] at h
        obtain ⟨_, _, hfile⟩ := h
        rw [← hfile, ← shouldExtract_iff]
        unfold entryName
        clear herr hfile
        constructor
        · split
          · rename_i hw
            rw [Bool.and_eq_true] at hw
            exact ⟨fun _ => hw, fun _ => by simp⟩
          · rename_i hw
            rw [Bool.and_eq_true] at hw
            exact ⟨fun hne => absurd rfl hne, fun hc => absurd hc hw⟩
        · intro f hf
          split at hf
          · cases hf; rfl
          · cases hf

theorem decodeEntry_written_iff_witness :
    (((some ([0x61], [0x78]) : Option (List Nat × List Nat)) ≠ none ↔
      ((true = true ∨ entryName ⟨[0, 1, 97, 0, 0, 0, 0, 0, 0, 0, 1, 0, 1, 120, 1, 0], 1, 8⟩
          ∈ ([[0x62]] : List (List Nat))) ∧
        FsEnv.allOk.openOk
          (entryName ⟨[0, 1, 97, 0, 0, 0, 0, 0, 0, 0, 1, 0, 1, 120, 1, 0], 1, 8⟩) = true)) ∧
    (∀ f, (some ([0x61], [0x78]) : Option (List Nat × List Nat)) = some f → f.1 =
      entryName ⟨[0, 1, 97, 0, 0, 0, 0, 0, 0, 0, 1, 0, 1, 120, 1, 0], 1, 8⟩)) :=
  decodeEntry_written_iff FsEnv.allOk 1 [[0x62]] true
    ⟨[0, 1, 97, 0, 0, 0, 0, 0, 0, 0, 1, 0, 1, 120, 1, 0], 1, 8⟩ ⟨[], 0, 2⟩ false
    (some ([0x61], [0x78])) (by decide)

/-! ## Selective extraction -/

/-- C5: on the archive `EncodeFiles` writes with symbol width 1 for the single file `a`
of 14930351 bytes in which byte `k` occurs `F (34 - k)` times (`k = 0, ..., 33`; the
code words of the bytes 32 and 33 have 33 bits), `DecodeArchive` with the allow-list
`["a"]` and extract-all false returns 1 and writes no file: the table record of byte
32 carries the bits `0 1...1 0` instead of `1...1 0`, which the decoding tree rejects
because the code word `0` of byte 0 is a prefix of it.  (The leading bit is the shift
`value >> 32` of the truncated code, taken as 0; a shift count taken modulo 32 yields
bit 0 of the code, which is 0 as well.) -/
theorem selective_extraction_long_code :
    ∃ archive, EncodeFiles [([0x61], skewedFile)] 1 = some archive ∧
      (DecodeArchive FsEnv.allOk archive [[0x61]] false).status = .returned 1 ∧
      (DecodeArchive FsEnv.allOk archive [[0x61]] false).files = [] := by
  have hlen := skewedFile_length
  obtain ⟨archive, henc⟩ := EncodeFiles_some [([0x61], skewedFile)] 1 (Or.inl rfl)
    (by simp) (by
      intro input h
      rw [List.mem_singleton.1 h]
      dsimp only
      omega)
  refine ⟨archive, henc, ?_⟩
  obtain ⟨pad, _, _, hbits⟩ := EncodeFiles_bits _ _ archive henc
  rw [List.append_assoc] at hbits
  obtain ⟨r, hr, hd⟩ := header_read FsEnv.allOk archive [[0x61]] false
    [([0x61], skewedFile)].length 1 _ (Or.inl rfl) (by simp) rfl hbits
  rw [List.flatMap_singleton] at hr
  obtain ⟨h1, h2, h3⟩ := skewedFile_table
  obtain ⟨r', he⟩ := decodeEntry_table_rejected FsEnv.allOk 1 [[0x61]] false [0x61]
    skewedFile r _ _ (Or.inl rfl) (by unfold ValidName PATH_MAX; decide) (by omega) (by omega)
    skewedFile_codes h1 h2 h3 hr
  rw [hd]
  show (decodeEntries FsEnv.allOk 1 [[0x61]] false 1 r).status = _ ∧
    (decodeEntries FsEnv.allOk 1 [[0x61]] false 1 r).files = _
  unfold decodeEntries
  rw [he]
  exact ⟨rfl, rfl⟩

/-! ## Errors in the payload -/

set_option maxRecDepth 100000 in
/-- C6 (code bug): a one-entry archive whose stream ends before the single byte of the
entry is produced, and one whose payload bit leads to a missing child, both set
`error_occurred_for_this_file`, yet `DecodeArchive` returns 0 and leaves an empty
output file. -/
theorem payload_error_returns_zero :
    decodeEntry FsEnv.allOk 1 [] true ⟨[0, 1, 97, 0, 0, 0, 0, 0, 0, 0, 1, 0, 0], 1, 8⟩ =
      .finished true ⟨[], 0, 8⟩ (some ([97], [])) ∧
    DecodeArchive FsEnv.allOk
        [72, 85, 70, 70, 1, 1, 0, 0, 0, 1, 0, 1, 97, 0, 0, 0, 0, 0, 0, 0, 1, 0, 0] [] true =
      ⟨.returned 0, true, [([97], [])], ⟨[], 0, 8⟩⟩ ∧
    decodeEntry FsEnv.allOk 1 [] true
        ⟨[0, 1, 97, 0, 0, 0, 0, 0, 0, 0, 1, 0, 1, 65, 1, 64], 1, 8⟩ =
      .finished true ⟨[], 64, 2⟩ (some ([97], [])) ∧
    DecodeArchive FsEnv.allOk
        [72, 85, 70, 70, 1, 1, 0, 0, 0, 1, 0, 1, 97, 0, 0, 0, 0, 0, 0, 0, 1, 0, 1, 65, 1, 64]
        [] true =
      ⟨.returned 0, true, [([97], [])], ⟨[], 64, 2⟩⟩ := by
  decide

/-! ## Header rejection -/

/-- C7: an archive whose first four bytes are not "HUFF", or whose version byte is not
0x01, or whose symbol-width byte is neither 0x01 nor 0x02 (a missing byte counts as
different), makes `DecodeArchive` return 1 before the output directory is created,
with no file written and at most the first 6 bytes fetched from the archive. -/
theorem DecodeArchive_rejects_bad_header (fs : FsEnv) (archive : List Nat)
    (wantedFiles : List (List Nat)) (extractAll : Bool)
    (hbytes : ∀ b ∈ archive, b < 256)
    (hbad : archive.take 4 ≠ [0x48, 0x55, 0x46, 0x46] ∨ archive[4]? ≠ some 1 ∨
      (archive[5]? ≠ some 1 ∧ archive[5]? ≠ some 2)) :
    (DecodeArchive fs archive wantedFiles extractAll).status = .returned 1 ∧
    (DecodeArchive fs archive wantedFiles extractAll).dirCreated = false ∧
    (DecodeArchive fs archive wantedFiles extractAll).files = [] ∧
    archive.length ≤ (DecodeArchive fs archive wantedFiles extractAll).reader.file.length + 6 := by
  have h0 := Reads_open archive
  obtain ⟨hm1, hm2⟩ := readName_bytes 4 _ archive h0
  have hv1 := readByte_fst _ _ hm2
  have hv2 := readByte_snd _ _ hm2
  have hs1 := readByte_fst _ _ hv2
  have hs2 := readByte_snd _ _ hv2
  have hl4 := Reads_file_length _ _ hm2
  have hl5 := Reads_file_length _ _ hv2
  have hl6 := Reads_file_length _ _ hs2
  simp only [List.length_drop, List.length_tail] at hl4 hl5 hl6
  have hmagic : (readName 4 (BitReaderOpen archive)).1 = MAGIC_BYTES ↔
      archive.take 4 = [0x48, 0x55, 0x46, 0x46] := by
    rw [hm1]
    exact padBytes_eq_iff 4 archive _ hbytes (by simp [MAGIC_BYTES]) (by simp [MAGIC_BYTES])
  have hver : (archive.drop 4).headD 0 % 2 ^ 8 = 1 → archive[4]? = some 1 := by
    intro h
    cases hd : archive.drop 4 with
    | nil => simp [hd] at h
    | cons x rest =>
      have hx : archive[4]? = some x := by
        have := List.head?_drop archive 4
        rw [hd] at this; simpa using this.symm
      have hlt : x < 256 := hbytes x (List.getElem?_mem hx)
      rw [hd] at h
      simp only [List.headD_cons] at h
      rw [Nat.mod_eq_of_lt (by simpa using hlt)] at h
      rw [hx, h]
  have hsym : ∀ v, (archive.drop 4).tail.headD 0 % 2 ^ 8 = v → v ≠ 0 → archive[5]? = some v := by
    intro v h hv
    cases hd : (archive.drop 4).tail with
    | nil => simp [hd] at h; omega
    | cons x rest =>
      have hx : archive[5]? = some x := by
        have h5 : (archive.drop 4).tail = archive.drop 5 := by
          rw [List.tail_drop]
        have := List.head?_drop archive 5
        rw [← h5, hd] at this; simpa using this.symm
      have hlt : x < 256 := hbytes x (List.getElem?_mem hx)
      rw [hd] at h
      simp only [List.headD_cons] at h
      rw [Nat.mod_eq_of_lt (by simpa using hlt)] at h
      rw [hx, h]
  unfold DecodeArchive
  by_cases c1 : (readName 4 (BitReaderOpen archive)).1 ≠ MAGIC_BYTES
  · rw [if_pos c1]
    exact ⟨rfl, rfl, rfl, by simp only; omega⟩
  · rw [if_neg c1]
    by_cases c2 : (BitReaderReadBits (readName 4 (BitReaderOpen archive)).2 8).1 % 2 ^ 8 ≠
        ARCHIVE_VERSION_EXPECTED
    · rw [if_pos c2]
      exact ⟨rfl, rfl, rfl, by simp only; omega⟩
    · rw [if_neg c2]
      by_cases c3 : (BitReaderReadBits
            (BitReaderReadBits (readName 4 (BitReaderOpen archive)).2 8).2 8).1 % 2 ^ 8 ≠ 1 ∧
          (BitReaderReadBits
            (BitReaderReadBits (readName 4 (BitReaderOpen archive)).2 8).2 8).1 % 2 ^ 8 ≠ 2
      · rw [if_pos c3]
        exact ⟨rfl, rfl, rfl, by simp only; omega⟩
      · exfalso
        rw [not_not] at c1 c2
        rw [hv1, Nat.mod_mod] at c2
        rw [hs1, Nat.mod_mod] at c3
        rcases hbad with hb | hb | hb
        · exact hb (hmagic.1 c1)
        · exact hb (hver c2)
        · rcases not_and_or.1 c3 with c | c
          · rw [not_not] at c
            exact hb.1 (hsym 1 c (by norm_num))
          · rw [not_not] at c
            exact hb.2 (hsym 2 c (by norm_num))

theorem DecodeArchive_rejects_bad_header_witness :
    (DecodeArchive FsEnv.allOk [0x48, 0x55, 0x46, 0x58, 1, 1, 0, 0, 0, 0] [] true).status
        = .returned 1 ∧
    (DecodeArchive FsEnv.allOk [0x48, 0x55, 0x46, 0x58, 1, 1, 0, 0, 0, 0] [] true).dirCreated
        = false ∧
    (DecodeArchive FsEnv.allOk [0x48, 0x55, 0x46, 0x58, 1, 1, 0, 0, 0, 0] [] true).files = [] ∧
    [0x48, 0x55, 0x46, 0x58, 1, 1, 0, 0, 0, 0].length ≤
      (DecodeArchive FsEnv.allOk [0x48, 0x55, 0x46, 0x58, 1, 1, 0, 0, 0, 0] [] true).reader.file.length
        + 6 :=
  DecodeArchive_rejects_bad_header FsEnv.allOk [0x48, 0x55, 0x46, 0x58, 1, 1, 0, 0, 0, 0] [] true
    (by decide) (by decide)

/-! ## Layout of the archive -/

set_option maxRecDepth 100000 in
/-- C8 (as stated, refuted): encoding `a = "x"`, `b = "y"` with symbol width 1 succeeds,
and after the payload of the first entry the writer has written 25 bytes and 2 more
bits: the bit cursor is 2, and the name length of the second entry starts at bit
offset 202, which is not a multiple of 8. -/
theorem entry_alignment_counterexample :
    (EncodeFiles [([0x61], [0x78]), ([0x62], [0x79])] 1).isSome = true ∧
    encodeEntry 1 (writeHeader 2 1) ([0x61], [0x78]) =
      some ⟨[72, 85, 70, 70, 1, 1, 0, 0, 0, 2, 0, 1, 97, 0, 0, 0, 0, 0, 0, 0, 1, 0, 1, 120, 1],
        0, 2⟩ ∧
    ¬ ((8 * 25 + 2) % 8 = 0) := by
  decide

/-- C8 (amended): the archive `EncodeFiles` writes is, bit for bit, the 80-bit header,
then the entries one after the other without any padding between them (so the first
entry starts byte-aligned at bit 80 and every later entry starts at the bit that
follows the payload of the entry before it), then fewer than 8 zero bits that pad the
end of the archive to a byte boundary. -/
theorem EncodeFiles_layout (inputs : List (List Nat × List Nat)) (symbol_size : Nat)
    (archive : List Nat) (h : EncodeFiles inputs symbol_size = some archive) :
    (headerBits inputs.length symbol_size).length = 80 ∧
    ∃ pad, pad < 8 ∧
      bytesToBits archive = headerBits inputs.length symbol_size ++
        inputs.flatMap (entryBits symbol_size) ++ List.replicate pad false := by
  obtain ⟨pad, hpad, _, hbits⟩ := EncodeFiles_bits inputs symbol_size archive h
  refine ⟨?_, pad, hpad, hbits⟩
  simp [headerBits, bytesBits, MAGIC_BYTES, natBits_length]

set_option maxRecDepth 100000 in
theorem EncodeFiles_layout_witness :
    (headerBits [([0x61], [0x78])].length 1).length = 80 ∧
    ∃ pad, pad < 8 ∧
      bytesToBits [72, 85, 70, 70, 1, 1, 0, 0, 0, 1, 0, 1, 97, 0, 0, 0, 0, 0, 0, 0, 1, 0, 1,
          120, 1, 0] =
        headerBits [([0x61], [0x78])].length 1 ++
          [([0x61], [0x78])].flatMap (entryBits 1) ++ List.replicate pad false :=
  EncodeFiles_layout [([0x61], [0x78])] 1
    [72, 85, 70, 70, 1, 1, 0, 0, 0, 1, 0, 1, 97, 0, 0, 0, 0, 0, 0, 0, 1, 0, 1, 120, 1, 0]
    (by decide)

/-! ## The generated table is a prefix code -/

/-- C9: in the table built from any frequency table over an alphabet of at most 65536
symbols (in particular one with at least 2 symbols of non-zero count), no code of
non-zero length is a prefix of, or equal to, the code of a different symbol of
non-zero length; a code is read as the bits `code_len - 1 .. 0` of its 64-bit word. -/
theorem codes_prefix_free (freq_table : Nat → Nat) (file_size symbol_count : Nat)
    (T : CodeTable) (hn : symbol_count ≤ 65536)
    (hT : codesFromFrequencies freq_table file_size symbol_count = some T)
    (s t : Nat) (hst : s ≠ t) (hs : (T s).code_len > 0) (ht : (T t).code_len > 0) :
    ¬ (natBits (T s).code_len (T s).code <+: natBits (T t).code_len (T t).code) := by
  rcases huffmanTree_cases freq_table file_size symbol_count hn with
    ⟨_, _, h2⟩ | ⟨f, a, _, _, h3⟩ | ⟨f, l, r, _, h2, h3⟩
  · rw [h2] at hT
    cases hT
    simp [emptyTable] at hs
  · rw [h3] at hT
    simp only [Option.some.injEq] at hT
    subst hT
    have key : ∀ x, ((if file_size > 0 then setCode emptyTable a ⟨0, 1⟩
        else setCode emptyTable a ⟨0, 0⟩) x).code_len > 0 → x = a := by
      intro x hx
      by_contra hne
      split_ifs at hx <;> simp [setCode, hne, emptyTable] at hx
    exact absurd ((key s hs).trans (key t ht).symm) hst
  · rw [h3] at hT
    simp only [Option.some.injEq] at hT
    subst hT
    have hnd : (HuffNode.node f l r).leaves.Nodup :=
      (h2.nodup_iff).2 (activeSymbols_nodup freq_table symbol_count)
    have key : ∀ x, (BuildCodes (.node f l r) emptyTable 0 0 x).code_len > 0 →
        ∃ p, (x, p) ∈ (HuffNode.node f l r).paths ∧
          natBits (BuildCodes (.node f l r) emptyTable 0 0 x).code_len
            (BuildCodes (.node f l r) emptyTable 0 0 x).code = p := by
      intro x hx
      by_cases hm : x ∈ (HuffNode.node f l r).leaves
      · obtain ⟨p, hp⟩ := (mem_leaves_iff _ x).1 hm
        have hb := BuildCodes_mem (.node f l r) emptyTable 0 0 x p hp hnd
        rw [Nat.zero_add] at hb
        rw [hb] at hx ⊢
        obtain ⟨_, h64, he⟩ := leafCode_pos _ _ hx
        rw [he]
        exact ⟨p, hp, natBits_pathCode p h64⟩
      · rw [BuildCodes_not_mem _ _ _ _ x hm] at hx
        simp [emptyTable] at hx
    obtain ⟨p, hp, hpe⟩ := key s hs
    obtain ⟨q, hq, hqe⟩ := key t ht
    rw [hpe, hqe]
    intro hpre
    exact hst (paths_incomparable _ s p t q hp hq hpre hnd)

set_option maxRecDepth 100000 in
theorem codes_prefix_free_witness :
    ¬ (natBits (BuildCodes (.node 6 (.leaf 3 65) (.node 3 (.leaf 1 67) (.leaf 2 66)))
          emptyTable 0 0 65).code_len
        (BuildCodes (.node 6 (.leaf 3 65) (.node 3 (.leaf 1 67) (.leaf 2 66)))
          emptyTable 0 0 65).code <+:
      natBits (BuildCodes (.node 6 (.leaf 3 65) (.node 3 (.leaf 1 67) (.leaf 2 66)))
          emptyTable 0 0 66).code_len
        (BuildCodes (.node 6 (.leaf 3 65) (.node 3 (.leaf 1 67) (.leaf 2 66)))
          emptyTable 0 0 66).code) :=
  codes_prefix_free (frequencies [65, 66, 65, 66, 67, 65] 6 1) 6 256
    (BuildCodes (.node 6 (.leaf 3 65) (.node 3 (.leaf 1 67) (.leaf 2 66))) emptyTable 0 0)
    (by decide) (by rfl) 65 66 (by decide) (by decide) (by decide)

/-! ## Coded symbols are the occurring symbols -/

/-- C10: for an input of positive length whose Huffman tree has no leaf deeper than 64,
`GenerateCodes` returns a table in which every symbol of non-zero count has
`code_len ≥ 1` and every symbol of count zero has `code_len = 0` and `code = 0`. -/
theorem GenerateCodes_coded_symbols (data : List Nat) (file_size symbol_size : Nat)
    (hW : symbol_size = 1 ∨ symbol_size = 2) (hfs : file_size > 0)
    (hdepth : ∀ root, huffmanTree (frequencies data file_size symbol_size)
      (if symbol_size = 1 then MAX_SYMBOLS_1B else MAX_SYMBOLS_2B) = some (some root) →
      root.height ≤ 64) :
    ∃ T, GenerateCodes data file_size symbol_size = some T ∧
      ∀ s, (frequencies data file_size symbol_size s > 0 → (T s).code_len ≥ 1) ∧
        (frequencies data file_size symbol_size s = 0 → T s = ⟨0, 0⟩) := by
  have hW' : ¬ (symbol_size ≠ 1 ∧ symbol_size ≠ 2) := by omega
  unfold GenerateCodes
  rw [if_neg hW']
  obtain ⟨T, hT, hcase⟩ := codes_spec (frequencies data file_size symbol_size) file_size _
    (symbol_count_le symbol_size) hfs
  refine ⟨T, hT, ?_⟩
  have hmem : ∀ s, s ∈ activeSymbols (frequencies data file_size symbol_size)
      (if symbol_size = 1 then MAX_SYMBOLS_1B else MAX_SYMBOLS_2B) ↔
      frequencies data file_size symbol_size s ≠ 0 := by
    intro s
    rw [mem_activeSymbols]
    exact ⟨fun h => h.2, fun h => ⟨frequencies_support data file_size symbol_size s h, h⟩⟩
  rcases hcase with ⟨h0, _, hE⟩ | ⟨root, hroot, hperm, hcode, hex, _, hlen, hnot⟩
  · intro s
    refine ⟨fun hpos => ?_, fun _ => by rw [hE]; rfl⟩
    have : s ∈ activeSymbols (frequencies data file_size symbol_size)
        (if symbol_size = 1 then MAX_SYMBOLS_1B else MAX_SYMBOLS_2B) := (hmem s).2 (by omega)
    rw [h0] at this
    simp at this
  · have hd := hdepth root hroot
    intro s
    refine ⟨fun hpos => ?_, fun hz => ?_⟩
    · have hs : s ∈ root.leaves := (hperm.mem_iff).2 ((hmem s).2 (by omega))
      obtain ⟨p, hp⟩ := hex s hs
      obtain ⟨h1, hTs⟩ := hcode s p hp
      have h64 : p.length ≤ 64 := by
        have := hlen s p hp
        omega
      rw [hTs, leafCode_of_le _ _ h1 h64]
      exact h1
    · apply hnot
      intro hs
      exact ((hmem s).1 ((hperm.mem_iff).1 hs)) hz

set_option maxRecDepth 100000 in
theorem GenerateCodes_coded_symbols_witness :
    ∃ T, GenerateCodes [65, 66, 65, 66, 67, 65] 6 1 = some T ∧
      ∀ s, (frequencies [65, 66, 65, 66, 67, 65] 6 1 s > 0 → (T s).code_len ≥ 1) ∧
        (frequencies [65, 66, 65, 66, 67, 65] 6 1 s = 0 → T s = ⟨0, 0⟩) :=
  GenerateCodes_coded_symbols [65, 66, 65, 66, 67, 65] 6 1 (by decide) (by decide)
    (by
      intro root h
      have h' : huffmanTree (frequencies [65, 66, 65, 66, 67, 65] 6 1)
          (if 1 = 1 then MAX_SYMBOLS_1B else MAX_SYMBOLS_2B) =
          some (some (.node 6 (.leaf 3 65) (.node 3 (.leaf 1 67) (.leaf 2 66)))) := by decide
      rw [h'] at h
      cases h
      decide)

/-- C11: for every input of positive length (below `2 ^ 64` bytes) whose symbols under
the symbol width 1 or 2 are all the same symbol `s`, `GenerateCodes` returns a table
in which `s` has `code_len = 1` and `code = 0` and every other symbol has
`code_len = 0` (and `code = 0`); the payload the encoder writes with it is one zero
bit per symbol of the input. -/
theorem GenerateCodes_single_symbol (content : List Nat) (symbol_size s : Nat)
    (hW : symbol_size = 1 ∨ symbol_size = 2) (hpos : content.length > 0)
    (hfs : content.length < 2 ^ 64) (hv : ∀ b ∈ content, b < 256)
    (hone : ∀ x ∈ symbolsOf symbol_size content, x = s) :
    ∃ T, GenerateCodes content content.length symbol_size = some T ∧
      T s = ⟨0, 1⟩ ∧ (∀ x, x ≠ s → T x = ⟨0, 0⟩) ∧
      ∀ w : BitWriter, w.Ok →
        (encodePayload symbol_size T content w).written =
          w.written ++ List.replicate (symbolsOf symbol_size content).length false := by
  have hfreq := frequencies_eq_count content symbol_size hW hfs hv
  have hsne : symbolsOf symbol_size content ≠ [] := by
    cases content with
    | nil => simp at hpos
    | cons c1 rest =>
      cases rest with
      | nil => rcases hW with h | h <;> subst h <;> simp [symbolsOf]
      | cons c2 rest => rcases hW with h | h <;> subst h <;> simp [symbolsOf]
  have hs : s ∈ symbolsOf symbol_size content := by
    obtain ⟨a, l, hl⟩ := List.exists_cons_of_ne_nil hsne
    have : a = s := hone a (by rw [hl]; simp)
    rw [hl, ← this]
    simp
  have hact : activeSymbols (frequencies content content.length symbol_size)
      (if symbol_size = 1 then MAX_SYMBOLS_1B else MAX_SYMBOLS_2B) = [s] := by
    apply eq_singleton_of_nodup _ _ (activeSymbols_nodup _ _)
    intro x
    rw [mem_activeSymbols]
    constructor
    · intro h
      have := h.2
      rw [hfreq, Ne, List.count_eq_zero, not_not] at this
      exact hone x this
    · intro hx
      subst hx
      have hne : frequencies content content.length symbol_size x ≠ 0 := by
        rw [hfreq, Ne, List.count_eq_zero, not_not]
        exact hs
      exact ⟨frequencies_support _ _ _ _ hne, hne⟩
  have hT : GenerateCodes content content.length symbol_size =
      some (setCode emptyTable s ⟨0, 1⟩) := by
    unfold GenerateCodes
    rw [if_neg (by omega)]
    rcases huffmanTree_cases (frequencies content content.length symbol_size) content.length
      _ (symbol_count_le symbol_size) with ⟨h0, _, _⟩ | ⟨f, s', _, h1, h2⟩ | ⟨f, l, r, _, h1, _⟩
    · rw [hact] at h0
      cases h0
    · rw [hact] at h1
      cases h1
      rw [h2, if_pos hpos]
    · rw [hact] at h1
      have hlen := h1.length_eq
      have hl := leaves_length_pos l
      have hr := leaves_length_pos r
      simp only [HuffNode.leaves, List.length_append, List.length_singleton] at hlen
      omega
  have hTs : setCode emptyTable s ⟨0, 1⟩ s = ⟨0, 1⟩ := by simp [setCode]
  refine ⟨_, hT, hTs, ?_, ?_⟩
  · intro x hx
    simp [setCode, hx, emptyTable]
  · intro w hw
    rw [(encodePayload_spec symbol_size _ content.length content w (le_refl _) hw).2,
      payloadBits_single _ s hTs _ hone]

set_option maxRecDepth 100000 in
theorem GenerateCodes_single_symbol_witness :
    ∃ T, GenerateCodes [0x41, 0x41, 0x41, 0x41] [0x41, 0x41, 0x41, 0x41].length 1 = some T ∧
      T 0x41 = ⟨0, 1⟩ ∧ (∀ x, x ≠ 0x41 → T x = ⟨0, 0⟩) ∧
      ∀ w : BitWriter, w.Ok →
        (encodePayload 1 T [0x41, 0x41, 0x41, 0x41] w).written =
          w.written ++ List.replicate (symbolsOf 1 [0x41, 0x41, 0x41, 0x41]).length false :=
  GenerateCodes_single_symbol [0x41, 0x41, 0x41, 0x41] 1 0x41 (Or.inl rfl) (by decide)
    (by decide) (by decide) (by decide)

set_option maxRecDepth 1000000 in
/-- C12 (as stated, refuted): for the file of 72723460248140 bytes in which byte `k`
occurs `F (66 - k)` times (`k = 0, ..., 65`), the Huffman tree has the leaf of byte 65
at depth 65, and `GenerateCodes` returns a table all the same; in it byte 65, which
occurs in the file, has `code_len = 0`. -/
theorem code_too_long_counterexample :
    ∃ root T,
      huffmanTree (frequencies deepFile deepFile.length 1)
        (if 1 = 1 then MAX_SYMBOLS_1B else MAX_SYMBOLS_2B) = some (some root) ∧
      (65, List.replicate 65 true) ∈ root.paths ∧
      frequencies deepFile deepFile.length 1 65 = 1 ∧
      GenerateCodes deepFile deepFile.length 1 = some T ∧ T 65 = ⟨0, 0⟩ := by
  refine ⟨deepTree 64, BuildCodes (deepTree 64) emptyTable 0 0, ?_, by decide, ?_,
    deepFile_codes, by decide⟩
  · rw [huffmanTree_congr _ deepFreq _ (fun s _ => deepFile_frequencies s)]
    exact deepTree_built
  · rw [deepFile_frequencies]
    rfl

/-- C12 (amended): for symbol width 1 or 2 and every input of positive length,
`GenerateCodes` returns a table, whatever the depth of the Huffman tree: a leaf at a
depth greater than 64 gets `code_len = 0` and `code = 0` in it (as a symbol that does
not occur), and a leaf at a depth from 1 to 64 gets its path as code. -/
theorem GenerateCodes_deep_leaf (data : List Nat) (file_size symbol_size : Nat)
    (hW : symbol_size = 1 ∨ symbol_size = 2) (hfs : file_size > 0) :
    ∃ T, GenerateCodes data file_size symbol_size = some T ∧
      ∀ root, huffmanTree (frequencies data file_size symbol_size)
          (if symbol_size = 1 then MAX_SYMBOLS_1B else MAX_SYMBOLS_2B) = some (some root) →
        ∀ s p, (s, p) ∈ root.paths →
          (p.length > 64 → T s = ⟨0, 0⟩) ∧
          (1 ≤ p.length → p.length ≤ 64 → T s = ⟨pathCode 0 p, p.length⟩) := by
  have hW' : ¬ (symbol_size ≠ 1 ∧ symbol_size ≠ 2) := by omega
  unfold GenerateCodes
  rw [if_neg hW']
  obtain ⟨T, hT, hcase⟩ := codes_spec (frequencies data file_size symbol_size) file_size _
    (symbol_count_le symbol_size) hfs
  refine ⟨T, hT, ?_⟩
  intro root hroot s p hp
  rcases hcase with ⟨_, hnone, _⟩ | ⟨root', hroot', _, hcode, _⟩
  · rw [hnone] at hroot
    cases hroot
  · rw [hroot'] at hroot
    cases hroot
    cases root with
    | leaf f x =>
      simp only [HuffNode.paths, List.mem_singleton, Prod.mk.injEq] at hp
      obtain ⟨_, hp⟩ := hp
      subst hp
      exact ⟨fun h => absurd h (by simp), fun h => absurd h (by simp)⟩
    | node f l r =>
      obtain ⟨_, hTs⟩ := hcode s p hp
      refine ⟨fun h => ?_, fun h1 h64 => ?_⟩
      · rw [hTs]
        unfold leafCode
        rw [if_pos h]
      · rw [hTs, leafCode_of_le _ _ h1 h64]

set_option maxRecDepth 100000 in
theorem GenerateCodes_deep_leaf_witness :
    ∃ T, GenerateCodes [65, 66, 65, 66, 67, 65] 6 1 = some T ∧
      ∀ root, huffmanTree (frequencies [65, 66, 65, 66, 67, 65] 6 1)
          (if 1 = 1 then MAX_SYMBOLS_1B else MAX_SYMBOLS_2B) = some (some root) →
        ∀ s p, (s, p) ∈ root.paths →
          (p.length > 64 → T s = ⟨0, 0⟩) ∧
          (1 ≤ p.length → p.length ≤ 64 → T s = ⟨pathCode 0 p, p.length⟩) :=
  GenerateCodes_deep_leaf [65, 66, 65, 66, 67, 65] 6 1 (Or.inl rfl) (by decide)

/-- C13 (as stated, refuted): for the table over the 65536 two-byte symbols that gives
every symbol `s` the 16-bit code `s`, all 65536 symbols have `code_len > 0`, but the
count `active_codes_count` that `EncodeFiles` writes into the 16-bit field is 0. -/
theorem table_count_counterexample :
    (codedSymbols (fun s => ⟨s, 16⟩) ((1 <<< (2 * 8)) % 2 ^ 32)).length = 65536 ∧
    countActiveCodes (fun s => ⟨s, 16⟩) ((1 <<< (2 * 8)) % 2 ^ 32) = 0 := by
  have hcard : (1 <<< (2 * 8)) % 2 ^ 32 = 65536 := by decide
  have hlen : (codedSymbols (fun s => ⟨s, 16⟩) 65536).length = 65536 := by
    unfold codedSymbols
    rw [List.filter_eq_self.2 (fun s _ => by simp), List.length_range]
  rw [hcard, countActiveCodes_eq, hlen]
  exact ⟨rfl, rfl⟩

/-- C13 (amended): for symbol width 1 or 2 and every code table, `EncodeFiles` writes
the number of symbols with `code_len > 0` modulo 65536 into the 16-bit field (so the
number itself whenever it is below 65536, which always holds for width 1), and after it
exactly one record for each symbol with `code_len > 0`, in ascending symbol order: the
symbol in `8 * symbol_size` bits, the low 8 bits of `code_len`, and `code_len` code
bits. -/
theorem table_serialization (symbol_size : Nat) (huff_codes : CodeTable) (w : BitWriter)
    (hW : symbol_size = 1 ∨ symbol_size = 2) (hw : w.Ok) :
    (writeTable symbol_size huff_codes ((1 <<< (symbol_size * 8)) % 2 ^ 32)
        (BitWriterWriteBits w
          (countActiveCodes huff_codes ((1 <<< (symbol_size * 8)) % 2 ^ 32)) 16)).written =
      w.written ++
        natBits 16 ((codedSymbols huff_codes (2 ^ (8 * symbol_size))).length % 2 ^ 16) ++
        (codedSymbols huff_codes (2 ^ (8 * symbol_size))).flatMap (fun s =>
          natBits (8 * symbol_size) s ++ natBits 8 (huff_codes s).code_len ++
            codeBits (huff_codes s)) ∧
    (codedSymbols huff_codes (2 ^ (8 * symbol_size))).Pairwise (· < ·) ∧
    (∀ s, s ∈ codedSymbols huff_codes (2 ^ (8 * symbol_size)) ↔
      s < 2 ^ (8 * symbol_size) ∧ (huff_codes s).code_len > 0) ∧
    (∀ s, (codeBits (huff_codes s)).length = (huff_codes s).code_len) ∧
    ((codedSymbols huff_codes (2 ^ (8 * symbol_size))).length < 65536 →
      countActiveCodes huff_codes ((1 <<< (symbol_size * 8)) % 2 ^ 32) =
        (codedSymbols huff_codes (2 ^ (8 * symbol_size))).length) ∧
    (symbol_size = 1 → (codedSymbols huff_codes (2 ^ (8 * symbol_size))).length < 65536) := by
  obtain ⟨hcard, _, _⟩ := alphabet_eq symbol_size hW
  rw [hcard]
  generalize hn : 2 ^ (8 * symbol_size) = n
  obtain ⟨h1, h2⟩ := BitWriterWriteBits_spec w (countActiveCodes huff_codes n) 16 hw
  obtain ⟨_, h4⟩ := writeTable_spec symbol_size huff_codes n _ h1
  have hlt16 : (codedSymbols huff_codes n).length % 2 ^ 16 < 2 ^ 32 :=
    lt_trans (Nat.mod_lt _ (by norm_num)) (by norm_num)
  have hmod : (codedSymbols huff_codes n).length % 2 ^ 16 % 2 ^ 32 =
      (codedSymbols huff_codes n).length % 2 ^ 16 := Nat.mod_eq_of_lt hlt16
  have hrec : (codedSymbols huff_codes n).flatMap (recordBits symbol_size huff_codes) =
      (codedSymbols huff_codes n).flatMap (fun s =>
        natBits (8 * symbol_size) s ++ natBits 8 (huff_codes s).code_len ++
          codeBits (huff_codes s)) :=
    flatMap_congr_mem _ _ _ (fun s hs =>
      recordBits_coded symbol_size huff_codes s hW ((mem_codedSymbols _ _ _).1 hs).2)
  have hsorted : (codedSymbols huff_codes n).Pairwise (· < ·) := by
    unfold codedSymbols
    exact List.Pairwise.filter _ (List.pairwise_lt_range _)
  have hle : (codedSymbols huff_codes n).length ≤ n := by
    have : (codedSymbols huff_codes n).length ≤ (List.range n).length :=
      List.length_filter_le _ _
    rw [List.length_range] at this
    exact this
  refine ⟨?_, hsorted, fun s => mem_codedSymbols huff_codes n s,
    fun s => codeBits_length (huff_codes s), ?_, ?_⟩
  · rw [h4, h2, tableBits_eq, countActiveCodes_eq, hmod, hrec]
  · intro hlt
    rw [countActiveCodes_eq]
    exact Nat.mod_eq_of_lt hlt
  · intro h1'
    subst h1'
    have e : n = 256 := by rw [← hn]; norm_num
    omega

set_option maxRecDepth 100000 in
theorem table_serialization_witness :
    (writeTable 1 (setCode (setCode emptyTable 0x41 ⟨0, 1⟩) 0x42 ⟨1, 1⟩)
        ((1 <<< (1 * 8)) % 2 ^ 32)
        (BitWriterWriteBits BitWriterOpen
          (countActiveCodes (setCode (setCode emptyTable 0x41 ⟨0, 1⟩) 0x42 ⟨1, 1⟩)
            ((1 <<< (1 * 8)) % 2 ^ 32)) 16)).written =
      BitWriterOpen.written ++
        natBits 16 ((codedSymbols (setCode (setCode emptyTable 0x41 ⟨0, 1⟩) 0x42 ⟨1, 1⟩)
          (2 ^ (8 * 1))).length % 2 ^ 16) ++
        (codedSymbols (setCode (setCode emptyTable 0x41 ⟨0, 1⟩) 0x42 ⟨1, 1⟩)
            (2 ^ (8 * 1))).flatMap (fun s =>
          natBits (8 * 1) s ++
            natBits 8 ((setCode (setCode emptyTable 0x41 ⟨0, 1⟩) 0x42 ⟨1, 1⟩) s).code_len ++
            codeBits ((setCode (setCode emptyTable 0x41 ⟨0, 1⟩) 0x42 ⟨1, 1⟩) s)) ∧
    (codedSymbols (setCode (setCode emptyTable 0x41 ⟨0, 1⟩) 0x42 ⟨1, 1⟩)
      (2 ^ (8 * 1))).Pairwise (· < ·) ∧
    (∀ s, s ∈ codedSymbols (setCode (setCode emptyTable 0x41 ⟨0, 1⟩) 0x42 ⟨1, 1⟩)
        (2 ^ (8 * 1)) ↔
      s < 2 ^ (8 * 1) ∧
        ((setCode (setCode emptyTable 0x41 ⟨0, 1⟩) 0x42 ⟨1, 1⟩) s).code_len > 0) ∧
    (∀ s, (codeBits ((setCode (setCode emptyTable 0x41 ⟨0, 1⟩) 0x42 ⟨1, 1⟩) s)).length =
      ((setCode (setCode emptyTable 0x41 ⟨0, 1⟩) 0x42 ⟨1, 1⟩) s).code_len) ∧
    ((codedSymbols (setCode (setCode emptyTable 0x41 ⟨0, 1⟩) 0x42 ⟨1, 1⟩)
        (2 ^ (8 * 1))).length < 65536 →
      countActiveCodes (setCode (setCode emptyTable 0x41 ⟨0, 1⟩) 0x42 ⟨1, 1⟩)
          ((1 <<< (1 * 8)) % 2 ^ 32) =
        (codedSymbols (setCode (setCode emptyTable 0x41 ⟨0, 1⟩) 0x42 ⟨1, 1⟩)
          (2 ^ (8 * 1))).length) ∧
    (1 = 1 → (codedSymbols (setCode (setCode emptyTable 0x41 ⟨0, 1⟩) 0x42 ⟨1, 1⟩)
      (2 ^ (8 * 1))).length < 65536) :=
  table_serialization 1 (setCode (setCode emptyTable 0x41 ⟨0, 1⟩) 0x42 ⟨1, 1⟩) BitWriterOpen
    (Or.inl rfl) BitWriterOpen_ok

set_option maxRecDepth 1000000 in
/-- C14: in the table `GenerateCodes` returns for the file of 14930351 bytes with
Fibonacci byte counts, byte `0x20` has the 33-bit code `0x1FFFFFFFE`, whose bits 32
down to 0 are `1` followed by bits 31 down to 0 of `0xFFFFFFFE`; but the bits the
encoder writes for it, in the payload as in its table record, are `0` followed by bits
31 down to 0 of `0xFFFFFFFE`: the code passes through the `unsigned int` parameter of
`BitWriterWriteBits`.  (The leading bit is the shift `value >> 32` of the truncated
code, taken as 0; a shift count taken modulo 32 yields bit 0 of the code, which is 0 as
well.) -/
theorem long_code_bits_truncated :
    ∃ T, GenerateCodes skewedFile skewedFile.length 1 = some T ∧
      T 0x20 = ⟨0x1FFFFFFFE, 33⟩ ∧
      natBits 33 (T 0x20).code = true :: natBits 32 0xFFFFFFFE ∧
      (writeSymbol T BitWriterOpen 0x20).written = false :: natBits 32 0xFFFFFFFE ∧
      (writeTableRecord 1 T BitWriterOpen 0x20).written =
        natBits 8 0x20 ++ natBits 8 33 ++ false :: natBits 32 0xFFFFFFFE :=
  ⟨BuildCodes (skewTree 32) emptyTable 0 0, skewedFile_codes, by decide, by decide, by decide,
    by decide⟩

set_option maxRecDepth 100000 in
/-- C15: after the successful insertion of the zero-length code of symbol `0x41` into
the empty tree (the root becomes a leaf), `InsertIntoDecodingTree` for the record
(symbol `0x42`, code 0, `code_len = 1`) returns success and hangs a leaf below the root
leaf, although the code inserted before, the empty word, is a proper prefix of the new
code and the root, a node on the path before the final one, is a leaf. -/
theorem insert_below_root_leaf_accepted :
    InsertIntoDecodingTree CreateDecodingNode 0x41 0 0 = some (.node .null .null true 0x41) ∧
    recordWord (0x41, 0, 0) <+: recordWord (0x42, 0, 1) ∧
    recordWord (0x41, 0, 0) ≠ recordWord (0x42, 0, 1) ∧
    InsertIntoDecodingTree (.node .null .null true 0x41) 0x42 0 1 =
      some (.node (.node .null .null true 0x42) .null true 0x41) := by
  decide

set_option maxRecDepth 100000 in
/-- C16: for the two table records (symbol `0x41`, code `00`, `code_len = 2`) and
(symbol `0x42`, code `0`, `code_len = 1`), in this order, both calls of
`InsertIntoDecodingTree` that `DecodeArchive` makes succeed, although the second code
is a prefix of the first; in the resulting tree the leaf of `0x42` has the leaf of
`0x41` as a child.  `DecodeArchive` accepts the archive with this table, returns 0 and
decodes the payload bits `00` (the code of `0x41`) of the one-byte file `a` to `0x42`.
In the other order the second insertion fails. -/
theorem shorter_code_after_longer_accepted :
    recordWord (0x42, 0, 1) <+: recordWord (0x41, 0, 2) ∧
    insertRecords [(0x41, 0, 2), (0x42, 0, 1)] CreateDecodingNode =
      some (.node (.node (.node .null .null true 0x41) .null true 0x42) .null false 0) ∧
    (readTable 1 2 2 CreateDecodingNode (BitReaderOpen [0x41, 0x02, 0x10, 0x80, 0x40])).1 =
      some (.node (.node (.node .null .null true 0x41) .null true 0x42) .null false 0) ∧
    (DecodeArchive FsEnv.allOk
      [0x48, 0x55, 0x46, 0x46, 1, 1, 0, 0, 0, 1, 0, 1, 0x61, 0, 0, 0, 0, 0, 0, 0, 1, 0, 2,
        0x41, 0x02, 0x10, 0x80, 0x40] [] true).status = .returned 0 ∧
    (DecodeArchive FsEnv.allOk
      [0x48, 0x55, 0x46, 0x46, 1, 1, 0, 0, 0, 1, 0, 1, 0x61, 0, 0, 0, 0, 0, 0, 0, 1, 0, 2,
        0x41, 0x02, 0x10, 0x80, 0x40] [] true).files = [([0x61], [0x42])] ∧
    insertRecords [(0x42, 0, 1), (0x41, 0, 2)] CreateDecodingNode = none := by
  decide

set_option maxRecDepth 100000 in
/-- C17 (as stated, refuted): on the one-entry archive whose table has the single
record (symbol `0x41`, `code_len = 65`, 65 code bits 0) and whose original length is 0,
the record is inserted (the decoding tree gets the leaf `0x41`), and `DecodeArchive`
returns 0 and writes the empty file `a`.  (All code bits being 0, the result does not
depend on the value taken for the shift `code >> 64` in `InsertIntoDecodingTree`.) -/
theorem long_code_single_record_counterexample :
    (recordLen 1 (BitReaderOpen [0x41, 0x41, 0, 0, 0, 0, 0, 0, 0, 0, 0])).1 % 2 ^ 8 = 65 ∧
    ((readTable 1 1 1 CreateDecodingNode
      (BitReaderOpen [0x41, 0x41, 0, 0, 0, 0, 0, 0, 0, 0, 0])).1.map
        DecodingTreeNode.leafSymbols) = some [0x41] ∧
    (DecodeArchive FsEnv.allOk
      [0x48, 0x55, 0x46, 0x46, 1, 1, 0, 0, 0, 1, 0, 1, 0x61, 0, 0, 0, 0, 0, 0, 0, 0, 0, 1,
        0x41, 0x41, 0, 0, 0, 0, 0, 0, 0, 0, 0] [] true).status = .returned 0 ∧
    (DecodeArchive FsEnv.allOk
      [0x48, 0x55, 0x46, 0x46, 1, 1, 0, 0, 0, 1, 0, 1, 0x61, 0, 0, 0, 0, 0, 0, 0, 0, 0, 1,
        0x41, 0x41, 0, 0, 0, 0, 0, 0, 0, 0, 0] [] true).files = [([0x61], [])] := by
  decide

/-- C17 (amended): when the table count `K` of an entry is greater than 1, the first
`j < K` records of its table are inserted successfully and the next record has
`code_len > 64`, the table loop stops right after the length field of that record (its
code bits are not read and it is not inserted), and `DecodeArchive` returns 1 without
writing a file for this or any later entry.  A table with `K = 1` is not subject to
this test. -/
theorem long_code_rejected (fs : FsEnv) (symbol_size_val : Nat)
    (wantedFiles : List (List Nat)) (extractAll : Bool) (n j : Nat) (r rj : BitReader)
    (t : DecodingTreeNode) (hK : tableCount r > 1) (hj : j < tableCount r)
    (hfirst : readTable symbol_size_val (tableCount r) j CreateDecodingNode (tableReader r) =
      (some t, rj))
    (hlen : (recordLen symbol_size_val rj).1 % 2 ^ 8 > 64) :
    readTable symbol_size_val (tableCount r) (tableCount r) CreateDecodingNode (tableReader r) =
      (none, (recordLen symbol_size_val rj).2) ∧
    ∃ r', decodeEntries fs symbol_size_val wantedFiles extractAll (n + 1) r =
      ⟨.returned 1, true, [], r'⟩ := by
  have htab : readTable symbol_size_val (tableCount r) (tableCount r) CreateDecodingNode
      (tableReader r) = (none, (recordLen symbol_size_val rj).2) := by
    have e : tableCount r = j + ((tableCount r - j - 1) + 1) := by omega
    conv_lhs => rw [e]
    rw [readTable_append]
    rw [← e, hfirst]
    dsimp only
    exact readTable_long symbol_size_val (tableCount r) _ t rj hK hlen
  refine ⟨htab, ?_⟩
  obtain ⟨r', hr'⟩ := decodeEntry_table_none fs symbol_size_val wantedFiles extractAll r _ htab
  exact ⟨r', decodeEntries_failed fs symbol_size_val wantedFiles extractAll n r r' hr'⟩

set_option maxRecDepth 100000 in
theorem long_code_rejected_witness :
    readTable 1
        (tableCount (BitReaderOpen
          [0, 1, 0x61, 0, 0, 0, 0, 0, 0, 0, 0, 0, 2, 0x41, 0x01, 0x21, 0x20, 0x80]))
        (tableCount (BitReaderOpen
          [0, 1, 0x61, 0, 0, 0, 0, 0, 0, 0, 0, 0, 2, 0x41, 0x01, 0x21, 0x20, 0x80]))
        CreateDecodingNode
        (tableReader (BitReaderOpen
          [0, 1, 0x61, 0, 0, 0, 0, 0, 0, 0, 0, 0, 2, 0x41, 0x01, 0x21, 0x20, 0x80])) =
      (none, (recordLen 1 ⟨[0x20, 0x80], 0x21, 1⟩).2) ∧
    ∃ r', decodeEntries FsEnv.allOk 1 [] true (0 + 1)
        (BitReaderOpen
          [0, 1, 0x61, 0, 0, 0, 0, 0, 0, 0, 0, 0, 2, 0x41, 0x01, 0x21, 0x20, 0x80]) =
      ⟨.returned 1, true, [], r'⟩ :=
  long_code_rejected FsEnv.allOk 1 [] true 0 1
    (BitReaderOpen [0, 1, 0x61, 0, 0, 0, 0, 0, 0, 0, 0, 0, 2, 0x41, 0x01, 0x21, 0x20, 0x80])
    ⟨[0x20, 0x80], 0x21, 1⟩ (.node (.node .null .null true 0x41) .null false 0)
    (by decide) (by decide) (by decide) (by decide)

set_option maxRecDepth 100000 in
/-- C18: `DecodeArchive` accepts the one-entry archive whose table holds the records
(symbol `0x41`, `code_len = 0`) and (symbol `0x42`, code `0`, `code_len = 1`), in this
order: both insertions succeed, the resulting tree is a root leaf `0x41` with the leaf
`0x42` as a child, and the call returns 0, writing `0x41 0x41` for the original length
2 without reading a payload bit. -/
theorem zero_length_record_with_others_accepted :
    (recordLen 1 (BitReaderOpen [0x41, 0x00, 0x42, 0x01, 0x00])).1 % 2 ^ 8 = 0 ∧
    (readTable 1 2 2 CreateDecodingNode (BitReaderOpen [0x41, 0x00, 0x42, 0x01, 0x00])).1 =
      some (.node (.node .null .null true 0x42) .null true 0x41) ∧
    (DecodeArchive FsEnv.allOk
      [0x48, 0x55, 0x46, 0x46, 1, 1, 0, 0, 0, 1, 0, 1, 0x61, 0, 0, 0, 0, 0, 0, 0, 2, 0, 2,
        0x41, 0x00, 0x42, 0x01, 0x00] [] true).status = .returned 0 ∧
    (DecodeArchive FsEnv.allOk
      [0x48, 0x55, 0x46, 0x46, 1, 1, 0, 0, 0, 1, 0, 1, 0x61, 0, 0, 0, 0, 0, 0, 0, 2, 0, 2,
        0x41, 0x00, 0x42, 0x01, 0x00] [] true).files = [([0x61], [0x41, 0x41])] := by
  decide

/-- C19: for symbol width 2, every original length `L` and every symbol sequence
`s_1, ..., s_m` with `m = ⌈L / 2⌉` that the decoding tree yields from the reader, the
bytes the payload loop of `DecodeArchive` writes when extracting are exactly the first
`L` bytes of `hi s_1, lo s_1, ..., hi s_m, lo s_m` (no error is flagged, and the reader
ends where the last symbol ended); for odd `L` this drops the low byte of `s_m`. -/
theorem two_byte_emission (decoding_root : DecodingTreeNode) (L : Nat) (r r' : BitReader)
    (syms : List Nat)
    (h : decodeSymbols decoding_root ((L + 1) / 2) r = some (syms, r')) :
    payloadLoop 2 true decoding_root L (payloadFuel L r) 0 r =
      some (false, r', (syms.flatMap symbolPair).take L) := by
  have := payloadLoop_two_bytes decoding_root L ((L + 1) / 2) 0 (payloadFuel L r) r r' syms
    (Nat.zero_le _) (by simp) h (by unfold payloadFuel; omega)
  simpa using this

set_option maxRecDepth 100000 in
theorem two_byte_emission_witness :
    decodeSymbols (.node (.node .null .null true 0x1122) (.node .null .null true 0x3300) false 0)
        ((3 + 1) / 2) (BitReaderOpen [0x40]) = some ([0x1122, 0x3300], ⟨[], 0x40, 2⟩) ∧
    payloadLoop 2 true
        (.node (.node .null .null true 0x1122) (.node .null .null true 0x3300) false 0) 3
        (payloadFuel 3 (BitReaderOpen [0x40])) 0 (BitReaderOpen [0x40]) =
      some (false, ⟨[], 0x40, 2⟩, [0x11, 0x22, 0x33]) :=
  ⟨by decide,
    two_byte_emission
      (.node (.node .null .null true 0x1122) (.node .null .null true 0x3300) false 0) 3
      (BitReaderOpen [0x40]) ⟨[], 0x40, 2⟩ [0x1122, 0x3300] (by decide)⟩

/-- C20: for symbol width 1 or 2 and every input stream holding at least
`file_size ≥ 1` bytes (`file_size` a `uint64_t`), the counts of the frequency table
that `GenerateCodes` computes add up to `file_size / symbol_size` rounded up; so the
sum of `count * 8 * symbol_size` is 8 times `file_size` rounded up to a multiple of
`symbol_size`. -/
theorem frequency_total (data : List Nat) (file_size symbol_size : Nat)
    (hW : symbol_size = 1 ∨ symbol_size = 2) (hL : 1 ≤ file_size)
    (hfs : file_size < 2 ^ 64) (hlen : file_size ≤ data.length)
    (hv : ∀ b ∈ data, b < 256) :
    ((List.range (if symbol_size = 1 then MAX_SYMBOLS_1B else MAX_SYMBOLS_2B)).map
        (frequencies data file_size symbol_size)).sum =
      (file_size + symbol_size - 1) / symbol_size ∧
    ((List.range (if symbol_size = 1 then MAX_SYMBOLS_1B else MAX_SYMBOLS_2B)).map
        (fun s => frequencies data file_size symbol_size s * 8 * symbol_size)).sum =
      ((file_size + symbol_size - 1) / symbol_size * symbol_size) * 8 := by
  have htake : (data.take file_size).length = file_size := by
    rw [List.length_take]; omega
  have hvt : ∀ b ∈ data.take file_size, b < 256 := fun b hb => hv b (List.mem_of_mem_take hb)
  have hfreq : ∀ x, frequencies data file_size symbol_size x =
      (symbolsOf symbol_size (data.take file_size)).count x := by
    intro x
    rw [frequencies_take]
    have := frequencies_eq_count (data.take file_size) symbol_size hW (by omega) hvt x
    rw [htake] at this
    exact this
  have hlt : ∀ y ∈ symbolsOf symbol_size (data.take file_size),
      y < if symbol_size = 1 then MAX_SYMBOLS_1B else MAX_SYMBOLS_2B := by
    intro y hy
    apply frequencies_support data file_size symbol_size y
    rw [hfreq, Ne, List.count_eq_zero, not_not]
    exact hy
  have hsum : ((List.range (if symbol_size = 1 then MAX_SYMBOLS_1B else MAX_SYMBOLS_2B)).map
      (frequencies data file_size symbol_size)).sum =
      (file_size + symbol_size - 1) / symbol_size := by
    rw [List.map_congr_left (fun x _ => hfreq x), count_sum _ _ hlt,
      symbolsOf_length symbol_size hW _ _ (le_refl _), htake]
  refine ⟨hsum, ?_⟩
  have hmul : ∀ l : List Nat, (l.map (fun s =>
      frequencies data file_size symbol_size s * 8 * symbol_size)).sum =
      (l.map (frequencies data file_size symbol_size)).sum * 8 * symbol_size := by
    intro l
    induction l with
    | nil => simp
    | cons a l ih =>
      simp only [List.map_cons, List.sum_cons, ih]
      ring
  rw [hmul, hsum]
  ring

set_option maxRecDepth 100000 in
theorem frequency_total_witness :
    ((List.range (if 2 = 1 then MAX_SYMBOLS_1B else MAX_SYMBOLS_2B)).map
        (frequencies [0x11, 0x22, 0x33, 0x44] 3 2)).sum = (3 + 2 - 1) / 2 ∧
    ((List.range (if 2 = 1 then MAX_SYMBOLS_1B else MAX_SYMBOLS_2B)).map
        (fun s => frequencies [0x11, 0x22, 0x33, 0x44] 3 2 s * 8 * 2)).sum =
      ((3 + 2 - 1) / 2 * 2) * 8 :=
  frequency_total [0x11, 0x22, 0x33, 0x44] 3 2 (Or.inr rfl) (by decide) (by decide)
    (by decide) (by decide)

/-- C21: same symbol framing in both passes.  For every byte sequence `content` of
length `L < 2^64` and `W` in {1, 2}, the encoding loop of `EncodeFiles` handles, in
order, exactly the symbols of the framing described by the specification (`W = 2`:
`(hi << 8) | lo` for each byte pair, `(hi << 8) | 0x00` for the trailing byte of an
odd-length input), the frequency loop of `GenerateCodes` counts exactly the same
sequence in the same order, and the resulting count of every symbol `s` is the number
of occurrences of `s` in that sequence. -/
theorem symbol_framing (content : List Nat) (symbol_size : Nat)
    (hW : symbol_size = 1 ∨ symbol_size = 2) (hfs : content.length < 2 ^ 64)
    (hv : ∀ b ∈ content, b < 256) :
    (∀ (huff_codes : CodeTable) (writer : BitWriter),
        encodePayload symbol_size huff_codes content writer =
          (specSymbols symbol_size content).foldl (writeSymbol huff_codes) writer) ∧
      (∀ freq_table : Nat → Nat,
        countLoop content.length symbol_size content 0 freq_table =
          (specSymbols symbol_size content).foldl incFreq freq_table) ∧
      (∀ s : Nat, frequencies content content.length symbol_size s =
        (specSymbols symbol_size content).count s) := by
  have e := symbolsOf_eq_spec symbol_size hW content.length content (le_refl _) hv
  refine ⟨?_, ?_, ?_⟩
  · intro huff_codes writer
    rw [← e]
    exact encodePayload_foldl symbol_size hW huff_codes content.length content writer (le_refl _)
  · intro freq_table
    rw [← e]
    exact countLoop_foldl content.length symbol_size hW content.length content 0 freq_table
      (le_refl _) (by omega) hv
  · intro s
    rw [← e]
    exact frequencies_eq_count content symbol_size hW hfs hv s

/-- Witness for C21: the bytes 0x11 0x22 0x33 with two-byte symbols give the symbols
0x1122 and 0x3300, each counted once. -/
theorem symbol_framing_witness :
    specSymbols 2 [0x11, 0x22, 0x33] = [0x1122, 0x3300] ∧
      frequencies [0x11, 0x22, 0x33] 3 2 0x1122 = 1 ∧
      frequencies [0x11, 0x22, 0x33] 3 2 0x3300 = 1 ∧
      ∀ s : Nat, frequencies [0x11, 0x22, 0x33] [0x11, 0x22, 0x33].length 2 s =
        (specSymbols 2 [0x11, 0x22, 0x33]).count s :=
  ⟨by decide, by decide, by decide,
    (symbol_framing [0x11, 0x22, 0x33] 2 (Or.inr rfl) (by decide) (by decide)).2.2⟩

/-- C22: archive header layout.  For every successful `EncodeFiles` call on `N` input
files with `N < 2^32`, the symbol width `W` is 1 or 2 and the first 10 bytes of the
archive are 0x48 0x55 0x46 0x46 ("HUFF"), 0x01, `W`, and `N` as a 4-byte big-endian
integer. -/
theorem archive_header_bytes (inputs : List (List Nat × List Nat)) (symbol_size : Nat)
    (archive : List Nat) (hN : inputs.length < 2 ^ 32)
    (h : EncodeFiles inputs symbol_size = some archive) :
    (symbol_size = 1 ∨ symbol_size = 2) ∧
      archive.take 10 = [0x48, 0x55, 0x46, 0x46, 0x01, symbol_size,
        inputs.length / 2 ^ 24 % 256, inputs.length / 2 ^ 16 % 256,
        inputs.length / 2 ^ 8 % 256, inputs.length % 256] := by
  obtain ⟨hW, _⟩ := EncodeFiles_width inputs symbol_size archive h
  obtain ⟨pad, _, hlt, hbits⟩ := EncodeFiles_bits inputs symbol_size archive h
  refine ⟨hW, ?_⟩
  rw [headerBits_bytes _ _ hN (by omega), List.append_assoc] at hbits
  have hb : ∀ x ∈ [0x48, 0x55, 0x46, 0x46, 0x01, symbol_size,
      inputs.length / 2 ^ 24 % 256, inputs.length / 2 ^ 16 % 256,
      inputs.length / 2 ^ 8 % 256, inputs.length % 256], x < 256 := by
    intro x hx
    simp only [List.mem_cons, List.mem_singleton, List.not_mem_nil, or_false] at hx
    omega
  exact bytes_of_bits _ archive _ hlt hb hbits

set_option maxRecDepth 100000 in
/-- Witness for C22: the archive of the two empty files "a" and "b" with two-byte
symbols starts with 48 55 46 46 01 02 00 00 00 02. -/
theorem archive_header_bytes_witness :
    EncodeFiles [([0x61], []), ([0x62], [])] 2 =
        some [0x48, 0x55, 0x46, 0x46, 0x01, 0x02, 0x00, 0x00, 0x00, 0x02,
          0x00, 0x01, 0x61, 0x00, 0x00, 0x00, 0x00, 0x00, 0x00, 0x00, 0x00, 0x00, 0x00,
          0x00, 0x01, 0x62, 0x00, 0x00, 0x00, 0x00, 0x00, 0x00, 0x00, 0x00, 0x00, 0x00] ∧
      ([0x48, 0x55, 0x46, 0x46, 0x01, 0x02, 0x00, 0x00, 0x00, 0x02,
          0x00, 0x01, 0x61, 0x00, 0x00, 0x00, 0x00, 0x00, 0x00, 0x00, 0x00, 0x00, 0x00,
          0x00, 0x01, 0x62, 0x00, 0x00, 0x00, 0x00, 0x00, 0x00, 0x00, 0x00, 0x00,
          0x00] : List Nat).take 10
        = [0x48, 0x55, 0x46, 0x46, 0x01, 0x02, 0x00, 0x00, 0x00, 0x02] :=
  ⟨by decide, (archive_header_bytes [([0x61], []), ([0x62], [])] 2 _ (by decide)
    (by decide)).2⟩

/-- C23: empty-file entry bytes.  For `W` in {1, 2} and every archive name of 1 to
4095 bytes (none of them 0), encoding a single 0-byte file under that name yields
exactly the 10-byte header (with file count 1), the name length as 2 bytes
big-endian, the bytes of the name, eight 0x00 bytes (original length) and two 0x00
bytes (`K = 0`): no table records and no payload follow. -/
theorem empty_file_archive (symbol_size : Nat) (name : List Nat)
    (hW : symbol_size = 1 ∨ symbol_size = 2) (hname : ValidName name) :
    EncodeFiles [(name, [])] symbol_size =
      some ([0x48, 0x55, 0x46, 0x46, 0x01, symbol_size, 0x00, 0x00, 0x00, 0x01] ++
        [name.length / 256, name.length % 256] ++ name ++ List.replicate 8 0x00 ++
        [0x00, 0x00]) := by
  obtain ⟨hn1, hn2, hc⟩ := hname
  unfold PATH_MAX at hn2
  obtain ⟨archive, h⟩ := EncodeFiles_some [(name, [])] symbol_size hW (by simp)
    (by intro input hi; simp only [List.mem_singleton] at hi; subst hi; simp)
  obtain ⟨pad, hpad, hlt, hbits⟩ := EncodeFiles_bits _ symbol_size archive h
  rw [h]
  congr 1
  simp only [List.flatMap_cons, List.flatMap_nil, List.append_nil, List.length_singleton] at hbits
  rw [headerBits_bytes 1 symbol_size (by norm_num) (by omega),
    entryBits_empty symbol_size name (by omega), ← bytesToBits_append] at hbits
  simp only [Nat.reduceDiv, Nat.reduceMod, Nat.reducePow] at hbits
  apply bytes_eq_of_bits archive _ pad hpad hlt _ (by simpa only [List.append_assoc] using hbits)
  intro x hx
  simp only [List.mem_append, List.mem_cons, List.mem_singleton, List.not_mem_nil,
    or_false, List.mem_replicate] at hx
  have hcx := fun h => (hc x h).2
  rcases hx with (((hx | hx) | hx) | hx) | hx
  · omega
  · omega
  · exact hcx hx
  · omega
  · omega

/-- Witness for C23: the empty file "empty.bin" with one-byte symbols gives the archive
48 55 46 46 01 01 00 00 00 01 00 09 65 6D 70 74 79 2E 62 69 6E followed by ten
zero bytes. -/
theorem empty_file_archive_witness :
    EncodeFiles [([0x65, 0x6D, 0x70, 0x74, 0x79, 0x2E, 0x62, 0x69, 0x6E], [])] 1 =
      some [0x48, 0x55, 0x46, 0x46, 0x01, 0x01, 0x00, 0x00, 0x00, 0x01, 0x00, 0x09,
        0x65, 0x6D, 0x70, 0x74, 0x79, 0x2E, 0x62, 0x69, 0x6E,
        0x00, 0x00, 0x00, 0x00, 0x00, 0x00, 0x00, 0x00, 0x00, 0x00] :=
  empty_file_archive 1 [0x65, 0x6D, 0x70, 0x74, 0x79, 0x2E, 0x62, 0x69, 0x6E] (Or.inl rfl)
    (by unfold ValidName PATH_MAX; decide)

/-- C24: MSB-first packing by the writer.  For every sequence of bits written with
`BitWriterWriteBit` on a fresh writer (a bit is set when the `int` passed is not zero)
and then closed, the output has exactly `ceil(n/8)` bytes, bit `7 - j` of byte `i` is
the written bit number `8 i + j` whenever `8 i + j < n`, every bit position of the
output past the written bits holds 0, and every output byte is below 256. -/
theorem msb_first_packing (bits : List Nat) :
    (BitWriterClose (bits.foldl BitWriterWriteBit BitWriterOpen)).length
        = (bits.length + 7) / 8 ∧
      (∀ i j, j < 8 → 8 * i + j < bits.length →
        ((BitWriterClose (bits.foldl BitWriterWriteBit BitWriterOpen)).getD i 0).testBit (7 - j)
          = decide (bits.getD (8 * i + j) 0 ≠ 0)) ∧
      (∀ i j, j < 8 → bits.length ≤ 8 * i + j →
        ((BitWriterClose (bits.foldl BitWriterWriteBit BitWriterOpen)).getD i 0).testBit (7 - j)
          = false) ∧
      ∀ b ∈ BitWriterClose (bits.foldl BitWriterWriteBit BitWriterOpen), b < 256 := by
  obtain ⟨pad, hpad, hbits, hlt⟩ := close_bits bits
  generalize BitWriterClose (bits.foldl BitWriterWriteBit BitWriterOpen) = out at *
  have hlen : 8 * out.length = bits.length + pad := by
    have := congrArg List.length hbits
    simpa [bytesToBits_length] using this
  refine ⟨by omega, ?_, ?_, hlt⟩
  · intro i j hj hij
    rw [← bytesToBits_getD out i j hj (by omega), hbits,
      List.getD_append _ _ _ _ (by rw [List.length_map]; exact hij)]
    rw [List.getD_eq_getElem _ _ (by rw [List.length_map]; exact hij),
      List.getD_eq_getElem _ _ hij]
    simp
  · intro i j hj hij
    by_cases hi : i < out.length
    · rw [← bytesToBits_getD out i j hj hi, hbits,
        List.getD_append_right _ _ _ _ (by rw [List.length_map]; exact hij)]
      rw [List.getD_eq_getElem _ _ (by rw [List.length_map, List.length_replicate]; omega)]
      simp
    · rw [List.getD_eq_default _ _ (by omega)]
      simp

/-- Witness for C24: the nine bits 1 0 1 1 0 0 0 1 1 are packed into 0xB1 0x80. -/
theorem msb_first_packing_witness :
    BitWriterClose ([1, 0, 1, 1, 0, 0, 0, 1, 1].foldl BitWriterWriteBit BitWriterOpen)
        = [0xB1, 0x80] ∧
      (BitWriterClose ([1, 0, 1, 1, 0, 0, 0, 1, 1].foldl BitWriterWriteBit BitWriterOpen)).length
        = (9 + 7) / 8 :=
  ⟨by decide, (msb_first_packing [1, 0, 1, 1, 0, 0, 0, 1, 1]).1⟩

/-- C25: bit-run round trip.  For every `n ≤ 32`, every value `v` and every starting
bit offset (the bits `prior` written before, the bits `later` written after),
`BitWriterWriteBits(v, n)` appends bits `n-1` down to 0 of `v` to the bits written so
far, and `BitReaderReadBits(n)`, called on the closed output after `prior.length` bits
were read, returns `v mod 2^n`. -/
theorem bit_run_round_trip (prior later : List Nat) (v n : Nat) (hn : n ≤ 32) :
    (BitWriterWriteBits (prior.foldl BitWriterWriteBit BitWriterOpen) v n).written
        = (prior.foldl BitWriterWriteBit BitWriterOpen).written ++ natBits n v ∧
      (prior.foldl BitWriterWriteBit BitWriterOpen).written.length = prior.length ∧
      (BitReaderReadBits
        (BitReaderReadBits
          (BitReaderOpen (BitWriterClose (later.foldl BitWriterWriteBit
            (BitWriterWriteBits (prior.foldl BitWriterWriteBit BitWriterOpen) v n))))
          prior.length).2 n).1 = v % 2 ^ n := by
  obtain ⟨h1, h2⟩ := writeBitList_spec prior BitWriterOpen BitWriterOpen_ok
  obtain ⟨h3, h4⟩ := BitWriterWriteBits_spec _ v n h1
  obtain ⟨h5, h6⟩ := writeBitList_spec later _ h3
  obtain ⟨h7, _⟩ := BitWriterClose_spec _ h5
  rw [natBits_mod n 32 v hn] at h4
  refine ⟨h4, ?_, ?_⟩
  · rw [h2, BitWriterOpen_written]; simp
  · have hr := Reads_open (BitWriterClose (later.foldl BitWriterWriteBit
      (BitWriterWriteBits (prior.foldl BitWriterWriteBit BitWriterOpen) v n)))
    rw [h7, h6, h4, h2, BitWriterOpen_written, List.nil_append] at hr
    have hs := readBits_snd _ prior.length _ hr
    simp only [List.append_assoc] at hs
    rw [List.drop_left' (by simp)] at hs
    exact (readBits_natBits_le _ n v _ hn hs).1

/-- Witness for C25: after the three bits 1 0 1, the low 5 bits of 0x2D3 are written
and read back as 0x13. -/
theorem bit_run_round_trip_witness :
    (5 ≤ 32) ∧
      (BitReaderReadBits
        (BitReaderReadBits
          (BitReaderOpen (BitWriterClose (([] : List Nat).foldl BitWriterWriteBit
            (BitWriterWriteBits ([1, 0, 1].foldl BitWriterWriteBit BitWriterOpen) 0x2D3 5))))
          [1, 0, 1].length).2 5).1 = 0x13 :=
  ⟨by decide, (bit_run_round_trip [1, 0, 1] [] 0x2D3 5 (by decide)).2.2⟩

/-- C26 (amended): premature end of stream in `BitReaderReadBits`.  When fewer than
`n` bits remain, the function stops at the end of the stream and returns the value
aggregated from the remaining bits (0 when none remain), leaving the reader at the
end of the stream; it reports no failure: a successful read of `n` bits, from a
stream that holds the same bits after `n - k` zero bits, returns the same value. -/
theorem read_bits_premature_end (r : BitReader) (bits : List Bool) (n : Nat)
    (h : Reads r bits) (hk : bits.length < n) :
    (BitReaderReadBits r n).1 = accBits 0 bits ∧
      Reads (BitReaderReadBits r n).2 [] ∧
      ∀ (r' : BitReader) (rest : List Bool),
        Reads r' (List.replicate (n - bits.length) false ++ bits ++ rest) →
          (BitReaderReadBits r' n).1 = (BitReaderReadBits r n).1 ∧
            Reads (BitReaderReadBits r' n).2 rest := by
  have h1 := readBits_fst r n bits h
  have h2 := readBits_snd r n bits h
  rw [List.take_of_length_le (by omega)] at h1
  rw [List.drop_of_length_le (by omega)] at h2
  refine ⟨h1, h2, ?_⟩
  intro r' rest hr
  have hl : (List.replicate (n - bits.length) false ++ bits).length = n := by
    simp; omega
  have h3 := readBits_fst r' n _ hr
  have h4 := readBits_snd r' n _ hr
  rw [List.take_left' hl] at h3
  rw [List.drop_left' hl] at h4
  refine ⟨?_, h4⟩
  rw [h3, h1, accBits_append, accBits_zeros]

/-- Witness for C26 (amended): 8 bits are requested from a stream holding the single
byte 0xA0 of which 4 bits were read; the result is 0, as for a stream of zero bits. -/
theorem read_bits_premature_end_witness :
    (BitReaderReadBits (BitReaderReadBits (BitReaderOpen [0xA0]) 4).2 8).1 = 0 :=
  (read_bits_premature_end (BitReaderReadBits (BitReaderOpen [0xA0]) 4).2
    [false, false, false, false] 8 ⟨by decide, by decide⟩ (by decide)).1

/-- C26 (counterexample): at the end of the stream `BitReaderReadBits(8)` returns 0,
the value it returns after reading the byte 0x00 successfully, while
`BitReaderReadBit` signals the end of the stream; and with 4 of 8 bits left it
returns 0x0A, the value it returns for the byte 0x0A. -/
theorem read_bits_eof_counterexample :
    (BitReaderReadBit (BitReaderOpen [])).1 = none ∧
      (BitReaderReadBits (BitReaderOpen []) 8).1 = 0 ∧
      (BitReaderReadBits (BitReaderOpen [0x00]) 8).1 = 0 ∧
      (BitReaderReadBits (BitReaderReadBits (BitReaderOpen [0xFA]) 4).2 8).1 = 0x0A ∧
      (BitReaderReadBits (BitReaderOpen [0x0A]) 8).1 = 0x0A := by
  decide

/-- C27: name length validation.  Whenever the loop over the entries is at an entry
whose 16-bit name length `len` is 0 or at least 4096 (`PATH_MAX`), it returns 1 with
the reader right after the two length bytes: nothing of the name, table or payload is
read.  In particular, in an archive with a valid header announcing `N` files, let the
entry of index `i` (reached after `i` well-formed entries, `i < N`) carry the name
length `len`: if `len` is 0 or at least 4096, `DecodeArchive` returns 1, the files of
the earlier entries stay written and the stream after the length field is left
unread; if `len` is in [1, 4095] the entry does not fail at this check: it fails
exactly when its code table is rejected. -/
theorem name_length_validation (fs : FsEnv) (symbol_size : Nat) (wantedFiles : List (List Nat))
    (extractAll : Bool) (earlier : List (List Nat × List Nat)) (archive : List Nat)
    (n len : Nat) (rest : List Bool)
    (hW : symbol_size = 1 ∨ symbol_size = 2) (hN : earlier.length + (n + 1) < 2 ^ 32)
    (hmk : fs.mkdirOk = true) (hv : ∀ input ∈ earlier, ValidInput symbol_size input)
    (hsel : symbol_size = 1 ∨
      ∀ input ∈ earlier, isWritten fs wantedFiles extractAll input = true)
    (hlen : len < 2 ^ 16)
    (hbits : bytesToBits archive = headerBits (earlier.length + (n + 1)) symbol_size ++
      earlier.flatMap (entryBits symbol_size) ++ natBits 16 len ++ rest) :
    (∀ (reader : BitReader) (m : Nat),
      ((BitReaderReadBits reader 16).1 % 2 ^ 16 = 0 ∨
        (BitReaderReadBits reader 16).1 % 2 ^ 16 ≥ PATH_MAX) →
      decodeEntries fs symbol_size wantedFiles extractAll (m + 1) reader =
        ⟨.returned 1, true, [], (BitReaderReadBits reader 16).2⟩) ∧
    ∃ r : BitReader, Reads r (natBits 16 len ++ rest) ∧
      (BitReaderReadBits r 16).1 % 2 ^ 16 = len ∧
      DecodeArchive fs archive wantedFiles extractAll =
        { decodeEntries fs symbol_size wantedFiles extractAll (n + 1) r with
          files := earlier.filter (isWritten fs wantedFiles extractAll) ++
            (decodeEntries fs symbol_size wantedFiles extractAll (n + 1) r).files } ∧
      ((len = 0 ∨ len ≥ PATH_MAX) →
        decodeEntry fs symbol_size wantedFiles extractAll r = .failed (BitReaderReadBits r 16).2 ∧
        (DecodeArchive fs archive wantedFiles extractAll).status = .returned 1 ∧
        (DecodeArchive fs archive wantedFiles extractAll).files =
          earlier.filter (isWritten fs wantedFiles extractAll) ∧
        Reads (DecodeArchive fs archive wantedFiles extractAll).reader rest) ∧
      ((1 ≤ len ∧ len < PATH_MAX) → ∀ r' : BitReader,
        (decodeEntry fs symbol_size wantedFiles extractAll r = .failed r' ↔
          readTable symbol_size (tableCount r) (tableCount r) CreateDecodingNode
            (tableReader r) = (none, r'))) := by
  refine ⟨fun reader m hbad => decodeEntries_failed fs symbol_size wantedFiles extractAll m
    reader _ (decodeEntry_bad_name_len fs symbol_size wantedFiles extractAll reader hbad), ?_⟩
  simp only [List.append_assoc] at hbits
  obtain ⟨r0, hr0, hd0⟩ := header_read fs archive wantedFiles extractAll _ symbol_size _ hW hN
    hmk hbits
  obtain ⟨r, hr, hd⟩ := decodeEntries_prefix fs symbol_size wantedFiles extractAll hW (n + 1)
    earlier r0 _ hv hsel hr0
  obtain ⟨e16, hr16⟩ := readBits_natBits_le r 16 len rest (by norm_num) hr
  have hnl : (BitReaderReadBits r 16).1 % 2 ^ 16 = len := by
    rw [e16, Nat.mod_mod, Nat.mod_eq_of_lt hlen]
  refine ⟨r, hr, hnl, by rw [hd0, hd], ?_, ?_⟩
  · intro hbad
    have hf := decodeEntry_bad_name_len fs symbol_size wantedFiles extractAll r
      (by rw [hnl]; exact hbad)
    have hl := decodeEntries_failed fs symbol_size wantedFiles extractAll n r _ hf
    rw [hd0, hd, hl]
    exact ⟨hf, rfl, by simp, hr16⟩
  · intro hok r'
    exact decodeEntry_failed_iff fs symbol_size wantedFiles extractAll r r'
      (by rw [hnl]; omega)

/-- Witness for C27: an archive of one entry whose name length field is 0 makes
`DecodeArchive` return 1 with no file written. -/
theorem name_length_validation_witness :
    (DecodeArchive FsEnv.allOk [0x48, 0x55, 0x46, 0x46, 0x01, 0x01, 0x00, 0x00, 0x00, 0x01,
        0x00, 0x00] [] true).status = .returned 1 ∧
      (DecodeArchive FsEnv.allOk [0x48, 0x55, 0x46, 0x46, 0x01, 0x01, 0x00, 0x00, 0x00, 0x01,
        0x00, 0x00] [] true).files = [] := by
  obtain ⟨_, r, _, _, _, h, _⟩ := name_length_validation FsEnv.allOk 1 [] true []
    [0x48, 0x55, 0x46, 0x46, 0x01, 0x01, 0x00, 0x00, 0x00, 0x01, 0x00, 0x00] 0 0 []
    (Or.inl rfl) (by decide) rfl (by simp) (Or.inl rfl) (by decide) (by decide)
  exact ⟨(h (Or.inl rfl)).2.1, (h (Or.inl rfl)).2.2.1⟩

/-- C28: two distinct symbols.  For every input of fewer than `2^64` bytes whose
symbols under the symbol width 1 or 2 are exactly the two distinct symbols `x` and
`y`, `GenerateCodes` returns a table in which `x` and `y` have codes of length 1 with
different bits (one has code 0, the other code 1) and every other symbol has no
code; the payload the encoder writes is one bit per symbol of the input, the code bit
of that symbol. -/
theorem two_symbol_codes (content : List Nat) (symbol_size x y : Nat)
    (hW : symbol_size = 1 ∨ symbol_size = 2) (hfs : content.length < 2 ^ 64)
    (hv : ∀ b ∈ content, b < 256) (hxy : x ≠ y)
    (hsyms : ∀ s, s ∈ symbolsOf symbol_size content ↔ s = x ∨ s = y) :
    ∃ T, GenerateCodes content content.length symbol_size = some T ∧
      (T x).code_len = 1 ∧ (T y).code_len = 1 ∧
      (((T x).code = 0 ∧ (T y).code = 1) ∨ ((T x).code = 1 ∧ (T y).code = 0)) ∧
      (∀ s, s ≠ x → s ≠ y → T s = ⟨0, 0⟩) ∧
      (payloadBits T (symbolsOf symbol_size content)).length =
        (symbolsOf symbol_size content).length ∧
      ∀ w : BitWriter, w.Ok →
        (encodePayload symbol_size T content w).written =
          w.written ++ (symbolsOf symbol_size content).map (fun s => decide ((T s).code = 1)) := by
  have hfreq := frequencies_eq_count content symbol_size hW hfs hv
  have hact : (activeSymbols (frequencies content content.length symbol_size)
      (if symbol_size = 1 then MAX_SYMBOLS_1B else MAX_SYMBOLS_2B)).Perm [x, y] := by
    rw [List.perm_ext_iff_of_nodup (activeSymbols_nodup _ _) (by simp [hxy])]
    intro s
    rw [mem_activeSymbols]
    simp only [List.mem_cons, List.mem_singleton, List.not_mem_nil, or_false]
    rw [← hsyms s]
    constructor
    · intro h
      have := h.2
      rw [hfreq, Ne, List.count_eq_zero, not_not] at this
      exact this
    · intro hs
      have hne : frequencies content content.length symbol_size s ≠ 0 := by
        rw [hfreq, Ne, List.count_eq_zero, not_not]
        exact hs
      exact ⟨frequencies_support _ _ _ _ hne, hne⟩
  have hT : ∃ f fa fb a b, a ≠ b ∧ ((a = x ∧ b = y) ∨ (a = y ∧ b = x)) ∧
      GenerateCodes content content.length symbol_size =
        some (BuildCodes (.node f (.leaf fa a) (.leaf fb b)) emptyTable 0 0) := by
    unfold GenerateCodes
    rw [if_neg (by omega)]
    rcases huffmanTree_cases (frequencies content content.length symbol_size) content.length
      _ (symbol_count_le symbol_size) with ⟨h0, _, _⟩ | ⟨f, s', _, h1, _⟩ | ⟨f, l, r, _, h1, h2⟩
    · rw [h0] at hact
      have := hact.length_eq
      simp at this
    · rw [h1] at hact
      have := hact.length_eq
      simp at this
    · obtain ⟨fa, fb, a, b, hl, hr, hab, hc⟩ := two_leaf_tree f l r x y hxy (h1.trans hact)
      subst hl hr
      exact ⟨f, fa, fb, a, b, hab, hc, h2⟩
  obtain ⟨f, fa, fb, a, b, hab, hc, hG⟩ := hT
  obtain ⟨ha, hb, ho⟩ := BuildCodes_two_leaves f fa fb a b hab
  generalize BuildCodes (.node f (.leaf fa a) (.leaf fb b)) emptyTable 0 0 = T at hG ha hb ho
  have hone : ∀ s ∈ symbolsOf symbol_size content, (T s).code_len = 1 ∧ (T s).code < 2 := by
    intro s hs
    rcases hc with ⟨h1, h2⟩ | ⟨h1, h2⟩ <;> subst h1 h2 <;>
      rcases (hsyms s).1 hs with h | h <;> subst h <;> simp [ha, hb]
  have hbits := payloadBits_one_bit T _ hone
  refine ⟨T, hG, ?_, ?_, ?_, ?_, ?_, ?_⟩
  · rcases hc with ⟨h1, h2⟩ | ⟨h1, h2⟩ <;> subst h1 h2 <;> simp [ha, hb]
  · rcases hc with ⟨h1, h2⟩ | ⟨h1, h2⟩ <;> subst h1 h2 <;> simp [ha, hb]
  · rcases hc with ⟨h1, h2⟩ | ⟨h1, h2⟩ <;> subst h1 h2 <;> simp [ha, hb]
  · intro s hsx hsy
    rcases hc with ⟨h1, h2⟩ | ⟨h1, h2⟩ <;> subst h1 h2
    · exact ho s hsx hsy
    · exact ho s hsy hsx
  · rw [hbits, List.length_map]
  · intro w hw
    rw [(encodePayload_spec symbol_size T content.length content w (le_refl _) hw).2, hbits]

set_option maxRecDepth 100000 in
/-- Witness for C28: for the input "ABAB" with one-byte symbols, `A` gets the code 0
and `B` the code 1, both of length 1, and the payload is the four bits 0101 (the
byte 0x50 when written alone). -/
theorem two_symbol_codes_witness :
    (∃ T, GenerateCodes [0x41, 0x42, 0x41, 0x42] [0x41, 0x42, 0x41, 0x42].length 1 = some T ∧
      (T 0x41).code_len = 1 ∧ (T 0x42).code_len = 1 ∧
      (((T 0x41).code = 0 ∧ (T 0x42).code = 1) ∨ ((T 0x41).code = 1 ∧ (T 0x42).code = 0)) ∧
      (∀ s, s ≠ 0x41 → s ≠ 0x42 → T s = ⟨0, 0⟩) ∧
      (payloadBits T (symbolsOf 1 [0x41, 0x42, 0x41, 0x42])).length =
        (symbolsOf 1 [0x41, 0x42, 0x41, 0x42]).length ∧
      ∀ w : BitWriter, w.Ok →
        (encodePayload 1 T [0x41, 0x42, 0x41, 0x42] w).written =
          w.written ++
            (symbolsOf 1 [0x41, 0x42, 0x41, 0x42]).map (fun s => decide ((T s).code = 1))) ∧
      (GenerateCodes [0x41, 0x42, 0x41, 0x42] 4 1).map
          (fun T => (T 0x41, T 0x42,
            BitWriterClose (encodePayload 1 T [0x41, 0x42, 0x41, 0x42] BitWriterOpen)))
        = some (⟨0, 1⟩, ⟨1, 1⟩, [0x50]) :=
  ⟨two_symbol_codes [0x41, 0x42, 0x41, 0x42] 1 0x41 0x42 (Or.inl rfl) (by decide) (by decide)
    (by decide) (by intro s; simp [symbolsOf]; tauto), by decide⟩

/-- C29: no partial archive after a failed encode.  Over an explicit file system on
which `remove` succeeds, whenever `EncodeFiles` has opened the output archive (there
is an input, the symbol width is 1 or 2, `BitWriterOpen` succeeds) the call returns 0
or 1, and it returns failure exactly when some input takes a failure path (it cannot
be opened or sized, code generation fails, the rewind fails, or a read returns nothing
before the end of the encoding pass).  If the call returns failure the output path
does not exist afterwards; if it returns 0 the output path holds an archive; every
other path is left as it was. -/
theorem no_partial_archive (fs : FileSystem) (outputPath : List Nat) (inputs : List InputFile)
    (symbol_size : Nat) (hN : inputs.length ≠ 0) (hW : symbol_size = 1 ∨ symbol_size = 2) :
    ((EncodeFilesFs fs outputPath true inputs symbol_size).1 = 0 ∨
        (EncodeFilesFs fs outputPath true inputs symbol_size).1 = 1) ∧
      ((EncodeFilesFs fs outputPath true inputs symbol_size).1 ≠ 0 ↔
        ∃ input ∈ inputs, inputFails input) ∧
      ((EncodeFilesFs fs outputPath true inputs symbol_size).1 ≠ 0 →
        (EncodeFilesFs fs outputPath true inputs symbol_size).2 outputPath = none) ∧
      ((EncodeFilesFs fs outputPath true inputs symbol_size).1 = 0 →
        ∃ archive, (EncodeFilesFs fs outputPath true inputs symbol_size).2 outputPath
          = some archive) ∧
      (∀ p, p ≠ outputPath →
        (EncodeFilesFs fs outputPath true inputs symbol_size).2 p = fs p) := by
  have hiff := encodeEntriesFs_fails_iff symbol_size hW inputs
    (writeHeader inputs.length symbol_size)
  unfold EncodeFilesFs
  rw [if_neg hN, if_neg (by omega), if_neg (by simp)]
  generalize encodeEntriesFs symbol_size inputs (writeHeader inputs.length symbol_size) = R
    at hiff
  obtain ⟨ok, writer⟩ := R
  cases ok with
  | false =>
    refine ⟨Or.inr rfl, ?_, fun _ => by simp [remove], fun h => by simp at h, ?_⟩
    · rw [← hiff]
      simp
    · intro p hp
      simp [remove, FileSystem.store, hp]
  | true =>
    refine ⟨Or.inl rfl, ?_, fun h => by simp at h,
      fun _ => ⟨BitWriterClose writer, by simp [FileSystem.store]⟩, ?_⟩
    · rw [← hiff]
      simp
    · intro p hp
      simp [FileSystem.store, hp]

set_option maxRecDepth 100000 in
/-- Witness for C29: the second input "b" cannot be opened after the first input "a"
(content 0x61 0x62) was encoded; `EncodeFiles` returns 1 and the output path "o" does
not exist afterwards, although it held a file before.  The same happens when "b"
cannot be sized, when code generation or the rewind fails, and when `fread` delivers
one byte of two. -/
theorem no_partial_archive_witness :
    ((EncodeFilesFs (fun p => if p = [0x6F] then some [0x00] else none) [0x6F] true
        [regularInput [0x61] [0x61, 0x62], ⟨[0x62], false, 2, [0x61, 0x62], true, true,
          [0x61, 0x62]⟩] 1).1 ≠ 0 →
      (EncodeFilesFs (fun p => if p = [0x6F] then some [0x00] else none) [0x6F] true
        [regularInput [0x61] [0x61, 0x62], ⟨[0x62], false, 2, [0x61, 0x62], true, true,
          [0x61, 0x62]⟩] 1).2 [0x6F] = none) ∧
      (EncodeFilesFs (fun p => if p = [0x6F] then some [0x00] else none) [0x6F] true
        [regularInput [0x61] [0x61, 0x62], ⟨[0x62], false, 2, [0x61, 0x62], true, true,
          [0x61, 0x62]⟩] 1).1 = 1 ∧
      (EncodeFilesFs (fun _ => none) [0x6F] true
        [⟨[0x62], true, 2 ^ 64 - 1, [0x61, 0x62], true, true, [0x61, 0x62]⟩] 1).1 = 1 ∧
      (EncodeFilesFs (fun _ => none) [0x6F] true
        [⟨[0x62], true, 2, [0x61, 0x62], false, true, [0x61, 0x62]⟩] 1).1 = 1 ∧
      (EncodeFilesFs (fun _ => none) [0x6F] true
        [⟨[0x62], true, 2, [0x61, 0x62], true, false, [0x61, 0x62]⟩] 1).1 = 1 ∧
      (EncodeFilesFs (fun _ => none) [0x6F] true
        [⟨[0x62], true, 2, [0x61, 0x62], true, true, [0x61]⟩] 1).1 = 1 ∧
      (EncodeFilesFs (fun _ => none) [0x6F] true
        [⟨[0x62], true, 2, [0x61, 0x62], true, true, [0x61, 0x62]⟩] 1).1 = 0 :=
  ⟨(no_partial_archive (fun p => if p = [0x6F] then some [0x00] else none) [0x6F]
      [regularInput [0x61] [0x61, 0x62], ⟨[0x62], false, 2, [0x61, 0x62], true, true,
        [0x61, 0x62]⟩] 1 (by decide) (Or.inl rfl)).2.2.1,
    by decide, by decide, by decide, by decide, by decide, by decide⟩

/-- C30 (code at the failing input): for the command line `-d bad.huff -o out`,
where `bad.huff` holds the single byte 0x00, `DecodeArchive` returns 1 and `main`
prints "Decompression failed." and ends with status 0; likewise for `-c b -o o`
when the input `b` cannot be opened, `EncodeFiles` returns 1 and `main` prints
"Compression failed." and ends with status 0, while a missing mode ends with
`EXIT_FAILURE`. -/
theorem main_status_after_failure :
    (DecodeArchive FsEnv.allOk [0x00] [] true).status = .returned 1 ∧
      main ⟨.MODE_DECOMPRESS, some [0x6F, 0x75, 0x74],
        [[0x62, 0x61, 0x64, 0x2E, 0x68, 0x75, 0x66, 0x66]], 0⟩ 0 1 = ⟨0, true⟩ ∧
      (EncodeFilesFs (fun _ => none) [0x6F] true [⟨[0x62], false, 0, [], true, true, []⟩] 1).1
        = 1 ∧
      main ⟨.MODE_COMPRESS, some [0x6F], [[0x62]], 1⟩ 1 0 = ⟨0, true⟩ ∧
      main ⟨.MODE_NONE, none, [], 0⟩ 0 0 = ⟨EXIT_FAILURE, false⟩ := by
  decide

/-- C31 (code at the failing input): the command line `huff -d archive.huff`, the
example of the usage text, is accepted by `parse_args` with no output path, and
`main` then ends with `EXIT_FAILURE` ("Missing input or output path") without calling
`DecodeArchive`; with `-o out` added the call is made. -/
theorem decompress_without_output_rejected :
    (match parse_args (fun _ => 0) [[0x68, 0x75, 0x66, 0x66], DECOMPRESS_ARG,
        [0x61, 0x72, 0x63, 0x68, 0x69, 0x76, 0x65, 0x2E, 0x68, 0x75, 0x66, 0x66]] with
      | .parsed args => args.mode = .MODE_DECOMPRESS ∧ args.output_path = none ∧
          args.input_paths =
            [[0x61, 0x72, 0x63, 0x68, 0x69, 0x76, 0x65, 0x2E, 0x68, 0x75, 0x66, 0x66]] ∧
          mainDecodeCall args = none
      | _ => False) ∧
      program (fun _ => 0) [[0x68, 0x75, 0x66, 0x66], DECOMPRESS_ARG,
        [0x61, 0x72, 0x63, 0x68, 0x69, 0x76, 0x65, 0x2E, 0x68, 0x75, 0x66, 0x66]] 0 0
        = ⟨EXIT_FAILURE, false⟩ ∧
      program (fun _ => 0) [[0x68, 0x75, 0x66, 0x66], DECOMPRESS_ARG, OUTPUT_ARG,
        [0x6F, 0x75, 0x74],
        [0x61, 0x72, 0x63, 0x68, 0x69, 0x76, 0x65, 0x2E, 0x68, 0x75, 0x66, 0x66]] 0 0
        = ⟨0, false⟩ := by
  refine ⟨?_, by decide, by decide⟩
  simp [parse_args, parseLoop, validate_args, mainDecodeCall, DECOMPRESS_ARG, HELP_ARG,
    COMPRESS_ARG, OUTPUT_ARG, SYMBOL_SIZE_ARG]

/-- C32 (amended): decompression on the command line.  For every command line
`-d -o <dir> <archive> <name_1> ... <name_k>` (the directory is not "--help", the
archive and the names are none of the option strings): with `k = 0`, `parse_args`
accepts it and `main` calls `DecodeArchive` with the archive path, the directory,
an empty allow-list and extract-all true; with `k ≥ 1`, `validate_args` ends the
program with `EXIT_FAILURE` (exactly one input path is required), and `DecodeArchive`
is not called. -/
theorem decompress_command_line (atoi : List Nat → Nat) (prog dir archive : List Nat)
    (names : List (List Nat)) (result res : Nat) (hdir : dir ≠ HELP_ARG)
    (harch : IsPath archive) (hnames : ∀ p ∈ names, IsPath p) :
    (names = [] →
      ∃ args, parse_args atoi [prog, DECOMPRESS_ARG, OUTPUT_ARG, dir, archive] = .parsed args ∧
        mainDecodeCall args = some ⟨archive, dir, [], true⟩ ∧
        program atoi [prog, DECOMPRESS_ARG, OUTPUT_ARG, dir, archive] result res =
          ⟨0, decide (res ≠ 0)⟩) ∧
    (names ≠ [] →
      parse_args atoi (prog :: DECOMPRESS_ARG :: OUTPUT_ARG :: dir :: archive :: names) =
          .exitFailure ∧
        program atoi (prog :: DECOMPRESS_ARG :: OUTPUT_ARG :: dir :: archive :: names) result res
          = ⟨EXIT_FAILURE, false⟩) := by
  obtain ⟨hp, hh⟩ := parse_decompress atoi prog dir archive names hdir harch hnames
  have key : parse_args atoi (prog :: DECOMPRESS_ARG :: OUTPUT_ARG :: dir :: archive :: names) =
      if names = [] then .parsed ⟨.MODE_DECOMPRESS, some dir, [archive], 0⟩
      else .exitFailure := by
    have hpre : parse_args atoi
        (prog :: DECOMPRESS_ARG :: OUTPUT_ARG :: dir :: archive :: names) =
        if validate_args ⟨.MODE_DECOMPRESS, some dir, archive :: names, 0⟩ = true
        then .parsed ⟨.MODE_DECOMPRESS, some dir, archive :: names, 0⟩ else .exitFailure := by
      unfold parse_args
      rw [if_neg (by simp), if_neg hh, List.tail_cons, hp]
      simp only [reduceCtorEq, false_and, if_false]
    rw [hpre]
    by_cases hn : names = []
    · subst hn
      rw [if_pos rfl]
      rfl
    · have hv : validate_args ⟨.MODE_DECOMPRESS, some dir, archive :: names, 0⟩ = false := by
        unfold validate_args
        have hl : (archive :: names).length ≠ 1 := by
          have := List.length_pos.2 hn
          simp only [List.length_cons]
          omega
        rw [if_neg (by simp), if_neg (by simp), if_pos rfl, if_pos hl]
      rw [hv, if_neg hn, if_neg (by simp)]
  constructor
  · intro hn
    subst hn
    rw [if_pos rfl] at key
    refine ⟨_, key, rfl, ?_⟩
    unfold program
    rw [key]
    simp only [main]
    rw [if_neg (by simp)]
    by_cases h : res ≠ 0
    · rw [if_pos h]; simp [h]
    · rw [if_neg h]; simp [h]
  · intro hn
    rw [if_neg hn] at key
    refine ⟨key, ?_⟩
    unfold program
    rw [key]

/-- Witness for C32 (amended): `huff -d -o out a.huff` is accepted and decodes
`a.huff` into `out` with extract-all. -/
theorem decompress_command_line_witness :
    ∃ args, parse_args (fun _ => 0) [[0x68, 0x75, 0x66, 0x66], DECOMPRESS_ARG, OUTPUT_ARG,
        [0x6F, 0x75, 0x74], [0x61, 0x2E, 0x68, 0x75, 0x66, 0x66]] = .parsed args ∧
      mainDecodeCall args =
        some ⟨[0x61, 0x2E, 0x68, 0x75, 0x66, 0x66], [0x6F, 0x75, 0x74], [], true⟩ ∧
      program (fun _ => 0) [[0x68, 0x75, 0x66, 0x66], DECOMPRESS_ARG, OUTPUT_ARG,
        [0x6F, 0x75, 0x74], [0x61, 0x2E, 0x68, 0x75, 0x66, 0x66]] 0 0 = ⟨0, decide (0 ≠ 0)⟩ :=
  (decompress_command_line (fun _ => 0) [0x68, 0x75, 0x66, 0x66] [0x6F, 0x75, 0x74]
    [0x61, 0x2E, 0x68, 0x75, 0x66, 0x66] [] 0 0 (by decide) (by unfold IsPath; decide)
    (by simp)).1 rfl

/-- C32 (counterexample): the command line `huff -d -o out a.huff x`, with one entry
name after the archive, is rejected: `parse_args` ends with `EXIT_FAILURE`, although
`main` would pass the name "x" as allow-list if it received these arguments. -/
theorem decompress_filter_counterexample :
    (match parse_args (fun _ => 0) [[0x68, 0x75, 0x66, 0x66], DECOMPRESS_ARG, OUTPUT_ARG,
        [0x6F, 0x75, 0x74], [0x61, 0x2E, 0x68, 0x75, 0x66, 0x66], [0x78]] with
      | .exitFailure => true
      | _ => false) = true ∧
      program (fun _ => 0) [[0x68, 0x75, 0x66, 0x66], DECOMPRESS_ARG, OUTPUT_ARG,
        [0x6F, 0x75, 0x74], [0x61, 0x2E, 0x68, 0x75, 0x66, 0x66], [0x78]] 0 0
        = ⟨EXIT_FAILURE, false⟩ ∧
      mainDecodeCall ⟨.MODE_DECOMPRESS, some [0x6F, 0x75, 0x74],
        [[0x61, 0x2E, 0x68, 0x75, 0x66, 0x66], [0x78]], 0⟩ =
        some ⟨[0x61, 0x2E, 0x68, 0x75, 0x66, 0x66], [0x6F, 0x75, 0x74], [[0x78]], false⟩ := by
  decide

/-- C33: payload decode inverts payload encode.  Let a code table give the pairwise
distinct symbols `cs` (below `2^(8 W)`, `W` in {1, 2}) codes of lengths in [1, 32] that
are prefix-free as bit strings.  Then the insertions of `InsertIntoDecodingTree` for
the records of `cs` all succeed and build a trie `t`, which is also what the table loop
of the decoder builds when it reads the serialized records; the encoder writes for a
symbol sequence over `cs` the concatenation of the code words (bits `code_len - 1`
down to 0 of each code); and walking `t` from the root once per symbol over these
bits, whatever bits follow, yields exactly that symbol sequence and leaves the reader
right behind the concatenated bits. -/
theorem payload_decode_inverts_encode (symbol_size : Nat) (huff_codes : CodeTable)
    (cs syms : List Nat) (hW : symbol_size = 1 ∨ symbol_size = 2) (hnd : cs.Nodup)
    (hlen : ∀ s ∈ cs, s < 2 ^ (8 * symbol_size) ∧ 1 ≤ (huff_codes s).code_len ∧
      (huff_codes s).code_len ≤ 32)
    (hpf : ∀ a b, a ∈ cs → b ∈ cs →
      codeBits (huff_codes a) <+: codeBits (huff_codes b) → a = b)
    (hsyms : ∀ s ∈ syms, s ∈ cs) :
    ∃ t, insertAll huff_codes cs CreateDecodingNode = some t ∧
      (∀ (K : Nat) (r : BitReader) (rest : List Bool),
        Reads r (cs.flatMap (recordBits symbol_size huff_codes) ++ rest) →
        (readTable symbol_size K cs.length CreateDecodingNode r).1 = some t ∧
          Reads (readTable symbol_size K cs.length CreateDecodingNode r).2 rest) ∧
      (∀ w : BitWriter, w.Ok →
        (syms.foldl (writeSymbol huff_codes) w).written =
          w.written ++ syms.flatMap (fun s => natBits (huff_codes s).code_len (huff_codes s).code)) ∧
      ∀ (r : BitReader) (rest : List Bool),
        Reads r (syms.flatMap (fun s => natBits (huff_codes s).code_len (huff_codes s).code)
          ++ rest) →
        ∃ r', decodeSymbols t syms.length r = some (syms, r') ∧ Reads r' rest := by
  obtain ⟨t, hins, htrie⟩ := insertAll_spec huff_codes cs CreateDecodingNode (fun _ => False)
    (TrieFor_create huff_codes) (fun s hs => (hlen s hs).2) hnd (fun _ _ h => h)
    (by
      intro a b ha hb hp
      exact hpf a b (by simpa using ha) (by simpa using hb) hp)
  have htrie' : TrieFor huff_codes t (fun x => x ∈ cs) := by simpa using htrie
  have hbits : payloadBits huff_codes syms =
      syms.flatMap (fun s => natBits (huff_codes s).code_len (huff_codes s).code) := by
    rw [payloadBits_flatMap huff_codes syms (fun s hs => (hlen s (hsyms s hs)).2.1)]
    apply flatMap_congr_mem
    intro s hs
    exact codeBits_short _ (hlen s (hsyms s hs)).2.2
  refine ⟨t, hins, ?_, ?_, ?_⟩
  · intro K r rest hr
    obtain ⟨h1, h2⟩ := readTable_bits symbol_size K huff_codes hW cs CreateDecodingNode r rest
      (fun s hs => ⟨(hlen s hs).1, (hlen s hs).2.1, by have := (hlen s hs).2.2; omega⟩) hr
    exact ⟨h1.trans hins, h2 t hins⟩
  · intro w hw
    rw [(writeSymbols_spec huff_codes syms w hw).2, hbits]
  · intro r rest hr
    rw [← hbits] at hr
    exact decodeSymbols_payload huff_codes t (fun x => x ∈ cs) htrie' hpf rest syms r
      (fun s hs => ⟨hsyms s hs, (hlen s (hsyms s hs)).2.1⟩) hr

/-- Witness for C33: the table `A` = 0, `B` = 10, `C` = 11 and the symbol sequence
`B A C A`, written as the bits 10 0 11 0 (byte 0x98) and decoded back. -/
theorem payload_decode_inverts_encode_witness :
    ∃ t, insertAll (setCode (setCode (setCode emptyTable 0x41 ⟨0, 1⟩) 0x42 ⟨2, 2⟩) 0x43 ⟨3, 2⟩)
        [0x41, 0x42, 0x43] CreateDecodingNode = some t ∧
      ∃ r', decodeSymbols t [0x42, 0x41, 0x43, 0x41].length (BitReaderOpen [0x98]) =
          some ([0x42, 0x41, 0x43, 0x41], r') ∧
        Reads r' [false, false] := by
  obtain ⟨t, h1, _, _, h2⟩ := payload_decode_inverts_encode 1
    (setCode (setCode (setCode emptyTable 0x41 ⟨0, 1⟩) 0x42 ⟨2, 2⟩) 0x43 ⟨3, 2⟩)
    [0x41, 0x42, 0x43] [0x42, 0x41, 0x43, 0x41] (Or.inl rfl) (by decide) (by decide)
    (by
      intro a b ha hb
      simp only [List.mem_cons, List.mem_singleton, List.not_mem_nil, or_false] at ha hb
      rcases ha with rfl | rfl | rfl <;> rcases hb with rfl | rfl | rfl <;> decide)
    (by decide)
  exact ⟨t, h1, h2 (BitReaderOpen [0x98]) [false, false] ⟨by decide, by decide⟩⟩

/-- C34: code assignment follows the tree path.  For every tree whose leaves carry
pairwise distinct symbols (as every tree built by `GenerateCodes` does) and every
leaf at depth `d` with `1 ≤ d ≤ 64`, reached from the root by the path `p` (`false`
for a left step, `true` for a right step), `BuildCodes` started with code 0 and length
0 stores for the leaf's symbol `code_len = d` and a code whose bits `d-1` down to 0
are the path, first step most significant, all higher bits being zero: the code is the
number denoted by the path. -/
theorem code_follows_path (t : HuffNode) (table : CodeTable) (s : Nat) (p : List Bool)
    (hnd : t.leaves.Nodup) (hp : (s, p) ∈ t.paths) (h1 : 1 ≤ p.length)
    (h64 : p.length ≤ 64) :
    (BuildCodes t table 0 0 s).code_len = p.length ∧
      natBits p.length (BuildCodes t table 0 0 s).code = p ∧
      (BuildCodes t table 0 0 s).code < 2 ^ p.length ∧
      (BuildCodes t table 0 0 s).code = bitsVal p := by
  have h := BuildCodes_mem t table 0 0 s p hp hnd
  rw [Nat.zero_add, leafCode_of_le _ _ h1 h64] at h
  rw [h]
  refine ⟨rfl, natBits_pathCode p h64, pathCode_lt p h64, ?_⟩
  dsimp only
  rw [pathCode_eq p 0 0 (by norm_num) (by omega)]
  simp

/-- Witness for C34: in the tree with the leaf `A` on the left and, on the right, a
node over the leaves `B` and `C`, the symbol `C` (path right, right) gets the code
`0b11` of length 2. -/
theorem code_follows_path_witness :
    (BuildCodes (.node 3 (.leaf 1 0x41) (.node 2 (.leaf 1 0x42) (.leaf 1 0x43)))
        emptyTable 0 0 0x43).code_len = [true, true].length ∧
      natBits [true, true].length
        (BuildCodes (.node 3 (.leaf 1 0x41) (.node 2 (.leaf 1 0x42) (.leaf 1 0x43)))
          emptyTable 0 0 0x43).code = [true, true] ∧
      (BuildCodes (.node 3 (.leaf 1 0x41) (.node 2 (.leaf 1 0x42) (.leaf 1 0x43)))
        emptyTable 0 0 0x43).code < 2 ^ [true, true].length ∧
      (BuildCodes (.node 3 (.leaf 1 0x41) (.node 2 (.leaf 1 0x42) (.leaf 1 0x43)))
        emptyTable 0 0 0x43).code = bitsVal [true, true] :=
  code_follows_path (.node 3 (.leaf 1 0x41) (.node 2 (.leaf 1 0x42) (.leaf 1 0x43)))
    emptyTable 0x43 [true, true] (by decide) (by decide) (by decide) (by decide)

/-- C35: the merge step takes the two minima.  For every frequency table over at most
`2^16` symbols whose counts add up to less than `2^64` (a file of fewer than `2^64`
bytes): `PushHeap` and `PopHeap` preserve the min-heap order on the frequencies, and
`PopHeap` returns a node whose frequency is at most that of every node it leaves in
the heap; the heap filled by `GenerateCodes` satisfies the loop invariant (heap order,
size within capacity, every node's frequency the sum of the counts at its leaves, all
counts adding up to the total); in every iteration of the merge loop started from a
heap with the invariant, the two popped nodes `a` and `b` satisfy
`a.freq ≤ b.freq ≤` the frequency of every node left in the heap, the parent pushed has
`freq = a.freq + b.freq` (no wrap-around) with `a` as left and `b` as right child, it
is really stored, and the invariant holds again; and the final root's frequency is the
sum of all symbol counts. -/
theorem merge_takes_two_minima (freq_table : Nat → Nat) (n : Nat) (hn : n ≤ 2 ^ 16)
    (hsum : ((activeSymbols freq_table n).map freq_table).sum < 2 ^ 64) :
    (∀ heap node, IsMinHeap heap.data → IsMinHeap (PushHeap heap node).data) ∧
    (∀ heap, IsMinHeap heap.data → IsMinHeap (PopHeap heap).2.data ∧
      ∀ m, (PopHeap heap).1 = some m → ∀ x ∈ (PopHeap heap).2.data, m.freq ≤ x.freq) ∧
    MergeInv ((activeSymbols freq_table n).map freq_table).sum (fillHeap freq_table n).1 ∧
    (∀ heap, MergeInv ((activeSymbols freq_table n).map freq_table).sum heap →
      heap.size > 1 →
      ∃ a b heap1 heap2, PopHeap heap = (some a, heap1) ∧ PopHeap heap1 = (some b, heap2) ∧
        a.freq ≤ b.freq ∧ (∀ x ∈ heap2.data, b.freq ≤ x.freq) ∧
        (a.freq + b.freq) % 2 ^ 64 = a.freq + b.freq ∧
        (∀ fuel, mergeLoop (fuel + 1) heap =
          mergeLoop fuel (PushHeap heap2 (.node (a.freq + b.freq) a b))) ∧
        (PushHeap heap2 (.node (a.freq + b.freq) a b)).data.Perm
          (.node (a.freq + b.freq) a b :: heap2.data) ∧
        MergeInv ((activeSymbols freq_table n).map freq_table).sum
          (PushHeap heap2 (.node (a.freq + b.freq) a b))) ∧
    (∀ root, huffmanTree freq_table n = some (some root) →
      root.freq = ((activeSymbols freq_table n).map freq_table).sum) := by
  refine ⟨fun heap node h => PushHeap_heap heap node h, fun heap h => PopHeap_order heap h,
    fillHeap_inv freq_table n, ?_, ?_⟩
  · intro heap hinv hsize
    obtain ⟨a, b, heap1, heap2, h1, h2, h3, h4, h5, h6, h7, _, _, _, _, _, h8⟩ :=
      merge_step _ heap hsum hinv hsize
    exact ⟨a, b, heap1, heap2, h1, h2, h3, h4, h5, h6, h7, h8⟩
  · intro root hroot
    rcases huffmanTree_spec freq_table n hn with ⟨_, h1⟩ | ⟨root', _, h2⟩
    · rw [hroot] at h1; cases h1
    · have hne : activeSymbols freq_table n ≠ [] := by
        intro h
        rw [h] at h2
        have := leaves_length_pos root'
        rw [List.Perm.eq_nil h2] at this
        simp at this
      obtain ⟨root2, hr2, hf, _⟩ := huffmanTree_greedy freq_table n hn hsum hne
      rw [hroot] at hr2
      cases hr2
      exact hf

/-- Witness for C35: with the counts 1 and 2 for the symbols 1 and 2, the tree built
has the leaf of count 1 on the left, the leaf of count 2 on the right and the root
frequency 3. -/
theorem merge_takes_two_minima_witness :
    huffmanTree (fun s => s) 3 = some (some (.node 3 (.leaf 1 1) (.leaf 2 2))) ∧
      (HuffNode.node 3 (.leaf 1 1) (.leaf 2 2)).freq =
        ((activeSymbols (fun s => s) 3).map (fun s => s)).sum :=
  ⟨by decide, (merge_takes_two_minima (fun s => s) 3 (by decide) (by decide)).2.2.2.2
    (.node 3 (.leaf 1 1) (.leaf 2 2)) (by decide)⟩

set_option maxRecDepth 100000 in
/-- C36 (code at the failing input): the archive with symbol width 2 and one entry
"a" of original length 1 whose table is the single record (symbol `0x0041`,
`code_len = 0`) makes the decoder build a root that is a leaf.  When the entry is not
written (the allow-list names another entry, or the output file cannot be opened) no
round of the payload loop reads a bit or raises the byte counter (the `else` of line
374 binds to the inner `if`): the loop returns for no number of rounds, so
`DecodeArchive` does not return.  When the entry is written, the call returns 0 with
the one byte 0x00. -/
theorem payload_loop_never_ends :
    (readTable 2 1 1 CreateDecodingNode (BitReaderOpen [0x00, 0x41, 0x00])).1 =
        some (.node .null .null true 0x41) ∧
      (∀ fuel : Nat, payloadLoop 2 false (.node .null .null true 0x41) 1 fuel 0
        (BitReaderOpen []) = none) ∧
      (DecodeArchive FsEnv.allOk
        [0x48, 0x55, 0x46, 0x46, 0x01, 0x02, 0x00, 0x00, 0x00, 0x01, 0x00, 0x01, 0x61,
          0x00, 0x00, 0x00, 0x00, 0x00, 0x00, 0x00, 0x01, 0x00, 0x01, 0x00, 0x41, 0x00]
        [[0x62]] false).status = .noReturn ∧
      (DecodeArchive ⟨true, fun _ => false⟩
        [0x48, 0x55, 0x46, 0x46, 0x01, 0x02, 0x00, 0x00, 0x00, 0x01, 0x00, 0x01, 0x61,
          0x00, 0x00, 0x00, 0x00, 0x00, 0x00, 0x00, 0x01, 0x00, 0x01, 0x00, 0x41, 0x00]
        [] true).status = .noReturn ∧
      DecodeArchive FsEnv.allOk
        [0x48, 0x55, 0x46, 0x46, 0x01, 0x02, 0x00, 0x00, 0x00, 0x01, 0x00, 0x01, 0x61,
          0x00, 0x00, 0x00, 0x00, 0x00, 0x00, 0x00, 0x01, 0x00, 0x01, 0x00, 0x41, 0x00]
        [] true = ⟨.returned 0, true, [([0x61], [0x00])], ⟨[], 0, 8⟩⟩ :=
  ⟨by decide, fun fuel => payloadLoop_stuck 2 .null .null 0x41 1 (by decide) fuel 0 _ (by decide),
    by decide, by decide, by decide⟩

/-- C37 (amended): truncated headers.  For every archive shorter than the 10-byte
header, `DecodeArchive` writes no file and returns 1, except when the archive is
"HUFF", 0x01, a valid symbol-width byte and up to three 0x00 bytes and the output
directory can be created: then the count field is read as 0 and the call returns 0,
a successful decode of zero entries. -/
theorem truncated_header (fs : FsEnv) (archive : List Nat) (wantedFiles : List (List Nat))
    (extractAll : Bool) (hbytes : ∀ b ∈ archive, b < 256) (hlen : archive.length < 10) :
    ((DecodeArchive fs archive wantedFiles extractAll).status = .returned 1 ∨
        (DecodeArchive fs archive wantedFiles extractAll).status = .returned 0) ∧
      (DecodeArchive fs archive wantedFiles extractAll).files = [] ∧
      ((DecodeArchive fs archive wantedFiles extractAll).status = .returned 0 ↔
        fs.mkdirOk = true ∧ ∃ W tail, (W = 1 ∨ W = 2) ∧
          archive = [0x48, 0x55, 0x46, 0x46, 0x01, W] ++ tail ∧ ∀ b ∈ tail, b = 0) := by
  rcases header_valid_or_rejected fs archive wantedFiles extractAll hbytes with
    ⟨h1, h2, h3⟩ | ⟨W, tail, r, hW, harch, hr, hD⟩
  · refine ⟨Or.inl h1, h2, ?_⟩
    rw [h1]
    constructor
    · intro h; cases h
    · rintro ⟨_, W, tail, hW, ha, _⟩
      exact absurd ⟨W, tail, hW, ha⟩ h3
  · have htl : tail.length ≤ 3 := by
      rw [harch] at hlen
      simp only [List.length_append, List.length_cons, List.length_nil] at hlen
      omega
    have hbl : (bytesToBits tail).length ≤ 32 := by rw [bytesToBits_length]; omega
    have hN := readBits_fst r 32 _ hr
    have hR := readBits_snd r 32 _ hr
    rw [List.take_of_length_le hbl] at hN
    rw [List.drop_of_length_le hbl] at hR
    have hz : (BitReaderReadBits r 32).1 = 0 ↔ ∀ b ∈ tail, b = 0 := by
      rw [hN, accBits_eq_zero _ 0 (by positivity) hbl]
      simp only [true_and]
      exact bytesToBits_all_false tail (fun x hx => hbytes x (by rw [harch]; simp [hx]))
    have huniq : (∃ W' tail', (W' = 1 ∨ W' = 2) ∧
          archive = [0x48, 0x55, 0x46, 0x46, 0x01, W'] ++ tail' ∧ ∀ b ∈ tail', b = 0) ↔
        ∀ b ∈ tail, b = 0 := by
      constructor
      · rintro ⟨W', tail', _, ha, hb⟩
        rw [harch] at ha
        simp only [List.cons_append, List.nil_append, List.cons.injEq, true_and] at ha
        rw [ha.2]
        exact hb
      · intro h
        exact ⟨W, tail, hW, harch, h⟩
    rw [hD, huniq, ← hz]
    by_cases hmk : fs.mkdirOk = true
    · rw [if_neg (by simp [hmk])]
      obtain ⟨hf, hs⟩ := decodeEntries_at_end fs W wantedFiles extractAll
        (BitReaderReadBits r 32).1 _ hR
      rw [hs, hf]
      by_cases hn : (BitReaderReadBits r 32).1 = 0
      · rw [if_pos hn]
        exact ⟨Or.inr rfl, rfl, by simp [hmk, hn]⟩
      · rw [if_neg hn]
        exact ⟨Or.inl rfl, rfl, by simp [hn]⟩
    · rw [if_pos (by simp [hmk])]
      exact ⟨Or.inl rfl, rfl, by simp [hmk]⟩

/-- Witness for C37 (amended): the 9-byte archive "HUFF" 01 02 00 00 00 and the
8-byte archive "HUFF" 01 01 00 05. -/
theorem truncated_header_witness :
    (DecodeArchive FsEnv.allOk [0x48, 0x55, 0x46, 0x46, 0x01, 0x02, 0x00, 0x00, 0x00] [] true).status
        = .returned 0 ∧
      (DecodeArchive FsEnv.allOk [0x48, 0x55, 0x46, 0x46, 0x01, 0x01, 0x00, 0x05] [] true).status
        = .returned 1 ∧
      (DecodeArchive FsEnv.allOk [0x48, 0x55, 0x46, 0x46, 0x01, 0x01, 0x00, 0x05] [] true).files
        = [] :=
  ⟨by decide, by decide,
    (truncated_header FsEnv.allOk [0x48, 0x55, 0x46, 0x46, 0x01, 0x01, 0x00, 0x05] [] true
      (by decide) (by decide)).2.1⟩

/-- C37 (counterexample): the 6-byte archive "HUFF", 0x01, 0x01 is shorter than the
header, yet `DecodeArchive` creates the output directory and returns 0 with no file
written. -/
theorem truncated_header_counterexample :
    [0x48, 0x55, 0x46, 0x46, 0x01, 0x01].length < 10 ∧
      (DecodeArchive FsEnv.allOk [0x48, 0x55, 0x46, 0x46, 0x01, 0x01] [] true).status
        = .returned 0 ∧
      (DecodeArchive FsEnv.allOk [0x48, 0x55, 0x46, 0x46, 0x01, 0x01] [] true).dirCreated
        = true ∧
      (DecodeArchive FsEnv.allOk [0x48, 0x55, 0x46, 0x46, 0x01, 0x01] [] true).files = [] := by
  decide

/-- C38 (code at the failing input): on the file of 14930351 bytes with Fibonacci byte counts the tree built by
`GenerateCodes` has depth 33 (at most 64) and the code lengths of its table satisfy
the Kraft equality (the sum of `2^(64 - code_len)` over the coded symbols is `2^64`),
but the decoding tree cannot be rebuilt from the table as the encoder writes it: the
insertion of the records fails, and `DecodeArchive` returns 1 on the archive
`EncodeFiles` wrote, extracting nothing.  The 33-bit codes pass through the
`unsigned int` parameter of `BitWriterWriteBits` and lose their leading bit. -/
theorem complete_code_long_codes :
    ∃ T archive, GenerateCodes skewedFile skewedFile.length 1 = some T ∧
      huffmanTree (frequencies skewedFile skewedFile.length 1) 256 =
        some (some (skewTree 32)) ∧
      (skewTree 32).height = 33 ∧
      ((codedSymbols T 256).map (fun s => 2 ^ (64 - (T s).code_len))).sum = 2 ^ 64 ∧
      insertAll T (codedSymbols T 256) CreateDecodingNode = none ∧
      EncodeFiles [([0x61], skewedFile)] 1 = some archive ∧
      (DecodeArchive FsEnv.allOk archive [] true).status = .returned 1 ∧
      (DecodeArchive FsEnv.allOk archive [] true).files = [] := by
  have hlen := skewedFile_length
  obtain ⟨archive, henc⟩ := EncodeFiles_some [([0x61], skewedFile)] 1 (Or.inl rfl)
    (by simp) (by
      intro input h
      rw [List.mem_singleton.1 h]
      dsimp only
      omega)
  obtain ⟨h1, h2, h3⟩ := skewedFile_table
  refine ⟨_, archive, skewedFile_codes, ?_, skewedFile_kraft.1, skewedFile_kraft.2, h3, henc, ?_⟩
  · rw [huffmanTree_congr _ skewFreq 256 (fun s _ => skewedFile_frequencies s)]
    exact skewTree_built
  obtain ⟨pad, _, _, hbits⟩ := EncodeFiles_bits _ _ archive henc
  rw [List.append_assoc] at hbits
  obtain ⟨r, hr, hd⟩ := header_read FsEnv.allOk archive [] true
    [([0x61], skewedFile)].length 1 _ (Or.inl rfl) (by simp) rfl hbits
  rw [List.flatMap_singleton] at hr
  obtain ⟨r', he⟩ := decodeEntry_table_rejected FsEnv.allOk 1 [] true [0x61]
    skewedFile r _ _ (Or.inl rfl) (by unfold ValidName PATH_MAX; decide) (by omega) (by omega)
    skewedFile_codes h1 h2 h3 hr
  rw [hd]
  show (decodeEntries FsEnv.allOk 1 [] true 1 r).status = _ ∧
    (decodeEntries FsEnv.allOk 1 [] true 1 r).files = _
  unfold decodeEntries
  rw [he]
  exact ⟨rfl, rfl⟩

/-- C39: optimality of the generated code.  For every frequency table over at most
`2^16` symbols with at least two symbols of non-zero count, counts adding up to less
than `2^64`, and a tree of depth at most 64, the table returned by the code generation
of `GenerateCodes` has a weighted length sum (count times `code_len`, summed over the
symbols of non-zero count) not larger than that of any prefix-free binary code over
the same symbols. -/
theorem generated_code_optimal (freq_table : Nat → Nat) (file_size n : Nat) (root : HuffNode)
    (code : Nat → List Bool) (hn : n ≤ 2 ^ 16)
    (hsum : ((activeSymbols freq_table n).map freq_table).sum < 2 ^ 64)
    (h2 : 2 ≤ (activeSymbols freq_table n).length)
    (hroot : huffmanTree freq_table n = some (some root)) (hdepth : root.height ≤ 64)
    (hpf : ∀ s ∈ activeSymbols freq_table n, ∀ s' ∈ activeSymbols freq_table n,
      s ≠ s' → ¬ code s <+: code s') :
    ∃ T, codesFromFrequencies freq_table file_size n = some T ∧
      ((activeSymbols freq_table n).map (fun s => freq_table s * (T s).code_len)).sum ≤
        ((activeSymbols freq_table n).map (fun s => freq_table s * (code s).length)).sum := by
  have hne : activeSymbols freq_table n ≠ [] := by
    intro h
    rw [h] at h2
    simp at h2
  obtain ⟨root', hr', _, _, hleaf, hg⟩ := huffmanTree_greedy freq_table n hn hsum hne
  rw [hroot] at hr'
  cases hr'
  have hnd := huffmanTree_nodup freq_table n hn root hroot
  rcases huffmanTree_cases freq_table file_size n hn with
    ⟨h0, _, _⟩ | ⟨f, s, _, h1, _⟩ | ⟨f, l, r, h1, hperm, hT⟩
  · exact absurd h0 hne
  · rw [h1] at h2
    simp at h2
  · rw [hroot] at h1
    cases h1
    refine ⟨_, hT, ?_⟩
    rw [table_cost freq_table f l r hnd hleaf hdepth _ hperm]
    have hk := prefix_free_kraft (activeSymbols freq_table n) code (activeSymbols_nodup _ _) hpf
      (((activeSymbols freq_table n).map (fun s => (code s).length)).sum)
      (fun s hs => List.le_sum_of_mem (List.mem_map_of_mem _ hs))
    have := greedy_le_kraft _ _ hg
      (((activeSymbols freq_table n).map (fun s => (code s).length)).sum)
      (↑((activeSymbols freq_table n).map (fun s => (freq_table s, (code s).length))))
      (by simp only [Multiset.map_coe, List.map_map]; rfl)
      (by
        intro x hx
        rw [Multiset.mem_coe, List.mem_map] at hx
        obtain ⟨s, hs, rfl⟩ := hx
        exact List.le_sum_of_mem (List.mem_map_of_mem (fun s => (code s).length) hs))
      (by
        simp only [ksum, Multiset.map_coe, List.map_map, Multiset.sum_coe]
        exact hk)
    simp only [mcost, Multiset.map_coe, List.map_map, Multiset.sum_coe] at this
    exact this

/-- Witness for C39: with the counts 1 and 2 for the symbols 1 and 2 the generated
table costs no more than the code `0`, `1`. -/
theorem generated_code_optimal_witness :
    ∃ T, codesFromFrequencies (fun s => s) 3 3 = some T ∧
      ((activeSymbols (fun s => s) 3).map (fun s => s * (T s).code_len)).sum ≤
        ((activeSymbols (fun s => s) 3).map
          (fun s => s * (if s = 1 then [false] else [true]).length)).sum :=
  generated_code_optimal (fun s => s) 3 3 (.node 3 (.leaf 1 1) (.leaf 2 2))
    (fun s => if s = 1 then [false] else [true]) (by decide) (by decide) (by decide)
    (by decide) (by decide) (by decide)

end Huff
